import Mathlib

/-!
Shallow embedding and verification of lua-pcg (`src/lua-pcg.c`).

The C unsigned types are modelled by `Nat`, every C operation being followed by the reduction
modulo `2^w` that the C type performs (`lua_pcg_u32` is taken to be exactly 32 bits wide, a native
`lua_pcg_u64` exactly 64 bits and a native `lua_pcg_u128` exactly 128 bits).

The source selects its integer types by preprocessor conditionals.  The namespaces are:

* `Native64`  : the code compiled when `lua_pcg_u64` is a native integer type;
* `Native128` : the code compiled when `lua_pcg_u128` is a native integer type as well;
* `Emu64`     : the code compiled under `LUA_PCG_U64_EMULATED`, where `lua_pcg_u64` is a
  struct of two 32-bit words;
* `Emu128`    : the code compiled under `LUA_PCG_U128_EMULATED`, where `lua_pcg_u128` is a
  struct of two `lua_pcg_u64`, over either kind of `lua_pcg_u64`.

Loops whose number of passes is not bounded by the size of an argument take a budget `fuel`
and report `Fault.out_of_fuel` when it is exhausted.
-/

namespace LuaPcg

/-! ## Casting macros -/

/-- The macro `lua_pcg_u32_cast(x)`, that is `(x) & 0xFFFFFFFF`. -/
def lua_pcg_u32_cast (x : Nat) : Nat := x &&& 0xFFFFFFFF

/-- The macro `lua_pcg_u64_cast(x)`, that is `(x) & 0xFFFFFFFFFFFFFFFF`. -/
def lua_pcg_u64_cast (x : Nat) : Nat := x &&& 0xFFFFFFFFFFFFFFFF

/-- The macro `lua_pcg_u16_cast(x)`, that is `(x) & 0xFFFF`. -/
def lua_pcg_u16_cast (x : Nat) : Nat := x &&& 0xFFFF

/-- The macro `lua_pcg_u8_cast(x)`, that is `(x) & 0xFF`. -/
def lua_pcg_u8_cast (x : Nat) : Nat := x &&& 0xFF

/-- Wrap-around of a native 32-bit unsigned operation. -/
def wrap32 (x : Nat) : Nat := x % 4294967296

/-- Wrap-around of a native 64-bit unsigned operation. -/
def wrap64 (x : Nat) : Nat := x % 18446744073709551616

/-- Wrap-around of a native 128-bit unsigned operation. -/
def wrap128 (x : Nat) : Nat := x % 340282366920938463463374607431768211456

/-- The macro `lua_pcg_u32_lh(l,h)`: a 32-bit word from two 16-bit halves. -/
def lua_pcg_u32_lh (l h : Nat) : Nat :=
  wrap32 (l &&& 0xFFFF) ||| wrap32 ((wrap32 h &&& 0xFFFF) <<< 16)

/-- The C operator `~` on a `lua_pcg_u32`: the maximum value of the type minus the operand. -/
def bnot32 (x : Nat) : Nat := 4294967295 - x

/-- The C operator `~` on a native `lua_pcg_u64`. -/
def bnot64 (x : Nat) : Nat := 18446744073709551615 - x

/-- Unsigned negation `-x` on a `lua_pcg_u32` (an `unsigned int`). -/
def neg32 (x : Nat) : Nat := wrap32 (4294967296 - wrap32 x)

/-- Unsigned negation `-x` on a native `lua_pcg_u64`. -/
def neg64 (x : Nat) : Nat := wrap64 (18446744073709551616 - wrap64 x)

/-- Unsigned subtraction `x - y` on a native `lua_pcg_u64`. -/
def sub64 (x y : Nat) : Nat := wrap64 (x + neg64 y)

/-- Unsigned subtraction `x - y` on a `lua_pcg_u32`. -/
def sub32 (x y : Nat) : Nat := wrap32 (x + neg32 y)

/-- Ways in which a modelled call can fail to return a value. -/
inductive Fault where
  | division_by_zero
  | out_of_fuel
  | arg_error (arg : Nat) (msg : String)
deriving DecidableEq, Repr

/-- The function `lua_pcg_rotr_32`: `rot` is an `unsigned int`, so `-rot` is taken modulo `2^32`. -/
def lua_pcg_rotr_32 (value rot : Nat) : Nat :=
  (lua_pcg_u32_cast value >>> rot) ||| lua_pcg_u32_cast (wrap32 (value <<< (neg32 rot &&& 31)))

/-! ## The record of 64-bit operations

The source text of the 128-bit emulation (`LUA_PCG_U128_EMULATED`) is compiled against
the 64-bit operations of the configuration: the functions of the 64-bit emulation, or the
macros over a native `lua_pcg_u64`.  The embedding takes these operations as a record. -/

/-- The struct `lua_pcg_u128` of the 128-bit emulation: two 64-bit limbs. -/
structure lua_pcg_u128 (α : Type) where
  low : α
  high : α
deriving DecidableEq, Repr

/-- The 64-bit operations, and the conversions between the two widths, that the text of
the 128-bit emulation refers to; `α` is the type `lua_pcg_u64` of the configuration. -/
structure U64Ops (α : Type) where
  lua_pcg_u64_lh : Nat → Nat → α
  lua_pcg_u64_clone : α → α
  lua_pcg_u64_sum : α → α → α
  lua_pcg_u64_lt : α → α → Bool
  lua_pcg_u64_gt : α → α → Bool
  lua_pcg_u64_eq : α → α → Bool
  lua_pcg_u64_xor : α → α → α
  lua_pcg_u64_band : α → α → α
  lua_pcg_u64_bor : α → α → α
  lua_pcg_u64_bnot : α → α
  lua_pcg_u64_additive_inverse : α → α
  lua_pcg_u64_lsh : α → Nat → α
  lua_pcg_u64_rsh : α → Nat → α
  lua_pcg_u64_mul_ex : α → α → lua_pcg_u128 α
  lua_pcg_u128_lh : α → α → lua_pcg_u128 α
  lua_pcg_u128_cast_to_u64 : lua_pcg_u128 α → α
  lua_pcg_u128_cast_to_u32 : lua_pcg_u128 α → Nat

/-! ## Native 64-bit integers -/

namespace Native64

/-- The macro `lua_pcg_u64_lh(l,h)` of the native 64-bit configuration. -/
def lua_pcg_u64_lh (l h : Nat) : Nat :=
  wrap64 (l &&& 0xFFFFFFFF) ||| wrap64 ((wrap64 h &&& 0xFFFFFFFF) <<< 32)

/-- The macro `lua_pcg_u64_clone`, which is `lua_pcg_u64_cast` when 64-bit is native. -/
def lua_pcg_u64_clone (v : Nat) : Nat := lua_pcg_u64_cast v

/-- The macro `lua_pcg_u64_sum(a,b)` over a native `lua_pcg_u64`. -/
def lua_pcg_u64_sum (a b : Nat) : Nat := lua_pcg_u64_cast (wrap64 (a + b))

/-- The macro `lua_pcg_u64_lt(a,b)` over a native `lua_pcg_u64`. -/
def lua_pcg_u64_lt (a b : Nat) : Bool := decide (a < b)

/-- The macro `lua_pcg_u64_gt(a,b)` over a native `lua_pcg_u64`. -/
def lua_pcg_u64_gt (a b : Nat) : Bool := decide (a > b)

/-- The macro `lua_pcg_u64_eq(a,b)` over a native `lua_pcg_u64`. -/
def lua_pcg_u64_eq (a b : Nat) : Bool := decide (a = b)

/-- The macro `lua_pcg_u64_neq(a,b)` over a native `lua_pcg_u64`. -/
def lua_pcg_u64_neq (a b : Nat) : Bool := decide (a ≠ b)

/-- The macro `lua_pcg_u64_le(a,b)` over a native `lua_pcg_u64`. -/
def lua_pcg_u64_le (a b : Nat) : Bool := decide (a ≤ b)

/-- The macro `lua_pcg_u64_ge(a,b)` over a native `lua_pcg_u64`. -/
def lua_pcg_u64_ge (a b : Nat) : Bool := decide (a ≥ b)

/-- The macro `lua_pcg_u64_xor(a,b)` over a native `lua_pcg_u64`. -/
def lua_pcg_u64_xor (a b : Nat) : Nat := lua_pcg_u64_cast (a ^^^ b)

/-- The macro `lua_pcg_u64_band(a,b)` over a native `lua_pcg_u64`. -/
def lua_pcg_u64_band (a b : Nat) : Nat := lua_pcg_u64_cast (a &&& b)

/-- The macro `lua_pcg_u64_bor(a,b)` over a native `lua_pcg_u64`. -/
def lua_pcg_u64_bor (a b : Nat) : Nat := lua_pcg_u64_cast (a ||| b)

/-- The macro `lua_pcg_u64_bnot(v)` over a native `lua_pcg_u64`. -/
def lua_pcg_u64_bnot (v : Nat) : Nat := lua_pcg_u64_cast (bnot64 v)

/-- The macro `lua_pcg_u64_additive_inverse(v)` over a native `lua_pcg_u64`. -/
def lua_pcg_u64_additive_inverse (v : Nat) : Nat := lua_pcg_u64_cast (neg64 v)

/-- The macro `lua_pcg_u64_lsh(v,n)` over a native `lua_pcg_u64` (C leaves `n ≥ 64` undefined). -/
def lua_pcg_u64_lsh (v n : Nat) : Nat := lua_pcg_u64_cast (wrap64 (v <<< n))

/-- The macro `lua_pcg_u64_rsh(v,n)` over a native `lua_pcg_u64` (C leaves `n ≥ 64` undefined). -/
def lua_pcg_u64_rsh (v n : Nat) : Nat := lua_pcg_u64_cast (v >>> n)

/-- The macro `lua_pcg_u64_subtraction(a,b)` over a native `lua_pcg_u64`. -/
def lua_pcg_u64_subtraction (a b : Nat) : Nat := lua_pcg_u64_cast (sub64 a b)

/-- The macro `lua_pcg_u32_mul_ex(a,b)` over a native `lua_pcg_u64`. -/
def lua_pcg_u32_mul_ex (a b : Nat) : Nat := lua_pcg_u64_cast (wrap64 (a * b))

/-- The macro `lua_pcg_u64_mul(a,b)` over a native `lua_pcg_u64`. -/
def lua_pcg_u64_mul (a b : Nat) : Nat := lua_pcg_u64_cast (wrap64 (a * b))

/-- The macro `lua_pcg_u64_high(v)`. -/
def lua_pcg_u64_high (v : Nat) : Nat := lua_pcg_u32_cast (v >>> 32)

/-- The macro `lua_pcg_u64_low(v)`. -/
def lua_pcg_u64_low (v : Nat) : Nat := lua_pcg_u32_cast v

/-- The function `lua_pcg_u128_lh` of the configuration with native 64-bit limbs. -/
def lua_pcg_u128_lh (l h : Nat) : lua_pcg_u128 Nat :=
  { low := lua_pcg_u64_cast l, high := lua_pcg_u64_cast h }

/-- The function `lua_pcg_u64_mul_ex` of the configuration with native 64-bit limbs. -/
def lua_pcg_u64_mul_ex (a b : Nat) : lua_pcg_u128 Nat :=
  -- compute: a low, a high, b low, b high
  let a_low := lua_pcg_u64_low a
  let a_high := lua_pcg_u64_high a
  let b_low := lua_pcg_u64_low b
  let b_high := lua_pcg_u64_high b
  -- compute: a * (b low)
  let aux := lua_pcg_u32_mul_ex a_low b_low
  let a_mul_b_low_words_0 := lua_pcg_u64_low aux
  let aux := lua_pcg_u64_sum (lua_pcg_u32_mul_ex a_high b_low) (lua_pcg_u64_lh (lua_pcg_u64_high aux) 0)
  let a_mul_b_low_words_1 := lua_pcg_u64_low aux
  let a_mul_b_low_words_2 := lua_pcg_u64_high aux
  let a_mul_b_low_words_3 := 0
  -- compute: a * (b high)
  let aux := lua_pcg_u32_mul_ex a_low b_high
  let a_mul_b_high_words_1 := lua_pcg_u64_low aux
  let aux := lua_pcg_u64_sum (lua_pcg_u32_mul_ex a_high b_high) (lua_pcg_u64_lh (lua_pcg_u64_high aux) 0)
  let a_mul_b_high_words_2 := lua_pcg_u64_low aux
  let a_mul_b_high_words_3 := lua_pcg_u64_high aux
  let a_mul_b_high_words_0 := 0
  -- sum: a * (b low) and a * (b high)
  let aux := lua_pcg_u64_sum (lua_pcg_u64_lh a_mul_b_low_words_0 0) (lua_pcg_u64_lh a_mul_b_high_words_0 0)
  let res_words_0 := lua_pcg_u64_low aux
  let carry := lua_pcg_u64_lh (lua_pcg_u64_high aux) 0
  let aux := lua_pcg_u64_sum
    (lua_pcg_u64_sum (lua_pcg_u64_lh a_mul_b_low_words_1 0) (lua_pcg_u64_lh a_mul_b_high_words_1 0))
    carry
  let res_words_1 := lua_pcg_u64_low aux
  let carry := lua_pcg_u64_lh (lua_pcg_u64_high aux) 0
  let aux := lua_pcg_u64_sum
    (lua_pcg_u64_sum (lua_pcg_u64_lh a_mul_b_low_words_2 0) (lua_pcg_u64_lh a_mul_b_high_words_2 0))
    carry
  let res_words_2 := lua_pcg_u64_low aux
  let carry := lua_pcg_u64_lh (lua_pcg_u64_high aux) 0
  let aux := lua_pcg_u64_sum
    (lua_pcg_u64_sum (lua_pcg_u64_lh a_mul_b_low_words_3 0) (lua_pcg_u64_lh a_mul_b_high_words_3 0))
    carry
  let res_words_3 := lua_pcg_u64_low aux
  -- construct the result
  { low := lua_pcg_u64_lh res_words_0 res_words_1, high := lua_pcg_u64_lh res_words_2 res_words_3 }

/-- The function `lua_pcg_u128_cast_to_u64` of the configuration with native 64-bit limbs. -/
def lua_pcg_u128_cast_to_u64 (value : lua_pcg_u128 Nat) : Nat := lua_pcg_u64_cast value.low

/-- The function `lua_pcg_u128_cast_to_u32` of the configuration with native 64-bit limbs. -/
def lua_pcg_u128_cast_to_u32 (value : lua_pcg_u128 Nat) : Nat := lua_pcg_u32_cast value.low

/-- The native 64-bit operations, as the 128-bit emulation sees them. -/
def ops : U64Ops Nat where
  lua_pcg_u64_lh := lua_pcg_u64_lh
  lua_pcg_u64_clone := lua_pcg_u64_clone
  lua_pcg_u64_sum := lua_pcg_u64_sum
  lua_pcg_u64_lt := lua_pcg_u64_lt
  lua_pcg_u64_gt := lua_pcg_u64_gt
  lua_pcg_u64_eq := lua_pcg_u64_eq
  lua_pcg_u64_xor := lua_pcg_u64_xor
  lua_pcg_u64_band := lua_pcg_u64_band
  lua_pcg_u64_bor := lua_pcg_u64_bor
  lua_pcg_u64_bnot := lua_pcg_u64_bnot
  lua_pcg_u64_additive_inverse := lua_pcg_u64_additive_inverse
  lua_pcg_u64_lsh := lua_pcg_u64_lsh
  lua_pcg_u64_rsh := lua_pcg_u64_rsh
  lua_pcg_u64_mul_ex := lua_pcg_u64_mul_ex
  lua_pcg_u128_lh := lua_pcg_u128_lh
  lua_pcg_u128_cast_to_u64 := lua_pcg_u128_cast_to_u64
  lua_pcg_u128_cast_to_u32 := lua_pcg_u128_cast_to_u32

/-- The struct `lua_pcg_state_setseq_64`. -/
structure lua_pcg_state_setseq_64 where
  state : Nat
  inc : Nat
deriving DecidableEq, Repr

/-- The constant `LUA_PCG_DEFAULT_MULTIPLIER_64`. -/
def LUA_PCG_DEFAULT_MULTIPLIER_64 : Nat := lua_pcg_u64_lh 0x4C957F2D 0x5851F42D

/-- The function `lua_pcg_output_xsh_rr_64_32` (native 64-bit). -/
def lua_pcg_output_xsh_rr_64_32 (state : Nat) : Nat :=
  lua_pcg_rotr_32 (lua_pcg_u32_cast (((state >>> 18) ^^^ state) >>> 27)) (wrap32 (state >>> 59))

/-- The function `lua_pcg_setseq_64_step_r` (native 64-bit). -/
def lua_pcg_setseq_64_step_r (rng : lua_pcg_state_setseq_64) : lua_pcg_state_setseq_64 :=
  { rng with state := lua_pcg_u64_cast (wrap64 (wrap64 (rng.state * LUA_PCG_DEFAULT_MULTIPLIER_64) + rng.inc)) }

/-- The function `lua_pcg_setseq_64_xsh_rr_32_random_r`: the output and the engine afterwards. -/
def lua_pcg_setseq_64_xsh_rr_32_random_r (rng : lua_pcg_state_setseq_64) : Nat × lua_pcg_state_setseq_64 :=
  let oldstate := rng.state
  let rng1 := lua_pcg_setseq_64_step_r rng
  (lua_pcg_output_xsh_rr_64_32 oldstate, rng1)

/-- The function `lua_pcg_setseq_64_srandom_r` (native 64-bit); `rng` holds the prior contents. -/
def lua_pcg_setseq_64_srandom_r (rng : lua_pcg_state_setseq_64) (initstate initseq : Nat) :
    lua_pcg_state_setseq_64 :=
  let rng1 := { rng with state := 0 }
  let rng2 := { rng1 with inc := lua_pcg_u64_cast (wrap64 (initseq <<< 1)) ||| 1 }
  let rng3 := lua_pcg_setseq_64_step_r rng2
  let rng4 := { rng3 with state := lua_pcg_u64_cast (wrap64 (rng3.state + initstate)) }
  lua_pcg_setseq_64_step_r rng4

/-- The `while (_delta > 0U)` loop of `lua_pcg_advance_lcg_64` (native 64-bit),
returning the final `(acc_mult, acc_plus)`. -/
def lua_pcg_advance_lcg_64_loop (delta cur_mult cur_plus acc_mult acc_plus : Nat) : Nat × Nat :=
  if _h : delta > 0 then
    let acc_mult1 := if delta &&& 1 ≠ 0 then lua_pcg_u64_cast (wrap64 (acc_mult * cur_mult)) else acc_mult
    let acc_plus1 :=
      if delta &&& 1 ≠ 0 then lua_pcg_u64_cast (wrap64 (wrap64 (acc_plus * cur_mult) + cur_plus)) else acc_plus
    let cur_plus1 := lua_pcg_u64_cast (wrap64 (wrap64 (cur_mult + 1) * cur_plus))
    let cur_mult1 := lua_pcg_u64_cast (wrap64 (cur_mult * cur_mult))
    lua_pcg_advance_lcg_64_loop (delta >>> 1) cur_mult1 cur_plus1 acc_mult1 acc_plus1
  else (acc_mult, acc_plus)
termination_by delta
decreasing_by
  simp only [Nat.shiftRight_eq_div_pow]
  omega

/-- The function `lua_pcg_advance_lcg_64` (native 64-bit). -/
def lua_pcg_advance_lcg_64 (state delta cur_mult cur_plus : Nat) : Nat :=
  let acc := lua_pcg_advance_lcg_64_loop delta cur_mult cur_plus 1 0
  lua_pcg_u64_cast (wrap64 (wrap64 (acc.1 * state) + acc.2))

/-- The function `lua_pcg_setseq_64_advance_r`. -/
def lua_pcg_setseq_64_advance_r (rng : lua_pcg_state_setseq_64) (delta : Nat) : lua_pcg_state_setseq_64 :=
  { rng with state := lua_pcg_advance_lcg_64 rng.state delta LUA_PCG_DEFAULT_MULTIPLIER_64 rng.inc }

/-- The engine after `n` successive calls of `lua_pcg_setseq_64_xsh_rr_32_random_r` (a
specification device, not a function of the source). -/
def after_draws (n : Nat) (rng : lua_pcg_state_setseq_64) : lua_pcg_state_setseq_64 :=
  (fun g => (lua_pcg_setseq_64_xsh_rr_32_random_r g).2)^[n] rng

/-- The output of the call number `n + 1` among successive calls of
`lua_pcg_setseq_64_xsh_rr_32_random_r` (a specification device, not a function of the source). -/
def nth_draw (rng : lua_pcg_state_setseq_64) (n : Nat) : Nat :=
  (lua_pcg_setseq_64_xsh_rr_32_random_r (after_draws n rng)).1

/-- The `do ... while (r < threshold)` loop of `lua_pcg_setseq_64_xsh_rr_32_boundedrand_r`, with
`fuel` bounding the number of draws; it returns the accepted `r` and the engine afterwards. -/
def lua_pcg_setseq_64_xsh_rr_32_boundedrand_r_loop :
    Nat → lua_pcg_state_setseq_64 → Nat → Except Fault (Nat × lua_pcg_state_setseq_64)
  | 0, _, _ => .error .out_of_fuel
  | fuel + 1, rng, threshold =>
    let (r, rng1) := lua_pcg_setseq_64_xsh_rr_32_random_r rng
    if r < threshold then lua_pcg_setseq_64_xsh_rr_32_boundedrand_r_loop fuel rng1 threshold
    else .ok (r, rng1)

/-- The function `lua_pcg_setseq_64_xsh_rr_32_boundedrand_r`.  The C operator `%` with a zero
right operand has no defined result: the model reports it as `division_by_zero`. -/
def lua_pcg_setseq_64_xsh_rr_32_boundedrand_r (fuel : Nat) (rng : lua_pcg_state_setseq_64) (bound : Nat) :
    Except Fault (Nat × lua_pcg_state_setseq_64) :=
  let safebound := lua_pcg_u32_cast bound
  if safebound = 0 then .error .division_by_zero
  else
    let threshold := neg32 safebound % safebound
    match lua_pcg_setseq_64_xsh_rr_32_boundedrand_r_loop fuel rng threshold with
    | .ok (r, rng1) => .ok (r % safebound, rng1)
    | .error e => .error e

/-- Wrap-around of a `lua_Integer` operation, a 64-bit two's-complement integer. -/
def wrap_int64 (x : Int) : Int := (x + 9223372036854775808) % 18446744073709551616 - 9223372036854775808

/-- The macro `lua_pcg_u32_cast` applied to a `lua_Integer`. -/
def lua_pcg_u32_cast_int (x : Int) : Nat := (x % 4294967296).toNat

/-- The function `lua_pcg_pcg32_next`, for an engine `rng` found at stack index 1 and the integer
arguments `args` that follow it on the stack.  It returns the integer pushed and the engine, or
the error raised (`luaL_argcheck` and `luaL_error` do not return). -/
def lua_pcg_pcg32_next (fuel : Nat) (rng : lua_pcg_state_setseq_64) (args : List Int) :
    Except Fault (Int × lua_pcg_state_setseq_64) :=
  match args with
  | [] =>
    let (n, rng1) := lua_pcg_setseq_64_xsh_rr_32_random_r rng
    .ok ((n : Int), rng1)
  | [a] =>
    if ¬ (0 < a ∧ a ≤ 0xFFFFFFFF) then .error (.arg_error 2 "bound is out of [1, 4294967295] range")
    else
      let bound := lua_pcg_u32_cast_int a
      match lua_pcg_setseq_64_xsh_rr_32_boundedrand_r fuel rng bound with
      | .ok (n, rng1) => .ok ((n : Int), rng1)
      | .error e => .error e
  | [a, b] =>
    if ¬ (a < b) then .error (.arg_error 2 "a cannot be greater than or equal to b")
    else
      let c := wrap_int64 (b - a)
      if ¬ (c ≤ 0xFFFFFFFF) then
        .error (.arg_error 2 "the integer (b - a) is out of [1, 4294967295] range")
      else
        let bound := lua_pcg_u32_cast_int c
        match lua_pcg_setseq_64_xsh_rr_32_boundedrand_r fuel rng bound with
        | .ok (n, rng1) => .ok (wrap_int64 (a + (n : Int)), rng1)
        | .error e => .error e
  | _ => .error (.arg_error 0 "Unknown number of arguments to generate a next number from pcg32")

end Native64

/-! ## Emulated 64-bit integers (`LUA_PCG_U64_EMULATED`) -/

namespace Emu64

/-- The struct `lua_pcg_u64` of the 64-bit emulation: two 32-bit words. -/
structure lua_pcg_u64 where
  low : Nat
  high : Nat
deriving DecidableEq, Repr

/-- The struct `lua_pcg_u32_aux`: two 16-bit words. -/
structure lua_pcg_u32_aux where
  low : Nat
  high : Nat
deriving DecidableEq, Repr

/-- The function `lua_pcg_u64_lh`. -/
def lua_pcg_u64_lh (low high : Nat) : lua_pcg_u64 :=
  { low := lua_pcg_u32_cast low, high := lua_pcg_u32_cast high }

/-- The macro `lua_pcg_u64_clone(v)` of the emulated configuration. -/
def lua_pcg_u64_clone (v : lua_pcg_u64) : lua_pcg_u64 := lua_pcg_u64_lh v.low v.high

/-- The function `lua_pcg_u64_sum`. -/
def lua_pcg_u64_sum (a b : lua_pcg_u64) : lua_pcg_u64 :=
  let result := lua_pcg_u64_lh (wrap32 (a.low + b.low)) (wrap32 (a.high + b.high))
  if result.low < a.low then { result with high := wrap32 (result.high + 1) } else result

/-- The function `lua_pcg_u64_cast_to_u8`. -/
def lua_pcg_u64_cast_to_u8 (value : lua_pcg_u64) : Nat := lua_pcg_u8_cast value.low

/-- The function `lua_pcg_u64_cast_to_u16`. -/
def lua_pcg_u64_cast_to_u16 (value : lua_pcg_u64) : Nat := lua_pcg_u16_cast value.low

/-- The function `lua_pcg_u64_cast_to_u32`. -/
def lua_pcg_u64_cast_to_u32 (value : lua_pcg_u64) : Nat := lua_pcg_u32_cast value.low

/-- The macro `lua_pcg_u64_lt(a,b)`. -/
def lua_pcg_u64_lt (a b : lua_pcg_u64) : Bool :=
  decide (a.high < b.high) || (decide (a.high = b.high) && decide (a.low < b.low))

/-- The macro `lua_pcg_u64_gt(a,b)`. -/
def lua_pcg_u64_gt (a b : lua_pcg_u64) : Bool :=
  decide (a.high > b.high) || (decide (a.high = b.high) && decide (a.low > b.low))

/-- The macro `lua_pcg_u64_eq(a,b)`. -/
def lua_pcg_u64_eq (a b : lua_pcg_u64) : Bool :=
  decide (a.low = b.low) && decide (a.high = b.high)

/-- The macro `lua_pcg_u64_neq(a,b)`. -/
def lua_pcg_u64_neq (a b : lua_pcg_u64) : Bool := !(lua_pcg_u64_eq a b)

/-- The macro `lua_pcg_u64_le(a,b)`. -/
def lua_pcg_u64_le (a b : lua_pcg_u64) : Bool := !(lua_pcg_u64_gt a b)

/-- The macro `lua_pcg_u64_ge(a,b)`. -/
def lua_pcg_u64_ge (a b : lua_pcg_u64) : Bool := !(lua_pcg_u64_lt a b)

/-- The function `lua_pcg_u64_xor`. -/
def lua_pcg_u64_xor (a b : lua_pcg_u64) : lua_pcg_u64 :=
  lua_pcg_u64_lh (a.low ^^^ b.low) (a.high ^^^ b.high)

/-- The function `lua_pcg_u64_bnot`. -/
def lua_pcg_u64_bnot (value : lua_pcg_u64) : lua_pcg_u64 :=
  lua_pcg_u64_lh (bnot32 value.low) (bnot32 value.high)

/-- The function `lua_pcg_u64_additive_inverse`. -/
def lua_pcg_u64_additive_inverse (value : lua_pcg_u64) : lua_pcg_u64 :=
  lua_pcg_u64_sum (lua_pcg_u64_bnot value) (lua_pcg_u64_lh 1 0)

/-- The function `lua_pcg_u64_subtraction`. -/
def lua_pcg_u64_subtraction (a b : lua_pcg_u64) : lua_pcg_u64 :=
  lua_pcg_u64_sum a (lua_pcg_u64_additive_inverse b)

/-- The function `lua_pcg_u64_band`. -/
def lua_pcg_u64_band (a b : lua_pcg_u64) : lua_pcg_u64 :=
  lua_pcg_u64_lh (a.low &&& b.low) (a.high &&& b.high)

/-- The function `lua_pcg_u64_bor`. -/
def lua_pcg_u64_bor (a b : lua_pcg_u64) : lua_pcg_u64 :=
  lua_pcg_u64_lh (a.low ||| b.low) (a.high ||| b.high)

/-- The function `lua_pcg_u64_rsh`. -/
def lua_pcg_u64_rsh (value : lua_pcg_u64) (n : Nat) : lua_pcg_u64 :=
  if n ≤ 0 then
    { low := lua_pcg_u32_cast value.low, high := lua_pcg_u32_cast value.high }
  else if n ≥ 64 then
    { low := 0, high := 0 }
  else if n = 32 then
    { low := lua_pcg_u32_cast value.high, high := 0 }
  else if n < 32 then
    { low := (lua_pcg_u32_cast value.low >>> n) ||| lua_pcg_u32_cast (wrap32 (value.high <<< (32 - n))),
      high := lua_pcg_u32_cast value.high >>> n }
  else
    { low := lua_pcg_u32_cast value.high >>> (n - 32), high := 0 }

/-- The function `lua_pcg_u64_lsh`. -/
def lua_pcg_u64_lsh (value : lua_pcg_u64) (n : Nat) : lua_pcg_u64 :=
  if n ≤ 0 then
    { low := lua_pcg_u32_cast value.low, high := lua_pcg_u32_cast value.high }
  else if n ≥ 64 then
    { low := 0, high := 0 }
  else if n = 32 then
    { low := 0, high := lua_pcg_u32_cast value.low }
  else if n < 32 then
    { low := lua_pcg_u32_cast (wrap32 (value.low <<< n)),
      high := lua_pcg_u32_cast (wrap32 (value.high <<< n)) ||| (lua_pcg_u32_cast value.low >>> (32 - n)) }
  else
    { low := 0, high := lua_pcg_u32_cast (wrap32 (value.low <<< (n - 32))) }

/-- The function `lua_pcg_u32_aux_set`. -/
def lua_pcg_u32_aux_set (value : Nat) : lua_pcg_u32_aux :=
  { low := lua_pcg_u16_cast value, high := lua_pcg_u16_cast (value >>> 16) }

/-- The function `lua_pcg_u32_mul_ex` (emulated): the product of two 32-bit words, from
16-bit halves.  Every `aux` is a `lua_pcg_u32`, so each expression wraps at `2^32`. -/
def lua_pcg_u32_mul_ex (a b : Nat) : lua_pcg_u64 :=
  let a_aux := lua_pcg_u32_aux_set a
  let b_aux := lua_pcg_u32_aux_set b
  -- compute: a * (b low)
  let aux := wrap32 (a_aux.low * b_aux.low)
  let aux32 := lua_pcg_u32_aux_set aux
  let a_mul_b_low_words_0 := aux32.low
  let aux := wrap32 (wrap32 (a_aux.high * b_aux.low) + aux32.high)
  let aux32 := lua_pcg_u32_aux_set aux
  let a_mul_b_low_words_1 := aux32.low
  let a_mul_b_low_words_2 := aux32.high
  let a_mul_b_low_words_3 := 0
  -- compute: a * (b high)
  let aux := wrap32 (a_aux.low * b_aux.high)
  let aux32 := lua_pcg_u32_aux_set aux
  let a_mul_b_high_words_1 := aux32.low
  let aux := wrap32 (wrap32 (a_aux.high * b_aux.high) + aux32.high)
  let aux32 := lua_pcg_u32_aux_set aux
  let a_mul_b_high_words_2 := aux32.low
  let a_mul_b_high_words_3 := aux32.high
  let a_mul_b_high_words_0 := 0
  -- sum: a * (b low) and a * (b high)
  let aux := wrap32 (a_mul_b_low_words_0 + a_mul_b_high_words_0)
  let aux32 := lua_pcg_u32_aux_set aux
  let res_words_0 := aux32.low
  let carry := aux32.high
  let aux := wrap32 (wrap32 (a_mul_b_low_words_1 + a_mul_b_high_words_1) + carry)
  let aux32 := lua_pcg_u32_aux_set aux
  let res_words_1 := aux32.low
  let carry := aux32.high
  let aux := wrap32 (wrap32 (a_mul_b_low_words_2 + a_mul_b_high_words_2) + carry)
  let aux32 := lua_pcg_u32_aux_set aux
  let res_words_2 := aux32.low
  let carry := aux32.high
  let aux := wrap32 (wrap32 (a_mul_b_low_words_3 + a_mul_b_high_words_3) + carry)
  let aux32 := lua_pcg_u32_aux_set aux
  let res_words_3 := aux32.low
  -- construct the result
  { low := lua_pcg_u32_lh res_words_0 res_words_1, high := lua_pcg_u32_lh res_words_2 res_words_3 }

/-- The function `lua_pcg_u64_mul` (emulated). -/
def lua_pcg_u64_mul (a b : lua_pcg_u64) : lua_pcg_u64 :=
  -- compute: a * (b low)
  let aux := lua_pcg_u32_mul_ex a.low b.low
  let a_mul_b_low_words_0 := aux.low
  let aux := lua_pcg_u64_sum (lua_pcg_u32_mul_ex a.high b.low) (lua_pcg_u64_lh aux.high 0)
  let a_mul_b_low_words_1 := aux.low
  -- compute: a * (b high)
  let aux := lua_pcg_u32_mul_ex a.low b.high
  let a_mul_b_high_words_1 := aux.low
  let a_mul_b_high_words_0 := 0
  -- sum: a * (b low) and a * (b high)
  let aux := lua_pcg_u64_sum (lua_pcg_u64_lh a_mul_b_low_words_0 0) (lua_pcg_u64_lh a_mul_b_high_words_0 0)
  let res_words_0 := aux.low
  let carry := lua_pcg_u64_lh aux.high 0
  let aux := lua_pcg_u64_sum
    (lua_pcg_u64_sum (lua_pcg_u64_lh a_mul_b_low_words_1 0) (lua_pcg_u64_lh a_mul_b_high_words_1 0))
    carry
  let res_words_1 := aux.low
  -- construct the result
  lua_pcg_u64_lh res_words_0 res_words_1

end Emu64

namespace Emu64

/-- The function `lua_pcg_u128_lh` of the emulated 64-bit configuration. -/
def lua_pcg_u128_lh (l h : lua_pcg_u64) : lua_pcg_u128 lua_pcg_u64 :=
  { low := lua_pcg_u64_lh l.low l.high, high := lua_pcg_u64_lh h.low h.high }

/-- The function `lua_pcg_u64_mul_ex` of the emulated 64-bit configuration. -/
def lua_pcg_u64_mul_ex (a b : lua_pcg_u64) : lua_pcg_u128 lua_pcg_u64 :=
  -- compute: a * (b low)
  let aux := lua_pcg_u32_mul_ex a.low b.low
  let a_mul_b_low_words_0 := aux.low
  let aux := lua_pcg_u64_sum (lua_pcg_u32_mul_ex a.high b.low) (lua_pcg_u64_lh aux.high 0)
  let a_mul_b_low_words_1 := aux.low
  let a_mul_b_low_words_2 := aux.high
  let a_mul_b_low_words_3 := 0
  -- compute: a * (b high)
  let aux := lua_pcg_u32_mul_ex a.low b.high
  let a_mul_b_high_words_1 := aux.low
  let aux := lua_pcg_u64_sum (lua_pcg_u32_mul_ex a.high b.high) (lua_pcg_u64_lh aux.high 0)
  let a_mul_b_high_words_2 := aux.low
  let a_mul_b_high_words_3 := aux.high
  let a_mul_b_high_words_0 := 0
  -- sum: a * (b low) and a * (b high)
  let aux := lua_pcg_u64_sum (lua_pcg_u64_lh a_mul_b_low_words_0 0) (lua_pcg_u64_lh a_mul_b_high_words_0 0)
  let res_words_0 := aux.low
  let carry := lua_pcg_u64_lh aux.high 0
  let aux := lua_pcg_u64_sum
    (lua_pcg_u64_sum (lua_pcg_u64_lh a_mul_b_low_words_1 0) (lua_pcg_u64_lh a_mul_b_high_words_1 0))
    carry
  let res_words_1 := aux.low
  let carry := lua_pcg_u64_lh aux.high 0
  let aux := lua_pcg_u64_sum
    (lua_pcg_u64_sum (lua_pcg_u64_lh a_mul_b_low_words_2 0) (lua_pcg_u64_lh a_mul_b_high_words_2 0))
    carry
  let res_words_2 := aux.low
  let carry := lua_pcg_u64_lh aux.high 0
  let aux := lua_pcg_u64_sum
    (lua_pcg_u64_sum (lua_pcg_u64_lh a_mul_b_low_words_3 0) (lua_pcg_u64_lh a_mul_b_high_words_3 0))
    carry
  let res_words_3 := aux.low
  -- construct the result
  { low := lua_pcg_u64_lh res_words_0 res_words_1, high := lua_pcg_u64_lh res_words_2 res_words_3 }

/-- The function `lua_pcg_u128_cast_to_u64` of the emulated 64-bit configuration. -/
def lua_pcg_u128_cast_to_u64 (value : lua_pcg_u128 lua_pcg_u64) : lua_pcg_u64 :=
  lua_pcg_u64_lh value.low.low value.low.high

/-- The function `lua_pcg_u128_cast_to_u32` of the emulated 64-bit configuration. -/
def lua_pcg_u128_cast_to_u32 (value : lua_pcg_u128 lua_pcg_u64) : Nat :=
  lua_pcg_u32_cast value.low.low

/-- The emulated 64-bit operations, as the 128-bit emulation sees them. -/
def ops : U64Ops lua_pcg_u64 where
  lua_pcg_u64_lh := lua_pcg_u64_lh
  lua_pcg_u64_clone := lua_pcg_u64_clone
  lua_pcg_u64_sum := lua_pcg_u64_sum
  lua_pcg_u64_lt := lua_pcg_u64_lt
  lua_pcg_u64_gt := lua_pcg_u64_gt
  lua_pcg_u64_eq := lua_pcg_u64_eq
  lua_pcg_u64_xor := lua_pcg_u64_xor
  lua_pcg_u64_band := lua_pcg_u64_band
  lua_pcg_u64_bor := lua_pcg_u64_bor
  lua_pcg_u64_bnot := lua_pcg_u64_bnot
  lua_pcg_u64_additive_inverse := lua_pcg_u64_additive_inverse
  lua_pcg_u64_lsh := lua_pcg_u64_lsh
  lua_pcg_u64_rsh := lua_pcg_u64_rsh
  lua_pcg_u64_mul_ex := lua_pcg_u64_mul_ex
  lua_pcg_u128_lh := lua_pcg_u128_lh
  lua_pcg_u128_cast_to_u64 := lua_pcg_u128_cast_to_u64
  lua_pcg_u128_cast_to_u32 := lua_pcg_u128_cast_to_u32

end Emu64

/-! ## The 128-bit emulation (`LUA_PCG_U128_EMULATED`) -/

namespace Emu128

variable {α : Type} (O : U64Ops α)

/-- The function `lua_pcg_u128_sum`. -/
def lua_pcg_u128_sum (a b : lua_pcg_u128 α) : lua_pcg_u128 α :=
  let result : lua_pcg_u128 α :=
    { low := O.lua_pcg_u64_sum a.low b.low, high := O.lua_pcg_u64_sum a.high b.high }
  if O.lua_pcg_u64_lt result.low a.low then
    { result with high := O.lua_pcg_u64_sum result.high (O.lua_pcg_u64_lh 1 0) }
  else result

/-- The macro `lua_pcg_u128_lt(a,b)`. -/
def lua_pcg_u128_lt (a b : lua_pcg_u128 α) : Bool :=
  O.lua_pcg_u64_lt a.high b.high || (O.lua_pcg_u64_eq a.high b.high && O.lua_pcg_u64_lt a.low b.low)

/-- The macro `lua_pcg_u128_gt(a,b)`. -/
def lua_pcg_u128_gt (a b : lua_pcg_u128 α) : Bool :=
  O.lua_pcg_u64_gt a.high b.high || (O.lua_pcg_u64_eq a.high b.high && O.lua_pcg_u64_gt a.low b.low)

/-- The macro `lua_pcg_u128_eq(a,b)`. -/
def lua_pcg_u128_eq (a b : lua_pcg_u128 α) : Bool :=
  O.lua_pcg_u64_eq a.low b.low && O.lua_pcg_u64_eq a.high b.high

/-- The macro `lua_pcg_u128_neq(a,b)`. -/
def lua_pcg_u128_neq (a b : lua_pcg_u128 α) : Bool := !(lua_pcg_u128_eq O a b)

/-- The macro `lua_pcg_u128_le(a,b)`. -/
def lua_pcg_u128_le (a b : lua_pcg_u128 α) : Bool := !(lua_pcg_u128_gt O a b)

/-- The macro `lua_pcg_u128_ge(a,b)`. -/
def lua_pcg_u128_ge (a b : lua_pcg_u128 α) : Bool := !(lua_pcg_u128_lt O a b)

/-- The function `lua_pcg_u128_xor`. -/
def lua_pcg_u128_xor (a b : lua_pcg_u128 α) : lua_pcg_u128 α :=
  O.lua_pcg_u128_lh (O.lua_pcg_u64_xor a.low b.low) (O.lua_pcg_u64_xor a.high b.high)

/-- The function `lua_pcg_u128_bnot`. -/
def lua_pcg_u128_bnot (value : lua_pcg_u128 α) : lua_pcg_u128 α :=
  O.lua_pcg_u128_lh (O.lua_pcg_u64_bnot value.low) (O.lua_pcg_u64_bnot value.high)

/-- The function `lua_pcg_u128_additive_inverse`. -/
def lua_pcg_u128_additive_inverse (value : lua_pcg_u128 α) : lua_pcg_u128 α :=
  lua_pcg_u128_sum O (lua_pcg_u128_bnot O value)
    (O.lua_pcg_u128_lh (O.lua_pcg_u64_lh 1 0) (O.lua_pcg_u64_lh 0 0))

/-- The function `lua_pcg_u128_subtraction`. -/
def lua_pcg_u128_subtraction (a b : lua_pcg_u128 α) : lua_pcg_u128 α :=
  lua_pcg_u128_sum O a (lua_pcg_u128_additive_inverse O b)

/-- The function `lua_pcg_u128_bor`. -/
def lua_pcg_u128_bor (a b : lua_pcg_u128 α) : lua_pcg_u128 α :=
  O.lua_pcg_u128_lh (O.lua_pcg_u64_bor a.low b.low) (O.lua_pcg_u64_bor a.high b.high)

/-- The function `lua_pcg_u128_band`. -/
def lua_pcg_u128_band (a b : lua_pcg_u128 α) : lua_pcg_u128 α :=
  O.lua_pcg_u128_lh (O.lua_pcg_u64_band a.low b.low) (O.lua_pcg_u64_band a.high b.high)

/-- The function `lua_pcg_u128_rsh`. -/
def lua_pcg_u128_rsh (value : lua_pcg_u128 α) (n : Nat) : lua_pcg_u128 α :=
  if n ≤ 0 then
    { low := O.lua_pcg_u64_clone value.low, high := O.lua_pcg_u64_clone value.high }
  else if n ≥ 128 then
    { low := O.lua_pcg_u64_lh 0 0, high := O.lua_pcg_u64_lh 0 0 }
  else if n = 64 then
    { low := O.lua_pcg_u64_clone value.high, high := O.lua_pcg_u64_lh 0 0 }
  else if n < 64 then
    { low := O.lua_pcg_u64_bor (O.lua_pcg_u64_rsh value.low n) (O.lua_pcg_u64_lsh value.high (64 - n)),
      high := O.lua_pcg_u64_rsh value.high n }
  else
    { low := O.lua_pcg_u64_rsh value.high (n - 64), high := O.lua_pcg_u64_lh 0 0 }

/-- The function `lua_pcg_u128_lsh`. -/
def lua_pcg_u128_lsh (value : lua_pcg_u128 α) (n : Nat) : lua_pcg_u128 α :=
  if n ≤ 0 then
    { low := O.lua_pcg_u64_clone value.low, high := O.lua_pcg_u64_clone value.high }
  else if n ≥ 128 then
    { low := O.lua_pcg_u64_lh 0 0, high := O.lua_pcg_u64_lh 0 0 }
  else if n = 64 then
    { low := O.lua_pcg_u64_lh 0 0, high := O.lua_pcg_u64_clone value.low }
  else if n < 64 then
    { low := O.lua_pcg_u64_lsh value.low n,
      high := O.lua_pcg_u64_bor (O.lua_pcg_u64_lsh value.high n) (O.lua_pcg_u64_rsh value.low (64 - n)) }
  else
    { low := O.lua_pcg_u64_lh 0 0, high := O.lua_pcg_u64_lsh value.low (n - 64) }

/-- The function `lua_pcg_u128_mul`. -/
def lua_pcg_u128_mul (a b : lua_pcg_u128 α) : lua_pcg_u128 α :=
  let _0 := O.lua_pcg_u64_lh 0 0
  -- compute: a * (b low)
  let aux := O.lua_pcg_u64_mul_ex a.low b.low
  let a_mul_b_low_words_0 := aux.low
  let aux := lua_pcg_u128_sum O (O.lua_pcg_u64_mul_ex a.high b.low) (O.lua_pcg_u128_lh aux.high _0)
  let a_mul_b_low_words_1 := aux.low
  -- compute: a * (b high)
  let aux := O.lua_pcg_u64_mul_ex a.low b.high
  let a_mul_b_high_words_1 := aux.low
  let a_mul_b_high_words_0 := O.lua_pcg_u64_lh 0 0
  -- sum: a * (b low) and a * (b high)
  let aux := lua_pcg_u128_sum O
    (O.lua_pcg_u128_lh a_mul_b_low_words_0 _0) (O.lua_pcg_u128_lh a_mul_b_high_words_0 _0)
  let res_words_0 := aux.low
  let carry := O.lua_pcg_u128_lh aux.high _0
  let aux := lua_pcg_u128_sum O
    (lua_pcg_u128_sum O
      (O.lua_pcg_u128_lh a_mul_b_low_words_1 _0) (O.lua_pcg_u128_lh a_mul_b_high_words_1 _0))
    carry
  let res_words_1 := aux.low
  -- construct the result
  O.lua_pcg_u128_lh res_words_0 res_words_1

end Emu128

/-! ## Division -/

namespace Emu64

open Emu128 in
/-- The `do ... while (!found)` loop of the emulated `lua_pcg_u64_div`, with `fuel` bounding
the number of passes.  It is left only through one of the two branches that set `found`,
and then returns the values stored in `*q` and `*r` (the assignments these branches make to
`q_left` and `q_right` are not read again). -/
def lua_pcg_u64_div_loop : Nat → lua_pcg_u128 lua_pcg_u64 → lua_pcg_u128 lua_pcg_u64 →
    lua_pcg_u128 lua_pcg_u64 → lua_pcg_u128 lua_pcg_u64 → Except Fault (lua_pcg_u64 × lua_pcg_u64)
  | 0, _, _, _, _ => .error .out_of_fuel
  | fuel + 1, _a, _b, q_left, q_right =>
    -- _q = (q_left + q_right) >> 1U
    let _q := lua_pcg_u128_rsh ops (lua_pcg_u128_sum ops q_left q_right) 1
    -- qb = _q * _b
    let qb := lua_pcg_u128_mul ops _q _b
    if lua_pcg_u128_eq ops qb _a then
      .ok (lua_pcg_u128_cast_to_u64 _q, lua_pcg_u64_lh 0 0)
    else if lua_pcg_u128_lt ops qb _a then
      if lua_pcg_u128_lt ops _a (lua_pcg_u128_sum ops qb _b) then
        .ok (lua_pcg_u128_cast_to_u64 _q,
          lua_pcg_u128_cast_to_u64 (lua_pcg_u128_subtraction ops _a qb))
      else
        lua_pcg_u64_div_loop fuel _a _b _q q_right
    else
      lua_pcg_u64_div_loop fuel _a _b q_left _q

/-- The function `lua_pcg_u64_div` of the 64-bit emulation.  The arguments `q` and `r` are the
contents of `*q` and `*r` before the call; the result is the returned `int` and the contents of
`*q` and `*r` after the call. -/
def lua_pcg_u64_div (fuel : Nat) (a b q r : lua_pcg_u64) : Except Fault (Nat × lua_pcg_u64 × lua_pcg_u64) :=
  if lua_pcg_u64_eq b (lua_pcg_u64_lh 0 0) then
    .ok (1, q, r)
  else if lua_pcg_u64_eq b (lua_pcg_u64_lh 1 0) then
    .ok (0, lua_pcg_u64_clone a, lua_pcg_u64_lh 0 0)
  else if lua_pcg_u64_eq a b then
    .ok (0, lua_pcg_u64_lh 1 0, lua_pcg_u64_lh 0 0)
  else if lua_pcg_u64_lt a b then
    .ok (0, lua_pcg_u64_lh 0 0, lua_pcg_u64_clone a)
  else if a.high = 0 ∧ b.high = 0 then
    let a_low := lua_pcg_u32_cast a.low
    let b_low := lua_pcg_u32_cast b.low
    if b_low = 0 then .error .division_by_zero
    else
      let q32 := a_low / b_low
      .ok (0, lua_pcg_u64_lh q32 0, lua_pcg_u64_lh (sub32 a_low (wrap32 (q32 * b_low))) 0)
  else
    let _a := lua_pcg_u128_lh a (lua_pcg_u64_lh 0 0)
    let _b := lua_pcg_u128_lh b (lua_pcg_u64_lh 0 0)
    let q_left := lua_pcg_u128_lh (lua_pcg_u64_lh 1 0) (lua_pcg_u64_lh 0 0)
    let q_right := lua_pcg_u128_lh (lua_pcg_u64_lh 0xFFFFFFFF 0xFFFFFFFF) (lua_pcg_u64_lh 0 0)
    match lua_pcg_u64_div_loop fuel _a _b q_left q_right with
    | .ok (q1, r1) => .ok (0, q1, r1)
    | .error e => .error e

end Emu64

namespace Native64

/-- The function `lua_pcg_u64_div` over a native `lua_pcg_u64`; `q` and `r` are the contents of
`*q` and `*r` before the call. -/
def lua_pcg_u64_div (a b q r : Nat) : Except Fault (Nat × Nat × Nat) :=
  if b = 0 then
    .ok (1, q, r)
  else
    let _a := lua_pcg_u64_clone a
    let _b := lua_pcg_u64_clone b
    if _b = 0 then .error .division_by_zero
    else
      let _q := _a / _b
      .ok (0, _q, sub64 _a (wrap64 (_q * _b)))

end Native64

/-- The 64-bit operations together with `lua_pcg_u64_div`, which the emulated 64-bit engine
calls; the first argument of the division bounds the passes of its loop, if it has one. -/
structure U64Backend (α : Type) extends U64Ops α where
  lua_pcg_u64_div : Nat → α → α → α → α → Except Fault (Nat × α × α)

/-- The configuration with an emulated `lua_pcg_u64`. -/
def Emu64.backend : U64Backend Emu64.lua_pcg_u64 :=
  { Emu64.ops with lua_pcg_u64_div := Emu64.lua_pcg_u64_div }

/-- The configuration with a native `lua_pcg_u64` and an emulated `lua_pcg_u128`. -/
def Native64.backend : U64Backend Nat :=
  { Native64.ops with lua_pcg_u64_div := fun _ a b q r => Native64.lua_pcg_u64_div a b q r }

/-! ## The 64-bit-output engine over an emulated `lua_pcg_u128` -/

namespace Emu128

variable {α : Type} (B : U64Backend α)

/-- The struct `lua_pcg_state_setseq_128` over an emulated `lua_pcg_u128`. -/
structure lua_pcg_state_setseq_128 (α : Type) where
  state : lua_pcg_u128 α
  inc : lua_pcg_u128 α
deriving DecidableEq, Repr

/-- The constant `LUA_PCG_DEFAULT_MULTIPLIER_128`. -/
def LUA_PCG_DEFAULT_MULTIPLIER_128 : lua_pcg_u128 α :=
  B.lua_pcg_u128_lh (B.lua_pcg_u64_lh 0x9FCCF645 0x4385DF64) (B.lua_pcg_u64_lh 0x1FC65DA4 0x2360ED05)

/-- The function `lua_pcg_rotr_64` of the 128-bit emulation; `rot` is an `unsigned int`. -/
def lua_pcg_rotr_64 (value : α) (rot : Nat) : α :=
  B.lua_pcg_u64_bor (B.lua_pcg_u64_rsh value rot) (B.lua_pcg_u64_lsh value (neg32 rot &&& 63))

/-- The function `lua_pcg_output_xsl_rr_128_64` of the 128-bit emulation. -/
def lua_pcg_output_xsl_rr_128_64 (state : lua_pcg_u128 α) : α :=
  lua_pcg_rotr_64 B
    (B.lua_pcg_u64_xor (B.lua_pcg_u128_cast_to_u64 (lua_pcg_u128_rsh B.toU64Ops state 64))
      (B.lua_pcg_u128_cast_to_u64 state))
    (B.lua_pcg_u128_cast_to_u32 (lua_pcg_u128_rsh B.toU64Ops state 122))

/-- The function `lua_pcg_setseq_128_step_r` of the 128-bit emulation. -/
def lua_pcg_setseq_128_step_r (rng : lua_pcg_state_setseq_128 α) : lua_pcg_state_setseq_128 α :=
  { rng with state := (lua_pcg_u128_sum B.toU64Ops
      (lua_pcg_u128_mul B.toU64Ops rng.state (LUA_PCG_DEFAULT_MULTIPLIER_128 B)) rng.inc) }

/-- The function `lua_pcg_setseq_128_xsl_rr_64_random_r` of the 128-bit emulation. -/
def lua_pcg_setseq_128_xsl_rr_64_random_r (rng : lua_pcg_state_setseq_128 α) :
    α × lua_pcg_state_setseq_128 α :=
  let rng1 := lua_pcg_setseq_128_step_r B rng
  (lua_pcg_output_xsl_rr_128_64 B rng1.state, rng1)

/-- The function `lua_pcg_setseq_128_srandom_r` of the 128-bit emulation. -/
def lua_pcg_setseq_128_srandom_r (rng : lua_pcg_state_setseq_128 α) (initstate initseq : lua_pcg_u128 α) :
    lua_pcg_state_setseq_128 α :=
  let rng1 := { rng with state := B.lua_pcg_u128_lh (B.lua_pcg_u64_lh 0 0) (B.lua_pcg_u64_lh 0 0) }
  let rng2 := { rng1 with inc := (lua_pcg_u128_bor B.toU64Ops (lua_pcg_u128_lsh B.toU64Ops initseq 1)
    (B.lua_pcg_u128_lh (B.lua_pcg_u64_lh 1 0) (B.lua_pcg_u64_lh 0 0))) }
  let rng3 := lua_pcg_setseq_128_step_r B rng2
  let rng4 := { rng3 with state := lua_pcg_u128_sum B.toU64Ops rng3.state initstate }
  lua_pcg_setseq_128_step_r B rng4

/-- The engine after `n` successive calls of `lua_pcg_setseq_128_xsl_rr_64_random_r` (a
specification device, not a function of the source). -/
def after_draws (n : Nat) (rng : lua_pcg_state_setseq_128 α) : lua_pcg_state_setseq_128 α :=
  (fun g => (lua_pcg_setseq_128_xsl_rr_64_random_r B g).2)^[n] rng

/-- The output of the call number `n + 1` among successive calls of
`lua_pcg_setseq_128_xsl_rr_64_random_r` (a specification device, not a function of the source). -/
def nth_draw (rng : lua_pcg_state_setseq_128 α) (n : Nat) : α :=
  (lua_pcg_setseq_128_xsl_rr_64_random_r B (after_draws B n rng)).1

/-- The `do ... while (lua_pcg_u64_lt(r, threshold))` loop of the emulated
`lua_pcg_setseq_128_xsl_rr_64_boundedrand_r`, with `fuel` bounding the number of draws. -/
def lua_pcg_setseq_128_xsl_rr_64_boundedrand_r_loop :
    Nat → lua_pcg_state_setseq_128 α → α → Except Fault (α × lua_pcg_state_setseq_128 α)
  | 0, _, _ => .error .out_of_fuel
  | fuel + 1, rng, threshold =>
    let (r, rng1) := lua_pcg_setseq_128_xsl_rr_64_random_r B rng
    if B.lua_pcg_u64_lt r threshold then
      lua_pcg_setseq_128_xsl_rr_64_boundedrand_r_loop fuel rng1 threshold
    else .ok (r, rng1)

/-- The function `lua_pcg_setseq_128_xsl_rr_64_boundedrand_r` of the 128-bit emulation.  The
arguments `q` and `threshold` are the contents of these uninitialised locals on entry. -/
def lua_pcg_setseq_128_xsl_rr_64_boundedrand_r (fuel : Nat) (rng : lua_pcg_state_setseq_128 α)
    (bound q threshold : α) : Except Fault (α × lua_pcg_state_setseq_128 α) :=
  let boundedrand := B.lua_pcg_u64_lh 0 0
  match B.lua_pcg_u64_div fuel (B.lua_pcg_u64_additive_inverse bound) bound q threshold with
  | .error e => .error e
  | .ok (div_res, q, threshold) =>
    if div_res = 0 then
      match lua_pcg_setseq_128_xsl_rr_64_boundedrand_r_loop B fuel rng threshold with
      | .error e => .error e
      | .ok (r, rng1) =>
        match B.lua_pcg_u64_div fuel r bound q boundedrand with
        | .error e => .error e
        | .ok (div_res, _, boundedrand) =>
          if div_res ≠ 0 then .ok (B.lua_pcg_u64_lh 0 0, rng1) else .ok (boundedrand, rng1)
    else .ok (boundedrand, rng)

/-- The state of the `while (lua_pcg_u128_gt(_delta, zero))` loop of `lua_pcg_advance_lcg_128`
after it has ended: `(acc_mult, acc_plus)`; `fuel` bounds the number of passes. -/
def lua_pcg_advance_lcg_128_loop :
    Nat → lua_pcg_u128 α → lua_pcg_u128 α → lua_pcg_u128 α → lua_pcg_u128 α → lua_pcg_u128 α →
      Except Fault (lua_pcg_u128 α × lua_pcg_u128 α)
  | 0, _, _, _, _, _ => .error .out_of_fuel
  | fuel + 1, _delta, _cur_mult, _cur_plus, acc_mult, acc_plus =>
    let zero := B.lua_pcg_u128_lh (B.lua_pcg_u64_lh 0 0) (B.lua_pcg_u64_lh 0 0)
    let one := B.lua_pcg_u128_lh (B.lua_pcg_u64_lh 1 0) (B.lua_pcg_u64_lh 0 0)
    if lua_pcg_u128_gt B.toU64Ops _delta zero then
      let odd := lua_pcg_u128_neq B.toU64Ops (lua_pcg_u128_band B.toU64Ops _delta one) zero
      let acc_mult1 := if odd then lua_pcg_u128_mul B.toU64Ops acc_mult _cur_mult else acc_mult
      let acc_plus1 :=
        if odd then lua_pcg_u128_sum B.toU64Ops (lua_pcg_u128_mul B.toU64Ops acc_plus _cur_mult) _cur_plus
        else acc_plus
      let _cur_plus1 := lua_pcg_u128_mul B.toU64Ops (lua_pcg_u128_sum B.toU64Ops _cur_mult one) _cur_plus
      let _cur_mult1 := lua_pcg_u128_mul B.toU64Ops _cur_mult _cur_mult
      let _delta1 := lua_pcg_u128_rsh B.toU64Ops _delta 1
      lua_pcg_advance_lcg_128_loop fuel _delta1 _cur_mult1 _cur_plus1 acc_mult1 acc_plus1
    else .ok (acc_mult, acc_plus)

/-- The function `lua_pcg_advance_lcg_128` of the 128-bit emulation. -/
def lua_pcg_advance_lcg_128 (fuel : Nat) (state delta cur_mult cur_plus : lua_pcg_u128 α) :
    Except Fault (lua_pcg_u128 α) :=
  let acc_mult := B.lua_pcg_u128_lh (B.lua_pcg_u64_lh 1 0) (B.lua_pcg_u64_lh 0 0)
  let acc_plus := B.lua_pcg_u128_lh (B.lua_pcg_u64_lh 0 0) (B.lua_pcg_u64_lh 0 0)
  match lua_pcg_advance_lcg_128_loop B fuel delta cur_mult cur_plus acc_mult acc_plus with
  | .error e => .error e
  | .ok (acc_mult, acc_plus) =>
    .ok (lua_pcg_u128_sum B.toU64Ops (lua_pcg_u128_mul B.toU64Ops acc_mult state) acc_plus)

/-- The function `lua_pcg_setseq_128_advance_r` of the 128-bit emulation. -/
def lua_pcg_setseq_128_advance_r (fuel : Nat) (rng : lua_pcg_state_setseq_128 α) (delta : lua_pcg_u128 α) :
    Except Fault (lua_pcg_state_setseq_128 α) :=
  match lua_pcg_advance_lcg_128 B fuel rng.state delta (LUA_PCG_DEFAULT_MULTIPLIER_128 B) rng.inc with
  | .error e => .error e
  | .ok st => .ok { rng with state := st }

end Emu128

/-! ## The 64-bit-output engine over a native `lua_pcg_u128` -/

namespace Native128

/-- The macro `lua_pcg_u128_lh(l,h)` over a native `lua_pcg_u128`. -/
def lua_pcg_u128_lh (l h : Nat) : Nat :=
  wrap128 (l &&& 0xFFFFFFFFFFFFFFFF) ||| wrap128 ((wrap128 h &&& 0xFFFFFFFFFFFFFFFF) <<< 64)

/-- The macro `lua_pcg_u128_cast_to_u64(v)` over a native `lua_pcg_u128`. -/
def lua_pcg_u128_cast_to_u64 (v : Nat) : Nat := lua_pcg_u64_cast v

/-- The struct `lua_pcg_state_setseq_128` over a native `lua_pcg_u128`. -/
structure lua_pcg_state_setseq_128 where
  state : Nat
  inc : Nat
deriving DecidableEq, Repr

/-- The constant `LUA_PCG_DEFAULT_MULTIPLIER_128`. -/
def LUA_PCG_DEFAULT_MULTIPLIER_128 : Nat :=
  lua_pcg_u128_lh (Native64.lua_pcg_u64_lh 0x9FCCF645 0x4385DF64)
    (Native64.lua_pcg_u64_lh 0x1FC65DA4 0x2360ED05)

/-- The function `lua_pcg_rotr_64` over native integers; `rot` is an `unsigned int`. -/
def lua_pcg_rotr_64 (value rot : Nat) : Nat :=
  (lua_pcg_u64_cast value >>> rot) ||| lua_pcg_u64_cast (wrap64 (value <<< (neg32 rot &&& 63)))

/-- The function `lua_pcg_output_xsl_rr_128_64` over native integers. -/
def lua_pcg_output_xsl_rr_128_64 (state : Nat) : Nat :=
  lua_pcg_rotr_64 (lua_pcg_u128_cast_to_u64 (state >>> 64) ^^^ lua_pcg_u128_cast_to_u64 state)
    (wrap32 (state >>> 122))

/-- The function `lua_pcg_setseq_128_step_r` over native integers. -/
def lua_pcg_setseq_128_step_r (rng : lua_pcg_state_setseq_128) : lua_pcg_state_setseq_128 :=
  { rng with state := wrap128 (wrap128 (rng.state * LUA_PCG_DEFAULT_MULTIPLIER_128) + rng.inc) }

/-- The function `lua_pcg_setseq_128_xsl_rr_64_random_r` over native integers. -/
def lua_pcg_setseq_128_xsl_rr_64_random_r (rng : lua_pcg_state_setseq_128) :
    Nat × lua_pcg_state_setseq_128 :=
  let rng1 := lua_pcg_setseq_128_step_r rng
  (lua_pcg_output_xsl_rr_128_64 rng1.state, rng1)

/-- The function `lua_pcg_setseq_128_srandom_r` over native integers. -/
def lua_pcg_setseq_128_srandom_r (rng : lua_pcg_state_setseq_128) (initstate initseq : Nat) :
    lua_pcg_state_setseq_128 :=
  let rng1 := { rng with state := 0 }
  let rng2 := { rng1 with inc := wrap128 (initseq <<< 1) ||| 1 }
  let rng3 := lua_pcg_setseq_128_step_r rng2
  let rng4 := { rng3 with state := wrap128 (rng3.state + initstate) }
  lua_pcg_setseq_128_step_r rng4

/-- The engine after `n` successive calls of `lua_pcg_setseq_128_xsl_rr_64_random_r` (a
specification device, not a function of the source). -/
def after_draws (n : Nat) (rng : lua_pcg_state_setseq_128) : lua_pcg_state_setseq_128 :=
  (fun g => (lua_pcg_setseq_128_xsl_rr_64_random_r g).2)^[n] rng

/-- The output of the call number `n + 1` among successive calls of
`lua_pcg_setseq_128_xsl_rr_64_random_r` (a specification device, not a function of the source). -/
def nth_draw (rng : lua_pcg_state_setseq_128) (n : Nat) : Nat :=
  (lua_pcg_setseq_128_xsl_rr_64_random_r (after_draws n rng)).1

/-- The `do ... while (r < threshold)` loop of the native `lua_pcg_setseq_128_xsl_rr_64_boundedrand_r`,
with `fuel` bounding the number of draws. -/
def lua_pcg_setseq_128_xsl_rr_64_boundedrand_r_loop :
    Nat → lua_pcg_state_setseq_128 → Nat → Except Fault (Nat × lua_pcg_state_setseq_128)
  | 0, _, _ => .error .out_of_fuel
  | fuel + 1, rng, threshold =>
    let (r, rng1) := lua_pcg_setseq_128_xsl_rr_64_random_r rng
    if r < threshold then lua_pcg_setseq_128_xsl_rr_64_boundedrand_r_loop fuel rng1 threshold
    else .ok (r, rng1)

/-- The function `lua_pcg_setseq_128_xsl_rr_64_boundedrand_r` over native integers.  The C
operator `%` with a zero right operand has no defined result: the model reports it as
`division_by_zero`. -/
def lua_pcg_setseq_128_xsl_rr_64_boundedrand_r (fuel : Nat) (rng : lua_pcg_state_setseq_128) (bound : Nat) :
    Except Fault (Nat × lua_pcg_state_setseq_128) :=
  let safebound := lua_pcg_u64_cast bound
  if safebound = 0 then .error .division_by_zero
  else
    let threshold := neg64 safebound % safebound
    match lua_pcg_setseq_128_xsl_rr_64_boundedrand_r_loop fuel rng threshold with
    | .ok (r, rng1) => .ok (r % safebound, rng1)
    | .error e => .error e

/-- The `while (_delta > 0U)` loop of the native `lua_pcg_advance_lcg_128`, returning the final
`(acc_mult, acc_plus)`. -/
def lua_pcg_advance_lcg_128_loop (delta cur_mult cur_plus acc_mult acc_plus : Nat) : Nat × Nat :=
  if _h : delta > 0 then
    let acc_mult1 := if delta &&& 1 ≠ 0 then wrap128 (acc_mult * cur_mult) else acc_mult
    let acc_plus1 := if delta &&& 1 ≠ 0 then wrap128 (wrap128 (acc_plus * cur_mult) + cur_plus) else acc_plus
    let cur_plus1 := wrap128 (wrap128 (cur_mult + 1) * cur_plus)
    let cur_mult1 := wrap128 (cur_mult * cur_mult)
    lua_pcg_advance_lcg_128_loop (delta >>> 1) cur_mult1 cur_plus1 acc_mult1 acc_plus1
  else (acc_mult, acc_plus)
termination_by delta
decreasing_by
  simp only [Nat.shiftRight_eq_div_pow]
  omega

/-- The function `lua_pcg_advance_lcg_128` over native integers. -/
def lua_pcg_advance_lcg_128 (state delta cur_mult cur_plus : Nat) : Nat :=
  let acc := lua_pcg_advance_lcg_128_loop delta cur_mult cur_plus 1 0
  wrap128 (wrap128 (acc.1 * state) + acc.2)

/-- The function `lua_pcg_setseq_128_advance_r` over native integers. -/
def lua_pcg_setseq_128_advance_r (rng : lua_pcg_state_setseq_128) (delta : Nat) : lua_pcg_state_setseq_128 :=
  { rng with state := lua_pcg_advance_lcg_128 rng.state delta LUA_PCG_DEFAULT_MULTIPLIER_128 rng.inc }

end Native128

/-! ## The 32-bit engine over the emulated 64-bit integers

The text of `pcg32` compiled under `LUA_PCG_U64_EMULATED`. -/

namespace Emu64

/-- The struct `lua_pcg_state_setseq_64` over an emulated `lua_pcg_u64`. -/
structure lua_pcg_state_setseq_64 where
  state : lua_pcg_u64
  inc : lua_pcg_u64
deriving DecidableEq, Repr

/-- The constant `LUA_PCG_DEFAULT_MULTIPLIER_64` of the emulated configuration. -/
def LUA_PCG_DEFAULT_MULTIPLIER_64 : lua_pcg_u64 := lua_pcg_u64_lh 0x4C957F2D 0x5851F42D

/-- The function `lua_pcg_output_xsh_rr_64_32` (emulated 64-bit). -/
def lua_pcg_output_xsh_rr_64_32 (state : lua_pcg_u64) : Nat :=
  lua_pcg_rotr_32
    (lua_pcg_u64_cast_to_u32 (lua_pcg_u64_rsh (lua_pcg_u64_xor (lua_pcg_u64_rsh state 18) state) 27))
    (lua_pcg_u64_cast_to_u32 (lua_pcg_u64_rsh state 59))

/-- The function `lua_pcg_setseq_64_step_r` (emulated 64-bit). -/
def lua_pcg_setseq_64_step_r (rng : lua_pcg_state_setseq_64) : lua_pcg_state_setseq_64 :=
  { rng with state :=
      (lua_pcg_u64_sum (lua_pcg_u64_mul rng.state LUA_PCG_DEFAULT_MULTIPLIER_64) rng.inc) }

/-- The function `lua_pcg_setseq_64_xsh_rr_32_random_r` (emulated 64-bit): the output and the
engine afterwards. -/
def lua_pcg_setseq_64_xsh_rr_32_random_r (rng : lua_pcg_state_setseq_64) :
    Nat × lua_pcg_state_setseq_64 :=
  let oldstate := rng.state
  let rng1 := lua_pcg_setseq_64_step_r rng
  (lua_pcg_output_xsh_rr_64_32 oldstate, rng1)

/-- The function `lua_pcg_setseq_64_srandom_r` (emulated 64-bit); `rng` holds the prior
contents. -/
def lua_pcg_setseq_64_srandom_r (rng : lua_pcg_state_setseq_64) (initstate initseq : lua_pcg_u64) :
    lua_pcg_state_setseq_64 :=
  let rng1 := { rng with state := lua_pcg_u64_lh 0 0 }
  let rng2 := { rng1 with inc := (lua_pcg_u64_bor (lua_pcg_u64_lsh initseq 1) (lua_pcg_u64_lh 1 0)) }
  let rng3 := lua_pcg_setseq_64_step_r rng2
  let rng4 := { rng3 with state := (lua_pcg_u64_sum rng3.state initstate) }
  lua_pcg_setseq_64_step_r rng4

/-- The state of the `while (lua_pcg_u64_gt(_delta, zero))` loop of the emulated
`lua_pcg_advance_lcg_64` after it has ended: `(acc_mult, acc_plus)`; `fuel` bounds the number of
passes. -/
def lua_pcg_advance_lcg_64_loop :
    Nat → lua_pcg_u64 → lua_pcg_u64 → lua_pcg_u64 → lua_pcg_u64 → lua_pcg_u64 →
      Except Fault (lua_pcg_u64 × lua_pcg_u64)
  | 0, _, _, _, _, _ => .error .out_of_fuel
  | fuel + 1, _delta, _cur_mult, _cur_plus, acc_mult, acc_plus =>
    let zero := lua_pcg_u64_lh 0 0
    let one := lua_pcg_u64_lh 1 0
    if lua_pcg_u64_gt _delta zero then
      let odd := lua_pcg_u64_neq (lua_pcg_u64_band _delta one) zero
      let acc_mult1 := if odd then lua_pcg_u64_mul acc_mult _cur_mult else acc_mult
      let acc_plus1 :=
        if odd then lua_pcg_u64_sum (lua_pcg_u64_mul acc_plus _cur_mult) _cur_plus else acc_plus
      let _cur_plus1 := lua_pcg_u64_mul (lua_pcg_u64_sum _cur_mult one) _cur_plus
      let _cur_mult1 := lua_pcg_u64_mul _cur_mult _cur_mult
      let _delta1 := lua_pcg_u64_rsh _delta 1
      lua_pcg_advance_lcg_64_loop fuel _delta1 _cur_mult1 _cur_plus1 acc_mult1 acc_plus1
    else .ok (acc_mult, acc_plus)

/-- The function `lua_pcg_advance_lcg_64` (emulated 64-bit). -/
def lua_pcg_advance_lcg_64 (fuel : Nat) (state delta cur_mult cur_plus : lua_pcg_u64) :
    Except Fault lua_pcg_u64 :=
  let acc_mult := lua_pcg_u64_lh 1 0
  let acc_plus := lua_pcg_u64_lh 0 0
  match lua_pcg_advance_lcg_64_loop fuel delta cur_mult cur_plus acc_mult acc_plus with
  | .error e => .error e
  | .ok (acc_mult, acc_plus) => .ok (lua_pcg_u64_sum (lua_pcg_u64_mul acc_mult state) acc_plus)

/-- The function `lua_pcg_setseq_64_advance_r`, compiled against the emulated
`lua_pcg_advance_lcg_64`. -/
def lua_pcg_setseq_64_advance_r (fuel : Nat) (rng : lua_pcg_state_setseq_64) (delta : lua_pcg_u64) :
    Except Fault lua_pcg_state_setseq_64 :=
  match lua_pcg_advance_lcg_64 fuel rng.state delta LUA_PCG_DEFAULT_MULTIPLIER_64 rng.inc with
  | .error e => .error e
  | .ok st => .ok { rng with state := st }

/-- The `do ... while (r < threshold)` loop of `lua_pcg_setseq_64_xsh_rr_32_boundedrand_r`,
compiled against the emulated engine; `fuel` bounds the number of draws. -/
def lua_pcg_setseq_64_xsh_rr_32_boundedrand_r_loop :
    Nat → lua_pcg_state_setseq_64 → Nat → Except Fault (Nat × lua_pcg_state_setseq_64)
  | 0, _, _ => .error .out_of_fuel
  | fuel + 1, rng, threshold =>
    let (r, rng1) := lua_pcg_setseq_64_xsh_rr_32_random_r rng
    if r < threshold then lua_pcg_setseq_64_xsh_rr_32_boundedrand_r_loop fuel rng1 threshold
    else .ok (r, rng1)

/-- The function `lua_pcg_setseq_64_xsh_rr_32_boundedrand_r`, compiled against the emulated
engine.  The C operator `%` with a zero right operand has no defined result: the model reports it
as `division_by_zero`. -/
def lua_pcg_setseq_64_xsh_rr_32_boundedrand_r (fuel : Nat) (rng : lua_pcg_state_setseq_64)
    (bound : Nat) : Except Fault (Nat × lua_pcg_state_setseq_64) :=
  let safebound := lua_pcg_u32_cast bound
  if safebound = 0 then .error .division_by_zero
  else
    let threshold := neg32 safebound % safebound
    match lua_pcg_setseq_64_xsh_rr_32_boundedrand_r_loop fuel rng threshold with
    | .ok (r, rng1) => .ok (r % safebound, rng1)
    | .error e => .error e

end Emu64

/-! ## Represented values and the laws of 64-bit arithmetic

These are specification devices, not functions of the source. -/

/-- The number that an emulated `lua_pcg_u64` stands for: `low | (high << 32)`. -/
def Emu64.val64 (a : Emu64.lua_pcg_u64) : Nat := a.low + 2 ^ 32 * a.high

/-- Both words of an emulated `lua_pcg_u64` are within 32 bits, as the C type guarantees. -/
def Emu64.wf64 (a : Emu64.lua_pcg_u64) : Prop := a.low < 2 ^ 32 ∧ a.high < 2 ^ 32

/-- A native `lua_pcg_u64` is within 64 bits, as the C type guarantees. -/
def Native64.wf64 (a : Nat) : Prop := a < 2 ^ 64

/-- The number that an emulated `lua_pcg_u128` stands for: `low | (high << 64)`. -/
def Emu128.val128 {α : Type} (val : α → Nat) (a : lua_pcg_u128 α) : Nat :=
  val a.low + 2 ^ 64 * val a.high

/-- Both limbs of an emulated `lua_pcg_u128` are well-formed. -/
def Emu128.wf128 {α : Type} (wf : α → Prop) (a : lua_pcg_u128 α) : Prop := wf a.low ∧ wf a.high

/-- Both fields of an emulated 128-bit engine are well-formed. -/
def Emu128.wf_state {α : Type} (wf : α → Prop) (rng : Emu128.lua_pcg_state_setseq_128 α) : Prop :=
  Emu128.wf128 wf rng.state ∧ Emu128.wf128 wf rng.inc

/-- The record `O` of 64-bit operations computes arithmetic modulo `2^64` on the values `val`
of the well-formed elements `wf`. -/
structure U64Ops.Lawful {α : Type} (O : U64Ops α) (wf : α → Prop) (val : α → Nat) : Prop where
  val_lt : ∀ a, wf a → val a < 2 ^ 64
  val_inj : ∀ a b, wf a → wf b → val a = val b → a = b
  lh_wf : ∀ l h, wf (O.lua_pcg_u64_lh l h)
  lh_val : ∀ l h, val (O.lua_pcg_u64_lh l h) = l % 2 ^ 32 + 2 ^ 32 * (h % 2 ^ 32)
  clone_eq : ∀ a, wf a → O.lua_pcg_u64_clone a = a
  sum_wf : ∀ a b, wf a → wf b → wf (O.lua_pcg_u64_sum a b)
  sum_val : ∀ a b, wf a → wf b → val (O.lua_pcg_u64_sum a b) = (val a + val b) % 2 ^ 64
  lt_iff : ∀ a b, wf a → wf b → (O.lua_pcg_u64_lt a b = true ↔ val a < val b)
  gt_iff : ∀ a b, wf a → wf b → (O.lua_pcg_u64_gt a b = true ↔ val b < val a)
  eq_iff : ∀ a b, wf a → wf b → (O.lua_pcg_u64_eq a b = true ↔ val a = val b)
  xor_wf : ∀ a b, wf a → wf b → wf (O.lua_pcg_u64_xor a b)
  xor_val : ∀ a b, wf a → wf b → val (O.lua_pcg_u64_xor a b) = val a ^^^ val b
  band_wf : ∀ a b, wf a → wf b → wf (O.lua_pcg_u64_band a b)
  band_val : ∀ a b, wf a → wf b → val (O.lua_pcg_u64_band a b) = val a &&& val b
  bor_wf : ∀ a b, wf a → wf b → wf (O.lua_pcg_u64_bor a b)
  bor_val : ∀ a b, wf a → wf b → val (O.lua_pcg_u64_bor a b) = val a ||| val b
  bnot_wf : ∀ a, wf a → wf (O.lua_pcg_u64_bnot a)
  bnot_val : ∀ a, wf a → val (O.lua_pcg_u64_bnot a) = 2 ^ 64 - 1 - val a
  additive_inverse_wf : ∀ a, wf a → wf (O.lua_pcg_u64_additive_inverse a)
  additive_inverse_val : ∀ a, wf a → val (O.lua_pcg_u64_additive_inverse a) = (2 ^ 64 - val a) % 2 ^ 64
  lsh_wf : ∀ a n, wf a → n < 64 → wf (O.lua_pcg_u64_lsh a n)
  lsh_val : ∀ a n, wf a → n < 64 → val (O.lua_pcg_u64_lsh a n) = (val a * 2 ^ n) % 2 ^ 64
  rsh_wf : ∀ a n, wf a → n < 64 → wf (O.lua_pcg_u64_rsh a n)
  rsh_val : ∀ a n, wf a → n < 64 → val (O.lua_pcg_u64_rsh a n) = val a / 2 ^ n
  mul_ex_wf : ∀ a b, wf a → wf b → wf (O.lua_pcg_u64_mul_ex a b).low ∧ wf (O.lua_pcg_u64_mul_ex a b).high
  mul_ex_val : ∀ a b, wf a → wf b →
    val (O.lua_pcg_u64_mul_ex a b).low + 2 ^ 64 * val (O.lua_pcg_u64_mul_ex a b).high = val a * val b
  u128_lh_eq : ∀ l h, O.lua_pcg_u128_lh l h = ⟨O.lua_pcg_u64_clone l, O.lua_pcg_u64_clone h⟩
  cast_to_u64_eq : ∀ v, O.lua_pcg_u128_cast_to_u64 v = O.lua_pcg_u64_clone v.low
  cast_to_u32_eq : ∀ v, wf v.low → O.lua_pcg_u128_cast_to_u32 v = val v.low % 2 ^ 32

/-- The division `lua_pcg_u64_div` of the backend `B` computes quotient and remainder: it fails
exactly on a zero divisor, leaving `*q` and `*r` alone; otherwise whatever it returns is right, and
65 passes of its loop are enough for it to return. -/
structure U64Backend.DivLawful {α : Type} (B : U64Backend α) (wf : α → Prop) (val : α → Nat) : Prop where
  div_zero : ∀ fuel a b q0 r0, wf b → val b = 0 → B.lua_pcg_u64_div fuel a b q0 r0 = .ok (1, q0, r0)
  div_sound : ∀ fuel a b q0 r0 res q r, wf a → wf b → val b ≠ 0 →
    B.lua_pcg_u64_div fuel a b q0 r0 = .ok (res, q, r) →
    res = 0 ∧ wf q ∧ wf r ∧ val q = val a / val b ∧ val r = val a % val b
  div_total : ∀ fuel a b q0 r0, 65 ≤ fuel → wf a → wf b → val b ≠ 0 →
    ∃ res q r, B.lua_pcg_u64_div fuel a b q0 r0 = .ok (res, q, r)

/-! ## Comparing the configurations

These are specification devices, not functions of the source. -/

/-- Both fields of an emulated 64-bit engine are well-formed. -/
def Emu64.wf_state (rng : Emu64.lua_pcg_state_setseq_64) : Prop :=
  Emu64.wf64 rng.state ∧ Emu64.wf64 rng.inc

/-- The native 64-bit engine that an emulated one stands for, under `value = low + high * 2^32`. -/
def Emu64.abs_state (rng : Emu64.lua_pcg_state_setseq_64) : Native64.lua_pcg_state_setseq_64 :=
  ⟨Emu64.val64 rng.state, Emu64.val64 rng.inc⟩

/-- The native 128-bit engine that an emulated one stands for, under
`value = low + high * 2^64`. -/
def Emu128.abs_state {α : Type} (val : α → Nat) (rng : Emu128.lua_pcg_state_setseq_128 α) :
    Native128.lua_pcg_state_setseq_128 :=
  ⟨Emu128.val128 val rng.state, Emu128.val128 val rng.inc⟩

/-- One operation on an engine: `β` is the type of a state-wide argument, `γ` the type of a
bound. -/
inductive EngineOp (β γ : Type) where
  | seed (initstate initseq : β)
  | step
  | next
  | advance (delta : β)
  | boundedNext (bound : γ)

/-- The same operation, with its arguments translated. -/
def EngineOp.map {β γ β1 γ1 : Type} (f : β → β1) (g : γ → γ1) : EngineOp β γ → EngineOp β1 γ1
  | .seed s q => .seed (f s) (f q)
  | .step => .step
  | .next => .next
  | .advance d => .advance (f d)
  | .boundedNext b => .boundedNext (g b)

/-- The arguments of an operation satisfy `P` (state-wide arguments) and `Q` (bounds). -/
def EngineOp.All {β γ : Type} (P : β → Prop) (Q : γ → Prop) : EngineOp β γ → Prop
  | .seed s q => P s ∧ P q
  | .step => True
  | .next => True
  | .advance d => P d
  | .boundedNext b => Q b

/-- A sequence of operations, run one after the other from the engine `rng`: the outputs in
order and the engine afterwards. -/
def run_ops {σ ω κ : Type} (run_op : σ → κ → Except Fault (List ω × σ)) :
    List κ → σ → Except Fault (List ω × σ)
  | [], rng => .ok ([], rng)
  | op :: ops, rng =>
    match run_op rng op with
    | .error e => .error e
    | .ok (o1, rng1) =>
      match run_ops run_op ops rng1 with
      | .error e => .error e
      | .ok (o2, rng2) => .ok (o1 ++ o2, rng2)

/-- One operation on the native 32-bit engine. -/
def Native64.run_op (fuel : Nat) (rng : Native64.lua_pcg_state_setseq_64) :
    EngineOp Nat Nat → Except Fault (List Nat × Native64.lua_pcg_state_setseq_64)
  | .seed s q => .ok ([], Native64.lua_pcg_setseq_64_srandom_r rng s q)
  | .step => .ok ([], Native64.lua_pcg_setseq_64_step_r rng)
  | .next => .ok ([(Native64.lua_pcg_setseq_64_xsh_rr_32_random_r rng).1],
      (Native64.lua_pcg_setseq_64_xsh_rr_32_random_r rng).2)
  | .advance d => .ok ([], Native64.lua_pcg_setseq_64_advance_r rng d)
  | .boundedNext b =>
    match Native64.lua_pcg_setseq_64_xsh_rr_32_boundedrand_r fuel rng b with
    | .error e => .error e
    | .ok (r, rng1) => .ok ([r], rng1)

/-- One operation on the emulated 32-bit engine. -/
def Emu64.run_op (fuel : Nat) (rng : Emu64.lua_pcg_state_setseq_64) :
    EngineOp Emu64.lua_pcg_u64 Nat → Except Fault (List Nat × Emu64.lua_pcg_state_setseq_64)
  | .seed s q => .ok ([], Emu64.lua_pcg_setseq_64_srandom_r rng s q)
  | .step => .ok ([], Emu64.lua_pcg_setseq_64_step_r rng)
  | .next => .ok ([(Emu64.lua_pcg_setseq_64_xsh_rr_32_random_r rng).1],
      (Emu64.lua_pcg_setseq_64_xsh_rr_32_random_r rng).2)
  | .advance d =>
    match Emu64.lua_pcg_setseq_64_advance_r fuel rng d with
    | .error e => .error e
    | .ok rng1 => .ok ([], rng1)
  | .boundedNext b =>
    match Emu64.lua_pcg_setseq_64_xsh_rr_32_boundedrand_r fuel rng b with
    | .error e => .error e
    | .ok (r, rng1) => .ok ([r], rng1)

/-- One operation on the native 128-bit engine. -/
def Native128.run_op (fuel : Nat) (rng : Native128.lua_pcg_state_setseq_128) :
    EngineOp Nat Nat → Except Fault (List Nat × Native128.lua_pcg_state_setseq_128)
  | .seed s q => .ok ([], Native128.lua_pcg_setseq_128_srandom_r rng s q)
  | .step => .ok ([], Native128.lua_pcg_setseq_128_step_r rng)
  | .next => .ok ([(Native128.lua_pcg_setseq_128_xsl_rr_64_random_r rng).1],
      (Native128.lua_pcg_setseq_128_xsl_rr_64_random_r rng).2)
  | .advance d => .ok ([], Native128.lua_pcg_setseq_128_advance_r rng d)
  | .boundedNext b =>
    match Native128.lua_pcg_setseq_128_xsl_rr_64_boundedrand_r fuel rng b with
    | .error e => .error e
    | .ok (r, rng1) => .ok ([r], rng1)

/-- One operation on the emulated 128-bit engine; `junk` is what the uninitialised locals of
`lua_pcg_setseq_128_xsl_rr_64_boundedrand_r` hold on entry. -/
def Emu128.run_op {α : Type} (B : U64Backend α) (fuel : Nat) (junk : α)
    (rng : Emu128.lua_pcg_state_setseq_128 α) :
    EngineOp (lua_pcg_u128 α) α → Except Fault (List α × Emu128.lua_pcg_state_setseq_128 α)
  | .seed s q => .ok ([], Emu128.lua_pcg_setseq_128_srandom_r B rng s q)
  | .step => .ok ([], Emu128.lua_pcg_setseq_128_step_r B rng)
  | .next => .ok ([(Emu128.lua_pcg_setseq_128_xsl_rr_64_random_r B rng).1],
      (Emu128.lua_pcg_setseq_128_xsl_rr_64_random_r B rng).2)
  | .advance d =>
    match Emu128.lua_pcg_setseq_128_advance_r B fuel rng d with
    | .error e => .error e
    | .ok rng1 => .ok ([], rng1)
  | .boundedNext b =>
    match Emu128.lua_pcg_setseq_128_xsl_rr_64_boundedrand_r B fuel rng b junk junk with
    | .error e => .error e
    | .ok (r, rng1) => .ok ([r], rng1)

/-! ## The passes of the bisection -/

namespace Emu64

open Emu128 in
/-- One pass of the body of the `do ... while (!found)` loop of the emulated `lua_pcg_u64_div`:
either the values stored in `*q` and `*r` by a branch that sets `found`, or the bounds `q_left`
and `q_right` that the next pass starts from. -/
def lua_pcg_u64_div_pass (_a _b q_left q_right : lua_pcg_u128 lua_pcg_u64) :
    (lua_pcg_u64 × lua_pcg_u64) ⊕ (lua_pcg_u128 lua_pcg_u64 × lua_pcg_u128 lua_pcg_u64) :=
  -- _q = (q_left + q_right) >> 1U
  let _q := lua_pcg_u128_rsh ops (lua_pcg_u128_sum ops q_left q_right) 1
  -- qb = _q * _b
  let qb := lua_pcg_u128_mul ops _q _b
  if lua_pcg_u128_eq ops qb _a then
    .inl (lua_pcg_u128_cast_to_u64 _q, lua_pcg_u64_lh 0 0)
  else if lua_pcg_u128_lt ops qb _a then
    if lua_pcg_u128_lt ops _a (lua_pcg_u128_sum ops qb _b) then
      .inl (lua_pcg_u128_cast_to_u64 _q,
        lua_pcg_u128_cast_to_u64 (lua_pcg_u128_subtraction ops _a qb))
    else
      .inr (_q, q_right)
  else
    .inr (q_left, _q)

/-- The bounds `(q_left, q_right)` at the start of pass number `n + 1` of the loop of the emulated
`lua_pcg_u64_div`, when the loop, started from the given bounds, makes that pass; `none` when it
has ended before (a specification device, not a function of the source). -/
def div_bounds (_a _b q_left q_right : lua_pcg_u128 lua_pcg_u64) :
    Nat → Option (lua_pcg_u128 lua_pcg_u64 × lua_pcg_u128 lua_pcg_u64)
  | 0 => some (q_left, q_right)
  | n + 1 =>
    match div_bounds _a _b q_left q_right n with
    | none => none
    | some (l, r) =>
      match lua_pcg_u64_div_pass _a _b l r with
      | .inl _ => none
      | .inr p => some p

end Emu64

/-! ## Arguments read from Lua: hexadecimal strings and byte tables

A `char` is given by its code in the ASCII execution character set (`'0'` is 48, `'A'` is 65,
`'X'` is 88, `'a'` is 97, `'x'` is 120), and a Lua string by the list of its characters.
`luaL_argcheck` and `luaL_error` do not return: the model ends with the error raised. -/

/-- Ways in which a modelled call of the argument parsers ends without a value. -/
inductive ParseFault where
  | arg_error (arg : Nat) (msg : String)
  | lua_error (msg : String) (position : Int)
  | out_of_bounds
  | out_of_fuel
deriving DecidableEq, Repr

/-- The function `lua_pcg_parse_hexdigit`: `c` is the character, `digit` the contents of
`*digit` before the call; the result is the returned `int` and the contents of `*digit` after. -/
def lua_pcg_parse_hexdigit (c digit : Nat) : Nat × Nat :=
  let p : Nat × Int :=
    -- case '0': ... case '9':
    if c = 48 ∨ c = 49 ∨ c = 50 ∨ c = 51 ∨ c = 52 ∨ c = 53 ∨ c = 54 ∨ c = 55 ∨ c = 56 ∨ c = 57 then
      let d : Int := (c : Int) - 48
      (if ¬ (0 ≤ d ∧ d ≤ 9) then 1 else 0, d)
    -- case 'a': ... case 'f':
    else if c = 97 ∨ c = 98 ∨ c = 99 ∨ c = 100 ∨ c = 101 ∨ c = 102 then
      let d : Int := (c : Int) - 97 + 0xA
      (if ¬ (0xA ≤ d ∧ d ≤ 0xF) then 1 else 0, d)
    -- case 'A': ... case 'F':
    else if c = 65 ∨ c = 66 ∨ c = 67 ∨ c = 68 ∨ c = 69 ∨ c = 70 then
      let d : Int := (c : Int) - 65 + 0xA
      (if ¬ (0xA ≤ d ∧ d ≤ 0xF) then 1 else 0, d)
    -- default: `d` is not set, and not read
    else (2, 0)
  if p.1 = 0 then (p.1, (p.2 % 4294967296).toNat) else (p.1, digit)

/-- The `while` loop of `lua_pcg_parse_u32_from_hexstring` on the state `(i, value, con, digit)`,
with `fuel` bounding the number of passes; it returns `(res, i, value, con)` as they stand when
the loop ends.  A read of `buff[i]` outside the string is reported as `out_of_bounds`. -/
def lua_pcg_parse_u32_from_hexstring_loop (buff : List Nat) (s : Int) :
    Nat → Int → Nat → Nat → Nat → Except ParseFault (Nat × Int × Nat × Nat)
  | 0, i, value, con, _ =>
    if i ≥ s ∧ con < 8 then .error .out_of_fuel else .ok (0, i, value, con)
  | fuel + 1, i, value, con, digit =>
    if i ≥ s ∧ con < 8 then
      match (if 0 ≤ i then buff.get? i.toNat else none) with
      | none => .error .out_of_bounds
      | some c =>
        let p := lua_pcg_parse_hexdigit c digit
        if p.1 = 0 then
          let con1 := wrap32 (con + 1)
          let value1 :=
            if con1 = 1 then value ||| p.2
            else value ||| wrap32 (p.2 <<< wrap32 (sub32 con1 1 <<< 2))
          lua_pcg_parse_u32_from_hexstring_loop buff s fuel (i - 1) value1 con1 p.2
        else .ok (p.1, i, value, con)
    else .ok (0, i, value, con)

/-- The function `lua_pcg_parse_u32_from_hexstring`.  The arguments `result`, `consumed` and
`failed_index` are the contents of `*result`, `*consumed` and `*failed_index` before the call,
`digit` what the uninitialised local holds; the value is the returned `int` with the contents of
`*result`, `*consumed` and `*failed_index` after the call. -/
def lua_pcg_parse_u32_from_hexstring (fuel : Nat) (buff : List Nat) (s e : Int)
    (result consumed : Nat) (failed_index : Int) (digit : Nat) :
    Except ParseFault (Nat × Nat × Nat × Int) :=
  if e < 0 ∨ e < s then .ok (3, result, consumed, e)
  else
    match lua_pcg_parse_u32_from_hexstring_loop buff s fuel e 0 0 digit with
    | .error f => .error f
    | .ok (res, i, value, con) =>
      if res = 0 then .ok (res, value, con, failed_index) else .ok (res, result, consumed, i)

/-- The `while (i >= 2)` loop of `lua_pcg_parse_u64_hex_arg` and of `lua_pcg_parse_u128_hex_arg`,
whose texts agree, on the state `(i, j, words, consumed, failed_index)`; `fuel` bounds the passes
of this loop and `call_fuel` those of the loop of each call it makes, `digit` is what the
uninitialised local of `lua_pcg_parse_u32_from_hexstring` holds.  The call is handed
`&(words[j])` and writes through it only when it returns 0: such a write with `j` outside
`words` is reported as `out_of_bounds`.  The value is the array `words` when the loop ends. -/
def lua_pcg_parse_hex_arg_loop (index : Nat) (s : List Nat) (digit call_fuel : Nat) :
    Nat → Int → Nat → List Nat → Nat → Int → Except ParseFault (List Nat)
  | 0, i, _, words, _, _ => if i ≥ 2 then .error .out_of_fuel else .ok words
  | fuel + 1, i, j, words, consumed, failed_index =>
    if i ≥ 2 then
      match lua_pcg_parse_u32_from_hexstring call_fuel s 2 i (words.getD j 0) consumed
          failed_index digit with
      | .error f => .error f
      | .ok (parse_status, result, consumed1, failed_index1) =>
        if parse_status = 0 then
          if j < words.length then
            lua_pcg_parse_hex_arg_loop index s digit call_fuel fuel (i - (consumed1 : Int)) (j + 1)
              (words.set j result) consumed1 failed_index1
          else .error .out_of_bounds
        else if parse_status = 1 then
          .error (.lua_error "Unxpected condition while parsing digit at position %d on argument #%d"
            (failed_index1 + 1))
        else if parse_status = 2 then
          .error (.lua_error "Position %d is not a digit on argument #%d" (failed_index1 + 1))
        else if parse_status = 3 then
          .error (.lua_error "Internal error (wrong string positions [%d, %d]). Report this issue to the team maintaining the lua-pcg library." i)
        else
          .error (.lua_error "Unknown digit conversion result at position %d on argument #%d"
            (failed_index1 + 1))
    else .ok words

/-- The function `lua_pcg_parse_u64_hex_arg`, for the string `s` that `luaL_checklstring` returns
for the argument at `index`; the first argument is the function `lua_pcg_u64_lh` of the
configuration, and `fuel` bounds the passes of each loop. -/
def lua_pcg_parse_u64_hex_arg {α : Type} (lua_pcg_u64_lh : Nat → Nat → α) (fuel index : Nat)
    (s : List Nat) (digit : Nat) : Except ParseFault α :=
  let len := s.length
  if ¬ (len ≥ 2) then .error (.arg_error index "Hex string too short.")
  else if ¬ (len ≤ 18) then .error (.arg_error index "Too many characters in the hex string.")
  else if ¬ (s.getD 0 0 = 48 ∧ (s.getD 1 0 = 120 ∨ s.getD 1 0 = 88)) then
    .error (.arg_error index "Hex prefix not found.")
  else
    -- memset((void *)words, 0, sizeof(words))
    let words := [0, 0]
    match lua_pcg_parse_hex_arg_loop index s digit fuel fuel ((len : Int) - 1) 0 words 0 (-1) with
    | .error f => .error f
    | .ok words1 => .ok (lua_pcg_u64_lh (words1.getD 0 0) (words1.getD 1 0))

/-- The function `lua_pcg_parse_u128_hex_arg`, for the string `s` that `luaL_checklstring`
returns for the argument at `index`; the first two arguments are the functions `lua_pcg_u64_lh`
and `lua_pcg_u128_lh` of the configuration, and `fuel` bounds the passes of each loop. -/
def lua_pcg_parse_u128_hex_arg {α β : Type} (lua_pcg_u64_lh : Nat → Nat → α)
    (lua_pcg_u128_lh : α → α → β) (fuel index : Nat) (s : List Nat) (digit : Nat) :
    Except ParseFault β :=
  let len := s.length
  if ¬ (len ≥ 2) then .error (.arg_error index "Hex string too short.")
  else if ¬ (len ≤ 34) then .error (.arg_error index "Too many characters in the hex string.")
  else if ¬ (s.getD 0 0 = 48 ∧ (s.getD 1 0 = 120 ∨ s.getD 1 0 = 88)) then
    .error (.arg_error index "Hex prefix not found.")
  else
    -- memset((void *)words, 0, sizeof(words))
    let words := [0, 0, 0, 0]
    match lua_pcg_parse_hex_arg_loop index s digit fuel fuel ((len : Int) - 1) 0 words 0 (-1) with
    | .error f => .error f
    | .ok words1 =>
      .ok (lua_pcg_u128_lh (lua_pcg_u64_lh (words1.getD 0 0) (words1.getD 1 0))
        (lua_pcg_u64_lh (words1.getD 2 0) (words1.getD 3 0)))

/-- A value found in a Lua table, as far as `lua_isinteger` tells: an integer, or anything
else (`nil` included). -/
inductive LuaValue where
  | integer (n : Int)
  | other
deriving DecidableEq, Repr

/-- The `for` loop of `lua_pcg_parse_u64_table_arg` on the state `(i, bits_to_shift, result)`,
for the table `t` given by its entries at the positions 1, 2, ...; `fuel` bounds the passes.
It is written over the 64-bit operations `O` of the configuration. -/
def lua_pcg_parse_u64_table_arg_loop {α : Type} (O : U64Ops α) (t : List LuaValue)
    (table_size : Nat) : Nat → Nat → Nat → α → Except ParseFault α
  | 0, i, _, result => if i ≤ table_size then .error .out_of_fuel else .ok result
  | fuel + 1, i, bits_to_shift, result =>
    if i ≤ table_size then
      -- lua_pushinteger(L, i); lua_gettable(L, -2)
      match t.getD (i - 1) .other with
      | .integer n =>
        if ¬ (0 ≤ n ∧ n ≤ 0xFF) then
          .error (.lua_error "integer is out of range at table position [%d]" i)
        else
          let element :=
            if i = 1 then O.lua_pcg_u64_lh (n % 4294967296).toNat 0
            else O.lua_pcg_u64_lsh (O.lua_pcg_u64_lh (n % 4294967296).toNat 0) bits_to_shift
          lua_pcg_parse_u64_table_arg_loop O t table_size fuel (i + 1) (wrap32 (bits_to_shift + 8))
            (O.lua_pcg_u64_bor result element)
      | .other => .error (.lua_error "integer expected at table position [%d]" i)
    else .ok result

/-- The function `lua_pcg_parse_u64_table_arg`, for an argument at `index` that is a table
whose length `lua_rawlen` is that of the list `t` of its entries (integers as `lua_isinteger`
sees them, Lua 5.3 or later). -/
def lua_pcg_parse_u64_table_arg {α : Type} (O : U64Ops α) (fuel index : Nat) (t : List LuaValue) :
    Except ParseFault α :=
  let result := O.lua_pcg_u64_lh 0 0
  let table_size := t.length
  if ¬ (table_size > 0) then .error (.arg_error index "empty table is not allowed")
  else
    let table_size := if table_size > 8 then 8 else table_size
    lua_pcg_parse_u64_table_arg_loop O t table_size fuel 1 0 result

/-- The value that a hexadecimal digit denotes, by its character code: `'0'`..`'9'` are 0..9,
`'a'`..`'f'` and `'A'`..`'F'` are 10..15; no other character is a digit (a specification
device, not a function of the source). -/
def hex_digit_value (c : Nat) : Option Nat :=
  if 48 ≤ c ∧ c ≤ 57 then some (c - 48)
  else if 97 ≤ c ∧ c ≤ 102 then some (c - 97 + 10)
  else if 65 ≤ c ∧ c ≤ 70 then some (c - 65 + 10)
  else none

/-- The number that a string of hexadecimal digits denotes, most significant digit first (a
specification device, not a function of the source). -/
def hex_string_value (digits : List Nat) : Nat :=
  digits.foldl (fun acc c => 16 * acc + (hex_digit_value c).getD 0) 0

/-- The number that a list of hexadecimal digits denotes, least significant digit first (a
specification device, not a function of the source). -/
def hex_le : List Nat → Nat
  | [] => 0
  | c :: cs => (hex_digit_value c).getD 0 + 16 * hex_le cs

/-- The number that a list of bytes denotes, least significant byte first (a specification
device, not a function of the source). -/
def bytes_le : List Nat → Nat
  | [] => 0
  | b :: bs => b + 256 * bytes_le bs

/-! # Theorems -/

set_option linter.unusedVariables false
set_option maxRecDepth 100000

/-! ## Casts and wrap-around -/

theorem lua_pcg_u64_cast_eq (x : Nat) : lua_pcg_u64_cast x = x % 2 ^ 64 := by
  have h := Nat.and_pow_two_sub_one_eq_mod x 64
  simpa [lua_pcg_u64_cast] using h

theorem lua_pcg_u32_cast_eq (x : Nat) : lua_pcg_u32_cast x = x % 2 ^ 32 := by
  have h := Nat.and_pow_two_sub_one_eq_mod x 32
  simpa [lua_pcg_u32_cast] using h

theorem lua_pcg_u16_cast_eq (x : Nat) : lua_pcg_u16_cast x = x % 2 ^ 16 := by
  have h := Nat.and_pow_two_sub_one_eq_mod x 16
  simpa [lua_pcg_u16_cast] using h

theorem wrap32_eq (x : Nat) : wrap32 x = x % 2 ^ 32 := by
  simp [wrap32]

theorem wrap64_eq (x : Nat) : wrap64 x = x % 2 ^ 64 := by
  simp [wrap64]

theorem wrap128_eq (x : Nat) : wrap128 x = x % 2 ^ 128 := by
  simp [wrap128]

/-- Two naturals have the same residue iff their casts into `ZMod n` agree. -/
theorem mod_eq_iff_zmod (n a b : Nat) : a % n = b % n ↔ (a : ZMod n) = (b : ZMod n) :=
  (ZMod.natCast_eq_natCast_iff' a b n).symm

/-- Iterating `g` is iterating `g ∘ g` half as often, after one extra `g` for an odd count. -/
theorem iterate_halve {α : Type} (g g2 : α → α) (hg : ∀ y, g2 y = g (g y)) (d : Nat) (z : α) :
    g^[d] z = g2^[d / 2] (if d % 2 = 1 then g z else z) := by
  have h2 : g2 = g^[2] := by
    funext y
    simp [hg]
  have hd : d = 2 * (d / 2) + d % 2 := by omega
  conv_lhs => rw [hd]
  rw [Function.iterate_add_apply, Function.iterate_mul, h2]
  rcases Nat.mod_two_eq_zero_or_one d with h | h <;> simp [h]

/-! ## Jump-ahead over native integers -/

namespace Native64

/-- Loop invariant of `lua_pcg_advance_lcg_64`: the accumulated affine map, applied to `x`, is
`delta` applications of `y ↦ cur_mult * y + cur_plus` to the value accumulated so far. -/
theorem advance_64_loop_spec (W : Nat) (hW : W = 2 ^ 64) (delta : Nat) :
    ∀ cm cp am ap x : Nat,
      ((lua_pcg_advance_lcg_64_loop delta cm cp am ap).1 * x
          + (lua_pcg_advance_lcg_64_loop delta cm cp am ap).2) % W
        = (fun y => (cm * y + cp) % W)^[delta] ((am * x + ap) % W) := by
  induction delta using Nat.strong_induction_on with
  | _ delta ih =>
    intro cm cp am ap x
    rw [lua_pcg_advance_lcg_64_loop]
    by_cases hd : delta > 0
    · simp only [hd, dite_true]
      have hlt : delta >>> 1 < delta := by
        simp only [Nat.shiftRight_eq_div_pow]
        omega
      rw [ih _ hlt]
      rw [iterate_halve (fun y => (cm * y + cp) % W)
        (fun y => (lua_pcg_u64_cast (wrap64 (cm * cm)) * y
          + lua_pcg_u64_cast (wrap64 (wrap64 (cm + 1) * cp))) % W) _ delta]
      · have hsh : delta >>> 1 = delta / 2 := by simp [Nat.shiftRight_eq_div_pow]
        rw [hsh]
        congr 1
        simp only [Nat.and_one_is_mod, lua_pcg_u64_cast_eq, wrap64_eq, ← hW]
        rcases Nat.mod_two_eq_zero_or_one delta with h | h
        · simp [h]
        · simp only [h, ne_eq, one_ne_zero, not_false_eq_true, if_true]
          rw [mod_eq_iff_zmod]
          simp only [Nat.cast_add, Nat.cast_mul, ZMod.natCast_mod]
          ring
      · intro y
        simp only [lua_pcg_u64_cast_eq, wrap64_eq, ← hW]
        rw [mod_eq_iff_zmod]
        simp only [Nat.cast_add, Nat.cast_mul, ZMod.natCast_mod, Nat.cast_one]
        ring
    · have h0 : delta = 0 := by omega
      subst h0
      simp

/-- Iterating `lua_pcg_setseq_64_step_r` iterates the recurrence on the state and keeps `inc`. -/
theorem step_64_iterate (rng : lua_pcg_state_setseq_64) (n : Nat) :
    lua_pcg_setseq_64_step_r^[n] rng =
      { state := (fun y => (LUA_PCG_DEFAULT_MULTIPLIER_64 * y + rng.inc) % 2 ^ 64)^[n] rng.state,
        inc := rng.inc } := by
  induction n with
  | zero => rfl
  | succ n ih =>
    rw [Function.iterate_succ_apply', Function.iterate_succ_apply', ih]
    simp only [lua_pcg_setseq_64_step_r, lua_pcg_u64_cast_eq, wrap64_eq]
    congr 1
    rw [Nat.mod_mod, mod_eq_iff_zmod]
    simp only [Nat.cast_add, Nat.cast_mul, ZMod.natCast_mod]
    ring

/-- The jump-ahead of the 32-bit-output engine is `delta` steps. -/
theorem advance_64_eq_iterate (rng : lua_pcg_state_setseq_64) (delta : Nat) (hs : rng.state < 2 ^ 64) :
    lua_pcg_setseq_64_advance_r rng delta = lua_pcg_setseq_64_step_r^[delta] rng := by
  rw [step_64_iterate]
  simp only [lua_pcg_setseq_64_advance_r, lua_pcg_advance_lcg_64, lua_pcg_u64_cast_eq, wrap64_eq]
  congr 1
  have h := advance_64_loop_spec (2 ^ 64) rfl delta LUA_PCG_DEFAULT_MULTIPLIER_64 rng.inc 1 0 rng.state
  simp only [one_mul, add_zero, Nat.mod_eq_of_lt hs] at h
  rw [← h, Nat.mod_mod, mod_eq_iff_zmod]
  simp only [Nat.cast_add, Nat.cast_mul, ZMod.natCast_mod]

theorem step_64_state_lt (rng : lua_pcg_state_setseq_64) : (lua_pcg_setseq_64_step_r rng).state < 2 ^ 64 := by
  simp only [lua_pcg_setseq_64_step_r, lua_pcg_u64_cast_eq]
  exact Nat.mod_lt _ (by norm_num)

theorem step_64_inc (rng : lua_pcg_state_setseq_64) : (lua_pcg_setseq_64_step_r rng).inc = rng.inc := rfl

theorem srandom_64_state_lt (rng : lua_pcg_state_setseq_64) (initstate initseq : Nat) :
    (lua_pcg_setseq_64_srandom_r rng initstate initseq).state < 2 ^ 64 := by
  simp only [lua_pcg_setseq_64_srandom_r]
  exact step_64_state_lt _

/-- Successive draws step the engine: after `n` calls of `random_r` the engine is `n` steps on. -/
theorem after_draws_64_eq (rng : lua_pcg_state_setseq_64) (n : Nat) :
    after_draws n rng = lua_pcg_setseq_64_step_r^[n] rng := by
  rfl

end Native64

namespace Native128

/-- Loop invariant of the native `lua_pcg_advance_lcg_128`. -/
theorem advance_128_loop_spec (W : Nat) (hW : W = 2 ^ 128) (delta : Nat) :
    ∀ cm cp am ap x : Nat,
      ((lua_pcg_advance_lcg_128_loop delta cm cp am ap).1 * x
          + (lua_pcg_advance_lcg_128_loop delta cm cp am ap).2) % W
        = (fun y => (cm * y + cp) % W)^[delta] ((am * x + ap) % W) := by
  induction delta using Nat.strong_induction_on with
  | _ delta ih =>
    intro cm cp am ap x
    rw [lua_pcg_advance_lcg_128_loop]
    by_cases hd : delta > 0
    · simp only [hd, dite_true]
      have hlt : delta >>> 1 < delta := by
        simp only [Nat.shiftRight_eq_div_pow]
        omega
      rw [ih _ hlt]
      rw [iterate_halve (fun y => (cm * y + cp) % W)
        (fun y => (wrap128 (cm * cm) * y + wrap128 (wrap128 (cm + 1) * cp)) % W) _ delta]
      · have hsh : delta >>> 1 = delta / 2 := by simp [Nat.shiftRight_eq_div_pow]
        rw [hsh]
        congr 1
        simp only [Nat.and_one_is_mod, wrap128_eq, ← hW]
        rcases Nat.mod_two_eq_zero_or_one delta with h | h
        · simp [h]
        · simp only [h, ne_eq, one_ne_zero, not_false_eq_true, if_true]
          rw [mod_eq_iff_zmod]
          simp only [Nat.cast_add, Nat.cast_mul, ZMod.natCast_mod]
          ring
      · intro y
        simp only [wrap128_eq, ← hW]
        rw [mod_eq_iff_zmod]
        simp only [Nat.cast_add, Nat.cast_mul, ZMod.natCast_mod, Nat.cast_one]
        ring
    · have h0 : delta = 0 := by omega
      subst h0
      simp

/-- Iterating `lua_pcg_setseq_128_step_r` iterates the recurrence on the state and keeps `inc`. -/
theorem step_128_iterate (rng : lua_pcg_state_setseq_128) (n : Nat) :
    lua_pcg_setseq_128_step_r^[n] rng =
      { state := (fun y => (LUA_PCG_DEFAULT_MULTIPLIER_128 * y + rng.inc) % 2 ^ 128)^[n] rng.state,
        inc := rng.inc } := by
  induction n with
  | zero => rfl
  | succ n ih =>
    rw [Function.iterate_succ_apply', Function.iterate_succ_apply', ih]
    simp only [lua_pcg_setseq_128_step_r, wrap128_eq]
    congr 1
    rw [mod_eq_iff_zmod]
    simp only [Nat.cast_add, Nat.cast_mul, ZMod.natCast_mod]
    ring

/-- The jump-ahead of the native 64-bit-output engine is `delta` steps. -/
theorem advance_128_eq_iterate (rng : lua_pcg_state_setseq_128) (delta : Nat) (hs : rng.state < 2 ^ 128) :
    lua_pcg_setseq_128_advance_r rng delta = lua_pcg_setseq_128_step_r^[delta] rng := by
  rw [step_128_iterate]
  simp only [lua_pcg_setseq_128_advance_r, lua_pcg_advance_lcg_128, wrap128_eq]
  congr 1
  have h := advance_128_loop_spec (2 ^ 128) rfl delta LUA_PCG_DEFAULT_MULTIPLIER_128 rng.inc 1 0 rng.state
  simp only [one_mul, add_zero, Nat.mod_eq_of_lt hs] at h
  rw [← h, mod_eq_iff_zmod]
  simp only [Nat.cast_add, Nat.cast_mul, ZMod.natCast_mod]

theorem step_128_state_lt (rng : lua_pcg_state_setseq_128) : (lua_pcg_setseq_128_step_r rng).state < 2 ^ 128 := by
  simp only [lua_pcg_setseq_128_step_r, wrap128_eq]
  exact Nat.mod_lt _ (by norm_num)

theorem srandom_128_state_lt (rng : lua_pcg_state_setseq_128) (initstate initseq : Nat) :
    (lua_pcg_setseq_128_srandom_r rng initstate initseq).state < 2 ^ 128 := by
  simp only [lua_pcg_setseq_128_srandom_r]
  exact step_128_state_lt _

/-- Successive draws step the engine: after `n` calls of `random_r` the engine is `n` steps on. -/
theorem after_draws_128_eq (rng : lua_pcg_state_setseq_128) (n : Nat) :
    after_draws n rng = lua_pcg_setseq_128_step_r^[n] rng := by
  rfl

end Native128

/-! ## Claims -/

/-- C1: on the native 64-bit engine, `lua_pcg_setseq_64_advance_r` with any `delta` leaves the
engine exactly as `delta` successive calls of `lua_pcg_setseq_64_step_r` do, for every 64-bit
state and any increment; the increment is unchanged. -/
theorem C1_advance_64_eq_steps (rng : Native64.lua_pcg_state_setseq_64) (delta : Nat)
    (hs : rng.state < 2 ^ 64) :
    Native64.lua_pcg_setseq_64_advance_r rng delta = Native64.lua_pcg_setseq_64_step_r^[delta] rng
    ∧ (Native64.lua_pcg_setseq_64_advance_r rng delta).inc = rng.inc :=
  ⟨Native64.advance_64_eq_iterate rng delta hs, rfl⟩

/-- Witness of C1 at the engine seeded with (42, 54) and the largest 64-bit `delta`. -/
theorem C1_advance_64_eq_steps_witness :
    (Native64.lua_pcg_setseq_64_srandom_r ⟨0, 0⟩ 42 54).state < 2 ^ 64
    ∧ (Native64.lua_pcg_setseq_64_advance_r (Native64.lua_pcg_setseq_64_srandom_r ⟨0, 0⟩ 42 54)
          (2 ^ 64 - 1)
        = Native64.lua_pcg_setseq_64_step_r^[2 ^ 64 - 1] (Native64.lua_pcg_setseq_64_srandom_r ⟨0, 0⟩ 42 54)
      ∧ (Native64.lua_pcg_setseq_64_advance_r (Native64.lua_pcg_setseq_64_srandom_r ⟨0, 0⟩ 42 54)
          (2 ^ 64 - 1)).inc = (Native64.lua_pcg_setseq_64_srandom_r ⟨0, 0⟩ 42 54).inc) :=
  ⟨by decide, C1_advance_64_eq_steps _ _ (by decide)⟩

/-- C4: after seeding the native 64-bit engine with `initstate = 42` and `initseq = 54`, the first
output of `lua_pcg_setseq_64_xsh_rr_32_random_r` is `0xA15C02B7`, whatever the engine held before. -/
theorem C4_reference_vector_pcg32 (prior : Native64.lua_pcg_state_setseq_64) :
    (Native64.lua_pcg_setseq_64_xsh_rr_32_random_r
      (Native64.lua_pcg_setseq_64_srandom_r prior 42 54)).1 = 0xA15C02B7 := by
  have h : Native64.lua_pcg_setseq_64_srandom_r prior 42 54
      = Native64.lua_pcg_setseq_64_srandom_r ⟨0, 0⟩ 42 54 := rfl
  rw [h]
  decide

/-- C6: with `b = 0`, `lua_pcg_u64_div` returns the failure code 1 and leaves `*q` and `*r` as they
were, in the emulated variant (for every budget of loop passes) and in the native variant. -/
theorem C6_div_by_zero_fails :
    (∀ (fuel : Nat) (a q r : Emu64.lua_pcg_u64),
      Emu64.lua_pcg_u64_div fuel a ⟨0, 0⟩ q r = .ok (1, q, r))
    ∧ (∀ a q r : Nat, Native64.lua_pcg_u64_div a 0 q r = .ok (1, q, r)) := by
  constructor
  · intro fuel a q r
    rfl
  · intro a q r
    rfl

namespace Native64

/-- The rejection loop returns exactly the first draw that is not below the threshold, provided
it comes within the budget of draws. -/
theorem boundedrand_32_loop_spec (fuel : Nat) :
    ∀ (rng : lua_pcg_state_setseq_64) (threshold r : Nat) (rng1 : lua_pcg_state_setseq_64),
      lua_pcg_setseq_64_xsh_rr_32_boundedrand_r_loop fuel rng threshold = .ok (r, rng1)
      ↔ ∃ n, n < fuel ∧ (∀ k, k < n → nth_draw rng k < threshold) ∧ threshold ≤ nth_draw rng n
          ∧ r = nth_draw rng n ∧ rng1 = after_draws (n + 1) rng := by
  induction fuel with
  | zero =>
    intro rng threshold r rng1
    simp [lua_pcg_setseq_64_xsh_rr_32_boundedrand_r_loop]
  | succ fuel ih =>
    intro rng threshold r rng1
    rw [lua_pcg_setseq_64_xsh_rr_32_boundedrand_r_loop]
    by_cases h : (lua_pcg_setseq_64_xsh_rr_32_random_r rng).1 < threshold
    · simp only [h, if_true]
      rw [ih]
      constructor
      · rintro ⟨n, hn, hlt, hge, hr, hrng⟩
        refine ⟨n + 1, by omega, ?_, hge, hr, hrng⟩
        intro k hk
        cases k with
        | zero => exact h
        | succ k => exact hlt k (by omega)
      · rintro ⟨n, hn, hlt, hge, hr, hrng⟩
        cases n with
        | zero =>
          exfalso
          have : nth_draw rng 0 < threshold := h
          omega
        | succ n =>
          refine ⟨n, by omega, ?_, hge, hr, hrng⟩
          intro k hk
          exact hlt (k + 1) (by omega)
    · simp only [h, if_false]
      constructor
      · intro heq
        injection heq with heq
        injection heq with h1 h2
        refine ⟨0, by omega, ?_, ?_, h1.symm, h2.symm⟩
        · intro k hk
          omega
        · exact Nat.le_of_not_lt h
      · rintro ⟨n, hn, hlt, hge, hr, hrng⟩
        cases n with
        | zero =>
          rw [hr, hrng]
          rfl
        | succ n =>
          exfalso
          exact h (hlt 0 (by omega))

/-- The rejection loop fails only by exhausting its budget of draws. -/
theorem boundedrand_32_loop_error (fuel : Nat) :
    ∀ (rng : lua_pcg_state_setseq_64) (threshold : Nat) (e : Fault),
      lua_pcg_setseq_64_xsh_rr_32_boundedrand_r_loop fuel rng threshold = .error e → e = .out_of_fuel := by
  induction fuel with
  | zero =>
    intro rng threshold e h
    simp only [lua_pcg_setseq_64_xsh_rr_32_boundedrand_r_loop] at h
    injection h with h
    exact h.symm
  | succ fuel ih =>
    intro rng threshold e h
    rw [lua_pcg_setseq_64_xsh_rr_32_boundedrand_r_loop] at h
    by_cases hlt : (lua_pcg_setseq_64_xsh_rr_32_random_r rng).1 < threshold
    · simp only [hlt, if_true] at h
      exact ih _ _ _ h
    · simp only [hlt, if_false] at h
      cases h

end Native64

/-- C7: for a bound in `[1, 2^32 - 1]`, `lua_pcg_setseq_64_xsh_rr_32_boundedrand_r` returns the value
`v` and leaves the engine `rng1` exactly when `v = r mod bound`, where `r` is the first of the
successive raw outputs that is not below `threshold = ((2^32 - bound) mod 2^32) mod bound` (found
within the budget of draws), and `rng1` is the engine after that draw; whenever it returns, the
value lies in `[0, bound)`. -/
theorem C7_boundedrand_32_result (fuel : Nat) (rng rng1 : Native64.lua_pcg_state_setseq_64)
    (bound v : Nat) (h1 : 1 ≤ bound) (h2 : bound ≤ 2 ^ 32 - 1) :
    (Native64.lua_pcg_setseq_64_xsh_rr_32_boundedrand_r fuel rng bound = .ok (v, rng1)
      ↔ ∃ n, n < fuel
        ∧ (∀ k, k < n → Native64.nth_draw rng k < ((2 ^ 32 - bound) % 2 ^ 32) % bound)
        ∧ ((2 ^ 32 - bound) % 2 ^ 32) % bound ≤ Native64.nth_draw rng n
        ∧ v = Native64.nth_draw rng n % bound
        ∧ rng1 = Native64.after_draws (n + 1) rng)
    ∧ (Native64.lua_pcg_setseq_64_xsh_rr_32_boundedrand_r fuel rng bound = .ok (v, rng1) → v < bound) := by
  have hb : lua_pcg_u32_cast bound = bound := by
    rw [lua_pcg_u32_cast_eq]
    exact Nat.mod_eq_of_lt (by omega)
  have hthr : neg32 bound % bound = ((2 ^ 32 - bound) % 2 ^ 32) % bound := by
    simp only [neg32, wrap32_eq]
    rw [Nat.mod_eq_of_lt (show bound < 2 ^ 32 by omega)]
    norm_num
  have key : Native64.lua_pcg_setseq_64_xsh_rr_32_boundedrand_r fuel rng bound = .ok (v, rng1)
      ↔ ∃ n, n < fuel
        ∧ (∀ k, k < n → Native64.nth_draw rng k < ((2 ^ 32 - bound) % 2 ^ 32) % bound)
        ∧ ((2 ^ 32 - bound) % 2 ^ 32) % bound ≤ Native64.nth_draw rng n
        ∧ v = Native64.nth_draw rng n % bound
        ∧ rng1 = Native64.after_draws (n + 1) rng := by
    simp only [Native64.lua_pcg_setseq_64_xsh_rr_32_boundedrand_r, hb]
    rw [if_neg (by omega), hthr]
    cases hloop : Native64.lua_pcg_setseq_64_xsh_rr_32_boundedrand_r_loop fuel rng
        (((2 ^ 32 - bound) % 2 ^ 32) % bound) with
    | error e =>
      constructor
      · intro hret
        cases hret
      · rintro ⟨n, hn, hlt, hge, hv, hrng⟩
        have h := (Native64.boundedrand_32_loop_spec fuel rng _ (Native64.nth_draw rng n)
          (Native64.after_draws (n + 1) rng)).mpr ⟨n, hn, hlt, hge, rfl, rfl⟩
        rw [hloop] at h
        cases h
    | ok p =>
      obtain ⟨r, rng2⟩ := p
      obtain ⟨n, hn, hlt, hge, hr, hrng2⟩ := (Native64.boundedrand_32_loop_spec fuel rng _ r rng2).mp hloop
      constructor
      · intro hret
        injection hret with hret
        injection hret with hv hrng
        exact ⟨n, hn, hlt, hge, by rw [← hv, hr], by rw [← hrng, hrng2]⟩
      · rintro ⟨m, hm, hlt2, hge2, hv, hrng⟩
        have hmn : m = n := by
          rcases Nat.lt_trichotomy m n with hlt3 | heq | hgt
          · have := hlt m hlt3
            omega
          · exact heq
          · have := hlt2 n hgt
            omega
        subst hmn
        rw [hv, hrng, hr, hrng2]
  refine ⟨key, fun hret => ?_⟩
  obtain ⟨n, _, _, _, hv, _⟩ := key.mp hret
  rw [hv]
  exact Nat.mod_lt _ (by omega)

/-- Witness of C7: the engine seeded with (42, 54), the bound 6 and a budget of one draw. -/
theorem C7_boundedrand_32_result_witness :
    1 ≤ 6 ∧ 6 ≤ 2 ^ 32 - 1
    ∧ Native64.lua_pcg_setseq_64_xsh_rr_32_boundedrand_r 1
        (Native64.lua_pcg_setseq_64_srandom_r ⟨0, 0⟩ 42 54) 6
      = .ok (3, Native64.lua_pcg_setseq_64_step_r (Native64.lua_pcg_setseq_64_srandom_r ⟨0, 0⟩ 42 54))
    ∧ 3 < 6 :=
  ⟨by decide, by decide, by rfl,
    (C7_boundedrand_32_result 1 (Native64.lua_pcg_setseq_64_srandom_r ⟨0, 0⟩ 42 54)
      (Native64.lua_pcg_setseq_64_step_r (Native64.lua_pcg_setseq_64_srandom_r ⟨0, 0⟩ 42 54)) 6 3
      (by decide) (by decide)).2 (by rfl)⟩

/-- C10: a zero bound given to the one-argument form of `lua_pcg_pcg32_next` is rejected by its
argument check, with an argument error and before `lua_pcg_setseq_64_xsh_rr_32_boundedrand_r` is
called; the same holds for every bound outside `[1, 4294967295]`, and for no bound does this call
evaluate a modulo by zero.  The function `lua_pcg_setseq_64_xsh_rr_32_boundedrand_r` itself makes
no check: with a bound whose low 32 bits are zero, the bound 0 in particular, it evaluates
`(-safebound) % safebound` with a zero right operand before its loop, for every engine and every
budget, with a native and with an emulated `lua_pcg_u64`; this is a division by zero, not an
argument error, and no value is returned. -/
theorem C10_pcg32_next_zero_bound (fuel : Nat) (rng : Native64.lua_pcg_state_setseq_64) :
    Native64.lua_pcg_pcg32_next fuel rng [0]
      = .error (.arg_error 2 "bound is out of [1, 4294967295] range")
    ∧ (∀ a : Int, ¬ (0 < a ∧ a ≤ 4294967295) →
        Native64.lua_pcg_pcg32_next fuel rng [a]
          = .error (.arg_error 2 "bound is out of [1, 4294967295] range"))
    ∧ (∀ a : Int, Native64.lua_pcg_pcg32_next fuel rng [a] ≠ .error .division_by_zero)
    ∧ (∀ a : Int, 0 < a ∧ a ≤ 4294967295 →
        Native64.lua_pcg_pcg32_next fuel rng [a]
          = (Native64.lua_pcg_setseq_64_xsh_rr_32_boundedrand_r fuel rng a.toNat).map
              (fun p => ((p.1 : Int), p.2)))
    ∧ (∀ bound : Nat, lua_pcg_u32_cast bound = 0 →
        Native64.lua_pcg_setseq_64_xsh_rr_32_boundedrand_r fuel rng bound
          = .error .division_by_zero)
    ∧ Native64.lua_pcg_setseq_64_xsh_rr_32_boundedrand_r fuel rng 0 = .error .division_by_zero
    ∧ (∀ (arg : Nat) (msg : String),
        Native64.lua_pcg_setseq_64_xsh_rr_32_boundedrand_r fuel rng 0 ≠ .error (.arg_error arg msg))
    ∧ (∀ p, Native64.lua_pcg_setseq_64_xsh_rr_32_boundedrand_r fuel rng 0 ≠ .ok p)
    ∧ (∀ (erng : Emu64.lua_pcg_state_setseq_64) (bound : Nat), lua_pcg_u32_cast bound = 0 →
        Emu64.lua_pcg_setseq_64_xsh_rr_32_boundedrand_r fuel erng bound
          = .error .division_by_zero) := by
  have hcast : ∀ a : Int, 0 < a ∧ a ≤ 4294967295 → Native64.lua_pcg_u32_cast_int a = a.toNat := by
    intro a ha
    simp only [Native64.lua_pcg_u32_cast_int]
    congr 1
    omega
  have hin : ∀ a : Int, 0 < a ∧ a ≤ 4294967295 →
      Native64.lua_pcg_pcg32_next fuel rng [a]
        = (Native64.lua_pcg_setseq_64_xsh_rr_32_boundedrand_r fuel rng a.toNat).map
            (fun p => ((p.1 : Int), p.2)) := by
    intro a ha
    simp only [Native64.lua_pcg_pcg32_next]
    rw [if_neg (by simpa using ha), hcast a ha]
    cases Native64.lua_pcg_setseq_64_xsh_rr_32_boundedrand_r fuel rng a.toNat with
    | error e => rfl
    | ok p => rfl
  have hout : ∀ a : Int, ¬ (0 < a ∧ a ≤ 4294967295) →
      Native64.lua_pcg_pcg32_next fuel rng [a]
        = .error (.arg_error 2 "bound is out of [1, 4294967295] range") := by
    intro a ha
    simp only [Native64.lua_pcg_pcg32_next]
    rw [if_pos (by simpa using ha)]
  have hcore : ∀ bound : Nat, lua_pcg_u32_cast bound = 0 →
      Native64.lua_pcg_setseq_64_xsh_rr_32_boundedrand_r fuel rng bound
        = .error .division_by_zero := by
    intro bound hz
    simp only [Native64.lua_pcg_setseq_64_xsh_rr_32_boundedrand_r]
    rw [if_pos hz]
  have hzero : lua_pcg_u32_cast 0 = 0 := by decide
  have hcore0 := hcore 0 hzero
  refine ⟨hout 0 (by omega), hout, ?_, hin, hcore, hcore0, ?_, ?_, ?_⟩
  · intro a
    by_cases ha : 0 < a ∧ a ≤ 4294967295
    · rw [hin a ha]
      have hb : lua_pcg_u32_cast a.toNat = a.toNat := by
        rw [lua_pcg_u32_cast_eq]
        exact Nat.mod_eq_of_lt (by omega)
      simp only [Native64.lua_pcg_setseq_64_xsh_rr_32_boundedrand_r, hb]
      rw [if_neg (by omega)]
      cases hloop : Native64.lua_pcg_setseq_64_xsh_rr_32_boundedrand_r_loop fuel rng
          (neg32 a.toNat % a.toNat) with
      | error e =>
        have : e = .out_of_fuel := Native64.boundedrand_32_loop_error fuel rng _ e hloop
        subst this
        simp [Except.map]
      | ok p => simp [Except.map]
    · rw [hout a ha]
      simp
  · intro arg msg h
    rw [hcore0] at h
    cases h
  · intro p h
    rw [hcore0] at h
    cases h
  · intro erng bound hz
    simp only [Emu64.lua_pcg_setseq_64_xsh_rr_32_boundedrand_r]
    rw [if_pos hz]

/-- C10, counterexample: `lua_pcg_setseq_64_xsh_rr_32_boundedrand_r` called with `bound = 0` on
the engine seeded with (42, 54) does not reject the bound with an argument error: it reaches
`(-safebound) % safebound` with `safebound = 0`, a division by zero, with a native and with an
emulated `lua_pcg_u64`. -/
theorem C10_core_zero_bound_divides :
    Native64.lua_pcg_setseq_64_xsh_rr_32_boundedrand_r 1
        (Native64.lua_pcg_setseq_64_srandom_r ⟨0, 0⟩ 42 54) 0 = .error .division_by_zero
    ∧ (¬ ∃ (arg : Nat) (msg : String),
        Native64.lua_pcg_setseq_64_xsh_rr_32_boundedrand_r 1
          (Native64.lua_pcg_setseq_64_srandom_r ⟨0, 0⟩ 42 54) 0 = .error (.arg_error arg msg))
    ∧ Emu64.lua_pcg_setseq_64_xsh_rr_32_boundedrand_r 1
        (Emu64.lua_pcg_setseq_64_srandom_r ⟨⟨0, 0⟩, ⟨0, 0⟩⟩ ⟨42, 0⟩ ⟨54, 0⟩) 0
      = .error .division_by_zero := by
  have h : Native64.lua_pcg_setseq_64_xsh_rr_32_boundedrand_r 1
      (Native64.lua_pcg_setseq_64_srandom_r ⟨0, 0⟩ 42 54) 0 = .error .division_by_zero := rfl
  refine ⟨h, ?_, rfl⟩
  rintro ⟨arg, msg, he⟩
  rw [h] at he
  cases he

/-! ## Laws of the emulated 64-bit operations -/

namespace Emu64

theorem val64_lt (a : lua_pcg_u64) (h : wf64 a) : val64 a < 2 ^ 64 := by
  obtain ⟨h1, h2⟩ := h
  simp only [val64]
  omega

theorem val64_inj (a b : lua_pcg_u64) (ha : wf64 a) (hb : wf64 b) (h : val64 a = val64 b) : a = b := by
  obtain ⟨h1, h2⟩ := ha
  obtain ⟨h3, h4⟩ := hb
  cases a
  cases b
  simp only [val64] at *
  congr 1 <;> omega

theorem lh_wf64 (l h : Nat) : wf64 (lua_pcg_u64_lh l h) := by
  simp only [wf64, lua_pcg_u64_lh, lua_pcg_u32_cast_eq]
  exact ⟨Nat.mod_lt _ (by norm_num), Nat.mod_lt _ (by norm_num)⟩

theorem lh_val64 (l h : Nat) : val64 (lua_pcg_u64_lh l h) = l % 2 ^ 32 + 2 ^ 32 * (h % 2 ^ 32) := by
  simp only [val64, lua_pcg_u64_lh, lua_pcg_u32_cast_eq]

theorem clone_eq64 (a : lua_pcg_u64) (h : wf64 a) : lua_pcg_u64_clone a = a := by
  obtain ⟨h1, h2⟩ := h
  cases a
  simp only [lua_pcg_u64_clone, lua_pcg_u64_lh, lua_pcg_u32_cast_eq] at *
  rw [Nat.mod_eq_of_lt h1, Nat.mod_eq_of_lt h2]

theorem sum_wf64 (a b : lua_pcg_u64) : wf64 (lua_pcg_u64_sum a b) := by
  simp only [lua_pcg_u64_sum, lua_pcg_u64_lh, lua_pcg_u32_cast_eq, wrap32_eq]
  split
  · simp only [wf64]
    exact ⟨Nat.mod_lt _ (by norm_num), Nat.mod_lt _ (by norm_num)⟩
  · simp only [wf64]
    exact ⟨Nat.mod_lt _ (by norm_num), Nat.mod_lt _ (by norm_num)⟩

theorem sum_val64 (a b : lua_pcg_u64) (ha : wf64 a) (hb : wf64 b) :
    val64 (lua_pcg_u64_sum a b) = (val64 a + val64 b) % 2 ^ 64 := by
  obtain ⟨h1, h2⟩ := ha
  obtain ⟨h3, h4⟩ := hb
  simp only [lua_pcg_u64_sum, lua_pcg_u64_lh, lua_pcg_u32_cast_eq, wrap32_eq]
  split
  · rename_i hc
    simp only [val64]
    omega
  · rename_i hc
    simp only [val64]
    omega

theorem lt_iff64 (a b : lua_pcg_u64) (ha : wf64 a) (hb : wf64 b) :
    lua_pcg_u64_lt a b = true ↔ val64 a < val64 b := by
  obtain ⟨h1, h2⟩ := ha
  obtain ⟨h3, h4⟩ := hb
  simp only [lua_pcg_u64_lt, val64, Bool.or_eq_true, Bool.and_eq_true, decide_eq_true_eq]
  omega

theorem gt_iff64 (a b : lua_pcg_u64) (ha : wf64 a) (hb : wf64 b) :
    lua_pcg_u64_gt a b = true ↔ val64 b < val64 a := by
  obtain ⟨h1, h2⟩ := ha
  obtain ⟨h3, h4⟩ := hb
  simp only [lua_pcg_u64_gt, val64, Bool.or_eq_true, Bool.and_eq_true, decide_eq_true_eq]
  omega

theorem eq_iff64 (a b : lua_pcg_u64) (ha : wf64 a) (hb : wf64 b) :
    lua_pcg_u64_eq a b = true ↔ val64 a = val64 b := by
  obtain ⟨h1, h2⟩ := ha
  obtain ⟨h3, h4⟩ := hb
  simp only [lua_pcg_u64_eq, val64, Bool.and_eq_true, decide_eq_true_eq]
  omega

end Emu64

/-! ## Arithmetic of two-limb values -/

/-- Bit `j` of a two-limb value is a bit of the low limb or a bit of the high limb. -/
theorem testBit_limbs (w x y j : Nat) (hx : x < 2 ^ w) :
    (x + 2 ^ w * y).testBit j = if j < w then x.testBit j else y.testBit (j - w) := by
  rw [Nat.add_comm]
  exact Nat.testBit_mul_pow_two_add y hx j

theorem xor_limbs (w x y x1 y1 : Nat) (hx : x < 2 ^ w) (hx1 : x1 < 2 ^ w) :
    (x + 2 ^ w * y) ^^^ (x1 + 2 ^ w * y1) = (x ^^^ x1) + 2 ^ w * (y ^^^ y1) := by
  apply Nat.eq_of_testBit_eq
  intro j
  rw [Nat.testBit_xor, testBit_limbs w x y j hx, testBit_limbs w x1 y1 j hx1,
    testBit_limbs w _ _ j (Nat.xor_lt_two_pow hx hx1)]
  split <;> simp [Nat.testBit_xor]

theorem and_limbs (w x y x1 y1 : Nat) (hx : x < 2 ^ w) (hx1 : x1 < 2 ^ w) :
    (x + 2 ^ w * y) &&& (x1 + 2 ^ w * y1) = (x &&& x1) + 2 ^ w * (y &&& y1) := by
  apply Nat.eq_of_testBit_eq
  intro j
  rw [Nat.testBit_and, testBit_limbs w x y j hx, testBit_limbs w x1 y1 j hx1,
    testBit_limbs w _ _ j (Nat.and_lt_two_pow x hx1)]
  split <;> simp [Nat.testBit_and]

theorem or_limbs (w x y x1 y1 : Nat) (hx : x < 2 ^ w) (hx1 : x1 < 2 ^ w) :
    (x + 2 ^ w * y) ||| (x1 + 2 ^ w * y1) = (x ||| x1) + 2 ^ w * (y ||| y1) := by
  apply Nat.eq_of_testBit_eq
  intro j
  rw [Nat.testBit_or, testBit_limbs w x y j hx, testBit_limbs w x1 y1 j hx1,
    testBit_limbs w _ _ j (Nat.or_lt_two_pow hx hx1)]
  split <;> simp [Nat.testBit_or]

/-- A value below `2^k` and a multiple of `2^k` have disjoint bits. -/
theorem or_eq_add_of_lt (k a b : Nat) (ha : a < 2 ^ k) : a ||| (2 ^ k * b) = a + 2 ^ k * b := by
  rw [Nat.add_comm, Nat.mul_add_lt_is_or ha b, Nat.lor_comm]

/-- Right shift of a two-limb value by at most a limb, limb by limb. -/
theorem shr_limbs (w n lo hi : Nat) (hlo : lo < 2 ^ w) (hn : n ≤ w) :
    ((lo / 2 ^ n) ||| ((hi * 2 ^ (w - n)) % 2 ^ w)) + 2 ^ w * (hi / 2 ^ n) = (lo + 2 ^ w * hi) / 2 ^ n := by
  have hw : 2 ^ w = 2 ^ n * 2 ^ (w - n) := by
    rw [← pow_add]
    congr 1
    omega
  have hp : 0 < 2 ^ n := by positivity
  have h1 : (hi * 2 ^ (w - n)) % 2 ^ w = 2 ^ (w - n) * (hi % 2 ^ n) := by
    rw [hw, Nat.mul_mod_mul_right, Nat.mul_comm]
  have h2 : lo / 2 ^ n < 2 ^ (w - n) := by
    apply Nat.div_lt_of_lt_mul
    rw [← hw]
    exact hlo
  rw [h1, or_eq_add_of_lt _ _ _ h2]
  have h3 : lo + 2 ^ w * hi = lo + 2 ^ n * (2 ^ (w - n) * hi) := by
    rw [hw]
    ring
  rw [h3, Nat.add_mul_div_left _ _ hp]
  have h4 := Nat.div_add_mod hi (2 ^ n)
  have h5 : 2 ^ (w - n) * hi = 2 ^ (w - n) * (hi % 2 ^ n) + 2 ^ w * (hi / 2 ^ n) := by
    conv_lhs => rw [← h4]
    rw [hw]
    ring
  rw [h5]
  ring

/-- The arithmetic core of `shl_limbs`, with the powers of two as plain numbers. -/
theorem shl_limbs_aux (p q W a b c d : Nat) (hW : W = q * p) (ha : a < q) (hb : b < p) (hc : c < q) :
    p * a + W * (b + p * c) = ((q * b + a + W * (q * d + c)) * p) % (W * W) := by
  have h8 : (q * b + a + W * (q * d + c)) * p = (p * a + W * (b + p * c)) + W * W * d := by
    rw [hW]
    ring
  rw [h8, Nat.add_mul_mod_self_left, Nat.mod_eq_of_lt]
  have h9 : p * a < W := by
    rw [hW, Nat.mul_comm]
    exact Nat.mul_lt_mul_of_pos_right ha (by omega)
  have h10 : b + p * c < W := by
    have h11 : p * c ≤ p * (q - 1) := Nat.mul_le_mul_left _ (by omega)
    have h12 : p * (q - 1) + p = W := by
      rw [hW]
      have : q - 1 + 1 = q := by omega
      calc p * (q - 1) + p = p * (q - 1 + 1) := by ring
        _ = q * p := by rw [this, Nat.mul_comm]
    omega
  calc p * a + W * (b + p * c) < W + W * (b + p * c) := by omega
    _ = W * (b + p * c + 1) := by ring
    _ ≤ W * W := Nat.mul_le_mul_left _ (by omega)

/-- Left shift of a two-limb value by at most a limb, limb by limb. -/
theorem shl_limbs (w n lo hi : Nat) (hlo : lo < 2 ^ w) (hn : n ≤ w) :
    (lo * 2 ^ n) % 2 ^ w + 2 ^ w * (((hi * 2 ^ n) % 2 ^ w) ||| (lo / 2 ^ (w - n)))
      = ((lo + 2 ^ w * hi) * 2 ^ n) % 2 ^ (w + w) := by
  have hw : 2 ^ w = 2 ^ (w - n) * 2 ^ n := by
    rw [← pow_add]
    congr 1
    omega
  have hq : 0 < 2 ^ (w - n) := by positivity
  have h1 : (hi * 2 ^ n) % 2 ^ w = 2 ^ n * (hi % 2 ^ (w - n)) := by
    rw [hw, Nat.mul_mod_mul_right, Nat.mul_comm]
  have h1b : (lo * 2 ^ n) % 2 ^ w = 2 ^ n * (lo % 2 ^ (w - n)) := by
    rw [hw, Nat.mul_mod_mul_right, Nat.mul_comm]
  have h2 : lo / 2 ^ (w - n) < 2 ^ n := by
    apply Nat.div_lt_of_lt_mul
    rw [← hw]
    exact hlo
  rw [h1, h1b, Nat.lor_comm, or_eq_add_of_lt _ _ _ h2, pow_add 2 w w]
  have h := shl_limbs_aux (2 ^ n) (2 ^ (w - n)) (2 ^ w) (lo % 2 ^ (w - n)) (lo / 2 ^ (w - n))
    (hi % 2 ^ (w - n)) (hi / 2 ^ (w - n)) hw (Nat.mod_lt _ hq) h2 (Nat.mod_lt _ hq)
  rw [Nat.div_add_mod, Nat.div_add_mod] at h
  exact h

theorem lua_pcg_u32_lh_eq (l h : Nat) : lua_pcg_u32_lh l h = l % 2 ^ 16 + 2 ^ 16 * (h % 2 ^ 16) := by
  have e1 : l &&& 0xFFFF = l % 2 ^ 16 := by
    simpa using Nat.and_pow_two_sub_one_eq_mod l 16
  have e2 : h % 2 ^ 32 &&& 0xFFFF = h % 2 ^ 16 := by
    rw [show (0xFFFF : Nat) = 2 ^ 16 - 1 by norm_num, Nat.and_pow_two_sub_one_eq_mod]
    omega
  have h1 : l % 2 ^ 16 < 2 ^ 16 := Nat.mod_lt _ (by norm_num)
  have h2 : h % 2 ^ 16 < 2 ^ 16 := Nat.mod_lt _ (by norm_num)
  simp only [lua_pcg_u32_lh, wrap32_eq, e1, e2, Nat.shiftLeft_eq]
  rw [Nat.mod_eq_of_lt (by omega : l % 2 ^ 16 < 2 ^ 32),
    Nat.mod_eq_of_lt (by omega : h % 2 ^ 16 * 2 ^ 16 < 2 ^ 32), Nat.mul_comm,
    or_eq_add_of_lt 16 _ _ h1]

namespace Native64

theorem lua_pcg_u64_lh_eq (l h : Nat) : lua_pcg_u64_lh l h = l % 2 ^ 32 + 2 ^ 32 * (h % 2 ^ 32) := by
  have e1 : l &&& 0xFFFFFFFF = l % 2 ^ 32 := by
    simpa using Nat.and_pow_two_sub_one_eq_mod l 32
  have e2 : h % 2 ^ 64 &&& 0xFFFFFFFF = h % 2 ^ 32 := by
    rw [show (0xFFFFFFFF : Nat) = 2 ^ 32 - 1 by norm_num, Nat.and_pow_two_sub_one_eq_mod]
    omega
  have h1 : l % 2 ^ 32 < 2 ^ 32 := Nat.mod_lt _ (by norm_num)
  have h2 : h % 2 ^ 32 < 2 ^ 32 := Nat.mod_lt _ (by norm_num)
  simp only [lua_pcg_u64_lh, wrap64_eq, e1, e2, Nat.shiftLeft_eq]
  rw [Nat.mod_eq_of_lt (by omega : l % 2 ^ 32 < 2 ^ 64),
    Nat.mod_eq_of_lt (by omega : h % 2 ^ 32 * 2 ^ 32 < 2 ^ 64), Nat.mul_comm,
    or_eq_add_of_lt 32 _ _ h1]

end Native64

namespace Emu64

theorem xor_wf64 (a b : lua_pcg_u64) : wf64 (lua_pcg_u64_xor a b) := lh_wf64 _ _

theorem xor_val64 (a b : lua_pcg_u64) (ha : wf64 a) (hb : wf64 b) :
    val64 (lua_pcg_u64_xor a b) = val64 a ^^^ val64 b := by
  obtain ⟨h1, h2⟩ := ha
  obtain ⟨h3, h4⟩ := hb
  rw [lua_pcg_u64_xor, lh_val64]
  simp only [val64]
  rw [xor_limbs 32 _ _ _ _ h1 h3, Nat.mod_eq_of_lt (Nat.xor_lt_two_pow h1 h3),
    Nat.mod_eq_of_lt (Nat.xor_lt_two_pow h2 h4)]

theorem band_wf64 (a b : lua_pcg_u64) : wf64 (lua_pcg_u64_band a b) := lh_wf64 _ _

theorem band_val64 (a b : lua_pcg_u64) (ha : wf64 a) (hb : wf64 b) :
    val64 (lua_pcg_u64_band a b) = val64 a &&& val64 b := by
  obtain ⟨h1, h2⟩ := ha
  obtain ⟨h3, h4⟩ := hb
  rw [lua_pcg_u64_band, lh_val64]
  simp only [val64]
  rw [and_limbs 32 _ _ _ _ h1 h3, Nat.mod_eq_of_lt (Nat.and_lt_two_pow _ h3),
    Nat.mod_eq_of_lt (Nat.and_lt_two_pow _ h4)]

theorem bor_wf64 (a b : lua_pcg_u64) : wf64 (lua_pcg_u64_bor a b) := lh_wf64 _ _

theorem bor_val64 (a b : lua_pcg_u64) (ha : wf64 a) (hb : wf64 b) :
    val64 (lua_pcg_u64_bor a b) = val64 a ||| val64 b := by
  obtain ⟨h1, h2⟩ := ha
  obtain ⟨h3, h4⟩ := hb
  rw [lua_pcg_u64_bor, lh_val64]
  simp only [val64]
  rw [or_limbs 32 _ _ _ _ h1 h3, Nat.mod_eq_of_lt (Nat.or_lt_two_pow h1 h3),
    Nat.mod_eq_of_lt (Nat.or_lt_two_pow h2 h4)]

theorem bnot_wf64 (a : lua_pcg_u64) : wf64 (lua_pcg_u64_bnot a) := lh_wf64 _ _

theorem bnot_val64 (a : lua_pcg_u64) (ha : wf64 a) :
    val64 (lua_pcg_u64_bnot a) = 2 ^ 64 - 1 - val64 a := by
  obtain ⟨h1, h2⟩ := ha
  rw [lua_pcg_u64_bnot, lh_val64]
  simp only [val64, bnot32]
  omega

theorem additive_inverse_wf64 (a : lua_pcg_u64) : wf64 (lua_pcg_u64_additive_inverse a) := sum_wf64 _ _

theorem additive_inverse_val64 (a : lua_pcg_u64) (ha : wf64 a) :
    val64 (lua_pcg_u64_additive_inverse a) = (2 ^ 64 - val64 a) % 2 ^ 64 := by
  have hv := val64_lt a ha
  rw [lua_pcg_u64_additive_inverse, sum_val64 _ _ (bnot_wf64 a) (lh_wf64 1 0), bnot_val64 a ha, lh_val64]
  omega

theorem subtraction_wf64 (a b : lua_pcg_u64) : wf64 (lua_pcg_u64_subtraction a b) := sum_wf64 _ _

theorem subtraction_val64 (a b : lua_pcg_u64) (ha : wf64 a) (hb : wf64 b) :
    val64 (lua_pcg_u64_subtraction a b) = (val64 a + 2 ^ 64 - val64 b) % 2 ^ 64 := by
  have hva := val64_lt a ha
  have hvb := val64_lt b hb
  rw [lua_pcg_u64_subtraction, sum_val64 _ _ ha (additive_inverse_wf64 b), additive_inverse_val64 b hb]
  omega

theorem rsh_wf64 (a : lua_pcg_u64) (n : Nat) : wf64 (lua_pcg_u64_rsh a n) := by
  have hc : ∀ x, lua_pcg_u32_cast x < 2 ^ 32 := fun x => by
    rw [lua_pcg_u32_cast_eq]
    exact Nat.mod_lt _ (by norm_num)
  have hs : ∀ x k, lua_pcg_u32_cast x >>> k < 2 ^ 32 := fun x k =>
    lt_of_le_of_lt (by rw [Nat.shiftRight_eq_div_pow]; exact Nat.div_le_self _ _) (hc x)
  simp only [lua_pcg_u64_rsh, wf64]
  split_ifs
  · exact ⟨hc _, hc _⟩
  · exact ⟨by norm_num, by norm_num⟩
  · exact ⟨hc _, by norm_num⟩
  · exact ⟨Nat.or_lt_two_pow (hs _ _) (hc _), hs _ _⟩
  · exact ⟨hs _ _, by norm_num⟩

theorem lsh_wf64 (a : lua_pcg_u64) (n : Nat) : wf64 (lua_pcg_u64_lsh a n) := by
  have hc : ∀ x, lua_pcg_u32_cast x < 2 ^ 32 := fun x => by
    rw [lua_pcg_u32_cast_eq]
    exact Nat.mod_lt _ (by norm_num)
  have hs : ∀ x k, lua_pcg_u32_cast x >>> k < 2 ^ 32 := fun x k =>
    lt_of_le_of_lt (by rw [Nat.shiftRight_eq_div_pow]; exact Nat.div_le_self _ _) (hc x)
  simp only [lua_pcg_u64_lsh, wf64]
  split_ifs
  · exact ⟨hc _, hc _⟩
  · exact ⟨by norm_num, by norm_num⟩
  · exact ⟨by norm_num, hc _⟩
  · exact ⟨hc _, Nat.or_lt_two_pow (hc _) (hs _ _)⟩
  · exact ⟨by norm_num, hc _⟩

theorem rsh_val64 (a : lua_pcg_u64) (n : Nat) (ha : wf64 a) (hn : n < 64) :
    val64 (lua_pcg_u64_rsh a n) = val64 a / 2 ^ n := by
  obtain ⟨h1, h2⟩ := ha
  have c1 : lua_pcg_u32_cast a.low = a.low := by
    rw [lua_pcg_u32_cast_eq, Nat.mod_eq_of_lt h1]
  have c2 : lua_pcg_u32_cast a.high = a.high := by
    rw [lua_pcg_u32_cast_eq, Nat.mod_eq_of_lt h2]
  simp only [lua_pcg_u64_rsh, val64, c1, c2]
  split_ifs with k0 k64 k32 klt
  · have : n = 0 := by omega
    subst this
    simp
  · omega
  · subst k32
    simp only []
    omega
  · simp only [lua_pcg_u32_cast_eq, wrap32_eq, Nat.mod_mod, Nat.shiftRight_eq_div_pow, Nat.shiftLeft_eq]
    exact shr_limbs 32 n a.low a.high h1 (by omega)
  · simp only [Nat.shiftRight_eq_div_pow, Nat.mul_zero, Nat.add_zero]
    have hp : (2 : Nat) ^ n = 2 ^ 32 * 2 ^ (n - 32) := by
      rw [← pow_add]
      congr 1
      omega
    rw [hp, ← Nat.div_div_eq_div_mul]
    congr 1
    omega

theorem lsh_val64 (a : lua_pcg_u64) (n : Nat) (ha : wf64 a) (hn : n < 64) :
    val64 (lua_pcg_u64_lsh a n) = (val64 a * 2 ^ n) % 2 ^ 64 := by
  obtain ⟨h1, h2⟩ := ha
  have c1 : lua_pcg_u32_cast a.low = a.low := by
    rw [lua_pcg_u32_cast_eq, Nat.mod_eq_of_lt h1]
  have c2 : lua_pcg_u32_cast a.high = a.high := by
    rw [lua_pcg_u32_cast_eq, Nat.mod_eq_of_lt h2]
  simp only [lua_pcg_u64_lsh, val64, c1, c2]
  split_ifs with k0 k64 k32 klt
  · have : n = 0 := by omega
    subst this
    simp only [pow_zero, Nat.mul_one]
    omega
  · omega
  · subst k32
    simp only []
    omega
  · simp only [lua_pcg_u32_cast_eq, wrap32_eq, Nat.mod_mod, Nat.shiftRight_eq_div_pow, Nat.shiftLeft_eq]
    have := shl_limbs 32 n a.low a.high h1 (by omega)
    simpa using this
  · simp only [lua_pcg_u32_cast_eq, wrap32_eq, Nat.mod_mod, Nat.shiftLeft_eq, Nat.zero_add]
    have hp : (2 : Nat) ^ n = 2 ^ 32 * 2 ^ (n - 32) := by
      rw [← pow_add]
      congr 1
      omega
    have e : (a.low + 2 ^ 32 * a.high) * 2 ^ n
        = 2 ^ 32 * (a.low * 2 ^ (n - 32)) + 2 ^ 64 * (a.high * 2 ^ (n - 32)) := by
      rw [hp]
      ring
    rw [e, Nat.add_mul_mod_self_left, show (2 : Nat) ^ 64 = 2 ^ 32 * 2 ^ 32 by norm_num,
      Nat.mul_mod_mul_left]

end Emu64

namespace Emu64

theorem wrap32_of_lt (x : Nat) (h : x < 2 ^ 32) : wrap32 x = x := by
  rw [wrap32_eq, Nat.mod_eq_of_lt h]

/-- The function `lua_pcg_u32_aux_set` splits a 32-bit word into its two 16-bit halves. -/
theorem aux_set_spec (x : Nat) (hx : x < 2 ^ 32) :
    ∃ l h, lua_pcg_u32_aux_set (wrap32 x) = ⟨l, h⟩ ∧ l < 65536 ∧ h < 65536 ∧ l + 65536 * h = x := by
  refine ⟨x % 65536, x / 65536, ?_, ?_, ?_, ?_⟩
  · simp only [lua_pcg_u32_aux_set, lua_pcg_u16_cast_eq, wrap32_of_lt x hx, Nat.shiftRight_eq_div_pow]
    congr 1
    omega
  · omega
  · omega
  · omega

/-- The 16-bit schoolbook product: with the four partial products as plain numbers, the words
assembled by `lua_pcg_u32_mul_ex` spell the full product. -/
theorem u32_mul_ex_aux (p0 p1 p2 p3 : Nat) (h0 : p0 ≤ 65535 * 65535) (h1 : p1 ≤ 65535 * 65535)
    (h2 : p2 ≤ 65535 * 65535) (h3 : p3 ≤ 65535 * 65535) :
    ∃ r0 r1 r2 r3, r0 < 65536 ∧ r1 < 65536 ∧ r2 < 65536 ∧ r3 < 65536 ∧
      r0 + 65536 * r1 + 4294967296 * (r2 + 65536 * r3) = p0 + 65536 * (p1 + p2) + 4294967296 * p3 ∧
    (let aux := wrap32 p0
      let aux32 := lua_pcg_u32_aux_set aux
      let a_mul_b_low_words_0 := aux32.low
      let aux := wrap32 (wrap32 p1 + aux32.high)
      let aux32 := lua_pcg_u32_aux_set aux
      let a_mul_b_low_words_1 := aux32.low
      let a_mul_b_low_words_2 := aux32.high
      let a_mul_b_low_words_3 := 0
      let aux := wrap32 p2
      let aux32 := lua_pcg_u32_aux_set aux
      let a_mul_b_high_words_1 := aux32.low
      let aux := wrap32 (wrap32 p3 + aux32.high)
      let aux32 := lua_pcg_u32_aux_set aux
      let a_mul_b_high_words_2 := aux32.low
      let a_mul_b_high_words_3 := aux32.high
      let a_mul_b_high_words_0 := 0
      let aux := wrap32 (a_mul_b_low_words_0 + a_mul_b_high_words_0)
      let aux32 := lua_pcg_u32_aux_set aux
      let res_words_0 := aux32.low
      let carry := aux32.high
      let aux := wrap32 (wrap32 (a_mul_b_low_words_1 + a_mul_b_high_words_1) + carry)
      let aux32 := lua_pcg_u32_aux_set aux
      let res_words_1 := aux32.low
      let carry := aux32.high
      let aux := wrap32 (wrap32 (a_mul_b_low_words_2 + a_mul_b_high_words_2) + carry)
      let aux32 := lua_pcg_u32_aux_set aux
      let res_words_2 := aux32.low
      let carry := aux32.high
      let aux := wrap32 (wrap32 (a_mul_b_low_words_3 + a_mul_b_high_words_3) + carry)
      let aux32 := lua_pcg_u32_aux_set aux
      let res_words_3 := aux32.low
      ({ low := lua_pcg_u32_lh res_words_0 res_words_1,
         high := lua_pcg_u32_lh res_words_2 res_words_3 } : lua_pcg_u64))
    = ⟨r0 + 65536 * r1, r2 + 65536 * r3⟩ := by
  obtain ⟨l0, c0, e0, hl0, hc0, s0⟩ := aux_set_spec p0 (by omega)
  have w1 : wrap32 p1 = p1 := wrap32_of_lt _ (by omega)
  obtain ⟨l1, l2, e1, hl1, hl2, s1⟩ := aux_set_spec (p1 + c0) (by omega)
  obtain ⟨m1, c2, e2, hm1, hc2, s2⟩ := aux_set_spec p2 (by omega)
  have w3 : wrap32 p3 = p3 := wrap32_of_lt _ (by omega)
  obtain ⟨m2, m3, e3, hm2, hm3, s3⟩ := aux_set_spec (p3 + c2) (by omega)
  obtain ⟨r0, k0, f0, hr0, hk0, t0⟩ := aux_set_spec (l0 + 0) (by omega)
  have v1 : wrap32 (l1 + m1) = l1 + m1 := wrap32_of_lt _ (by omega)
  obtain ⟨r1, k1, f1, hr1, hk1, t1⟩ := aux_set_spec (l1 + m1 + k0) (by omega)
  have v2 : wrap32 (l2 + m2) = l2 + m2 := wrap32_of_lt _ (by omega)
  obtain ⟨r2, k2, f2, hr2, hk2, t2⟩ := aux_set_spec (l2 + m2 + k1) (by omega)
  have v3 : wrap32 (0 + m3) = 0 + m3 := wrap32_of_lt _ (by omega)
  obtain ⟨r3, k3, f3, hr3, hk3, t3⟩ := aux_set_spec (0 + m3 + k2) (by omega)
  have hk3z : k3 = 0 := by omega
  refine ⟨r0, r1, r2, r3, hr0, hr1, hr2, hr3, by omega, ?_⟩
  simp only [e0, w1, e1, e2, w3, e3, f0, v1, f1, v2, f2, v3, f3, lua_pcg_u32_lh_eq]
  congr 1 <;> omega

theorem u32_mul_ex_spec (a b : Nat) (ha : a < 2 ^ 32) (hb : b < 2 ^ 32) :
    wf64 (lua_pcg_u32_mul_ex a b) ∧ val64 (lua_pcg_u32_mul_ex a b) = a * b := by
  have hal : a % 2 ^ 16 ≤ 65535 := by omega
  have hah : a / 2 ^ 16 % 2 ^ 16 ≤ 65535 := by omega
  have hbl : b % 2 ^ 16 ≤ 65535 := by omega
  have hbh : b / 2 ^ 16 % 2 ^ 16 ≤ 65535 := by omega
  have ea : a = a % 2 ^ 16 + 65536 * (a / 2 ^ 16 % 2 ^ 16) := by omega
  have eb : b = b % 2 ^ 16 + 65536 * (b / 2 ^ 16 % 2 ^ 16) := by omega
  obtain ⟨r0, r1, r2, r3, hr0, hr1, hr2, hr3, hsum, heq⟩ :=
    u32_mul_ex_aux (a % 2 ^ 16 * (b % 2 ^ 16)) (a / 2 ^ 16 % 2 ^ 16 * (b % 2 ^ 16))
      (a % 2 ^ 16 * (b / 2 ^ 16 % 2 ^ 16)) (a / 2 ^ 16 % 2 ^ 16 * (b / 2 ^ 16 % 2 ^ 16))
      (Nat.mul_le_mul hal hbl) (Nat.mul_le_mul hah hbl) (Nat.mul_le_mul hal hbh)
      (Nat.mul_le_mul hah hbh)
  have hdef : lua_pcg_u32_mul_ex a b = ⟨r0 + 65536 * r1, r2 + 65536 * r3⟩ := by
    rw [← heq]
    simp only [lua_pcg_u32_mul_ex, lua_pcg_u32_aux_set, lua_pcg_u16_cast_eq, Nat.shiftRight_eq_div_pow]
  rw [hdef]
  refine ⟨⟨by simp only []; omega, by simp only []; omega⟩, ?_⟩
  simp only [val64]
  have hprod : a * b = a % 2 ^ 16 * (b % 2 ^ 16)
      + 65536 * (a / 2 ^ 16 % 2 ^ 16 * (b % 2 ^ 16) + a % 2 ^ 16 * (b / 2 ^ 16 % 2 ^ 16))
      + 4294967296 * (a / 2 ^ 16 % 2 ^ 16 * (b / 2 ^ 16 % 2 ^ 16)) := by
    conv_lhs => rw [ea, eb]
    ring
  rw [hprod, ← hsum]
  ring

end Emu64

namespace Emu64

theorem lh_of_lt (l h : Nat) (hl : l < 2 ^ 32) (hh : h < 2 ^ 32) : lua_pcg_u64_lh l h = ⟨l, h⟩ := by
  simp only [lua_pcg_u64_lh, lua_pcg_u32_cast_eq, Nat.mod_eq_of_lt hl, Nat.mod_eq_of_lt hh]

/-- The two words of a 32-bit by 32-bit product. -/
theorem u32_mul_ex_words (a b : Nat) (ha : a < 2 ^ 32) (hb : b < 2 ^ 32) :
    ∃ l h, lua_pcg_u32_mul_ex a b = ⟨l, h⟩ ∧ l < 2 ^ 32 ∧ h < 2 ^ 32 ∧ l + 2 ^ 32 * h = a * b := by
  obtain ⟨⟨h1, h2⟩, hv⟩ := u32_mul_ex_spec a b ha hb
  exact ⟨_, _, rfl, h1, h2, hv⟩

/-- The two words of an emulated 64-bit sum. -/
theorem sum_words (x y : lua_pcg_u64) (hx : wf64 x) (hy : wf64 y) :
    ∃ l h, lua_pcg_u64_sum x y = ⟨l, h⟩ ∧ l < 2 ^ 32 ∧ h < 2 ^ 32
      ∧ l + 2 ^ 32 * h = (val64 x + val64 y) % 2 ^ 64 := by
  obtain ⟨h1, h2⟩ := sum_wf64 x y
  exact ⟨_, _, rfl, h1, h2, sum_val64 x y hx hy⟩

/-- The two words of an emulated 64-bit sum that does not wrap. -/
theorem sum_words_small (x0 x1 y0 y1 : Nat) (hx0 : x0 < 2 ^ 32) (hx1 : x1 < 2 ^ 32) (hy0 : y0 < 2 ^ 32)
    (hy1 : y1 < 2 ^ 32) (hs : x0 + 2 ^ 32 * x1 + (y0 + 2 ^ 32 * y1) < 2 ^ 64) :
    ∃ l h, lua_pcg_u64_sum ⟨x0, x1⟩ ⟨y0, y1⟩ = ⟨l, h⟩ ∧ l < 2 ^ 32 ∧ h < 2 ^ 32
      ∧ l + 2 ^ 32 * h = x0 + 2 ^ 32 * x1 + (y0 + 2 ^ 32 * y1) := by
  obtain ⟨l, h, e, hl, hh, hv⟩ := sum_words ⟨x0, x1⟩ ⟨y0, y1⟩ ⟨hx0, hx1⟩ ⟨hy0, hy1⟩
  refine ⟨l, h, e, hl, hh, ?_⟩
  simp only [val64] at hv
  rw [hv, Nat.mod_eq_of_lt hs]

/-- The 32-bit schoolbook product of `lua_pcg_u64_mul_ex`, with the partial products as plain
numbers `p0 .. p3`. -/
theorem u64_mul_ex_spec_emu (a b : lua_pcg_u64) (ha : wf64 a) (hb : wf64 b) :
    wf64 (lua_pcg_u64_mul_ex a b).low ∧ wf64 (lua_pcg_u64_mul_ex a b).high
    ∧ val64 (lua_pcg_u64_mul_ex a b).low + 2 ^ 64 * val64 (lua_pcg_u64_mul_ex a b).high
        = val64 a * val64 b := by
  obtain ⟨al, ah⟩ := a
  obtain ⟨bl, bh⟩ := b
  obtain ⟨ha1, ha2⟩ := ha
  obtain ⟨hb1, hb2⟩ := hb
  simp only [] at ha1 ha2 hb1 hb2
  have hP : ∀ x y : Nat, x < 2 ^ 32 → y < 2 ^ 32 → x * y ≤ 4294967295 * 4294967295 := by
    intro x y hx hy
    exact Nat.mul_le_mul (by omega) (by omega)
  have b0 := hP al bl ha1 hb1
  have b1 := hP ah bl ha2 hb1
  have b2 := hP al bh ha1 hb2
  have b3 := hP ah bh ha2 hb2
  -- the four partial products
  obtain ⟨l0, c0, e0, hl0, hc0, s0⟩ := u32_mul_ex_words al bl ha1 hb1
  obtain ⟨x1, y1, e1, hx1, hy1, s1⟩ := u32_mul_ex_words ah bl ha2 hb1
  obtain ⟨m1, c2, e2, hm1, hc2, s2⟩ := u32_mul_ex_words al bh ha1 hb2
  obtain ⟨x3, y3, e3, hx3, hy3, s3⟩ := u32_mul_ex_words ah bh ha2 hb2
  have hprod : (al + 2 ^ 32 * ah) * (bl + 2 ^ 32 * bh)
      = al * bl + 2 ^ 32 * (ah * bl + al * bh) + 2 ^ 64 * (ah * bh) := by ring
  generalize al * bl = p0 at *
  generalize ah * bl = p1 at *
  generalize al * bh = p2 at *
  generalize ah * bh = p3 at *
  have z : (0 : Nat) < 2 ^ 32 := by norm_num
  have g0 : lua_pcg_u64_lh c0 0 = ⟨c0, 0⟩ := lh_of_lt _ _ hc0 z
  obtain ⟨l1, l2, f1, hl1, hl2, t1⟩ := sum_words_small x1 y1 c0 0 hx1 hy1 hc0 z
    (by clear * - s1 b1 hc0; omega)
  have g2 : lua_pcg_u64_lh c2 0 = ⟨c2, 0⟩ := lh_of_lt _ _ hc2 z
  obtain ⟨m2, m3, f3, hm2, hm3, t3⟩ := sum_words_small x3 y3 c2 0 hx3 hy3 hc2 z
    (by clear * - s3 b3 hc2; omega)
  -- the four sums
  have g3 : lua_pcg_u64_lh l0 0 = ⟨l0, 0⟩ := lh_of_lt _ _ hl0 z
  have g4 : lua_pcg_u64_lh 0 0 = ⟨0, 0⟩ := lh_of_lt _ _ z z
  obtain ⟨r0, k0, q0, hr0, hk0, u0⟩ := sum_words_small l0 0 0 0 hl0 z z z (by clear * - hl0; omega)
  have g5 : lua_pcg_u64_lh k0 0 = ⟨k0, 0⟩ := lh_of_lt _ _ hk0 z
  have g6 : lua_pcg_u64_lh l1 0 = ⟨l1, 0⟩ := lh_of_lt _ _ hl1 z
  have g7 : lua_pcg_u64_lh m1 0 = ⟨m1, 0⟩ := lh_of_lt _ _ hm1 z
  obtain ⟨i1, j1, q1a, hi1, hj1, u1a⟩ := sum_words_small l1 0 m1 0 hl1 z hm1 z
    (by clear * - hl1 hm1; omega)
  obtain ⟨r1, k1, q1, hr1, hk1, u1⟩ := sum_words_small i1 j1 k0 0 hi1 hj1 hk0 z
    (by clear * - u1a hl1 hm1 hk0; omega)
  have g8 : lua_pcg_u64_lh k1 0 = ⟨k1, 0⟩ := lh_of_lt _ _ hk1 z
  have g9 : lua_pcg_u64_lh l2 0 = ⟨l2, 0⟩ := lh_of_lt _ _ hl2 z
  have g10 : lua_pcg_u64_lh m2 0 = ⟨m2, 0⟩ := lh_of_lt _ _ hm2 z
  obtain ⟨i2, j2, q2a, hi2, hj2, u2a⟩ := sum_words_small l2 0 m2 0 hl2 z hm2 z
    (by clear * - hl2 hm2; omega)
  obtain ⟨r2, k2, q2, hr2, hk2, u2⟩ := sum_words_small i2 j2 k1 0 hi2 hj2 hk1 z
    (by clear * - u2a hl2 hm2 hk1; omega)
  have g11 : lua_pcg_u64_lh k2 0 = ⟨k2, 0⟩ := lh_of_lt _ _ hk2 z
  have g12 : lua_pcg_u64_lh m3 0 = ⟨m3, 0⟩ := lh_of_lt _ _ hm3 z
  obtain ⟨i3, j3, q3a, hi3, hj3, u3a⟩ := sum_words_small 0 0 m3 0 z z hm3 z (by clear * - hm3; omega)
  obtain ⟨r3, k3, q3, hr3, hk3, u3⟩ := sum_words_small i3 j3 k2 0 hi3 hj3 hk2 z
    (by clear * - u3a hm3 hk2; omega)
  have hdef : lua_pcg_u64_mul_ex ⟨al, ah⟩ ⟨bl, bh⟩ = ⟨⟨r0, r1⟩, ⟨r2, r3⟩⟩ := by
    simp only [lua_pcg_u64_mul_ex, e0, e1, e2, e3, g0, f1, g2, f3, g3, g4, q0, g5, g6, g7, q1a, q1, g8,
      g9, g10, q2a, q2, g11, g12, q3a, q3, lh_of_lt _ _ hr0 hr1, lh_of_lt _ _ hr2 hr3]
  rw [hdef]
  refine ⟨⟨hr0, hr1⟩, ⟨hr2, hr3⟩, ?_⟩
  simp only [val64]
  rw [hprod]
  clear * - s0 s1 s2 s3 t1 t3 u0 u1a u1 u2a u2 u3a u3 b0 b1 b2 b3 hr3 hk3
  omega

end Emu64

/-- The emulated 64-bit operations compute arithmetic modulo `2^64`. -/
theorem Emu64.ops_lawful_emu : Emu64.ops.Lawful Emu64.wf64 Emu64.val64 where
  val_lt := Emu64.val64_lt
  val_inj := Emu64.val64_inj
  lh_wf := Emu64.lh_wf64
  lh_val := Emu64.lh_val64
  clone_eq := Emu64.clone_eq64
  sum_wf := fun a b _ _ => Emu64.sum_wf64 a b
  sum_val := Emu64.sum_val64
  lt_iff := Emu64.lt_iff64
  gt_iff := Emu64.gt_iff64
  eq_iff := Emu64.eq_iff64
  xor_wf := fun a b _ _ => Emu64.xor_wf64 a b
  xor_val := Emu64.xor_val64
  band_wf := fun a b _ _ => Emu64.band_wf64 a b
  band_val := Emu64.band_val64
  bor_wf := fun a b _ _ => Emu64.bor_wf64 a b
  bor_val := Emu64.bor_val64
  bnot_wf := fun a _ => Emu64.bnot_wf64 a
  bnot_val := Emu64.bnot_val64
  additive_inverse_wf := fun a _ => Emu64.additive_inverse_wf64 a
  additive_inverse_val := Emu64.additive_inverse_val64
  lsh_wf := fun a n _ _ => Emu64.lsh_wf64 a n
  lsh_val := Emu64.lsh_val64
  rsh_wf := fun a n _ _ => Emu64.rsh_wf64 a n
  rsh_val := Emu64.rsh_val64
  mul_ex_wf := fun a b ha hb => ⟨(Emu64.u64_mul_ex_spec_emu a b ha hb).1, (Emu64.u64_mul_ex_spec_emu a b ha hb).2.1⟩
  mul_ex_val := fun a b ha hb => (Emu64.u64_mul_ex_spec_emu a b ha hb).2.2
  u128_lh_eq := fun _ _ => rfl
  cast_to_u64_eq := fun _ => rfl
  cast_to_u32_eq := by
    intro v hv
    obtain ⟨h1, h2⟩ := hv
    show lua_pcg_u32_cast v.low.low = Emu64.val64 v.low % 2 ^ 32
    rw [lua_pcg_u32_cast_eq, Emu64.val64]
    omega

namespace Native64

theorem cast_of_lt (x : Nat) (h : x < 2 ^ 64) : lua_pcg_u64_cast x = x := by
  rw [lua_pcg_u64_cast_eq, Nat.mod_eq_of_lt h]

theorem cast_lt (x : Nat) : lua_pcg_u64_cast x < 2 ^ 64 := by
  rw [lua_pcg_u64_cast_eq]
  exact Nat.mod_lt _ (by norm_num)

theorem lua_pcg_u64_low_eq (x : Nat) : lua_pcg_u64_low x = x % 2 ^ 32 := by
  rw [lua_pcg_u64_low, lua_pcg_u32_cast_eq]

theorem lua_pcg_u64_high_eq (x : Nat) : lua_pcg_u64_high x = x / 2 ^ 32 % 2 ^ 32 := by
  rw [lua_pcg_u64_high, lua_pcg_u32_cast_eq, Nat.shiftRight_eq_div_pow]

/-- The two 32-bit words of a native 64-bit value. -/
theorem split_words (x : Nat) (hx : x < 2 ^ 64) :
    ∃ l h, lua_pcg_u64_low x = l ∧ lua_pcg_u64_high x = h ∧ l < 2 ^ 32 ∧ h < 2 ^ 32
      ∧ l + 2 ^ 32 * h = x := by
  refine ⟨x % 2 ^ 32, x / 2 ^ 32, lua_pcg_u64_low_eq x, ?_, ?_, ?_, ?_⟩
  · rw [lua_pcg_u64_high_eq]
    omega
  · omega
  · omega
  · omega

theorem u32_mul_ex_small (a b p : Nat) (hp : a * b = p) (h : p ≤ 4294967295 * 4294967295) :
    lua_pcg_u32_mul_ex a b = p := by
  rw [lua_pcg_u32_mul_ex, wrap64_eq, lua_pcg_u64_cast_eq, hp]
  omega

theorem sum_small (x y : Nat) (h : x + y < 2 ^ 64) : lua_pcg_u64_sum x y = x + y := by
  rw [lua_pcg_u64_sum, wrap64_eq, lua_pcg_u64_cast_eq]
  omega

theorem lh_small (l : Nat) (h : l < 2 ^ 32) : lua_pcg_u64_lh l 0 = l := by
  rw [lua_pcg_u64_lh_eq]
  omega

theorem lh_words (l h : Nat) (hl : l < 2 ^ 32) (hh : h < 2 ^ 32) : lua_pcg_u64_lh l h = l + 2 ^ 32 * h := by
  rw [lua_pcg_u64_lh_eq]
  omega

/-- The 32-bit schoolbook product of the native-limb `lua_pcg_u64_mul_ex` is the exact product. -/
theorem u64_mul_ex_spec_native (a b : Nat) (ha : a < 2 ^ 64) (hb : b < 2 ^ 64) :
    (lua_pcg_u64_mul_ex a b).low < 2 ^ 64 ∧ (lua_pcg_u64_mul_ex a b).high < 2 ^ 64
    ∧ (lua_pcg_u64_mul_ex a b).low + 2 ^ 64 * (lua_pcg_u64_mul_ex a b).high = a * b := by
  obtain ⟨al, ah, eal, eah, ha1, ha2, sa⟩ := split_words a ha
  obtain ⟨bl, bh, ebl, ebh, hb1, hb2, sb⟩ := split_words b hb
  have hP : ∀ x y : Nat, x < 2 ^ 32 → y < 2 ^ 32 → x * y ≤ 4294967295 * 4294967295 := by
    intro x y hx hy
    exact Nat.mul_le_mul (by omega) (by omega)
  have b0 := hP al bl ha1 hb1
  have b1 := hP ah bl ha2 hb1
  have b2 := hP al bh ha1 hb2
  have b3 := hP ah bh ha2 hb2
  have hprod : a * b = al * bl + 2 ^ 32 * (ah * bl + al * bh) + 2 ^ 64 * (ah * bh) := by
    rw [← sa, ← sb]
    ring
  have e0 := u32_mul_ex_small al bl _ rfl b0
  have e1 := u32_mul_ex_small ah bl _ rfl b1
  have e2 := u32_mul_ex_small al bh _ rfl b2
  have e3 := u32_mul_ex_small ah bh _ rfl b3
  generalize al * bl = p0 at *
  generalize ah * bl = p1 at *
  generalize al * bh = p2 at *
  generalize ah * bh = p3 at *
  have z : (0 : Nat) < 2 ^ 32 := by norm_num
  have z0 : lua_pcg_u64_lh 0 0 = 0 := lh_small 0 z
  obtain ⟨l0, c0, f0, g0, hl0, hc0, s0⟩ := split_words p0 (by clear * - b0; omega)
  have t1 := sum_small p1 c0 (by clear * - b1 hc0; omega)
  obtain ⟨l1, l2, f1, g1, hl1, hl2, s1⟩ := split_words (p1 + c0) (by clear * - b1 hc0; omega)
  obtain ⟨m1, c2, f2, g2, hm1, hc2, s2⟩ := split_words p2 (by clear * - b2; omega)
  have t3 := sum_small p3 c2 (by clear * - b3 hc2; omega)
  obtain ⟨m2, m3, f3, g3, hm2, hm3, s3⟩ := split_words (p3 + c2) (by clear * - b3 hc2; omega)
  have u0 := sum_small l0 0 (by clear * - hl0; omega)
  obtain ⟨r0, k0, f4, g4, hr0, hk0, s4⟩ := split_words (l0 + 0) (by clear * - hl0; omega)
  have u1a := sum_small l1 m1 (by clear * - hl1 hm1; omega)
  have u1 := sum_small (l1 + m1) k0 (by clear * - hl1 hm1 hk0; omega)
  obtain ⟨r1, k1, f5, g5, hr1, hk1, s5⟩ := split_words (l1 + m1 + k0) (by clear * - hl1 hm1 hk0; omega)
  have u2a := sum_small l2 m2 (by clear * - hl2 hm2; omega)
  have u2 := sum_small (l2 + m2) k1 (by clear * - hl2 hm2 hk1; omega)
  obtain ⟨r2, k2, f6, g6, hr2, hk2, s6⟩ := split_words (l2 + m2 + k1) (by clear * - hl2 hm2 hk1; omega)
  have u3a := sum_small 0 m3 (by clear * - hm3; omega)
  have u3 := sum_small (0 + m3) k2 (by clear * - hm3 hk2; omega)
  obtain ⟨r3, k3, f7, g7, hr3, hk3, s7⟩ := split_words (0 + m3 + k2) (by clear * - hm3 hk2; omega)
  have hdef : lua_pcg_u64_mul_ex a b = ⟨r0 + 2 ^ 32 * r1, r2 + 2 ^ 32 * r3⟩ := by
    simp only [lua_pcg_u64_mul_ex, eal, eah, ebl, ebh, e0, e1, e2, e3, f0, g0, lh_small c0 hc0, t1, f1, g1,
      f2, g2, lh_small c2 hc2, t3, f3, g3, lh_small l0 hl0, z0, u0, f4, g4, lh_small k0 hk0,
      lh_small l1 hl1, lh_small m1 hm1, u1a, u1, f5, g5, lh_small k1 hk1, lh_small l2 hl2,
      lh_small m2 hm2, u2a, u2, f6, g6, lh_small k2 hk2, lh_small m3 hm3, u3a, u3, f7,
      lh_words r0 r1 hr0 hr1, lh_words r2 r3 hr2 hr3]
  rw [hdef, hprod]
  clear * - s0 s1 s2 s3 s4 s5 s6 s7 b0 b1 b2 b3 hr0 hr1 hr2 hr3 hk3
  refine ⟨?_, ?_, ?_⟩
  · simp only []
    omega
  · simp only []
    omega
  · simp only []
    omega

end Native64

/-- The macros over a native `lua_pcg_u64` compute arithmetic modulo `2^64`. -/
theorem Native64.ops_lawful_native : Native64.ops.Lawful Native64.wf64 (fun x => x) where
  val_lt := fun _ h => h
  val_inj := fun _ _ _ _ h => h
  lh_wf := by
    intro l h
    show Native64.lua_pcg_u64_lh l h < 2 ^ 64
    rw [Native64.lua_pcg_u64_lh_eq]
    omega
  lh_val := Native64.lua_pcg_u64_lh_eq
  clone_eq := fun a h => Native64.cast_of_lt a h
  sum_wf := fun a b _ _ => Native64.cast_lt _
  sum_val := by
    intro a b _ _
    show Native64.lua_pcg_u64_sum a b = (a + b) % 2 ^ 64
    rw [Native64.lua_pcg_u64_sum, wrap64_eq, lua_pcg_u64_cast_eq, Nat.mod_mod]
  lt_iff := by
    intro a b _ _
    simp [Native64.ops, Native64.lua_pcg_u64_lt]
  gt_iff := by
    intro a b _ _
    simp [Native64.ops, Native64.lua_pcg_u64_gt]
  eq_iff := by
    intro a b _ _
    simp [Native64.ops, Native64.lua_pcg_u64_eq]
  xor_wf := fun a b _ _ => Native64.cast_lt _
  xor_val := by
    intro a b ha hb
    exact Native64.cast_of_lt _ (Nat.xor_lt_two_pow ha hb)
  band_wf := fun a b _ _ => Native64.cast_lt _
  band_val := by
    intro a b ha hb
    exact Native64.cast_of_lt _ (Nat.and_lt_two_pow _ hb)
  bor_wf := fun a b _ _ => Native64.cast_lt _
  bor_val := by
    intro a b ha hb
    exact Native64.cast_of_lt _ (Nat.or_lt_two_pow ha hb)
  bnot_wf := fun a _ => Native64.cast_lt _
  bnot_val := by
    intro a ha
    show Native64.lua_pcg_u64_bnot a = 2 ^ 64 - 1 - a
    have ha1 : a < 2 ^ 64 := ha
    rw [Native64.lua_pcg_u64_bnot, lua_pcg_u64_cast_eq, bnot64]
    omega
  additive_inverse_wf := fun a _ => Native64.cast_lt _
  additive_inverse_val := by
    intro a ha
    show Native64.lua_pcg_u64_additive_inverse a = (2 ^ 64 - a) % 2 ^ 64
    have ha1 : a < 2 ^ 64 := ha
    rw [Native64.lua_pcg_u64_additive_inverse, lua_pcg_u64_cast_eq, neg64, wrap64_eq, wrap64_eq]
    omega
  lsh_wf := fun a n _ _ => Native64.cast_lt _
  lsh_val := by
    intro a n _ _
    show Native64.lua_pcg_u64_lsh a n = a * 2 ^ n % 2 ^ 64
    rw [Native64.lua_pcg_u64_lsh, lua_pcg_u64_cast_eq, wrap64_eq, Nat.mod_mod, Nat.shiftLeft_eq]
  rsh_wf := fun a n _ _ => Native64.cast_lt _
  rsh_val := by
    intro a n ha _
    show Native64.lua_pcg_u64_rsh a n = a / 2 ^ n
    have ha1 : a < 2 ^ 64 := ha
    rw [Native64.lua_pcg_u64_rsh, Nat.shiftRight_eq_div_pow]
    exact Native64.cast_of_lt _ (lt_of_le_of_lt (Nat.div_le_self _ _) ha1)
  mul_ex_wf := fun a b ha hb => ⟨(Native64.u64_mul_ex_spec_native a b ha hb).1, (Native64.u64_mul_ex_spec_native a b ha hb).2.1⟩
  mul_ex_val := fun a b ha hb => (Native64.u64_mul_ex_spec_native a b ha hb).2.2
  u128_lh_eq := fun _ _ => rfl
  cast_to_u64_eq := fun _ => rfl
  cast_to_u32_eq := by
    intro v _
    show lua_pcg_u32_cast v.low = v.low % 2 ^ 32
    rw [lua_pcg_u32_cast_eq]

/-! ## Laws of the 128-bit emulation, over any lawful 64-bit operations -/

namespace Emu128

variable {α : Type} {O : U64Ops α} {wf : α → Prop} {val : α → Nat}

theorem val128_lt (L : O.Lawful wf val) (a : lua_pcg_u128 α) (ha : wf128 wf a) :
    val128 val a < 2 ^ 128 := by
  have h1 := L.val_lt _ ha.1
  have h2 := L.val_lt _ ha.2
  simp only [val128]
  omega

theorem val128_inj (L : O.Lawful wf val) (a b : lua_pcg_u128 α) (ha : wf128 wf a) (hb : wf128 wf b)
    (h : val128 val a = val128 val b) : a = b := by
  have h1 := L.val_lt _ ha.1
  have h2 := L.val_lt _ ha.2
  have h3 := L.val_lt _ hb.1
  have h4 := L.val_lt _ hb.2
  simp only [val128] at h
  have e1 : a.low = b.low := L.val_inj _ _ ha.1 hb.1 (by omega)
  have e2 : a.high = b.high := L.val_inj _ _ ha.2 hb.2 (by omega)
  cases a
  cases b
  simp only [] at e1 e2
  rw [e1, e2]

/-- The limbs of a well-formed value are the remainder and the quotient by `2^64`. -/
theorem limbs_of_val128 (L : O.Lawful wf val) (a : lua_pcg_u128 α) (ha : wf128 wf a) :
    val a.low = val128 val a % 2 ^ 64 ∧ val a.high = val128 val a / 2 ^ 64 := by
  have h1 := L.val_lt _ ha.1
  have h2 := L.val_lt _ ha.2
  simp only [val128]
  omega

theorem u128_lh_of_wf (L : O.Lawful wf val) (l h : α) (hl : wf l) (hh : wf h) :
    O.lua_pcg_u128_lh l h = ⟨l, h⟩ := by
  rw [L.u128_lh_eq, L.clone_eq l hl, L.clone_eq h hh]

theorem lh_zero_val (L : O.Lawful wf val) : val (O.lua_pcg_u64_lh 0 0) = 0 := by
  rw [L.lh_val]
  norm_num

theorem lh_one_val (L : O.Lawful wf val) : val (O.lua_pcg_u64_lh 1 0) = 1 := by
  rw [L.lh_val]
  norm_num

theorem zero128_spec (L : O.Lawful wf val) :
    wf128 wf (O.lua_pcg_u128_lh (O.lua_pcg_u64_lh 0 0) (O.lua_pcg_u64_lh 0 0))
    ∧ val128 val (O.lua_pcg_u128_lh (O.lua_pcg_u64_lh 0 0) (O.lua_pcg_u64_lh 0 0)) = 0 := by
  rw [u128_lh_of_wf L _ _ (L.lh_wf 0 0) (L.lh_wf 0 0)]
  refine ⟨⟨L.lh_wf 0 0, L.lh_wf 0 0⟩, ?_⟩
  simp only [val128, lh_zero_val L]
  norm_num

theorem one128_spec (L : O.Lawful wf val) :
    wf128 wf (O.lua_pcg_u128_lh (O.lua_pcg_u64_lh 1 0) (O.lua_pcg_u64_lh 0 0))
    ∧ val128 val (O.lua_pcg_u128_lh (O.lua_pcg_u64_lh 1 0) (O.lua_pcg_u64_lh 0 0)) = 1 := by
  rw [u128_lh_of_wf L _ _ (L.lh_wf 1 0) (L.lh_wf 0 0)]
  refine ⟨⟨L.lh_wf 1 0, L.lh_wf 0 0⟩, ?_⟩
  simp only [val128, lh_zero_val L, lh_one_val L]
  norm_num

/-- A 64-bit value widened to 128 bits, as `lua_pcg_u128_lh(x, 0)` does. -/
theorem widen_spec (L : O.Lawful wf val) (x : α) (hx : wf x) :
    O.lua_pcg_u128_lh x (O.lua_pcg_u64_lh 0 0) = ⟨x, O.lua_pcg_u64_lh 0 0⟩
    ∧ wf128 wf (O.lua_pcg_u128_lh x (O.lua_pcg_u64_lh 0 0))
    ∧ val128 val (O.lua_pcg_u128_lh x (O.lua_pcg_u64_lh 0 0)) = val x := by
  rw [u128_lh_of_wf L _ _ hx (L.lh_wf 0 0)]
  refine ⟨rfl, ⟨hx, L.lh_wf 0 0⟩, ?_⟩
  simp only [val128, lh_zero_val L]
  omega

theorem sum_spec128 (L : O.Lawful wf val) (a b : lua_pcg_u128 α) (ha : wf128 wf a) (hb : wf128 wf b) :
    wf128 wf (lua_pcg_u128_sum O a b)
    ∧ val128 val (lua_pcg_u128_sum O a b) = (val128 val a + val128 val b) % 2 ^ 128 := by
  have h1 := L.val_lt _ ha.1
  have h2 := L.val_lt _ ha.2
  have h3 := L.val_lt _ hb.1
  have h4 := L.val_lt _ hb.2
  have wl := L.sum_wf _ _ ha.1 hb.1
  have wh := L.sum_wf _ _ ha.2 hb.2
  have vl := L.sum_val _ _ ha.1 hb.1
  have vh := L.sum_val _ _ ha.2 hb.2
  have w1 := L.sum_wf _ _ wh (L.lh_wf 1 0)
  have v1 := L.sum_val _ _ wh (L.lh_wf 1 0)
  rw [lh_one_val L] at v1
  have hlt := L.lt_iff _ _ wl ha.1
  simp only [lua_pcg_u128_sum]
  split
  · rename_i hc
    have hc1 := hlt.mp hc
    refine ⟨⟨wl, w1⟩, ?_⟩
    simp only [val128, vl, v1, vh] at *
    omega
  · rename_i hc
    have hc1 : ¬ _ := fun h => hc (hlt.mpr h)
    refine ⟨⟨wl, wh⟩, ?_⟩
    simp only [val128, vl, vh] at *
    omega

theorem lt_iff128 (L : O.Lawful wf val) (a b : lua_pcg_u128 α) (ha : wf128 wf a) (hb : wf128 wf b) :
    lua_pcg_u128_lt O a b = true ↔ val128 val a < val128 val b := by
  have h1 := L.val_lt _ ha.1
  have h2 := L.val_lt _ ha.2
  have h3 := L.val_lt _ hb.1
  have h4 := L.val_lt _ hb.2
  simp only [lua_pcg_u128_lt, Bool.or_eq_true, Bool.and_eq_true, L.lt_iff _ _ ha.2 hb.2,
    L.lt_iff _ _ ha.1 hb.1, L.eq_iff _ _ ha.2 hb.2, val128]
  omega

theorem gt_iff128 (L : O.Lawful wf val) (a b : lua_pcg_u128 α) (ha : wf128 wf a) (hb : wf128 wf b) :
    lua_pcg_u128_gt O a b = true ↔ val128 val b < val128 val a := by
  have h1 := L.val_lt _ ha.1
  have h2 := L.val_lt _ ha.2
  have h3 := L.val_lt _ hb.1
  have h4 := L.val_lt _ hb.2
  simp only [lua_pcg_u128_gt, Bool.or_eq_true, Bool.and_eq_true, L.gt_iff _ _ ha.2 hb.2,
    L.gt_iff _ _ ha.1 hb.1, L.eq_iff _ _ ha.2 hb.2, val128]
  omega

theorem eq_iff128 (L : O.Lawful wf val) (a b : lua_pcg_u128 α) (ha : wf128 wf a) (hb : wf128 wf b) :
    lua_pcg_u128_eq O a b = true ↔ val128 val a = val128 val b := by
  have h1 := L.val_lt _ ha.1
  have h2 := L.val_lt _ ha.2
  have h3 := L.val_lt _ hb.1
  have h4 := L.val_lt _ hb.2
  simp only [lua_pcg_u128_eq, Bool.and_eq_true, L.eq_iff _ _ ha.2 hb.2, L.eq_iff _ _ ha.1 hb.1, val128]
  omega

theorem bnot_spec128 (L : O.Lawful wf val) (a : lua_pcg_u128 α) (ha : wf128 wf a) :
    wf128 wf (lua_pcg_u128_bnot O a)
    ∧ val128 val (lua_pcg_u128_bnot O a) = 2 ^ 128 - 1 - val128 val a := by
  have h1 := L.val_lt _ ha.1
  have h2 := L.val_lt _ ha.2
  have w1 := L.bnot_wf _ ha.1
  have w2 := L.bnot_wf _ ha.2
  have v1 := L.bnot_val _ ha.1
  have v2 := L.bnot_val _ ha.2
  rw [lua_pcg_u128_bnot, u128_lh_of_wf L _ _ w1 w2]
  refine ⟨⟨w1, w2⟩, ?_⟩
  simp only [val128, v1, v2]
  omega

theorem additive_inverse_spec128 (L : O.Lawful wf val) (a : lua_pcg_u128 α) (ha : wf128 wf a) :
    wf128 wf (lua_pcg_u128_additive_inverse O a)
    ∧ val128 val (lua_pcg_u128_additive_inverse O a) = (2 ^ 128 - val128 val a) % 2 ^ 128 := by
  have hlt := val128_lt L a ha
  obtain ⟨wb, vb⟩ := bnot_spec128 L a ha
  obtain ⟨w1, v1⟩ := one128_spec L
  obtain ⟨ws, vs⟩ := sum_spec128 L _ _ wb w1
  rw [lua_pcg_u128_additive_inverse]
  refine ⟨ws, ?_⟩
  rw [vs, vb, v1]
  omega

theorem subtraction_spec128 (L : O.Lawful wf val) (a b : lua_pcg_u128 α) (ha : wf128 wf a)
    (hb : wf128 wf b) :
    wf128 wf (lua_pcg_u128_subtraction O a b)
    ∧ val128 val (lua_pcg_u128_subtraction O a b) = (val128 val a + 2 ^ 128 - val128 val b) % 2 ^ 128 := by
  have hlta := val128_lt L a ha
  have hltb := val128_lt L b hb
  obtain ⟨wi, vi⟩ := additive_inverse_spec128 L b hb
  obtain ⟨ws, vs⟩ := sum_spec128 L _ _ ha wi
  rw [lua_pcg_u128_subtraction]
  refine ⟨ws, ?_⟩
  rw [vs, vi]
  omega

theorem band_spec128 (L : O.Lawful wf val) (a b : lua_pcg_u128 α) (ha : wf128 wf a) (hb : wf128 wf b) :
    wf128 wf (lua_pcg_u128_band O a b)
    ∧ val128 val (lua_pcg_u128_band O a b) = val128 val a &&& val128 val b := by
  have h1 := L.val_lt _ ha.1
  have h3 := L.val_lt _ hb.1
  have w1 := L.band_wf _ _ ha.1 hb.1
  have w2 := L.band_wf _ _ ha.2 hb.2
  rw [lua_pcg_u128_band, u128_lh_of_wf L _ _ w1 w2]
  refine ⟨⟨w1, w2⟩, ?_⟩
  simp only [val128, L.band_val _ _ ha.1 hb.1, L.band_val _ _ ha.2 hb.2]
  rw [and_limbs 64 _ _ _ _ h1 h3]

theorem bor_spec128 (L : O.Lawful wf val) (a b : lua_pcg_u128 α) (ha : wf128 wf a) (hb : wf128 wf b) :
    wf128 wf (lua_pcg_u128_bor O a b)
    ∧ val128 val (lua_pcg_u128_bor O a b) = val128 val a ||| val128 val b := by
  have h1 := L.val_lt _ ha.1
  have h3 := L.val_lt _ hb.1
  have w1 := L.bor_wf _ _ ha.1 hb.1
  have w2 := L.bor_wf _ _ ha.2 hb.2
  rw [lua_pcg_u128_bor, u128_lh_of_wf L _ _ w1 w2]
  refine ⟨⟨w1, w2⟩, ?_⟩
  simp only [val128, L.bor_val _ _ ha.1 hb.1, L.bor_val _ _ ha.2 hb.2]
  rw [or_limbs 64 _ _ _ _ h1 h3]

theorem xor_spec128 (L : O.Lawful wf val) (a b : lua_pcg_u128 α) (ha : wf128 wf a) (hb : wf128 wf b) :
    wf128 wf (lua_pcg_u128_xor O a b)
    ∧ val128 val (lua_pcg_u128_xor O a b) = val128 val a ^^^ val128 val b := by
  have h1 := L.val_lt _ ha.1
  have h3 := L.val_lt _ hb.1
  have w1 := L.xor_wf _ _ ha.1 hb.1
  have w2 := L.xor_wf _ _ ha.2 hb.2
  rw [lua_pcg_u128_xor, u128_lh_of_wf L _ _ w1 w2]
  refine ⟨⟨w1, w2⟩, ?_⟩
  simp only [val128, L.xor_val _ _ ha.1 hb.1, L.xor_val _ _ ha.2 hb.2]
  rw [xor_limbs 64 _ _ _ _ h1 h3]

end Emu128

namespace Emu128

variable {α : Type} {O : U64Ops α} {wf : α → Prop} {val : α → Nat}

theorem rsh_spec128 (L : O.Lawful wf val) (a : lua_pcg_u128 α) (n : Nat) (ha : wf128 wf a) :
    wf128 wf (lua_pcg_u128_rsh O a n)
    ∧ val128 val (lua_pcg_u128_rsh O a n) = val128 val a / 2 ^ n := by
  have h1 := L.val_lt _ ha.1
  have h2 := L.val_lt _ ha.2
  have hz := lh_zero_val L
  have wz := L.lh_wf 0 0
  simp only [lua_pcg_u128_rsh]
  split_ifs with k0 k128 k64 klt
  · have : n = 0 := by omega
    subst this
    rw [L.clone_eq _ ha.1, L.clone_eq _ ha.2]
    exact ⟨ha, by simp⟩
  · refine ⟨⟨wz, wz⟩, ?_⟩
    simp only [val128, hz]
    symm
    apply Nat.div_eq_of_lt
    calc val a.low + 2 ^ 64 * val a.high < 2 ^ 128 := by omega
      _ ≤ 2 ^ n := Nat.pow_le_pow_right (by norm_num) k128
  · subst k64
    rw [L.clone_eq _ ha.2]
    refine ⟨⟨ha.2, wz⟩, ?_⟩
    simp only [val128, hz]
    omega
  · have w1 := L.rsh_wf _ n ha.1 klt
    have w2 := L.lsh_wf _ (64 - n) ha.2 (by omega)
    have w3 := L.rsh_wf _ n ha.2 klt
    refine ⟨⟨L.bor_wf _ _ w1 w2, w3⟩, ?_⟩
    simp only [val128, L.bor_val _ _ w1 w2, L.rsh_val _ n ha.1 klt, L.rsh_val _ n ha.2 klt,
      L.lsh_val _ (64 - n) ha.2 (by omega)]
    exact shr_limbs 64 n _ _ h1 (by omega)
  · have w1 := L.rsh_wf _ (n - 64) ha.2 (by omega)
    refine ⟨⟨w1, wz⟩, ?_⟩
    simp only [val128, hz, L.rsh_val _ (n - 64) ha.2 (by omega), Nat.mul_zero, Nat.add_zero]
    have hp : (2 : Nat) ^ n = 2 ^ 64 * 2 ^ (n - 64) := by
      rw [← pow_add]
      congr 1
      omega
    rw [hp, ← Nat.div_div_eq_div_mul]
    congr 1
    omega

theorem lsh_spec128 (L : O.Lawful wf val) (a : lua_pcg_u128 α) (n : Nat) (ha : wf128 wf a) :
    wf128 wf (lua_pcg_u128_lsh O a n)
    ∧ val128 val (lua_pcg_u128_lsh O a n) = (val128 val a * 2 ^ n) % 2 ^ 128 := by
  have h1 := L.val_lt _ ha.1
  have h2 := L.val_lt _ ha.2
  have hz := lh_zero_val L
  have wz := L.lh_wf 0 0
  simp only [lua_pcg_u128_lsh]
  split_ifs with k0 k128 k64 klt
  · have : n = 0 := by omega
    subst this
    rw [L.clone_eq _ ha.1, L.clone_eq _ ha.2]
    refine ⟨ha, ?_⟩
    simp only [val128, pow_zero, Nat.mul_one]
    omega
  · refine ⟨⟨wz, wz⟩, ?_⟩
    simp only [val128, hz]
    have hd : val128 val a * 2 ^ n % 2 ^ 128 = 0 :=
      Nat.mod_eq_zero_of_dvd (Dvd.dvd.mul_left (pow_dvd_pow 2 k128) _)
    simp only [val128] at hd
    rw [hd]
    norm_num
  · subst k64
    rw [L.clone_eq _ ha.1]
    refine ⟨⟨wz, ha.1⟩, ?_⟩
    simp only [val128, hz]
    omega
  · have w1 := L.lsh_wf _ n ha.1 klt
    have w2 := L.lsh_wf _ n ha.2 klt
    have w3 := L.rsh_wf _ (64 - n) ha.1 (by omega)
    refine ⟨⟨w1, L.bor_wf _ _ w2 w3⟩, ?_⟩
    simp only [val128, L.bor_val _ _ w2 w3, L.lsh_val _ n ha.1 klt, L.lsh_val _ n ha.2 klt,
      L.rsh_val _ (64 - n) ha.1 (by omega)]
    exact shl_limbs 64 n _ _ h1 (by omega)
  · have w1 := L.lsh_wf _ (n - 64) ha.1 (by omega)
    refine ⟨⟨wz, w1⟩, ?_⟩
    simp only [val128, hz, L.lsh_val _ (n - 64) ha.1 (by omega), Nat.zero_add]
    have hp : (2 : Nat) ^ n = 2 ^ 64 * 2 ^ (n - 64) := by
      rw [← pow_add]
      congr 1
      omega
    have e : (val a.low + 2 ^ 64 * val a.high) * 2 ^ n
        = 2 ^ 64 * (val a.low * 2 ^ (n - 64)) + 2 ^ 128 * (val a.high * 2 ^ (n - 64)) := by
      rw [hp]
      ring
    rw [e, Nat.add_mul_mod_self_left, show (2 : Nat) ^ 128 = 2 ^ 64 * 2 ^ 64 by norm_num,
      Nat.mul_mod_mul_left]

/-- The product `lua_pcg_u128_mul` is the product modulo `2^128`. -/
theorem mul_spec128 (L : O.Lawful wf val) (a b : lua_pcg_u128 α) (ha : wf128 wf a) (hb : wf128 wf b) :
    wf128 wf (lua_pcg_u128_mul O a b)
    ∧ val128 val (lua_pcg_u128_mul O a b) = (val128 val a * val128 val b) % 2 ^ 128 := by
  have h1 := L.val_lt _ ha.1
  have h2 := L.val_lt _ ha.2
  have h3 := L.val_lt _ hb.1
  have h4 := L.val_lt _ hb.2
  have hz := lh_zero_val L
  have wz := L.lh_wf 0 0
  have hP : ∀ x y : Nat, x < 2 ^ 64 → y < 2 ^ 64 →
      x * y ≤ 18446744073709551615 * 18446744073709551615 := by
    intro x y hx hy
    exact Nat.mul_le_mul (by omega) (by omega)
  have b0 := hP _ _ h1 h3
  have b1 := hP _ _ h2 h3
  have b2 := hP _ _ h1 h4
  have hprod : val128 val a * val128 val b
      = val a.low * val b.low + 2 ^ 64 * (val a.high * val b.low + val a.low * val b.high)
        + 2 ^ 128 * (val a.high * val b.high) := by
    simp only [val128]
    ring
  simp only [lua_pcg_u128_mul]
  -- the partial products
  obtain ⟨w0l, w0h⟩ := L.mul_ex_wf a.low b.low ha.1 hb.1
  have v0 := L.mul_ex_val a.low b.low ha.1 hb.1
  obtain ⟨w1l, w1h⟩ := L.mul_ex_wf a.high b.low ha.2 hb.1
  have v1 := L.mul_ex_val a.high b.low ha.2 hb.1
  obtain ⟨w2l, w2h⟩ := L.mul_ex_wf a.low b.high ha.1 hb.2
  have v2 := L.mul_ex_val a.low b.high ha.1 hb.2
  generalize O.lua_pcg_u64_mul_ex a.low b.low = aux0 at *
  generalize O.lua_pcg_u64_mul_ex a.high b.low = aux1 at *
  generalize O.lua_pcg_u64_mul_ex a.low b.high = aux2 at *
  generalize val a.low * val b.low = p0 at *
  generalize val a.high * val b.low = p1 at *
  generalize val a.low * val b.high = p2 at *
  generalize val a.high * val b.high = p3 at *
  have l0 := L.val_lt _ w0l
  have l0h := L.val_lt _ w0h
  have l1 := L.val_lt _ w1l
  have l1h := L.val_lt _ w1h
  have l2 := L.val_lt _ w2l
  have l2h := L.val_lt _ w2h
  -- aux1 + (aux0.high, 0)
  obtain ⟨e3, w3, v3⟩ := widen_spec L aux0.high w0h
  obtain ⟨w4, v4⟩ := sum_spec128 L aux1 _ ⟨w1l, w1h⟩ w3
  have v4l : val (lua_pcg_u128_sum O aux1 (O.lua_pcg_u128_lh aux0.high (O.lua_pcg_u64_lh 0 0))).low
      = (p1 + val aux0.high) % 2 ^ 64 := by
    rw [(limbs_of_val128 L _ w4).1, v4, v3]
    simp only [val128, v1]
    clear * -
    omega
  -- the two sums
  obtain ⟨e5, w5, v5⟩ := widen_spec L aux0.low w0l
  obtain ⟨w6, v6⟩ := zero128_spec L
  obtain ⟨w7, v7⟩ := sum_spec128 L _ _ w5 w6
  rw [v5, v6] at v7
  obtain ⟨v7l, v7h⟩ := limbs_of_val128 L _ w7
  rw [v7] at v7l v7h
  have v7l1 : val (lua_pcg_u128_sum O (O.lua_pcg_u128_lh aux0.low (O.lua_pcg_u64_lh 0 0))
      (O.lua_pcg_u128_lh (O.lua_pcg_u64_lh 0 0) (O.lua_pcg_u64_lh 0 0))).low = val aux0.low := by
    rw [v7l]
    clear * - l0
    omega
  have v7h1 : val (lua_pcg_u128_sum O (O.lua_pcg_u128_lh aux0.low (O.lua_pcg_u64_lh 0 0))
      (O.lua_pcg_u128_lh (O.lua_pcg_u64_lh 0 0) (O.lua_pcg_u64_lh 0 0))).high = 0 := by
    rw [v7h]
    clear * - l0
    omega
  obtain ⟨e8, w8, v8⟩ := widen_spec L _ w7.2
  rw [v7h1] at v8
  obtain ⟨e9, w9, v9⟩ := widen_spec L _ w4.1
  rw [v4l] at v9
  obtain ⟨e10, w10, v10⟩ := widen_spec L aux2.low w2l
  obtain ⟨w11, v11⟩ := sum_spec128 L _ _ w9 w10
  rw [v9, v10] at v11
  obtain ⟨w12, v12⟩ := sum_spec128 L _ _ w11 w8
  rw [v11, v8] at v12
  have v12l := (limbs_of_val128 L _ w12).1
  rw [v12] at v12l
  have v12l1 : (((p1 + val aux0.high) % 2 ^ 64 + val aux2.low) % 2 ^ 128 + 0) % 2 ^ 128 % 2 ^ 64
      = (p1 + val aux0.high + val aux2.low) % 2 ^ 64 := by
    clear * -
    omega
  rw [v12l1] at v12l
  rw [u128_lh_of_wf L _ _ w7.1 w12.1]
  refine ⟨⟨w7.1, w12.1⟩, ?_⟩
  rw [hprod]
  simp only [val128]
  rw [v7l1, v12l]
  clear * - v0 v2 l0
  omega

end Emu128

namespace Emu64

open Emu128

/-- Quotient and remainder from the two inequalities that the bisection tests. -/
theorem div_mod_of_bounds (A B q : Nat) (h1 : q * B ≤ A) (h2 : A < q * B + B) :
    A / B = q ∧ A % B = A - q * B := by
  have hq : A / B = q := Nat.div_eq_of_lt_le h1 (by rw [Nat.add_mul, Nat.one_mul]; exact h2)
  refine ⟨hq, ?_⟩
  rw [Nat.mod_def, hq, Nat.mul_comm]

/-- One pass of the bisection: the values of `_q`, `qb` and `qb + _b`. -/
theorem div_pass_values (b ql qr : lua_pcg_u128 lua_pcg_u64) (hb : wf128 wf64 b)
    (hl : wf128 wf64 ql) (hr : wf128 wf64 qr)
    (hB64 : val128 val64 b < 2 ^ 64) (hlr : val128 val64 ql < val128 val64 qr)
    (hr64 : val128 val64 qr < 2 ^ 64) :
    wf128 wf64 (lua_pcg_u128_rsh ops (lua_pcg_u128_sum ops ql qr) 1)
    ∧ val128 val64 (lua_pcg_u128_rsh ops (lua_pcg_u128_sum ops ql qr) 1)
        = (val128 val64 ql + val128 val64 qr) / 2
    ∧ wf128 wf64 (lua_pcg_u128_mul ops (lua_pcg_u128_rsh ops (lua_pcg_u128_sum ops ql qr) 1) b)
    ∧ val128 val64 (lua_pcg_u128_mul ops (lua_pcg_u128_rsh ops (lua_pcg_u128_sum ops ql qr) 1) b)
        = (val128 val64 ql + val128 val64 qr) / 2 * val128 val64 b
    ∧ wf128 wf64 (lua_pcg_u128_sum ops
        (lua_pcg_u128_mul ops (lua_pcg_u128_rsh ops (lua_pcg_u128_sum ops ql qr) 1) b) b)
    ∧ val128 val64 (lua_pcg_u128_sum ops
        (lua_pcg_u128_mul ops (lua_pcg_u128_rsh ops (lua_pcg_u128_sum ops ql qr) 1) b) b)
        = (val128 val64 ql + val128 val64 qr) / 2 * val128 val64 b + val128 val64 b := by
  obtain ⟨ws, vs⟩ := sum_spec128 ops_lawful_emu ql qr hl hr
  obtain ⟨wq, vq⟩ := rsh_spec128 ops_lawful_emu _ 1 ws
  obtain ⟨wm, vm⟩ := mul_spec128 ops_lawful_emu _ b wq hb
  obtain ⟨wt, vt⟩ := sum_spec128 ops_lawful_emu _ b wm hb
  have e1 : (val128 val64 ql + val128 val64 qr) % 2 ^ 128 / 2 ^ 1
      = (val128 val64 ql + val128 val64 qr) / 2 := by
    clear * - hlr hr64
    omega
  rw [vs, e1] at vq
  have hmid : (val128 val64 ql + val128 val64 qr) / 2 + 1 ≤ 2 ^ 64 - 1 := by
    clear * - hlr hr64
    omega
  have hprod : ((val128 val64 ql + val128 val64 qr) / 2 + 1) * val128 val64 b
      ≤ (2 ^ 64 - 1) * (2 ^ 64 - 1) := Nat.mul_le_mul hmid (by clear * - hB64; omega)
  rw [Nat.add_mul, Nat.one_mul] at hprod
  have e2 : (val128 val64 ql + val128 val64 qr) / 2 * val128 val64 b % 2 ^ 128
      = (val128 val64 ql + val128 val64 qr) / 2 * val128 val64 b := by
    apply Nat.mod_eq_of_lt
    clear * - hprod
    omega
  rw [vq, e2] at vm
  have e3 : ((val128 val64 ql + val128 val64 qr) / 2 * val128 val64 b + val128 val64 b) % 2 ^ 128
      = (val128 val64 ql + val128 val64 qr) / 2 * val128 val64 b + val128 val64 b := by
    apply Nat.mod_eq_of_lt
    clear * - hprod
    omega
  rw [vm, e3] at vt
  exact ⟨wq, vq, wm, vm, wt, vt⟩

/-- The value of `(lua_pcg_u64) x` for a 128-bit `x` that fits in 64 bits. -/
theorem cast_to_u64_spec (x : lua_pcg_u128 lua_pcg_u64) (hx : wf128 wf64 x)
    (h : val128 val64 x < 2 ^ 64) :
    wf64 (lua_pcg_u128_cast_to_u64 x) ∧ val64 (lua_pcg_u128_cast_to_u64 x) = val128 val64 x := by
  have e : lua_pcg_u128_cast_to_u64 x = x.low := clone_eq64 _ hx.1
  rw [e]
  refine ⟨hx.1, ?_⟩
  have h1 := val64_lt _ hx.1
  simp only [val128] at h ⊢
  omega

/-- The bisection loop of the emulated `lua_pcg_u64_div` ends within `k + 1` passes when the
interval is at most `2^k` wide, and then holds the quotient and the remainder. -/
theorem div_loop_spec (a b : lua_pcg_u128 lua_pcg_u64) (ha : wf128 wf64 a) (hb : wf128 wf64 b)
    (hA64 : val128 val64 a < 2 ^ 64) (hB64 : val128 val64 b < 2 ^ 64) (fuel : Nat) :
    ∀ (k : Nat) (ql qr : lua_pcg_u128 lua_pcg_u64), k < fuel → wf128 wf64 ql → wf128 wf64 qr →
      val128 val64 ql * val128 val64 b ≤ val128 val64 a →
      val128 val64 a < val128 val64 qr * val128 val64 b →
      val128 val64 qr < 2 ^ 64 →
      val128 val64 qr - val128 val64 ql ≤ 2 ^ k →
      ∃ q r, lua_pcg_u64_div_loop fuel a b ql qr = .ok (q, r) ∧ wf64 q ∧ wf64 r
        ∧ val64 q = val128 val64 a / val128 val64 b
        ∧ val64 r = val128 val64 a % val128 val64 b := by
  induction fuel with
  | zero =>
    intro k ql qr hk
    omega
  | succ fuel ih =>
    intro k ql qr hk hl hr h1 h2 hr64 hw
    have hlr : val128 val64 ql < val128 val64 qr := by
      by_contra hcon
      have hle : val128 val64 qr * val128 val64 b ≤ val128 val64 ql * val128 val64 b :=
        Nat.mul_le_mul_right _ (Nat.le_of_not_lt hcon)
      omega
    obtain ⟨wq, vq, wm, vm, wt, vt⟩ := div_pass_values b ql qr hb hl hr hB64 hlr hr64
    have hmid64 : val128 val64 (lua_pcg_u128_rsh ops (lua_pcg_u128_sum ops ql qr) 1) < 2 ^ 64 := by
      rw [vq]
      clear * - hlr hr64
      omega
    obtain ⟨wc, vc⟩ := cast_to_u64_spec _ wq hmid64
    rw [lua_pcg_u64_div_loop]
    by_cases heq : lua_pcg_u128_eq ops
        (lua_pcg_u128_mul ops (lua_pcg_u128_rsh ops (lua_pcg_u128_sum ops ql qr) 1) b) a = true
    · rw [if_pos heq]
      have heq1 := (eq_iff128 ops_lawful_emu _ _ wm ha).mp heq
      rw [vm] at heq1
      obtain ⟨hq, hr1⟩ := div_mod_of_bounds _ _ _ (Nat.le_of_eq heq1)
        (by
          have hbpos : 0 < val128 val64 b := by
            rcases Nat.eq_zero_or_pos (val128 val64 b) with h0 | h0
            · rw [h0] at h2
              simp at h2
            · exact h0
          omega)
      refine ⟨_, _, rfl, wc, lh_wf64 0 0, ?_, ?_⟩
      · rw [vc, vq, hq]
      · rw [lh_val64, hr1, heq1]
        simp
    · rw [if_neg heq]
      have hne : ¬ ((val128 val64 ql + val128 val64 qr) / 2 * val128 val64 b = val128 val64 a) := by
        intro h
        apply heq
        apply (eq_iff128 ops_lawful_emu _ _ wm ha).mpr
        rw [vm, h]
      by_cases hlt : lua_pcg_u128_lt ops
          (lua_pcg_u128_mul ops (lua_pcg_u128_rsh ops (lua_pcg_u128_sum ops ql qr) 1) b) a = true
      · rw [if_pos hlt]
        have hlt1 := (lt_iff128 ops_lawful_emu _ _ wm ha).mp hlt
        rw [vm] at hlt1
        by_cases hlt2 : lua_pcg_u128_lt ops a (lua_pcg_u128_sum ops
            (lua_pcg_u128_mul ops (lua_pcg_u128_rsh ops (lua_pcg_u128_sum ops ql qr) 1) b) b) = true
        · rw [if_pos hlt2]
          have hlt3 := (lt_iff128 ops_lawful_emu _ _ ha wt).mp hlt2
          rw [vt] at hlt3
          obtain ⟨hq, hr1⟩ := div_mod_of_bounds _ _ _ (Nat.le_of_lt hlt1) hlt3
          obtain ⟨wsub, vsub⟩ := subtraction_spec128 ops_lawful_emu a _ ha wm
          rw [vm] at vsub
          have e4 : (val128 val64 a + 2 ^ 128 - (val128 val64 ql + val128 val64 qr) / 2 * val128 val64 b)
              % 2 ^ 128 = val128 val64 a - (val128 val64 ql + val128 val64 qr) / 2 * val128 val64 b := by
            clear * - hlt1 hA64
            omega
          rw [e4] at vsub
          obtain ⟨wcs, vcs⟩ := cast_to_u64_spec _ wsub (by rw [vsub]; clear * - hA64; omega)
          refine ⟨_, _, rfl, wc, wcs, ?_, ?_⟩
          · rw [vc, vq, hq]
          · rw [vcs, vsub, hr1]
        · rw [if_neg hlt2]
          have hge : ¬ (val128 val64 a
              < (val128 val64 ql + val128 val64 qr) / 2 * val128 val64 b + val128 val64 b) := by
            intro h
            apply hlt2
            apply (lt_iff128 ops_lawful_emu _ _ ha wt).mpr
            rw [vt]
            exact h
          have hk0 : 0 < k := by
            rcases Nat.eq_zero_or_pos k with h0 | h0
            · exfalso
              subst h0
              have hr1 : val128 val64 qr = val128 val64 ql + 1 := by
                clear * - hlr hw
                omega
              have hm : (val128 val64 ql + val128 val64 qr) / 2 = val128 val64 ql := by
                clear * - hr1
                omega
              rw [hm] at hge
              rw [hr1, Nat.add_mul, Nat.one_mul] at h2
              exact hge h2
            · exact h0
          apply ih (k - 1) _ qr (by omega) wq hr _ h2 hr64
          · rw [vq]
            have hp : 2 ^ k = 2 * 2 ^ (k - 1) := by
              rw [← pow_succ']
              congr 1
              omega
            clear * - hw hp hlr
            omega
          · rw [vq]
            exact Nat.le_of_lt hlt1
      · rw [if_neg hlt]
        have hgt : val128 val64 a < (val128 val64 ql + val128 val64 qr) / 2 * val128 val64 b := by
          have h3 : ¬ ((val128 val64 ql + val128 val64 qr) / 2 * val128 val64 b < val128 val64 a) := by
            intro h
            apply hlt
            apply (lt_iff128 ops_lawful_emu _ _ wm ha).mpr
            rw [vm]
            exact h
          clear * - h3 hne
          omega
        have hk0 : 0 < k := by
          rcases Nat.eq_zero_or_pos k with h0 | h0
          · exfalso
            subst h0
            have hm : (val128 val64 ql + val128 val64 qr) / 2 = val128 val64 ql := by
              clear * - hlr hw
              omega
            rw [hm] at hgt
            clear * - hgt h1
            omega
          · exact h0
        apply ih (k - 1) ql _ (by omega) hl wq h1 _ hmid64
        · rw [vq]
          have hp : 2 ^ k = 2 * 2 ^ (k - 1) := by
            rw [← pow_succ']
            congr 1
            omega
          clear * - hw hp hlr
          omega
        · rw [vq]
          exact hgt

end Emu64

namespace Emu64

open Emu128

/-- The emulated `lua_pcg_u64_div` returns 0 and stores the quotient and the remainder, for every
non-zero divisor, as soon as 65 passes of its loop are allowed. -/
theorem div_spec (fuel : Nat) (hfuel : 65 ≤ fuel) (a b q0 r0 : lua_pcg_u64) (ha : wf64 a) (hb : wf64 b)
    (hb0 : val64 b ≠ 0) :
    ∃ q r, lua_pcg_u64_div fuel a b q0 r0 = .ok (0, q, r) ∧ wf64 q ∧ wf64 r
      ∧ val64 q = val64 a / val64 b ∧ val64 r = val64 a % val64 b := by
  have hA := val64_lt a ha
  have hB := val64_lt b hb
  have wz := lh_wf64 0 0
  have w1 := lh_wf64 1 0
  have vz : val64 (lua_pcg_u64_lh 0 0) = 0 := by
    rw [lh_val64]
    norm_num
  have v1 : val64 (lua_pcg_u64_lh 1 0) = 1 := by
    rw [lh_val64]
    norm_num
  have c0 : lua_pcg_u64_eq b (lua_pcg_u64_lh 0 0) = false := by
    rw [Bool.eq_false_iff]
    intro h
    have := (eq_iff64 _ _ hb wz).mp h
    rw [vz] at this
    exact hb0 this
  rw [lua_pcg_u64_div, c0]
  simp only [Bool.false_eq_true, if_false]
  by_cases c1 : lua_pcg_u64_eq b (lua_pcg_u64_lh 1 0) = true
  · rw [if_pos c1]
    have hb1 := (eq_iff64 _ _ hb w1).mp c1
    rw [v1] at hb1
    refine ⟨_, _, rfl, ?_, wz, ?_, ?_⟩
    · rw [clone_eq64 a ha]
      exact ha
    · rw [clone_eq64 a ha, hb1, Nat.div_one]
    · rw [vz, hb1, Nat.mod_one]
  rw [if_neg c1]
  have hb1 : val64 b ≠ 1 := by
    intro h
    apply c1
    apply (eq_iff64 _ _ hb w1).mpr
    rw [v1, h]
  by_cases c2 : lua_pcg_u64_eq a b = true
  · rw [if_pos c2]
    have hab := (eq_iff64 _ _ ha hb).mp c2
    refine ⟨_, _, rfl, w1, wz, ?_, ?_⟩
    · rw [v1, hab, Nat.div_self (Nat.pos_of_ne_zero hb0)]
    · rw [vz, hab, Nat.mod_self]
  rw [if_neg c2]
  have hab : val64 a ≠ val64 b := by
    intro h
    apply c2
    exact (eq_iff64 _ _ ha hb).mpr h
  by_cases c3 : lua_pcg_u64_lt a b = true
  · rw [if_pos c3]
    have hlt := (lt_iff64 _ _ ha hb).mp c3
    refine ⟨_, _, rfl, wz, ?_, ?_, ?_⟩
    · rw [clone_eq64 a ha]
      exact ha
    · rw [vz, Nat.div_eq_of_lt hlt]
    · rw [clone_eq64 a ha, Nat.mod_eq_of_lt hlt]
  rw [if_neg c3]
  have hgt : val64 b < val64 a := by
    have h3 : ¬ (val64 a < val64 b) := fun h => c3 ((lt_iff64 _ _ ha hb).mpr h)
    omega
  by_cases c4 : a.high = 0 ∧ b.high = 0
  · rw [if_pos c4]
    obtain ⟨ha1, ha2⟩ := ha
    obtain ⟨hb1', hb2'⟩ := hb
    obtain ⟨c4a, c4b⟩ := c4
    have ea : val64 a = a.low := by
      simp only [val64, c4a]
      omega
    have eb : val64 b = b.low := by
      simp only [val64, c4b]
      omega
    have ca : lua_pcg_u32_cast a.low = a.low := by
      rw [lua_pcg_u32_cast_eq, Nat.mod_eq_of_lt ha1]
    have cb : lua_pcg_u32_cast b.low = b.low := by
      rw [lua_pcg_u32_cast_eq, Nat.mod_eq_of_lt hb1']
    have hbl : b.low ≠ 0 := by
      rw [← eb]
      exact hb0
    simp only [ca, cb]
    rw [if_neg hbl]
    have hq : a.low / b.low ≤ a.low := Nat.div_le_self _ _
    have hm : a.low / b.low * b.low ≤ a.low := Nat.div_mul_le_self _ _
    have hmod := Nat.mod_def a.low b.low
    rw [Nat.mul_comm] at hmod
    refine ⟨_, _, rfl, lh_wf64 _ _, lh_wf64 _ _, ?_, ?_⟩
    · rw [lh_val64, ea, eb, Nat.mod_eq_of_lt (lt_of_le_of_lt hq ha1)]
      norm_num
    · rw [lh_val64, ea, eb, hmod]
      simp only [sub32, neg32, wrap32_eq]
      generalize a.low / b.low * b.low = m at hm ⊢
      clear * - hm ha1
      omega
  rw [if_neg c4]
  obtain ⟨ea, wa, va⟩ := widen_spec ops_lawful_emu a ha
  obtain ⟨eb, wb, vb⟩ := widen_spec ops_lawful_emu b hb
  obtain ⟨wl, vl⟩ := one128_spec ops_lawful_emu
  have wmax := lh_wf64 0xFFFFFFFF 0xFFFFFFFF
  obtain ⟨er, wr, vr⟩ := widen_spec ops_lawful_emu _ wmax
  have vmax : val64 (lua_pcg_u64_lh 0xFFFFFFFF 0xFFFFFFFF) = 2 ^ 64 - 1 := by
    rw [lh_val64]
    norm_num
  rw [vmax] at vr
  have hB2 : 2 ≤ val64 b := by
    clear * - hb0 hb1
    omega
  have hmul : (2 ^ 64 - 1) * 2 ≤ (2 ^ 64 - 1) * val64 b := Nat.mul_le_mul_left _ hB2
  obtain ⟨q, r, hloop, wq, wrr, vq, vrr⟩ := div_loop_spec
    (lua_pcg_u128_lh a (lua_pcg_u64_lh 0 0)) (lua_pcg_u128_lh b (lua_pcg_u64_lh 0 0)) wa wb
    (by show val128 val64 (ops.lua_pcg_u128_lh a (ops.lua_pcg_u64_lh 0 0)) < 2 ^ 64
        rw [va]
        exact hA)
    (by show val128 val64 (ops.lua_pcg_u128_lh b (ops.lua_pcg_u64_lh 0 0)) < 2 ^ 64
        rw [vb]
        exact hB)
    fuel 64
    (lua_pcg_u128_lh (lua_pcg_u64_lh 1 0) (lua_pcg_u64_lh 0 0))
    (lua_pcg_u128_lh (lua_pcg_u64_lh 0xFFFFFFFF 0xFFFFFFFF) (lua_pcg_u64_lh 0 0))
    (by omega) wl wr
    (by show val128 val64 (ops.lua_pcg_u128_lh (ops.lua_pcg_u64_lh 1 0) (ops.lua_pcg_u64_lh 0 0))
          * val128 val64 (ops.lua_pcg_u128_lh b (ops.lua_pcg_u64_lh 0 0))
          ≤ val128 val64 (ops.lua_pcg_u128_lh a (ops.lua_pcg_u64_lh 0 0))
        rw [vl, va, vb]
        clear * - hgt
        omega)
    (by show val128 val64 (ops.lua_pcg_u128_lh a (ops.lua_pcg_u64_lh 0 0))
          < val128 val64 (ops.lua_pcg_u128_lh (lua_pcg_u64_lh 0xFFFFFFFF 0xFFFFFFFF)
              (ops.lua_pcg_u64_lh 0 0))
            * val128 val64 (ops.lua_pcg_u128_lh b (ops.lua_pcg_u64_lh 0 0))
        rw [vr, va, vb]
        clear * - hmul hA
        omega)
    (by show val128 val64 (ops.lua_pcg_u128_lh (lua_pcg_u64_lh 0xFFFFFFFF 0xFFFFFFFF)
          (ops.lua_pcg_u64_lh 0 0)) < 2 ^ 64
        rw [vr]
        norm_num)
    (by show val128 val64 (ops.lua_pcg_u128_lh (lua_pcg_u64_lh 0xFFFFFFFF 0xFFFFFFFF)
          (ops.lua_pcg_u64_lh 0 0))
          - val128 val64 (ops.lua_pcg_u128_lh (ops.lua_pcg_u64_lh 1 0) (ops.lua_pcg_u64_lh 0 0)) ≤ 2 ^ 64
        rw [vr, vl]
        norm_num)
  rw [hloop]
  refine ⟨q, r, rfl, wq, wrr, ?_, ?_⟩
  · rw [vq]
    show val128 val64 (ops.lua_pcg_u128_lh a (ops.lua_pcg_u64_lh 0 0))
      / val128 val64 (ops.lua_pcg_u128_lh b (ops.lua_pcg_u64_lh 0 0)) = _
    rw [va, vb]
  · rw [vrr]
    show val128 val64 (ops.lua_pcg_u128_lh a (ops.lua_pcg_u64_lh 0 0))
      % val128 val64 (ops.lua_pcg_u128_lh b (ops.lua_pcg_u64_lh 0 0)) = _
    rw [va, vb]

end Emu64

/-- C5: for every emulated 64-bit `a` and `b` with `b ≠ 0`, `lua_pcg_u64_div` (given at least 65
passes for its bisection loop) returns 0 and stores `q` and `r` with `a = q * b + r` and
`0 ≤ r < b`, that is `q = a / b` and `r = a mod b`, whatever `*q` and `*r` held before. -/
theorem C5_emulated_div_correct (fuel : Nat) (a b q0 r0 : Emu64.lua_pcg_u64)
    (hfuel : 65 ≤ fuel) (ha : Emu64.wf64 a) (hb : Emu64.wf64 b) (hb0 : Emu64.val64 b ≠ 0) :
    ∃ q r, Emu64.lua_pcg_u64_div fuel a b q0 r0 = .ok (0, q, r)
      ∧ Emu64.wf64 q ∧ Emu64.wf64 r
      ∧ Emu64.val64 a = Emu64.val64 q * Emu64.val64 b + Emu64.val64 r
      ∧ Emu64.val64 r < Emu64.val64 b
      ∧ Emu64.val64 q = Emu64.val64 a / Emu64.val64 b
      ∧ Emu64.val64 r = Emu64.val64 a % Emu64.val64 b := by
  obtain ⟨q, r, he, wq, wr, vq, vr⟩ := Emu64.div_spec fuel hfuel a b q0 r0 ha hb hb0
  refine ⟨q, r, he, wq, wr, ?_, ?_, vq, vr⟩
  · rw [vq, vr, Nat.mul_comm]
    exact (Nat.div_add_mod _ _).symm
  · rw [vr]
    exact Nat.mod_lt _ (Nat.pos_of_ne_zero hb0)

namespace Emu128

variable {α : Type} {wf : α → Prop} {val : α → Nat}

/-- Squaring the recurrence, modulo `W`. -/
theorem lcg_square (W cm cp y : Nat) :
    (cm * cm % W * y + (cm + 1) % W * cp % W) % W = (cm * ((cm * y + cp) % W) + cp) % W := by
  rw [mod_eq_iff_zmod]
  simp only [Nat.cast_add, Nat.cast_mul, ZMod.natCast_mod, Nat.cast_one]
  ring

/-- Folding the current power of the recurrence into the accumulator, modulo `W`. -/
theorem lcg_fold (W cm cp am ap x : Nat) :
    (am * cm % W * x + (ap * cm % W + cp) % W) % W = (cm * ((am * x + ap) % W) + cp) % W := by
  rw [mod_eq_iff_zmod]
  simp only [Nat.cast_add, Nat.cast_mul, ZMod.natCast_mod]
  ring

/-- Loop invariant of the emulated `lua_pcg_advance_lcg_128`: with more passes allowed than
`delta` has bits, the loop ends, and the accumulated affine map is `delta` applications of the
recurrence. -/
theorem advance_emu_loop_spec (B : U64Backend α) (L : B.toU64Ops.Lawful wf val) (fuel : Nat) :
    ∀ (k : Nat) (delta cm cp am ap : lua_pcg_u128 α), k < fuel → val128 val delta < 2 ^ k →
      wf128 wf delta → wf128 wf cm → wf128 wf cp → wf128 wf am → wf128 wf ap →
      ∃ am1 ap1, lua_pcg_advance_lcg_128_loop B fuel delta cm cp am ap = .ok (am1, ap1)
        ∧ wf128 wf am1 ∧ wf128 wf ap1
        ∧ ∀ x, (val128 val am1 * x + val128 val ap1) % 2 ^ 128
            = (fun y => (val128 val cm * y + val128 val cp) % 2 ^ 128)^[val128 val delta]
                ((val128 val am * x + val128 val ap) % 2 ^ 128) := by
  induction fuel with
  | zero =>
    intro k delta cm cp am ap hk
    omega
  | succ fuel ih =>
    intro k delta cm cp am ap hk hd wd wcm wcp wam wap
    obtain ⟨wzero, vzero⟩ := zero128_spec L
    obtain ⟨wone, vone⟩ := one128_spec L
    rw [lua_pcg_advance_lcg_128_loop]
    by_cases hgt : lua_pcg_u128_gt B.toU64Ops delta
        (B.lua_pcg_u128_lh (B.lua_pcg_u64_lh 0 0) (B.lua_pcg_u64_lh 0 0)) = true
    · have hpos := (gt_iff128 L _ _ wd wzero).mp hgt
      rw [vzero] at hpos
      simp only [hgt, if_true]
      obtain ⟨wband, vband⟩ := band_spec128 L delta _ wd wone
      rw [vone, Nat.and_one_is_mod] at vband
      have hk0 : 0 < k := by
        rcases Nat.eq_zero_or_pos k with h0 | h0
        · subst h0
          simp at hd
          omega
        · exact h0
      obtain ⟨wrsh, vrsh⟩ := rsh_spec128 L delta 1 wd
      rw [pow_one] at vrsh
      have hd1 : val128 val (lua_pcg_u128_rsh B.toU64Ops delta 1) < 2 ^ (k - 1) := by
        rw [vrsh]
        have hp : 2 ^ k = 2 * 2 ^ (k - 1) := by
          rw [← pow_succ']
          congr 1
          omega
        clear * - hd hp
        omega
      obtain ⟨wcm1, vcm1⟩ := mul_spec128 L cm cm wcm wcm
      obtain ⟨wcs, vcs⟩ := sum_spec128 L cm _ wcm wone
      obtain ⟨wcp1, vcp1⟩ := mul_spec128 L _ cp wcs wcp
      rw [vcs, vone] at vcp1
      obtain ⟨wam1, vam1⟩ := mul_spec128 L am cm wam wcm
      obtain ⟨wapm, vapm⟩ := mul_spec128 L ap cm wap wcm
      obtain ⟨wap1, vap1⟩ := sum_spec128 L _ cp wapm wcp
      rw [vapm] at vap1
      have hhalf : ∀ z, (fun y => (val128 val cm * y + val128 val cp) % 2 ^ 128)^[val128 val delta] z
          = (fun y => (val128 val (lua_pcg_u128_mul B.toU64Ops cm cm) * y
                + val128 val (lua_pcg_u128_mul B.toU64Ops
                    (lua_pcg_u128_sum B.toU64Ops cm
                      (B.lua_pcg_u128_lh (B.lua_pcg_u64_lh 1 0) (B.lua_pcg_u64_lh 0 0))) cp))
              % 2 ^ 128)^[val128 val delta / 2]
              (if val128 val delta % 2 = 1 then (val128 val cm * z + val128 val cp) % 2 ^ 128 else z) := by
        intro z
        apply iterate_halve
        intro y
        rw [vcm1, vcp1]
        exact lcg_square _ _ _ _
      by_cases hodd : lua_pcg_u128_neq B.toU64Ops
          (lua_pcg_u128_band B.toU64Ops delta
            (B.lua_pcg_u128_lh (B.lua_pcg_u64_lh 1 0) (B.lua_pcg_u64_lh 0 0)))
          (B.lua_pcg_u128_lh (B.lua_pcg_u64_lh 0 0) (B.lua_pcg_u64_lh 0 0)) = true
      · have hodd1 : val128 val delta % 2 = 1 := by
          have hne : ¬ (val128 val delta % 2 = 0) := by
            intro h0
            have heq := (eq_iff128 L _ _ wband wzero).mpr (by rw [vband, vzero, h0])
            simp only [lua_pcg_u128_neq, heq] at hodd
            exact absurd hodd (by decide)
          omega
        simp only [hodd, if_true]
        obtain ⟨am2, ap2, hloop, wam2, wap2, hspec⟩ :=
          ih (k - 1) _ _ _ _ _ (by omega) hd1 wrsh wcm1 wcp1 wam1 wap1
        refine ⟨am2, ap2, hloop, wam2, wap2, ?_⟩
        intro x
        rw [hspec x, hhalf, vrsh, if_pos hodd1, vam1, vap1]
        congr 1
        exact lcg_fold _ _ _ _ _ _
      · have hodd1 : ¬ (val128 val delta % 2 = 1) := by
          intro h1
          apply hodd
          have hne : lua_pcg_u128_eq B.toU64Ops
              (lua_pcg_u128_band B.toU64Ops delta
                (B.lua_pcg_u128_lh (B.lua_pcg_u64_lh 1 0) (B.lua_pcg_u64_lh 0 0)))
              (B.lua_pcg_u128_lh (B.lua_pcg_u64_lh 0 0) (B.lua_pcg_u64_lh 0 0)) = false := by
            rw [Bool.eq_false_iff]
            intro heq
            have := (eq_iff128 L _ _ wband wzero).mp heq
            rw [vband, vzero, h1] at this
            exact absurd this (by decide)
          simp only [lua_pcg_u128_neq, hne]
          rfl
        simp only [hodd, Bool.false_eq_true, if_false]
        obtain ⟨am2, ap2, hloop, wam2, wap2, hspec⟩ :=
          ih (k - 1) _ _ _ _ _ (by omega) hd1 wrsh wcm1 wcp1 wam wap
        refine ⟨am2, ap2, hloop, wam2, wap2, ?_⟩
        intro x
        rw [hspec x, hhalf, vrsh, if_neg hodd1]
    · have hz : val128 val delta = 0 := by
        have h1 : ¬ (0 < val128 val delta) := by
          intro h
          apply hgt
          apply (gt_iff128 L _ _ wd wzero).mpr
          rw [vzero]
          exact h
        omega
      simp only [hgt, Bool.false_eq_true, if_false]
      refine ⟨am, ap, rfl, wam, wap, ?_⟩
      intro x
      rw [hz]
      rfl

end Emu128

namespace Emu128

variable {α : Type} {wf : α → Prop} {val : α → Nat}

/-- The emulated multiplier constant is well-formed and has the value of the native one. -/
theorem multiplier_128_spec (B : U64Backend α) (L : B.toU64Ops.Lawful wf val) :
    wf128 wf (LUA_PCG_DEFAULT_MULTIPLIER_128 B)
    ∧ val128 val (LUA_PCG_DEFAULT_MULTIPLIER_128 B) = 0x2360ED051FC65DA44385DF649FCCF645 := by
  have w1 := L.lh_wf 0x9FCCF645 0x4385DF64
  have w2 := L.lh_wf 0x1FC65DA4 0x2360ED05
  rw [LUA_PCG_DEFAULT_MULTIPLIER_128, u128_lh_of_wf L _ _ w1 w2]
  refine ⟨⟨w1, w2⟩, ?_⟩
  simp only [val128, L.lh_val]
  norm_num

/-- One step of the emulated engine is one step of the recurrence on the represented state. -/
theorem step_emu_spec (B : U64Backend α) (L : B.toU64Ops.Lawful wf val)
    (rng : lua_pcg_state_setseq_128 α) (h : wf_state wf rng) :
    wf_state wf (lua_pcg_setseq_128_step_r B rng)
    ∧ (lua_pcg_setseq_128_step_r B rng).inc = rng.inc
    ∧ val128 val (lua_pcg_setseq_128_step_r B rng).state
        = (val128 val (LUA_PCG_DEFAULT_MULTIPLIER_128 B) * val128 val rng.state + val128 val rng.inc)
            % 2 ^ 128 := by
  obtain ⟨wm, _⟩ := multiplier_128_spec B L
  obtain ⟨w1, v1⟩ := mul_spec128 L rng.state _ h.1 wm
  obtain ⟨w2, v2⟩ := sum_spec128 L _ rng.inc w1 h.2
  refine ⟨⟨w2, h.2⟩, rfl, ?_⟩
  show val128 val (lua_pcg_u128_sum B.toU64Ops
    (lua_pcg_u128_mul B.toU64Ops rng.state (LUA_PCG_DEFAULT_MULTIPLIER_128 B)) rng.inc) = _
  rw [v2, v1, mod_eq_iff_zmod]
  simp only [Nat.cast_add, Nat.cast_mul, ZMod.natCast_mod]
  ring

/-- Iterating the emulated step iterates the recurrence on the represented state. -/
theorem step_emu_iterate (B : U64Backend α) (L : B.toU64Ops.Lawful wf val)
    (rng : lua_pcg_state_setseq_128 α) (h : wf_state wf rng) (n : Nat) :
    wf_state wf ((lua_pcg_setseq_128_step_r B)^[n] rng)
    ∧ ((lua_pcg_setseq_128_step_r B)^[n] rng).inc = rng.inc
    ∧ val128 val ((lua_pcg_setseq_128_step_r B)^[n] rng).state
        = (fun y => (val128 val (LUA_PCG_DEFAULT_MULTIPLIER_128 B) * y + val128 val rng.inc)
            % 2 ^ 128)^[n] (val128 val rng.state) := by
  induction n with
  | zero => exact ⟨h, rfl, rfl⟩
  | succ n ih =>
    obtain ⟨w, hinc, hv⟩ := ih
    obtain ⟨w1, hinc1, hv1⟩ := step_emu_spec B L _ w
    rw [Function.iterate_succ_apply', Function.iterate_succ_apply']
    refine ⟨w1, hinc1.trans hinc, ?_⟩
    rw [hv1, hv, hinc]

/-- The emulated jump-ahead, allowed 129 passes of its loop, returns the engine that `delta`
steps produce. -/
theorem advance_emu_spec (B : U64Backend α) (L : B.toU64Ops.Lawful wf val) (fuel : Nat)
    (rng : lua_pcg_state_setseq_128 α) (delta : lua_pcg_u128 α) (hfuel : 129 ≤ fuel)
    (h : wf_state wf rng) (hd : wf128 wf delta) :
    lua_pcg_setseq_128_advance_r B fuel rng delta
      = .ok ((lua_pcg_setseq_128_step_r B)^[val128 val delta] rng) := by
  obtain ⟨wm, _⟩ := multiplier_128_spec B L
  obtain ⟨wzero, vzero⟩ := zero128_spec L
  obtain ⟨wone, vone⟩ := one128_spec L
  obtain ⟨am1, ap1, hloop, wam1, wap1, hspec⟩ := advance_emu_loop_spec B L fuel 128 delta
    (LUA_PCG_DEFAULT_MULTIPLIER_128 B) rng.inc
    (B.lua_pcg_u128_lh (B.lua_pcg_u64_lh 1 0) (B.lua_pcg_u64_lh 0 0))
    (B.lua_pcg_u128_lh (B.lua_pcg_u64_lh 0 0) (B.lua_pcg_u64_lh 0 0))
    (by omega) (val128_lt L delta hd) hd wm h.2 wone wzero
  obtain ⟨w1, v1⟩ := mul_spec128 L am1 rng.state wam1 h.1
  obtain ⟨w2, v2⟩ := sum_spec128 L _ ap1 w1 wap1
  obtain ⟨wi, hinc, hv⟩ := step_emu_iterate B L rng h (val128 val delta)
  have hs := val128_lt L rng.state h.1
  simp only [lua_pcg_setseq_128_advance_r, lua_pcg_advance_lcg_128, hloop]
  congr 1
  have hstate : lua_pcg_u128_sum B.toU64Ops (lua_pcg_u128_mul B.toU64Ops am1 rng.state) ap1
      = ((lua_pcg_setseq_128_step_r B)^[val128 val delta] rng).state := by
    apply val128_inj L _ _ w2 wi.1
    rw [v2, v1, hv]
    have := hspec (val128 val rng.state)
    rw [vone, vzero, Nat.one_mul, Nat.add_zero, Nat.mod_eq_of_lt hs] at this
    rw [← this, mod_eq_iff_zmod]
    simp only [Nat.cast_add, Nat.cast_mul, ZMod.natCast_mod]
  rw [hstate]
  cases hr : (lua_pcg_setseq_128_step_r B)^[val128 val delta] rng with
  | mk st inc =>
    rw [hr] at hinc
    simp only [] at hinc
    rw [hinc]

end Emu128

namespace Emu64

/-- A result of the bisection loop is not changed by allowing more passes. -/
theorem div_loop_mono (fuel : Nat) :
    ∀ (n : Nat) (a b ql qr : lua_pcg_u128 lua_pcg_u64) (res : lua_pcg_u64 × lua_pcg_u64),
      lua_pcg_u64_div_loop fuel a b ql qr = .ok res →
      lua_pcg_u64_div_loop (fuel + n) a b ql qr = .ok res := by
  induction fuel with
  | zero =>
    intro n a b ql qr res h
    simp [lua_pcg_u64_div_loop] at h
  | succ fuel ih =>
    intro n a b ql qr res h
    rw [show fuel + 1 + n = (fuel + n) + 1 by omega]
    rw [lua_pcg_u64_div_loop] at h ⊢
    split_ifs at h ⊢ with c1 c2 c3
    · exact h
    · exact h
    · exact ih n _ _ _ _ _ h
    · exact ih n _ _ _ _ _ h

/-- A result of the emulated `lua_pcg_u64_div` is not changed by allowing more passes. -/
theorem div_mono (fuel n : Nat) (a b q0 r0 : lua_pcg_u64) (res : Nat × lua_pcg_u64 × lua_pcg_u64)
    (h : lua_pcg_u64_div fuel a b q0 r0 = .ok res) :
    lua_pcg_u64_div (fuel + n) a b q0 r0 = .ok res := by
  rw [lua_pcg_u64_div] at h ⊢
  split_ifs at h ⊢ with c1 c2 c3 c4 c5
  · exact h
  · exact h
  · exact h
  · exact h
  · exact h
  · simp only [] at h ⊢
    cases hl : lua_pcg_u64_div_loop fuel
        (lua_pcg_u128_lh a (lua_pcg_u64_lh 0 0)) (lua_pcg_u128_lh b (lua_pcg_u64_lh 0 0))
        (lua_pcg_u128_lh (lua_pcg_u64_lh 1 0) (lua_pcg_u64_lh 0 0))
        (lua_pcg_u128_lh (lua_pcg_u64_lh 0xFFFFFFFF 0xFFFFFFFF) (lua_pcg_u64_lh 0 0)) with
    | error e =>
      rw [hl] at h
      cases h
    | ok p =>
      rw [hl] at h
      rw [div_loop_mono fuel n _ _ _ _ p hl]
      exact h

theorem div_lawful_emu : backend.DivLawful wf64 val64 where
  div_zero := by
    intro fuel a b q0 r0 hb hz
    have wz := lh_wf64 0 0
    have c0 : lua_pcg_u64_eq b (lua_pcg_u64_lh 0 0) = true := by
      apply (eq_iff64 _ _ hb wz).mpr
      rw [hz, lh_val64]
      norm_num
    show lua_pcg_u64_div fuel a b q0 r0 = _
    rw [lua_pcg_u64_div, if_pos c0]
  div_sound := by
    intro fuel a b q0 r0 res q r ha hb hb0 h
    have h1 := div_mono fuel 65 a b q0 r0 _ h
    obtain ⟨q1, r1, h2, wq, wr, vq, vr⟩ := div_spec (fuel + 65) (by omega) a b q0 r0 ha hb hb0
    rw [h1] at h2
    injection h2 with h2
    injection h2 with h3 h4
    injection h4 with h5 h6
    subst h3 h5 h6
    exact ⟨rfl, wq, wr, vq, vr⟩
  div_total := by
    intro fuel a b q0 r0 hf ha hb hb0
    obtain ⟨q1, r1, h2, _⟩ := div_spec fuel hf a b q0 r0 ha hb hb0
    exact ⟨0, q1, r1, h2⟩

end Emu64

namespace Native64

/-- The native `lua_pcg_u64_div` stores the quotient and the remainder for a non-zero divisor. -/
theorem div_native_spec (a b q0 r0 : Nat) (ha : a < 2 ^ 64) (hb : b < 2 ^ 64) (hb0 : b ≠ 0) :
    lua_pcg_u64_div a b q0 r0 = .ok (0, a / b, a % b) := by
  have ca := cast_of_lt a ha
  have cb := cast_of_lt b hb
  simp only [lua_pcg_u64_div, lua_pcg_u64_clone, ca, cb, if_neg hb0]
  have hm : a / b * b ≤ a := Nat.div_mul_le_self _ _
  have hmod := Nat.mod_def a b
  rw [Nat.mul_comm] at hmod
  rw [hmod]
  simp only [sub64, neg64, wrap64_eq]
  generalize a / b * b = m at hm ⊢
  congr 3
  clear * - hm ha
  omega

theorem div_lawful_native : backend.DivLawful wf64 (fun x => x) where
  div_zero := by
    intro fuel a b q0 r0 hb hz
    show lua_pcg_u64_div a b q0 r0 = _
    have hz1 : b = 0 := hz
    rw [lua_pcg_u64_div, if_pos hz1]
  div_sound := by
    intro fuel a b q0 r0 res q r ha hb hb0 h
    have h1 : lua_pcg_u64_div a b q0 r0 = .ok (res, q, r) := h
    rw [div_native_spec a b q0 r0 ha hb hb0] at h1
    injection h1 with h1
    injection h1 with h3 h4
    injection h4 with h5 h6
    subst h3 h5 h6
    have hb' : b < 2 ^ 64 := hb
    have ha' : a < 2 ^ 64 := ha
    refine ⟨rfl, ?_, ?_, rfl, rfl⟩
    · exact lt_of_le_of_lt (Nat.div_le_self _ _) ha'
    · exact lt_of_le_of_lt (Nat.mod_le _ _) ha'
  div_total := by
    intro fuel a b q0 r0 _ ha hb hb0
    exact ⟨0, a / b, a % b, div_native_spec a b q0 r0 ha hb hb0⟩

end Native64

namespace Emu128

variable {α : Type} {wf : α → Prop} {val : α → Nat}

/-- The output of the emulated engine is a well-formed 64-bit value. -/
theorem output_emu_wf (B : U64Backend α) (L : B.toU64Ops.Lawful wf val) (st : lua_pcg_u128 α)
    (h : wf128 wf st) : wf (lua_pcg_output_xsl_rr_128_64 B st) := by
  obtain ⟨w1, v1⟩ := rsh_spec128 L st 122 h
  obtain ⟨w2, _⟩ := rsh_spec128 L st 64 h
  have hlt := val128_lt L st h
  have hrot : B.lua_pcg_u128_cast_to_u32 (lua_pcg_u128_rsh B.toU64Ops st 122) < 64 := by
    rw [L.cast_to_u32_eq _ w1.1, (limbs_of_val128 L _ w1).1, v1]
    clear * - hlt
    omega
  have wx1 : wf (B.lua_pcg_u128_cast_to_u64 (lua_pcg_u128_rsh B.toU64Ops st 64)) := by
    rw [L.cast_to_u64_eq, L.clone_eq _ w2.1]
    exact w2.1
  have wx2 : wf (B.lua_pcg_u128_cast_to_u64 st) := by
    rw [L.cast_to_u64_eq, L.clone_eq _ h.1]
    exact h.1
  have wx := L.xor_wf _ _ wx1 wx2
  have hand : neg32 (B.lua_pcg_u128_cast_to_u32 (lua_pcg_u128_rsh B.toU64Ops st 122)) &&& 63 < 64 :=
    Nat.and_lt_two_pow _ (show 63 < 2 ^ 6 by norm_num)
  exact L.bor_wf _ _ (L.rsh_wf _ _ wx hrot) (L.lsh_wf _ _ wx hand)

theorem random_emu_wf (B : U64Backend α) (L : B.toU64Ops.Lawful wf val)
    (rng : lua_pcg_state_setseq_128 α) (h : wf_state wf rng) :
    wf (lua_pcg_setseq_128_xsl_rr_64_random_r B rng).1
    ∧ wf_state wf (lua_pcg_setseq_128_xsl_rr_64_random_r B rng).2 := by
  obtain ⟨w, _, _⟩ := step_emu_spec B L rng h
  exact ⟨output_emu_wf B L _ w.1, w⟩

theorem after_draws_emu_wf (B : U64Backend α) (L : B.toU64Ops.Lawful wf val)
    (rng : lua_pcg_state_setseq_128 α) (h : wf_state wf rng) (n : Nat) :
    wf_state wf (after_draws B n rng) := (step_emu_iterate B L rng h n).1

theorem nth_draw_emu_wf (B : U64Backend α) (L : B.toU64Ops.Lawful wf val)
    (rng : lua_pcg_state_setseq_128 α) (h : wf_state wf rng) (n : Nat) :
    wf (nth_draw B rng n) := (random_emu_wf B L _ (after_draws_emu_wf B L rng h n)).1

/-- The emulated rejection loop returns exactly the first draw that is not below the threshold,
provided it comes within the budget of draws. -/
theorem boundedrand_emu_loop_spec (B : U64Backend α) (L : B.toU64Ops.Lawful wf val) (fuel : Nat) :
    ∀ (rng : lua_pcg_state_setseq_128 α) (threshold r : α) (rng1 : lua_pcg_state_setseq_128 α),
      wf_state wf rng → wf threshold →
      (lua_pcg_setseq_128_xsl_rr_64_boundedrand_r_loop B fuel rng threshold = .ok (r, rng1)
      ↔ ∃ n, n < fuel ∧ (∀ k, k < n → val (nth_draw B rng k) < val threshold)
          ∧ val threshold ≤ val (nth_draw B rng n)
          ∧ r = nth_draw B rng n ∧ rng1 = after_draws B (n + 1) rng) := by
  induction fuel with
  | zero =>
    intro rng threshold r rng1 _ _
    simp [lua_pcg_setseq_128_xsl_rr_64_boundedrand_r_loop]
  | succ fuel ih =>
    intro rng threshold r rng1 hw ht
    obtain ⟨wr, wn⟩ := random_emu_wf B L rng hw
    have hiff := L.lt_iff _ _ wr ht
    rw [lua_pcg_setseq_128_xsl_rr_64_boundedrand_r_loop]
    by_cases h : B.lua_pcg_u64_lt (lua_pcg_setseq_128_xsl_rr_64_random_r B rng).1 threshold = true
    · have h0 : val (nth_draw B rng 0) < val threshold := hiff.mp h
      simp only [h, if_true]
      rw [ih _ _ _ _ wn ht]
      constructor
      · rintro ⟨n, hn, hlt, hge, hr, hrng⟩
        refine ⟨n + 1, by omega, ?_, hge, hr, hrng⟩
        intro k hk
        cases k with
        | zero => exact h0
        | succ k => exact hlt k (by omega)
      · rintro ⟨n, hn, hlt, hge, hr, hrng⟩
        cases n with
        | zero =>
          exfalso
          omega
        | succ n =>
          refine ⟨n, by omega, ?_, hge, hr, hrng⟩
          intro k hk
          exact hlt (k + 1) (by omega)
    · have h0 : ¬ (val (nth_draw B rng 0) < val threshold) := fun hh => h (hiff.mpr hh)
      simp only [h, Bool.false_eq_true, if_false]
      constructor
      · intro heq
        injection heq with heq
        injection heq with h1 h2
        refine ⟨0, by omega, ?_, ?_, h1.symm, h2.symm⟩
        · intro k hk
          omega
        · exact Nat.le_of_not_lt h0
      · rintro ⟨n, hn, hlt, hge, hr, hrng⟩
        cases n with
        | zero =>
          rw [hr, hrng]
          rfl
        | succ n =>
          exfalso
          exact h0 (hlt 0 (by omega))

/-- With a zero bound the emulated bounded draw makes no draw and returns the value zero. -/
theorem boundedrand_emu_zero (B : U64Backend α) (D : B.DivLawful wf val) (fuel : Nat)
    (rng : lua_pcg_state_setseq_128 α) (bound q0 t0 : α) (hb : wf bound) (hz : val bound = 0) :
    lua_pcg_setseq_128_xsl_rr_64_boundedrand_r B fuel rng bound q0 t0
      = .ok (B.lua_pcg_u64_lh 0 0, rng) := by
  simp only [lua_pcg_setseq_128_xsl_rr_64_boundedrand_r, D.div_zero fuel _ bound q0 t0 hb hz]
  rfl

/-- Whatever the emulated bounded draw returns for a non-zero bound is the first accepted raw
output reduced modulo the bound. -/
theorem boundedrand_emu_sound (B : U64Backend α) (L : B.toU64Ops.Lawful wf val)
    (D : B.DivLawful wf val) (fuel : Nat) (rng rng1 : lua_pcg_state_setseq_128 α)
    (bound q0 t0 v : α) (hw : wf_state wf rng) (hb : wf bound) (hb0 : val bound ≠ 0)
    (hret : lua_pcg_setseq_128_xsl_rr_64_boundedrand_r B fuel rng bound q0 t0 = .ok (v, rng1)) :
    ∃ n, n < fuel
      ∧ (∀ k, k < n → val (nth_draw B rng k) < (2 ^ 64 - val bound) % val bound)
      ∧ (2 ^ 64 - val bound) % val bound ≤ val (nth_draw B rng n)
      ∧ val v = val (nth_draw B rng n) % val bound
      ∧ rng1 = after_draws B (n + 1) rng
      ∧ wf v ∧ val v < val bound := by
  have hbl := L.val_lt _ hb
  have wai := L.additive_inverse_wf _ hb
  have vai := L.additive_inverse_val _ hb
  have hai : (2 ^ 64 - val bound) % 2 ^ 64 = 2 ^ 64 - val bound := by
    clear * - hb0 hbl
    omega
  rw [hai] at vai
  simp only [lua_pcg_setseq_128_xsl_rr_64_boundedrand_r] at hret
  cases hd1 : B.lua_pcg_u64_div fuel (B.lua_pcg_u64_additive_inverse bound) bound q0 t0 with
  | error e =>
    rw [hd1] at hret
    cases hret
  | ok p =>
    obtain ⟨res, q, threshold⟩ := p
    obtain ⟨hres, _, wt, _, vt⟩ := D.div_sound fuel _ _ _ _ _ _ _ wai hb hb0 hd1
    rw [vai] at vt
    subst hres
    rw [hd1] at hret
    simp only [if_true] at hret
    cases hl : lua_pcg_setseq_128_xsl_rr_64_boundedrand_r_loop B fuel rng threshold with
    | error e =>
      rw [hl] at hret
      cases hret
    | ok p2 =>
      obtain ⟨r, rng2⟩ := p2
      rw [hl] at hret
      simp only [] at hret
      obtain ⟨n, hn, hlt, hge, hr, hrng⟩ := (boundedrand_emu_loop_spec B L fuel rng threshold r rng2 hw wt).mp hl
      have wr : wf r := by
        rw [hr]
        exact nth_draw_emu_wf B L rng hw n
      cases hd2 : B.lua_pcg_u64_div fuel r bound q (B.lua_pcg_u64_lh 0 0) with
      | error e =>
        rw [hd2] at hret
        cases hret
      | ok p3 =>
        obtain ⟨res2, q2, br⟩ := p3
        obtain ⟨hres2, _, wbr, _, vbr⟩ := D.div_sound fuel _ _ _ _ _ _ _ wr hb hb0 hd2
        subst hres2
        rw [hd2] at hret
        simp only [ne_eq, not_true_eq_false, if_false] at hret
        injection hret with hret
        injection hret with hv hrng1
        subst hv
        refine ⟨n, hn, ?_, ?_, ?_, ?_, wbr, ?_⟩
        · rw [← vt]
          exact hlt
        · rw [← vt]
          exact hge
        · rw [vbr, hr]
        · rw [← hrng1, hrng]
        · rw [vbr]
          exact Nat.mod_lt _ (Nat.pos_of_ne_zero hb0)

/-- The emulated bounded draw returns as soon as an accepted raw output comes within the budget
of draws, when its divisions are allowed their 65 passes. -/
theorem boundedrand_emu_complete (B : U64Backend α) (L : B.toU64Ops.Lawful wf val)
    (D : B.DivLawful wf val) (fuel n : Nat) (rng : lua_pcg_state_setseq_128 α)
    (bound q0 t0 : α) (hw : wf_state wf rng) (hb : wf bound) (hb0 : val bound ≠ 0)
    (hfuel : 65 ≤ fuel) (hn : n < fuel)
    (hlt : ∀ k, k < n → val (nth_draw B rng k) < (2 ^ 64 - val bound) % val bound)
    (hge : (2 ^ 64 - val bound) % val bound ≤ val (nth_draw B rng n)) :
    ∃ v, lua_pcg_setseq_128_xsl_rr_64_boundedrand_r B fuel rng bound q0 t0
        = .ok (v, after_draws B (n + 1) rng)
      ∧ wf v ∧ val v = val (nth_draw B rng n) % val bound := by
  have hbl := L.val_lt _ hb
  have wai := L.additive_inverse_wf _ hb
  have vai := L.additive_inverse_val _ hb
  have hai : (2 ^ 64 - val bound) % 2 ^ 64 = 2 ^ 64 - val bound := by
    clear * - hb0 hbl
    omega
  rw [hai] at vai
  obtain ⟨res, q, threshold, hd1⟩ := D.div_total fuel (B.lua_pcg_u64_additive_inverse bound) bound q0 t0
    hfuel wai hb hb0
  obtain ⟨hres, _, wt, _, vt⟩ := D.div_sound fuel _ _ _ _ _ _ _ wai hb hb0 hd1
  rw [vai] at vt
  subst hres
  have hl := (boundedrand_emu_loop_spec B L fuel rng threshold (nth_draw B rng n)
    (after_draws B (n + 1) rng) hw wt).mpr
    ⟨n, hn, by rw [vt]; exact hlt, by rw [vt]; exact hge, rfl, rfl⟩
  have wr := nth_draw_emu_wf B L rng hw n
  obtain ⟨res2, q2, br, hd2⟩ := D.div_total fuel (nth_draw B rng n) bound q (B.lua_pcg_u64_lh 0 0)
    hfuel wr hb hb0
  obtain ⟨hres2, _, wbr, _, vbr⟩ := D.div_sound fuel _ _ _ _ _ _ _ wr hb hb0 hd2
  subst hres2
  refine ⟨br, ?_, wbr, vbr⟩
  simp only [lua_pcg_setseq_128_xsl_rr_64_boundedrand_r, hd1, hl, hd2]
  rfl

end Emu128

/-- C2: `lua_pcg_setseq_128_advance_r` leaves the engine exactly as `delta` successive calls of
`lua_pcg_setseq_128_step_r` do, and the increment unchanged, for every state, increment and
`delta`: over a native `lua_pcg_u128`; over the 128-bit emulation on emulated 64-bit limbs; and
over the 128-bit emulation on native 64-bit limbs (the emulated loop being allowed 129 passes,
one more than `delta` has bits). -/
theorem C2_advance_128_eq_steps :
    (∀ (rng : Native128.lua_pcg_state_setseq_128) (delta : Nat), rng.state < 2 ^ 128 →
      Native128.lua_pcg_setseq_128_advance_r rng delta
        = Native128.lua_pcg_setseq_128_step_r^[delta] rng
      ∧ (Native128.lua_pcg_setseq_128_advance_r rng delta).inc = rng.inc)
    ∧ (∀ (fuel : Nat) (rng : Emu128.lua_pcg_state_setseq_128 Emu64.lua_pcg_u64)
        (delta : lua_pcg_u128 Emu64.lua_pcg_u64),
      129 ≤ fuel → Emu128.wf_state Emu64.wf64 rng → Emu128.wf128 Emu64.wf64 delta →
      Emu128.lua_pcg_setseq_128_advance_r Emu64.backend fuel rng delta
        = .ok ((Emu128.lua_pcg_setseq_128_step_r Emu64.backend)^[Emu128.val128 Emu64.val64 delta] rng)
      ∧ ((Emu128.lua_pcg_setseq_128_step_r Emu64.backend)^[Emu128.val128 Emu64.val64 delta] rng).inc
        = rng.inc)
    ∧ (∀ (fuel : Nat) (rng : Emu128.lua_pcg_state_setseq_128 Nat) (delta : lua_pcg_u128 Nat),
      129 ≤ fuel → Emu128.wf_state Native64.wf64 rng → Emu128.wf128 Native64.wf64 delta →
      Emu128.lua_pcg_setseq_128_advance_r Native64.backend fuel rng delta
        = .ok ((Emu128.lua_pcg_setseq_128_step_r Native64.backend)^[Emu128.val128 (fun x => x) delta] rng)
      ∧ ((Emu128.lua_pcg_setseq_128_step_r Native64.backend)^[Emu128.val128 (fun x => x) delta] rng).inc
        = rng.inc) := by
  refine ⟨?_, ?_, ?_⟩
  · intro rng delta hs
    exact ⟨Native128.advance_128_eq_iterate rng delta hs, rfl⟩
  · intro fuel rng delta hf hw hd
    exact ⟨Emu128.advance_emu_spec Emu64.backend Emu64.ops_lawful_emu fuel rng delta hf hw hd,
      (Emu128.step_emu_iterate Emu64.backend Emu64.ops_lawful_emu rng hw _).2.1⟩
  · intro fuel rng delta hf hw hd
    exact ⟨Emu128.advance_emu_spec Native64.backend Native64.ops_lawful_native fuel rng delta hf hw hd,
      (Emu128.step_emu_iterate Native64.backend Native64.ops_lawful_native rng hw _).2.1⟩

/-- Witness of C2: the fully emulated engine with state 1 and increment 109, advanced by the
largest 128-bit `delta`. -/
theorem C2_advance_128_eq_steps_witness :
    129 ≤ 129
    ∧ Emu128.wf_state Emu64.wf64 ⟨⟨⟨1, 0⟩, ⟨0, 0⟩⟩, ⟨⟨109, 0⟩, ⟨0, 0⟩⟩⟩
    ∧ Emu128.wf128 Emu64.wf64 ⟨⟨4294967295, 4294967295⟩, ⟨4294967295, 4294967295⟩⟩
    ∧ Emu128.lua_pcg_setseq_128_advance_r Emu64.backend 129 ⟨⟨⟨1, 0⟩, ⟨0, 0⟩⟩, ⟨⟨109, 0⟩, ⟨0, 0⟩⟩⟩
          ⟨⟨4294967295, 4294967295⟩, ⟨4294967295, 4294967295⟩⟩
        = .ok ((Emu128.lua_pcg_setseq_128_step_r Emu64.backend)^[Emu128.val128 Emu64.val64
            ⟨⟨4294967295, 4294967295⟩, ⟨4294967295, 4294967295⟩⟩]
              ⟨⟨⟨1, 0⟩, ⟨0, 0⟩⟩, ⟨⟨109, 0⟩, ⟨0, 0⟩⟩⟩) :=
  ⟨by decide, ⟨⟨⟨by decide, by decide⟩, ⟨by decide, by decide⟩⟩,
      ⟨⟨by decide, by decide⟩, ⟨by decide, by decide⟩⟩⟩,
    ⟨⟨by decide, by decide⟩, ⟨by decide, by decide⟩⟩,
    (C2_advance_128_eq_steps.2.1 129 ⟨⟨⟨1, 0⟩, ⟨0, 0⟩⟩, ⟨⟨109, 0⟩, ⟨0, 0⟩⟩⟩
      ⟨⟨4294967295, 4294967295⟩, ⟨4294967295, 4294967295⟩⟩ (by decide)
      ⟨⟨⟨by decide, by decide⟩, ⟨by decide, by decide⟩⟩,
        ⟨⟨by decide, by decide⟩, ⟨by decide, by decide⟩⟩⟩
      ⟨⟨by decide, by decide⟩, ⟨by decide, by decide⟩⟩).1⟩

/-- Witness of C5: `(2^64 - 1) / 3`, which takes the bisection branch. -/
theorem C5_emulated_div_correct_witness :
    65 ≤ 65 ∧ Emu64.wf64 ⟨4294967295, 4294967295⟩ ∧ Emu64.wf64 ⟨3, 0⟩ ∧ Emu64.val64 ⟨3, 0⟩ ≠ 0
    ∧ Emu64.lua_pcg_u64_div 65 ⟨4294967295, 4294967295⟩ ⟨3, 0⟩ ⟨0, 0⟩ ⟨0, 0⟩
        = .ok (0, ⟨1431655765, 1431655765⟩, ⟨0, 0⟩)
    ∧ ∃ q r, Emu64.lua_pcg_u64_div 65 ⟨4294967295, 4294967295⟩ ⟨3, 0⟩ ⟨0, 0⟩ ⟨0, 0⟩ = .ok (0, q, r)
      ∧ Emu64.wf64 q ∧ Emu64.wf64 r
      ∧ Emu64.val64 ⟨4294967295, 4294967295⟩ = Emu64.val64 q * Emu64.val64 ⟨3, 0⟩ + Emu64.val64 r
      ∧ Emu64.val64 r < Emu64.val64 ⟨3, 0⟩
      ∧ Emu64.val64 q = Emu64.val64 ⟨4294967295, 4294967295⟩ / Emu64.val64 ⟨3, 0⟩
      ∧ Emu64.val64 r = Emu64.val64 ⟨4294967295, 4294967295⟩ % Emu64.val64 ⟨3, 0⟩ :=
  ⟨by decide, ⟨by decide, by decide⟩, ⟨by decide, by decide⟩, by decide, by rfl,
    C5_emulated_div_correct 65 ⟨4294967295, 4294967295⟩ ⟨3, 0⟩ ⟨0, 0⟩ ⟨0, 0⟩ (by decide)
      ⟨by decide, by decide⟩ ⟨by decide, by decide⟩ (by decide)⟩

/-- C8: over an emulated `lua_pcg_u128`, for every 64-bit `bound > 0`: whatever
`lua_pcg_setseq_128_xsl_rr_64_boundedrand_r` returns is `r mod bound`, where `r` is the first of the
successive raw outputs that is not below `threshold = (2^64 - bound) mod bound`, the engine is left
after that draw and the value lies in `[0, bound)`; and it does return as soon as such an output
comes within the budget of draws and its divisions are allowed their 65 passes.  Both hold over
emulated 64-bit limbs (bisection division) and over native 64-bit limbs. -/
theorem C8_boundedrand_64_emulated :
    (∀ (fuel : Nat) (rng rng1 : Emu128.lua_pcg_state_setseq_128 Emu64.lua_pcg_u64)
        (bound q0 t0 v : Emu64.lua_pcg_u64),
      Emu128.wf_state Emu64.wf64 rng → Emu64.wf64 bound → Emu64.val64 bound ≠ 0 →
      Emu128.lua_pcg_setseq_128_xsl_rr_64_boundedrand_r Emu64.backend fuel rng bound q0 t0 = .ok (v, rng1) →
      ∃ n, n < fuel
        ∧ (∀ k, k < n → Emu64.val64 (Emu128.nth_draw Emu64.backend rng k)
            < (2 ^ 64 - Emu64.val64 bound) % Emu64.val64 bound)
        ∧ (2 ^ 64 - Emu64.val64 bound) % Emu64.val64 bound
            ≤ Emu64.val64 (Emu128.nth_draw Emu64.backend rng n)
        ∧ Emu64.val64 v = Emu64.val64 (Emu128.nth_draw Emu64.backend rng n) % Emu64.val64 bound
        ∧ rng1 = Emu128.after_draws Emu64.backend (n + 1) rng
        ∧ Emu64.wf64 v ∧ Emu64.val64 v < Emu64.val64 bound)
    ∧ (∀ (fuel n : Nat) (rng : Emu128.lua_pcg_state_setseq_128 Emu64.lua_pcg_u64)
        (bound q0 t0 : Emu64.lua_pcg_u64),
      Emu128.wf_state Emu64.wf64 rng → Emu64.wf64 bound → Emu64.val64 bound ≠ 0 →
      65 ≤ fuel → n < fuel →
      (∀ k, k < n → Emu64.val64 (Emu128.nth_draw Emu64.backend rng k)
          < (2 ^ 64 - Emu64.val64 bound) % Emu64.val64 bound) →
      (2 ^ 64 - Emu64.val64 bound) % Emu64.val64 bound
          ≤ Emu64.val64 (Emu128.nth_draw Emu64.backend rng n) →
      ∃ v, Emu128.lua_pcg_setseq_128_xsl_rr_64_boundedrand_r Emu64.backend fuel rng bound q0 t0
          = .ok (v, Emu128.after_draws Emu64.backend (n + 1) rng)
        ∧ Emu64.wf64 v
        ∧ Emu64.val64 v = Emu64.val64 (Emu128.nth_draw Emu64.backend rng n) % Emu64.val64 bound)
    ∧ (∀ (fuel : Nat) (rng rng1 : Emu128.lua_pcg_state_setseq_128 Nat) (bound q0 t0 v : Nat),
      Emu128.wf_state Native64.wf64 rng → bound < 2 ^ 64 → bound ≠ 0 →
      Emu128.lua_pcg_setseq_128_xsl_rr_64_boundedrand_r Native64.backend fuel rng bound q0 t0
        = .ok (v, rng1) →
      ∃ n, n < fuel
        ∧ (∀ k, k < n → Emu128.nth_draw Native64.backend rng k < (2 ^ 64 - bound) % bound)
        ∧ (2 ^ 64 - bound) % bound ≤ Emu128.nth_draw Native64.backend rng n
        ∧ v = Emu128.nth_draw Native64.backend rng n % bound
        ∧ rng1 = Emu128.after_draws Native64.backend (n + 1) rng
        ∧ v < 2 ^ 64 ∧ v < bound)
    ∧ (∀ (fuel n : Nat) (rng : Emu128.lua_pcg_state_setseq_128 Nat) (bound q0 t0 : Nat),
      Emu128.wf_state Native64.wf64 rng → bound < 2 ^ 64 → bound ≠ 0 →
      65 ≤ fuel → n < fuel →
      (∀ k, k < n → Emu128.nth_draw Native64.backend rng k < (2 ^ 64 - bound) % bound) →
      (2 ^ 64 - bound) % bound ≤ Emu128.nth_draw Native64.backend rng n →
      ∃ v, Emu128.lua_pcg_setseq_128_xsl_rr_64_boundedrand_r Native64.backend fuel rng bound q0 t0
          = .ok (v, Emu128.after_draws Native64.backend (n + 1) rng)
        ∧ v < 2 ^ 64
        ∧ v = Emu128.nth_draw Native64.backend rng n % bound) := by
  refine ⟨?_, ?_, ?_, ?_⟩
  · intro fuel rng rng1 bound q0 t0 v hw hb hb0 hret
    exact Emu128.boundedrand_emu_sound Emu64.backend Emu64.ops_lawful_emu Emu64.div_lawful_emu fuel rng rng1
      bound q0 t0 v hw hb hb0 hret
  · intro fuel n rng bound q0 t0 hw hb hb0 hf hn hlt hge
    exact Emu128.boundedrand_emu_complete Emu64.backend Emu64.ops_lawful_emu Emu64.div_lawful_emu fuel n rng
      bound q0 t0 hw hb hb0 hf hn hlt hge
  · intro fuel rng rng1 bound q0 t0 v hw hb hb0 hret
    exact Emu128.boundedrand_emu_sound Native64.backend Native64.ops_lawful_native Native64.div_lawful_native fuel rng
      rng1 bound q0 t0 v hw hb hb0 hret
  · intro fuel n rng bound q0 t0 hw hb hb0 hf hn hlt hge
    exact Emu128.boundedrand_emu_complete Native64.backend Native64.ops_lawful_native Native64.div_lawful_native fuel n
      rng bound q0 t0 hw hb hb0 hf hn hlt hge

/-- Witness of C8: the fully emulated engine with state 1 and increment 109, and the bound 1000. -/
theorem C8_boundedrand_64_emulated_witness :
    Emu128.wf_state Emu64.wf64 ⟨⟨⟨1, 0⟩, ⟨0, 0⟩⟩, ⟨⟨109, 0⟩, ⟨0, 0⟩⟩⟩
    ∧ Emu64.wf64 ⟨1000, 0⟩ ∧ Emu64.val64 ⟨1000, 0⟩ ≠ 0
    ∧ Emu128.lua_pcg_setseq_128_xsl_rr_64_boundedrand_r Emu64.backend 65
          ⟨⟨⟨1, 0⟩, ⟨0, 0⟩⟩, ⟨⟨109, 0⟩, ⟨0, 0⟩⟩⟩ ⟨1000, 0⟩ ⟨0, 0⟩ ⟨0, 0⟩
        = .ok (⟨363, 0⟩, ⟨⟨⟨2681009842, 1132846948⟩, ⟨533093796, 593554693⟩⟩, ⟨⟨109, 0⟩, ⟨0, 0⟩⟩⟩)
    ∧ ∃ n, n < 65
        ∧ (∀ k, k < n → Emu64.val64
            (Emu128.nth_draw Emu64.backend ⟨⟨⟨1, 0⟩, ⟨0, 0⟩⟩, ⟨⟨109, 0⟩, ⟨0, 0⟩⟩⟩ k)
            < (2 ^ 64 - Emu64.val64 ⟨1000, 0⟩) % Emu64.val64 ⟨1000, 0⟩)
        ∧ (2 ^ 64 - Emu64.val64 ⟨1000, 0⟩) % Emu64.val64 ⟨1000, 0⟩
            ≤ Emu64.val64 (Emu128.nth_draw Emu64.backend ⟨⟨⟨1, 0⟩, ⟨0, 0⟩⟩, ⟨⟨109, 0⟩, ⟨0, 0⟩⟩⟩ n)
        ∧ Emu64.val64 ⟨363, 0⟩
            = Emu64.val64 (Emu128.nth_draw Emu64.backend ⟨⟨⟨1, 0⟩, ⟨0, 0⟩⟩, ⟨⟨109, 0⟩, ⟨0, 0⟩⟩⟩ n)
              % Emu64.val64 ⟨1000, 0⟩
        ∧ (⟨⟨⟨2681009842, 1132846948⟩, ⟨533093796, 593554693⟩⟩, ⟨⟨109, 0⟩, ⟨0, 0⟩⟩⟩ :
            Emu128.lua_pcg_state_setseq_128 Emu64.lua_pcg_u64)
            = Emu128.after_draws Emu64.backend (n + 1) ⟨⟨⟨1, 0⟩, ⟨0, 0⟩⟩, ⟨⟨109, 0⟩, ⟨0, 0⟩⟩⟩
        ∧ Emu64.wf64 ⟨363, 0⟩ ∧ Emu64.val64 ⟨363, 0⟩ < Emu64.val64 ⟨1000, 0⟩ :=
  ⟨⟨⟨⟨by decide, by decide⟩, ⟨by decide, by decide⟩⟩, ⟨⟨by decide, by decide⟩, ⟨by decide, by decide⟩⟩⟩,
    ⟨by decide, by decide⟩, by decide, by rfl,
    C8_boundedrand_64_emulated.1 65 ⟨⟨⟨1, 0⟩, ⟨0, 0⟩⟩, ⟨⟨109, 0⟩, ⟨0, 0⟩⟩⟩
      ⟨⟨⟨2681009842, 1132846948⟩, ⟨533093796, 593554693⟩⟩, ⟨⟨109, 0⟩, ⟨0, 0⟩⟩⟩
      ⟨1000, 0⟩ ⟨0, 0⟩ ⟨0, 0⟩ ⟨363, 0⟩
      ⟨⟨⟨by decide, by decide⟩, ⟨by decide, by decide⟩⟩, ⟨⟨by decide, by decide⟩, ⟨by decide, by decide⟩⟩⟩
      ⟨by decide, by decide⟩ (by decide) (by rfl)⟩

/-- C9, counterexample: the fully emulated engine with state 1 and increment 109, asked for a
bounded draw with `bound = 0`, returns the value zero and the unchanged engine, and reports no
failure. -/
theorem C9_zero_bound_returns_zero :
    Emu128.lua_pcg_setseq_128_xsl_rr_64_boundedrand_r Emu64.backend 65
        ⟨⟨⟨1, 0⟩, ⟨0, 0⟩⟩, ⟨⟨109, 0⟩, ⟨0, 0⟩⟩⟩ ⟨0, 0⟩ ⟨0, 0⟩ ⟨0, 0⟩
      = .ok (⟨0, 0⟩, ⟨⟨⟨1, 0⟩, ⟨0, 0⟩⟩, ⟨⟨109, 0⟩, ⟨0, 0⟩⟩⟩)
    ∧ ¬ ∃ e : Fault, Emu128.lua_pcg_setseq_128_xsl_rr_64_boundedrand_r Emu64.backend 65
        ⟨⟨⟨1, 0⟩, ⟨0, 0⟩⟩, ⟨⟨109, 0⟩, ⟨0, 0⟩⟩⟩ ⟨0, 0⟩ ⟨0, 0⟩ ⟨0, 0⟩ = .error e := by
  have h : Emu128.lua_pcg_setseq_128_xsl_rr_64_boundedrand_r Emu64.backend 65
        ⟨⟨⟨1, 0⟩, ⟨0, 0⟩⟩, ⟨⟨109, 0⟩, ⟨0, 0⟩⟩⟩ ⟨0, 0⟩ ⟨0, 0⟩ ⟨0, 0⟩
      = .ok (⟨0, 0⟩, ⟨⟨⟨1, 0⟩, ⟨0, 0⟩⟩, ⟨⟨109, 0⟩, ⟨0, 0⟩⟩⟩) := rfl
  refine ⟨h, ?_⟩
  rintro ⟨e, he⟩
  rw [h] at he
  cases he

/-- C9, amended: over an emulated `lua_pcg_u128`, `lua_pcg_setseq_128_xsl_rr_64_boundedrand_r` called
with `bound = 0` returns the value zero and leaves the engine as it was, for every engine, every
budget and whatever its uninitialised locals hold: the failure of `lua_pcg_u64_div` is absorbed,
not reported to the caller (64-bit limbs emulated or native).  The variant over a native
`lua_pcg_u128` makes no check at all: it evaluates `(-safebound) % safebound` with a zero right
operand, an operation without a defined result, which the model marks `division_by_zero`. -/
theorem C9_zero_bound_absorbed :
    (∀ (fuel : Nat) (rng : Emu128.lua_pcg_state_setseq_128 Emu64.lua_pcg_u64)
        (q0 t0 : Emu64.lua_pcg_u64),
      Emu128.lua_pcg_setseq_128_xsl_rr_64_boundedrand_r Emu64.backend fuel rng ⟨0, 0⟩ q0 t0
        = .ok (⟨0, 0⟩, rng))
    ∧ (∀ (fuel : Nat) (rng : Emu128.lua_pcg_state_setseq_128 Nat) (q0 t0 : Nat),
      Emu128.lua_pcg_setseq_128_xsl_rr_64_boundedrand_r Native64.backend fuel rng 0 q0 t0
        = .ok (0, rng))
    ∧ (∀ (fuel : Nat) (rng : Native128.lua_pcg_state_setseq_128),
      Native128.lua_pcg_setseq_128_xsl_rr_64_boundedrand_r fuel rng 0
        = .error .division_by_zero) := by
  refine ⟨?_, ?_, ?_⟩
  · intro fuel rng q0 t0
    exact Emu128.boundedrand_emu_zero Emu64.backend Emu64.div_lawful_emu fuel rng ⟨0, 0⟩ q0 t0
      ⟨by decide, by decide⟩ (by decide)
  rotate_left
  · intro fuel rng
    rfl
  · intro fuel rng q0 t0
    exact Emu128.boundedrand_emu_zero Native64.backend Native64.div_lawful_native fuel rng 0 q0 t0
      (by show (0 : Nat) < 2 ^ 64; norm_num) rfl

namespace Emu128

variable {α : Type} {wf : α → Prop} {val : α → Nat}

/-- Seeding the emulated engine leaves it well formed, whatever it held before. -/
theorem srandom_emu_wf (B : U64Backend α) (L : B.toU64Ops.Lawful wf val)
    (prior : lua_pcg_state_setseq_128 α) (initstate initseq : lua_pcg_u128 α)
    (hs : wf128 wf initstate) (hq : wf128 wf initseq) :
    wf_state wf (lua_pcg_setseq_128_srandom_r B prior initstate initseq) := by
  obtain ⟨wzero, _⟩ := zero128_spec L
  obtain ⟨wone, _⟩ := one128_spec L
  obtain ⟨wl, _⟩ := lsh_spec128 L initseq 1 hq
  obtain ⟨wb, _⟩ := bor_spec128 L _ _ wl wone
  simp only [lua_pcg_setseq_128_srandom_r]
  have w2 : wf_state wf
      ({ state := B.lua_pcg_u128_lh (B.lua_pcg_u64_lh 0 0) (B.lua_pcg_u64_lh 0 0),
         inc := lua_pcg_u128_bor B.toU64Ops (lua_pcg_u128_lsh B.toU64Ops initseq 1)
          (B.lua_pcg_u128_lh (B.lua_pcg_u64_lh 1 0) (B.lua_pcg_u64_lh 0 0)) } :
        lua_pcg_state_setseq_128 α) := ⟨wzero, wb⟩
  obtain ⟨w3, _, _⟩ := step_emu_spec B L _ w2
  obtain ⟨w4, _⟩ := sum_spec128 L _ initstate w3.1 hs
  refine (step_emu_spec B L _ ?_).1
  exact ⟨w4, w3.2⟩

/-- Advancing a seeded emulated engine and drawing once, against drawing `delta + 1` times. -/
theorem advance_then_next_emu (B : U64Backend α) (L : B.toU64Ops.Lawful wf val) (fuel : Nat)
    (prior : lua_pcg_state_setseq_128 α) (initstate initseq delta : lua_pcg_u128 α)
    (hfuel : 129 ≤ fuel) (hs : wf128 wf initstate) (hq : wf128 wf initseq) (hd : wf128 wf delta) :
    (∃ adv, lua_pcg_setseq_128_advance_r B fuel
          (lua_pcg_setseq_128_srandom_r B prior initstate initseq) delta = .ok adv
        ∧ lua_pcg_setseq_128_xsl_rr_64_random_r B adv
          = lua_pcg_setseq_128_xsl_rr_64_random_r B
              (after_draws B (val128 val delta) (lua_pcg_setseq_128_srandom_r B prior initstate initseq)))
    ∧ (val128 val delta = 0 →
        lua_pcg_setseq_128_advance_r B fuel
          (lua_pcg_setseq_128_srandom_r B prior initstate initseq) delta
          = .ok (lua_pcg_setseq_128_srandom_r B prior initstate initseq)) := by
  have hw := srandom_emu_wf B L prior initstate initseq hs hq
  have h := advance_emu_spec B L fuel _ delta hfuel hw hd
  refine ⟨⟨_, h, rfl⟩, ?_⟩
  intro h0
  rw [h, h0]
  rfl

end Emu128

/-- C3: for both engines and every seed, `advance(delta)` followed by one draw returns the output
and leaves the engine that the last of `delta + 1` successive draws returns and leaves; and
`advance(0)` leaves the seeded engine as it is.  This holds for the native 64-bit engine, for the
native 128-bit engine, and for the emulated 128-bit engine over emulated and over native 64-bit
limbs (its advance loop being allowed 129 passes). -/
theorem C3_advance_then_next :
    (∀ (prior : Native64.lua_pcg_state_setseq_64) (initstate initseq delta : Nat),
      Native64.lua_pcg_setseq_64_xsh_rr_32_random_r
          (Native64.lua_pcg_setseq_64_advance_r
            (Native64.lua_pcg_setseq_64_srandom_r prior initstate initseq) delta)
        = Native64.lua_pcg_setseq_64_xsh_rr_32_random_r
          (Native64.after_draws delta (Native64.lua_pcg_setseq_64_srandom_r prior initstate initseq))
      ∧ Native64.lua_pcg_setseq_64_advance_r
          (Native64.lua_pcg_setseq_64_srandom_r prior initstate initseq) 0
        = Native64.lua_pcg_setseq_64_srandom_r prior initstate initseq)
    ∧ (∀ (prior : Native128.lua_pcg_state_setseq_128) (initstate initseq delta : Nat),
      Native128.lua_pcg_setseq_128_xsl_rr_64_random_r
          (Native128.lua_pcg_setseq_128_advance_r
            (Native128.lua_pcg_setseq_128_srandom_r prior initstate initseq) delta)
        = Native128.lua_pcg_setseq_128_xsl_rr_64_random_r
          (Native128.after_draws delta (Native128.lua_pcg_setseq_128_srandom_r prior initstate initseq))
      ∧ Native128.lua_pcg_setseq_128_advance_r
          (Native128.lua_pcg_setseq_128_srandom_r prior initstate initseq) 0
        = Native128.lua_pcg_setseq_128_srandom_r prior initstate initseq)
    ∧ (∀ (fuel : Nat) (prior : Emu128.lua_pcg_state_setseq_128 Emu64.lua_pcg_u64)
        (initstate initseq delta : lua_pcg_u128 Emu64.lua_pcg_u64),
      129 ≤ fuel → Emu128.wf128 Emu64.wf64 initstate → Emu128.wf128 Emu64.wf64 initseq →
      Emu128.wf128 Emu64.wf64 delta →
      (∃ adv, Emu128.lua_pcg_setseq_128_advance_r Emu64.backend fuel
            (Emu128.lua_pcg_setseq_128_srandom_r Emu64.backend prior initstate initseq) delta = .ok adv
          ∧ Emu128.lua_pcg_setseq_128_xsl_rr_64_random_r Emu64.backend adv
            = Emu128.lua_pcg_setseq_128_xsl_rr_64_random_r Emu64.backend
                (Emu128.after_draws Emu64.backend (Emu128.val128 Emu64.val64 delta)
                  (Emu128.lua_pcg_setseq_128_srandom_r Emu64.backend prior initstate initseq)))
      ∧ (Emu128.val128 Emu64.val64 delta = 0 →
          Emu128.lua_pcg_setseq_128_advance_r Emu64.backend fuel
            (Emu128.lua_pcg_setseq_128_srandom_r Emu64.backend prior initstate initseq) delta
            = .ok (Emu128.lua_pcg_setseq_128_srandom_r Emu64.backend prior initstate initseq)))
    ∧ (∀ (fuel : Nat) (prior : Emu128.lua_pcg_state_setseq_128 Nat)
        (initstate initseq delta : lua_pcg_u128 Nat),
      129 ≤ fuel → Emu128.wf128 Native64.wf64 initstate → Emu128.wf128 Native64.wf64 initseq →
      Emu128.wf128 Native64.wf64 delta →
      (∃ adv, Emu128.lua_pcg_setseq_128_advance_r Native64.backend fuel
            (Emu128.lua_pcg_setseq_128_srandom_r Native64.backend prior initstate initseq) delta = .ok adv
          ∧ Emu128.lua_pcg_setseq_128_xsl_rr_64_random_r Native64.backend adv
            = Emu128.lua_pcg_setseq_128_xsl_rr_64_random_r Native64.backend
                (Emu128.after_draws Native64.backend (Emu128.val128 (fun x => x) delta)
                  (Emu128.lua_pcg_setseq_128_srandom_r Native64.backend prior initstate initseq)))
      ∧ (Emu128.val128 (fun x => x) delta = 0 →
          Emu128.lua_pcg_setseq_128_advance_r Native64.backend fuel
            (Emu128.lua_pcg_setseq_128_srandom_r Native64.backend prior initstate initseq) delta
            = .ok (Emu128.lua_pcg_setseq_128_srandom_r Native64.backend prior initstate initseq))) := by
  refine ⟨fun prior initstate initseq delta => ⟨?_, ?_⟩, fun prior initstate initseq delta => ⟨?_, ?_⟩,
    ?_, ?_⟩
  · rw [Native64.advance_64_eq_iterate _ _ (Native64.srandom_64_state_lt _ _ _), Native64.after_draws_64_eq]
  · rw [Native64.advance_64_eq_iterate _ _ (Native64.srandom_64_state_lt _ _ _)]
    rfl
  · rw [Native128.advance_128_eq_iterate _ _ (Native128.srandom_128_state_lt _ _ _), Native128.after_draws_128_eq]
  · rw [Native128.advance_128_eq_iterate _ _ (Native128.srandom_128_state_lt _ _ _)]
    rfl
  · intro fuel prior initstate initseq delta hf hs hq hd
    exact Emu128.advance_then_next_emu Emu64.backend Emu64.ops_lawful_emu fuel prior initstate initseq
      delta hf hs hq hd
  · intro fuel prior initstate initseq delta hf hs hq hd
    exact Emu128.advance_then_next_emu Native64.backend Native64.ops_lawful_native fuel prior initstate
      initseq delta hf hs hq hd

/-- Witness of C3: the fully emulated engine seeded with 42 and 54 and advanced by the largest
128-bit `delta`. -/
theorem C3_advance_then_next_witness :
    129 ≤ 129
    ∧ Emu128.wf128 Emu64.wf64 ⟨⟨42, 0⟩, ⟨0, 0⟩⟩ ∧ Emu128.wf128 Emu64.wf64 ⟨⟨54, 0⟩, ⟨0, 0⟩⟩
    ∧ Emu128.wf128 Emu64.wf64 ⟨⟨4294967295, 4294967295⟩, ⟨4294967295, 4294967295⟩⟩
    ∧ ∃ adv, Emu128.lua_pcg_setseq_128_advance_r Emu64.backend 129
          (Emu128.lua_pcg_setseq_128_srandom_r Emu64.backend ⟨⟨⟨0, 0⟩, ⟨0, 0⟩⟩, ⟨⟨0, 0⟩, ⟨0, 0⟩⟩⟩
            ⟨⟨42, 0⟩, ⟨0, 0⟩⟩ ⟨⟨54, 0⟩, ⟨0, 0⟩⟩)
          ⟨⟨4294967295, 4294967295⟩, ⟨4294967295, 4294967295⟩⟩ = .ok adv
        ∧ Emu128.lua_pcg_setseq_128_xsl_rr_64_random_r Emu64.backend adv
          = Emu128.lua_pcg_setseq_128_xsl_rr_64_random_r Emu64.backend
              (Emu128.after_draws Emu64.backend
                (Emu128.val128 Emu64.val64 ⟨⟨4294967295, 4294967295⟩, ⟨4294967295, 4294967295⟩⟩)
                (Emu128.lua_pcg_setseq_128_srandom_r Emu64.backend ⟨⟨⟨0, 0⟩, ⟨0, 0⟩⟩, ⟨⟨0, 0⟩, ⟨0, 0⟩⟩⟩
                  ⟨⟨42, 0⟩, ⟨0, 0⟩⟩ ⟨⟨54, 0⟩, ⟨0, 0⟩⟩)) :=
  ⟨by decide, ⟨⟨by decide, by decide⟩, ⟨by decide, by decide⟩⟩,
    ⟨⟨by decide, by decide⟩, ⟨by decide, by decide⟩⟩,
    ⟨⟨by decide, by decide⟩, ⟨by decide, by decide⟩⟩,
    (C3_advance_then_next.2.2.1 129 ⟨⟨⟨0, 0⟩, ⟨0, 0⟩⟩, ⟨⟨0, 0⟩, ⟨0, 0⟩⟩⟩ ⟨⟨42, 0⟩, ⟨0, 0⟩⟩ ⟨⟨54, 0⟩, ⟨0, 0⟩⟩
      ⟨⟨4294967295, 4294967295⟩, ⟨4294967295, 4294967295⟩⟩ (by decide)
      ⟨⟨by decide, by decide⟩, ⟨by decide, by decide⟩⟩
      ⟨⟨by decide, by decide⟩, ⟨by decide, by decide⟩⟩
      ⟨⟨by decide, by decide⟩, ⟨by decide, by decide⟩⟩).1⟩

/-- Witness of C10: the bound 6 is inside `[1, 4294967295]` and reaches the bounded draw, the
bound 0 is outside and is rejected. -/
theorem C10_pcg32_next_zero_bound_witness :
    (0 < (6 : Int) ∧ (6 : Int) ≤ 4294967295)
    ∧ Native64.lua_pcg_pcg32_next 1 ⟨0, 1⟩ [6]
        = (Native64.lua_pcg_setseq_64_xsh_rr_32_boundedrand_r 1 ⟨0, 1⟩ (6 : Int).toNat).map
            (fun p => ((p.1 : Int), p.2))
    ∧ ¬ (0 < (0 : Int) ∧ (0 : Int) ≤ 4294967295)
    ∧ Native64.lua_pcg_pcg32_next 1 ⟨0, 1⟩ [0]
        = .error (.arg_error 2 "bound is out of [1, 4294967295] range") :=
  ⟨by decide, (C10_pcg32_next_zero_bound 1 ⟨0, 1⟩).2.2.2.1 6 (by decide), by decide,
    (C10_pcg32_next_zero_bound 1 ⟨0, 1⟩).2.1 0 (by decide)⟩

namespace Emu64

theorem mul_wf64 (a b : lua_pcg_u64) : wf64 (lua_pcg_u64_mul a b) := lh_wf64 _ _

/-- The emulated truncating product is the product modulo `2^64`. -/
theorem mul_val64 (a b : lua_pcg_u64) (ha : wf64 a) (hb : wf64 b) :
    val64 (lua_pcg_u64_mul a b) = (val64 a * val64 b) % 2 ^ 64 := by
  obtain ⟨al, ah⟩ := a
  obtain ⟨bl, bh⟩ := b
  obtain ⟨ha1, ha2⟩ := ha
  obtain ⟨hb1, hb2⟩ := hb
  simp only [] at ha1 ha2 hb1 hb2
  have hP : ∀ x y : Nat, x < 2 ^ 32 → y < 2 ^ 32 → x * y ≤ 4294967295 * 4294967295 := by
    intro x y hx hy
    exact Nat.mul_le_mul (by omega) (by omega)
  have b0 := hP al bl ha1 hb1
  have b1 := hP ah bl ha2 hb1
  have b2 := hP al bh ha1 hb2
  obtain ⟨l0, c0, e0, hl0, hc0, s0⟩ := u32_mul_ex_words al bl ha1 hb1
  obtain ⟨x1, y1, e1, hx1, hy1, s1⟩ := u32_mul_ex_words ah bl ha2 hb1
  obtain ⟨m1, c2, e2, hm1, hc2, s2⟩ := u32_mul_ex_words al bh ha1 hb2
  have hprod : (al + 2 ^ 32 * ah) * (bl + 2 ^ 32 * bh)
      = al * bl + 2 ^ 32 * (ah * bl + al * bh) + 2 ^ 64 * (ah * bh) := by ring
  generalize al * bl = p0 at *
  generalize ah * bl = p1 at *
  generalize al * bh = p2 at *
  generalize ah * bh = p3 at *
  have z : (0 : Nat) < 2 ^ 32 := by norm_num
  have g0 : lua_pcg_u64_lh c0 0 = ⟨c0, 0⟩ := lh_of_lt _ _ hc0 z
  obtain ⟨l1, l2, f1, hl1, hl2, t1⟩ := sum_words_small x1 y1 c0 0 hx1 hy1 hc0 z
    (by clear * - s1 b1 hc0; omega)
  have g3 : lua_pcg_u64_lh l0 0 = ⟨l0, 0⟩ := lh_of_lt _ _ hl0 z
  have g4 : lua_pcg_u64_lh 0 0 = ⟨0, 0⟩ := lh_of_lt _ _ z z
  obtain ⟨r0, k0, q0, hr0, hk0, u0⟩ := sum_words_small l0 0 0 0 hl0 z z z (by clear * - hl0; omega)
  have g5 : lua_pcg_u64_lh k0 0 = ⟨k0, 0⟩ := lh_of_lt _ _ hk0 z
  have g6 : lua_pcg_u64_lh l1 0 = ⟨l1, 0⟩ := lh_of_lt _ _ hl1 z
  have g7 : lua_pcg_u64_lh m1 0 = ⟨m1, 0⟩ := lh_of_lt _ _ hm1 z
  obtain ⟨i1, j1, q1a, hi1, hj1, u1a⟩ := sum_words_small l1 0 m1 0 hl1 z hm1 z
    (by clear * - hl1 hm1; omega)
  obtain ⟨r1, k1, q1, hr1, hk1, u1⟩ := sum_words_small i1 j1 k0 0 hi1 hj1 hk0 z
    (by clear * - u1a hl1 hm1 hk0; omega)
  have hdef : lua_pcg_u64_mul ⟨al, ah⟩ ⟨bl, bh⟩ = ⟨r0, r1⟩ := by
    simp only [lua_pcg_u64_mul, e0, e1, e2, g0, f1, g3, g4, q0, g5, g6, g7, q1a, q1,
      lh_of_lt _ _ hr0 hr1]
  rw [hdef]
  simp only [val64]
  rw [hprod]
  clear * - s0 s1 s2 t1 u0 u1a u1 hr0 hr1
  omega

/-- The function `lua_pcg_u64_cast_to_u32` keeps the low 32 bits. -/
theorem cast_to_u32_val64 (a : lua_pcg_u64) (ha : wf64 a) :
    lua_pcg_u64_cast_to_u32 a = val64 a % 2 ^ 32 := by
  obtain ⟨h1, h2⟩ := ha
  simp only [lua_pcg_u64_cast_to_u32, lua_pcg_u32_cast_eq, val64]
  omega

theorem multiplier_64_spec :
    wf64 LUA_PCG_DEFAULT_MULTIPLIER_64
    ∧ val64 LUA_PCG_DEFAULT_MULTIPLIER_64 = Native64.LUA_PCG_DEFAULT_MULTIPLIER_64 := by
  refine ⟨lh_wf64 _ _, ?_⟩
  rw [LUA_PCG_DEFAULT_MULTIPLIER_64, lh_val64, Native64.LUA_PCG_DEFAULT_MULTIPLIER_64,
    Native64.lua_pcg_u64_lh_eq]

/-- The emulated output function computes the native one on the represented state. -/
theorem output_64_sim (s : lua_pcg_u64) (hs : wf64 s) :
    lua_pcg_output_xsh_rr_64_32 s = Native64.lua_pcg_output_xsh_rr_64_32 (val64 s) := by
  have w1 := rsh_wf64 s 18
  have v1 := rsh_val64 s 18 hs (by norm_num)
  have w2 := xor_wf64 (lua_pcg_u64_rsh s 18) s
  have v2 := xor_val64 _ _ w1 hs
  have w3 := rsh_wf64 (lua_pcg_u64_xor (lua_pcg_u64_rsh s 18) s) 27
  have v3 := rsh_val64 _ 27 w2 (by norm_num)
  have w4 := rsh_wf64 s 59
  have v4 := rsh_val64 s 59 hs (by norm_num)
  simp only [lua_pcg_output_xsh_rr_64_32, Native64.lua_pcg_output_xsh_rr_64_32,
    cast_to_u32_val64 _ w3, cast_to_u32_val64 _ w4, v3, v2, v1, v4, lua_pcg_u32_cast_eq, wrap32_eq,
    Nat.shiftRight_eq_div_pow]

/-- One step of the emulated engine is one step of the native engine it stands for. -/
theorem step_64_sim (rng : lua_pcg_state_setseq_64) (h : wf_state rng) :
    wf_state (lua_pcg_setseq_64_step_r rng)
    ∧ abs_state (lua_pcg_setseq_64_step_r rng) = Native64.lua_pcg_setseq_64_step_r (abs_state rng) := by
  obtain ⟨wm, vm⟩ := multiplier_64_spec
  refine ⟨⟨sum_wf64 _ _, h.2⟩, ?_⟩
  simp only [abs_state, lua_pcg_setseq_64_step_r, Native64.lua_pcg_setseq_64_step_r,
    sum_val64 _ _ (mul_wf64 _ _) h.2, mul_val64 _ _ h.1 wm, vm, lua_pcg_u64_cast_eq, wrap64_eq]
  congr 1
  omega

theorem random_64_sim (rng : lua_pcg_state_setseq_64) (h : wf_state rng) :
    wf_state (lua_pcg_setseq_64_xsh_rr_32_random_r rng).2
    ∧ (lua_pcg_setseq_64_xsh_rr_32_random_r rng).1
        = (Native64.lua_pcg_setseq_64_xsh_rr_32_random_r (abs_state rng)).1
    ∧ abs_state (lua_pcg_setseq_64_xsh_rr_32_random_r rng).2
        = (Native64.lua_pcg_setseq_64_xsh_rr_32_random_r (abs_state rng)).2 := by
  obtain ⟨w, e⟩ := step_64_sim rng h
  exact ⟨w, output_64_sim _ h.1, e⟩

/-- Seeding the emulated engine is seeding the native engine, whatever either held before. -/
theorem srandom_64_sim (prior : lua_pcg_state_setseq_64) (prior1 : Native64.lua_pcg_state_setseq_64)
    (initstate initseq : lua_pcg_u64) (hs : wf64 initstate) (hq : wf64 initseq) :
    wf_state (lua_pcg_setseq_64_srandom_r prior initstate initseq)
    ∧ abs_state (lua_pcg_setseq_64_srandom_r prior initstate initseq)
        = Native64.lua_pcg_setseq_64_srandom_r prior1 (val64 initstate) (val64 initseq) := by
  have w2 : wf_state ⟨lua_pcg_u64_lh 0 0, lua_pcg_u64_bor (lua_pcg_u64_lsh initseq 1) (lua_pcg_u64_lh 1 0)⟩ :=
    ⟨lh_wf64 _ _, bor_wf64 _ _⟩
  obtain ⟨w3, e3⟩ := step_64_sim _ w2
  have w4 : wf_state ⟨lua_pcg_u64_sum (lua_pcg_setseq_64_step_r
      ⟨lua_pcg_u64_lh 0 0, lua_pcg_u64_bor (lua_pcg_u64_lsh initseq 1) (lua_pcg_u64_lh 1 0)⟩).state initstate,
      (lua_pcg_setseq_64_step_r
      ⟨lua_pcg_u64_lh 0 0, lua_pcg_u64_bor (lua_pcg_u64_lsh initseq 1) (lua_pcg_u64_lh 1 0)⟩).inc⟩ :=
    ⟨sum_wf64 _ _, w3.2⟩
  obtain ⟨w5, e5⟩ := step_64_sim _ w4
  refine ⟨w5, ?_⟩
  have hinc : val64 (lua_pcg_u64_bor (lua_pcg_u64_lsh initseq 1) (lua_pcg_u64_lh 1 0))
      = lua_pcg_u64_cast (wrap64 (val64 initseq <<< 1)) ||| 1 := by
    rw [bor_val64 _ _ (lsh_wf64 _ _) (lh_wf64 _ _), lsh_val64 _ 1 hq (by norm_num), lh_val64,
      lua_pcg_u64_cast_eq, wrap64_eq, Nat.shiftLeft_eq]
    norm_num
  have hzero : val64 (lua_pcg_u64_lh 0 0) = 0 := by
    rw [lh_val64]
    norm_num
  have h2 : abs_state ⟨lua_pcg_u64_lh 0 0, lua_pcg_u64_bor (lua_pcg_u64_lsh initseq 1) (lua_pcg_u64_lh 1 0)⟩
      = ⟨0, lua_pcg_u64_cast (wrap64 (val64 initseq <<< 1)) ||| 1⟩ := by
    simp only [abs_state, hinc, hzero]
  rw [h2] at e3
  have e3s := congrArg Native64.lua_pcg_state_setseq_64.state e3
  have e3i := congrArg Native64.lua_pcg_state_setseq_64.inc e3
  simp only [abs_state] at e3s e3i
  have h4 : abs_state ⟨lua_pcg_u64_sum (lua_pcg_setseq_64_step_r
      ⟨lua_pcg_u64_lh 0 0, lua_pcg_u64_bor (lua_pcg_u64_lsh initseq 1) (lua_pcg_u64_lh 1 0)⟩).state initstate,
      (lua_pcg_setseq_64_step_r
      ⟨lua_pcg_u64_lh 0 0, lua_pcg_u64_bor (lua_pcg_u64_lsh initseq 1) (lua_pcg_u64_lh 1 0)⟩).inc⟩
      = ⟨lua_pcg_u64_cast (wrap64 ((Native64.lua_pcg_setseq_64_step_r
            ⟨0, lua_pcg_u64_cast (wrap64 (val64 initseq <<< 1)) ||| 1⟩).state + val64 initstate)),
          (Native64.lua_pcg_setseq_64_step_r
            ⟨0, lua_pcg_u64_cast (wrap64 (val64 initseq <<< 1)) ||| 1⟩).inc⟩ := by
    simp only [abs_state]
    rw [sum_val64 _ _ w3.1 hs, e3s, e3i]
    simp only [lua_pcg_u64_cast_eq, wrap64_eq, Nat.mod_mod]
  rw [h4] at e5
  exact e5

end Emu64

namespace Emu64

theorem lh_zero_val64 : val64 (lua_pcg_u64_lh 0 0) = 0 := by
  rw [lh_val64]
  norm_num

theorem lh_one_val64 : val64 (lua_pcg_u64_lh 1 0) = 1 := by
  rw [lh_val64]
  norm_num

/-- The emulated loop of `lua_pcg_advance_lcg_64` runs as the native loop does on the represented
values, and ends when it is allowed more passes than `delta` has bits. -/
theorem advance_64_loop_sim (fuel : Nat) :
    ∀ (k : Nat) (delta cm cp am ap : lua_pcg_u64), k < fuel → val64 delta < 2 ^ k →
      wf64 delta → wf64 cm → wf64 cp → wf64 am → wf64 ap →
      ∃ am1 ap1, lua_pcg_advance_lcg_64_loop fuel delta cm cp am ap = .ok (am1, ap1)
        ∧ wf64 am1 ∧ wf64 ap1
        ∧ Native64.lua_pcg_advance_lcg_64_loop (val64 delta) (val64 cm) (val64 cp) (val64 am) (val64 ap)
            = (val64 am1, val64 ap1) := by
  induction fuel with
  | zero =>
    intro k delta cm cp am ap hk
    omega
  | succ fuel ih =>
    intro k delta cm cp am ap hk hd wd wcm wcp wam wap
    have wzero := lh_wf64 0 0
    have wone := lh_wf64 1 0
    rw [lua_pcg_advance_lcg_64_loop, Native64.lua_pcg_advance_lcg_64_loop]
    by_cases hgt : lua_pcg_u64_gt delta (lua_pcg_u64_lh 0 0) = true
    · have hpos := (gt_iff64 _ _ wd wzero).mp hgt
      rw [lh_zero_val64] at hpos
      simp only [hgt, if_true]
      rw [dif_pos hpos]
      have vband := band_val64 delta _ wd wone
      rw [lh_one_val64] at vband
      have hk0 : 0 < k := by
        rcases Nat.eq_zero_or_pos k with h0 | h0
        · subst h0
          simp at hd
          omega
        · exact h0
      have wrsh := rsh_wf64 delta 1
      have vrsh := rsh_val64 delta 1 wd (by norm_num)
      rw [pow_one] at vrsh
      have hd1 : val64 (lua_pcg_u64_rsh delta 1) < 2 ^ (k - 1) := by
        rw [vrsh]
        have hp : 2 ^ k = 2 * 2 ^ (k - 1) := by
          rw [← pow_succ']
          congr 1
          omega
        clear * - hd hp
        omega
      have vcm1 := mul_val64 cm cm wcm wcm
      have vcs := sum_val64 cm _ wcm wone
      rw [lh_one_val64] at vcs
      have vcp1 := mul_val64 _ cp (sum_wf64 cm (lua_pcg_u64_lh 1 0)) wcp
      rw [vcs] at vcp1
      have vam1 := mul_val64 am cm wam wcm
      have vapm := mul_val64 ap cm wap wcm
      have vap1 := sum_val64 _ cp (mul_wf64 ap cm) wcp
      rw [vapm] at vap1
      have hsh : val64 delta >>> 1 = val64 delta / 2 := by
        rw [Nat.shiftRight_eq_div_pow, pow_one]
      by_cases hodd : lua_pcg_u64_neq (lua_pcg_u64_band delta (lua_pcg_u64_lh 1 0))
          (lua_pcg_u64_lh 0 0) = true
      · have hodd1 : val64 delta &&& 1 ≠ 0 := by
          intro h0
          have heq := (eq_iff64 _ _ (band_wf64 delta (lua_pcg_u64_lh 1 0)) wzero).mpr
            (by rw [vband, lh_zero_val64, h0])
          simp only [lua_pcg_u64_neq, heq] at hodd
          exact absurd hodd (by decide)
        simp only [hodd, if_true]
        rw [if_pos hodd1, if_pos hodd1]
        obtain ⟨am2, ap2, hloop, wam2, wap2, hspec⟩ :=
          ih (k - 1) _ _ _ _ _ (by omega) hd1 wrsh (mul_wf64 cm cm) (mul_wf64 _ cp)
            (mul_wf64 am cm) (sum_wf64 _ cp)
        refine ⟨am2, ap2, hloop, wam2, wap2, ?_⟩
        rw [← hspec, vrsh, vcm1, vcp1, vam1, vap1, hsh]
        simp only [lua_pcg_u64_cast_eq, wrap64_eq, Nat.mod_mod]
      · have hodd1 : ¬ (val64 delta &&& 1 ≠ 0) := by
          intro h1
          apply hodd
          have hne : lua_pcg_u64_eq (lua_pcg_u64_band delta (lua_pcg_u64_lh 1 0))
              (lua_pcg_u64_lh 0 0) = false := by
            rw [Bool.eq_false_iff]
            intro heq
            have := (eq_iff64 _ _ (band_wf64 delta (lua_pcg_u64_lh 1 0)) wzero).mp heq
            rw [vband, lh_zero_val64] at this
            exact h1 this
          simp only [lua_pcg_u64_neq, hne]
          rfl
        simp only [hodd, Bool.false_eq_true, if_false]
        rw [if_neg hodd1, if_neg hodd1]
        obtain ⟨am2, ap2, hloop, wam2, wap2, hspec⟩ :=
          ih (k - 1) _ _ _ _ _ (by omega) hd1 wrsh (mul_wf64 cm cm) (mul_wf64 _ cp) wam wap
        refine ⟨am2, ap2, hloop, wam2, wap2, ?_⟩
        rw [← hspec, vrsh, vcm1, vcp1, hsh]
        simp only [lua_pcg_u64_cast_eq, wrap64_eq, Nat.mod_mod]
    · have hz : ¬ (val64 delta > 0) := by
        intro h
        apply hgt
        apply (gt_iff64 _ _ wd wzero).mpr
        rw [lh_zero_val64]
        exact h
      simp only [hgt, Bool.false_eq_true, if_false]
      rw [dif_neg hz]
      exact ⟨am, ap, rfl, wam, wap, rfl⟩

/-- The emulated `lua_pcg_setseq_64_advance_r` returns, within 65 passes of its loop, the engine
that stands for what the native one returns. -/
theorem advance_64_sim (fuel : Nat) (rng : lua_pcg_state_setseq_64) (delta : lua_pcg_u64)
    (hfuel : 65 ≤ fuel) (h : wf_state rng) (hd : wf64 delta) :
    ∃ rng1, lua_pcg_setseq_64_advance_r fuel rng delta = .ok rng1
      ∧ wf_state rng1 ∧ rng1.inc = rng.inc
      ∧ abs_state rng1 = Native64.lua_pcg_setseq_64_advance_r (abs_state rng) (val64 delta) := by
  obtain ⟨wm, vm⟩ := multiplier_64_spec
  obtain ⟨am1, ap1, hloop, wam1, wap1, hspec⟩ := advance_64_loop_sim fuel 64 delta
    LUA_PCG_DEFAULT_MULTIPLIER_64 rng.inc (lua_pcg_u64_lh 1 0) (lua_pcg_u64_lh 0 0)
    (by omega) (val64_lt delta hd) hd wm h.2 (lh_wf64 1 0) (lh_wf64 0 0)
  rw [lh_one_val64, lh_zero_val64, vm] at hspec
  refine ⟨{ rng with state := lua_pcg_u64_sum (lua_pcg_u64_mul am1 rng.state) ap1 }, ?_,
    ⟨sum_wf64 _ _, h.2⟩, rfl, ?_⟩
  · simp only [lua_pcg_setseq_64_advance_r, lua_pcg_advance_lcg_64, hloop]
  · simp only [abs_state, Native64.lua_pcg_setseq_64_advance_r, Native64.lua_pcg_advance_lcg_64, hspec,
      sum_val64 _ _ (mul_wf64 _ _) wap1, mul_val64 _ _ wam1 h.1, lua_pcg_u64_cast_eq, wrap64_eq,
      Nat.mod_mod]

/-- The emulated rejection loop of the 32-bit engine runs as the native one does. -/
theorem boundedrand_32_loop_sim (fuel : Nat) :
    ∀ (rng : lua_pcg_state_setseq_64) (threshold : Nat), wf_state rng →
      (lua_pcg_setseq_64_xsh_rr_32_boundedrand_r_loop fuel rng threshold).map
          (fun p => (p.1, abs_state p.2))
        = Native64.lua_pcg_setseq_64_xsh_rr_32_boundedrand_r_loop fuel (abs_state rng) threshold
      ∧ ∀ r rng1, lua_pcg_setseq_64_xsh_rr_32_boundedrand_r_loop fuel rng threshold = .ok (r, rng1) →
          wf_state rng1 ∧ rng1.inc = rng.inc := by
  induction fuel with
  | zero =>
    intro rng threshold h
    refine ⟨rfl, ?_⟩
    intro r rng1 he
    simp [lua_pcg_setseq_64_xsh_rr_32_boundedrand_r_loop] at he
  | succ fuel ih =>
    intro rng threshold h
    obtain ⟨w, e1, e2⟩ := random_64_sim rng h
    rw [lua_pcg_setseq_64_xsh_rr_32_boundedrand_r_loop,
      Native64.lua_pcg_setseq_64_xsh_rr_32_boundedrand_r_loop]
    simp only []
    rw [← e1, ← e2]
    by_cases hlt : (lua_pcg_setseq_64_xsh_rr_32_random_r rng).1 < threshold
    · rw [if_pos hlt, if_pos hlt]
      obtain ⟨ih1, ih2⟩ := ih _ threshold w
      refine ⟨ih1, ?_⟩
      intro r rng1 he
      obtain ⟨w1, hinc⟩ := ih2 r rng1 he
      exact ⟨w1, hinc⟩
    · rw [if_neg hlt, if_neg hlt]
      refine ⟨rfl, ?_⟩
      intro r rng1 he
      simp only [Except.ok.injEq, Prod.mk.injEq] at he
      obtain ⟨_, he2⟩ := he
      subst he2
      exact ⟨w, rfl⟩

/-- The bounded draw of the emulated 32-bit engine is that of the native one. -/
theorem boundedrand_32_sim (fuel : Nat) (rng : lua_pcg_state_setseq_64) (bound : Nat)
    (h : wf_state rng) :
    (lua_pcg_setseq_64_xsh_rr_32_boundedrand_r fuel rng bound).map (fun p => (p.1, abs_state p.2))
        = Native64.lua_pcg_setseq_64_xsh_rr_32_boundedrand_r fuel (abs_state rng) bound
      ∧ ∀ r rng1, lua_pcg_setseq_64_xsh_rr_32_boundedrand_r fuel rng bound = .ok (r, rng1) →
          wf_state rng1 ∧ rng1.inc = rng.inc := by
  simp only [lua_pcg_setseq_64_xsh_rr_32_boundedrand_r, Native64.lua_pcg_setseq_64_xsh_rr_32_boundedrand_r]
  by_cases hz : lua_pcg_u32_cast bound = 0
  · rw [if_pos hz, if_pos hz]
    refine ⟨rfl, ?_⟩
    intro r rng1 he
    cases he
  · rw [if_neg hz, if_neg hz]
    obtain ⟨h1, h2⟩ := boundedrand_32_loop_sim fuel rng
      (neg32 (lua_pcg_u32_cast bound) % lua_pcg_u32_cast bound) h
    rw [← h1]
    cases hl : lua_pcg_setseq_64_xsh_rr_32_boundedrand_r_loop fuel rng
        (neg32 (lua_pcg_u32_cast bound) % lua_pcg_u32_cast bound) with
    | error e =>
      refine ⟨rfl, ?_⟩
      intro r rng1 he
      cases he
    | ok p =>
      obtain ⟨r0, rng0⟩ := p
      refine ⟨rfl, ?_⟩
      intro r rng1 he
      simp only [Except.ok.injEq, Prod.mk.injEq] at he
      obtain ⟨_, he2⟩ := he
      subst he2
      exact h2 r0 rng0 hl

end Emu64

/-- Simulation of sequences from simulation of single operations: if every operation whose
arguments satisfy `P`, run from an engine satisfying `R`, gives under the translation what the other
configuration gives, and keeps `R`, then so does every sequence of such operations. -/
theorem run_ops_sim {σ ω κ σ1 ω1 κ1 : Type}
    (run_op : σ → κ → Except Fault (List ω × σ)) (run_op1 : σ1 → κ1 → Except Fault (List ω1 × σ1))
    (R : σ → Prop) (P : κ → Prop) (abs : σ → σ1) (abso : ω → ω1) (absk : κ → κ1)
    (hstep : ∀ rng op, R rng → P op →
      (run_op rng op).map (fun p => (p.1.map abso, abs p.2)) = run_op1 (abs rng) (absk op)
      ∧ ∀ o rng1, run_op rng op = .ok (o, rng1) → R rng1) :
    ∀ (ops : List κ) (rng : σ), R rng → (∀ op ∈ ops, P op) →
      (run_ops run_op ops rng).map (fun p => (p.1.map abso, abs p.2))
          = run_ops run_op1 (ops.map absk) (abs rng)
        ∧ ∀ o rng1, run_ops run_op ops rng = .ok (o, rng1) → R rng1 := by
  intro ops
  induction ops with
  | nil =>
    intro rng hR _
    refine ⟨rfl, ?_⟩
    intro o rng1 he
    simp only [run_ops, Except.ok.injEq, Prod.mk.injEq] at he
    rw [← he.2]
    exact hR
  | cons op ops ih =>
    intro rng hR hP
    obtain ⟨h1, h2⟩ := hstep rng op hR (hP op (List.mem_cons_self _ _))
    simp only [run_ops, List.map_cons]
    rw [← h1]
    cases hop : run_op rng op with
    | error e =>
      refine ⟨rfl, ?_⟩
      intro o rng1 he
      cases he
    | ok p =>
      obtain ⟨o1, rng1⟩ := p
      have hR1 := h2 o1 rng1 hop
      obtain ⟨ih1, ih2⟩ := ih rng1 hR1 (fun op1 hm => hP op1 (List.mem_cons_of_mem _ hm))
      simp only [Except.map]
      rw [← ih1]
      cases hops : run_ops run_op ops rng1 with
      | error e =>
        refine ⟨rfl, ?_⟩
        intro o rng2 he
        cases he
      | ok p2 =>
        obtain ⟨o2, rng2⟩ := p2
        refine ⟨?_, ?_⟩
        · simp only [Except.map, List.map_append]
        · intro o rng3 he
          simp only [Except.ok.injEq, Prod.mk.injEq] at he
          rw [← he.2]
          exact ih2 o2 rng2 hops

/-- A property kept by every operation is kept by every sequence of operations. -/
theorem run_ops_invariant {σ ω κ : Type} (run_op : σ → κ → Except Fault (List ω × σ))
    (R : σ → Prop) (P : κ → Prop)
    (hstep : ∀ rng op o rng1, R rng → P op → run_op rng op = .ok (o, rng1) → R rng1) :
    ∀ (ops : List κ) (rng : σ) (o : List ω) (rng1 : σ), R rng → (∀ op ∈ ops, P op) →
      run_ops run_op ops rng = .ok (o, rng1) → R rng1 := by
  intro ops
  induction ops with
  | nil =>
    intro rng o rng1 hR _ he
    simp only [run_ops, Except.ok.injEq, Prod.mk.injEq] at he
    rw [← he.2]
    exact hR
  | cons op ops ih =>
    intro rng o rng1 hR hP he
    simp only [run_ops] at he
    cases hop : run_op rng op with
    | error e =>
      rw [hop] at he
      cases he
    | ok p =>
      obtain ⟨o1, rng2⟩ := p
      rw [hop] at he
      simp only [] at he
      have hR2 := hstep rng op o1 rng2 hR (hP op (List.mem_cons_self _ _)) hop
      cases hops : run_ops run_op ops rng2 with
      | error e =>
        rw [hops] at he
        cases he
      | ok p2 =>
        obtain ⟨o2, rng3⟩ := p2
        rw [hops] at he
        simp only [Except.ok.injEq, Prod.mk.injEq] at he
        rw [← he.2]
        exact ih rng2 o2 rng3 hR2 (fun op1 hm => hP op1 (List.mem_cons_of_mem _ hm)) hops

namespace Emu64

/-- Every operation on the emulated 32-bit engine gives what the native engine gives. -/
theorem run_op_64_sim (fuel : Nat) (hfuel : 65 ≤ fuel) (rng : lua_pcg_state_setseq_64)
    (op : EngineOp lua_pcg_u64 Nat) (h : wf_state rng) (hop : op.All wf64 (fun _ => True)) :
    (run_op fuel rng op).map (fun p => (p.1.map (fun x => x), abs_state p.2))
        = Native64.run_op fuel (abs_state rng) (op.map val64 (fun b => b))
      ∧ ∀ o rng1, run_op fuel rng op = .ok (o, rng1) → wf_state rng1 := by
  cases op with
  | seed s q =>
    obtain ⟨w, e⟩ := srandom_64_sim rng (abs_state rng) s q hop.1 hop.2
    refine ⟨?_, ?_⟩
    · simp only [run_op, Native64.run_op, EngineOp.map, Except.map, List.map_nil, e]
    · intro o rng1 he
      simp only [run_op, Except.ok.injEq, Prod.mk.injEq] at he
      rw [← he.2]
      exact w
  | step =>
    obtain ⟨w, e⟩ := step_64_sim rng h
    refine ⟨?_, ?_⟩
    · simp only [run_op, Native64.run_op, EngineOp.map, Except.map, List.map_nil, e]
    · intro o rng1 he
      simp only [run_op, Except.ok.injEq, Prod.mk.injEq] at he
      rw [← he.2]
      exact w
  | next =>
    obtain ⟨w, e1, e2⟩ := random_64_sim rng h
    refine ⟨?_, ?_⟩
    · simp only [run_op, Native64.run_op, EngineOp.map, Except.map, List.map_cons, List.map_nil, e1, e2]
    · intro o rng1 he
      simp only [run_op, Except.ok.injEq, Prod.mk.injEq] at he
      rw [← he.2]
      exact w
  | advance d =>
    obtain ⟨rng2, e, w, _, ea⟩ := advance_64_sim fuel rng d hfuel h hop
    refine ⟨?_, ?_⟩
    · simp only [run_op, Native64.run_op, EngineOp.map, e, Except.map, List.map_nil, ea]
    · intro o rng1 he
      simp only [run_op, e, Except.ok.injEq, Prod.mk.injEq] at he
      rw [← he.2]
      exact w
  | boundedNext b =>
    obtain ⟨e, w⟩ := boundedrand_32_sim fuel rng b h
    refine ⟨?_, ?_⟩
    · simp only [run_op, Native64.run_op, EngineOp.map]
      rw [← e]
      cases lua_pcg_setseq_64_xsh_rr_32_boundedrand_r fuel rng b with
      | error e1 => rfl
      | ok p => rfl
    · intro o rng1 he
      simp only [run_op] at he
      cases hb : lua_pcg_setseq_64_xsh_rr_32_boundedrand_r fuel rng b with
      | error e1 =>
        rw [hb] at he
        cases he
      | ok p =>
        obtain ⟨r, rng2⟩ := p
        rw [hb] at he
        simp only [Except.ok.injEq, Prod.mk.injEq] at he
        rw [← he.2]
        exact (w r rng2 hb).1

end Emu64

namespace Native128

theorem multiplier_128_value :
    LUA_PCG_DEFAULT_MULTIPLIER_128 = 0x2360ED051FC65DA44385DF649FCCF645 := by
  decide

end Native128

namespace Emu128

variable {α : Type} {wf : α → Prop} {val : α → Nat}

/-- One step of the emulated 128-bit engine is one step of the native engine it stands for. -/
theorem step_128_sim (B : U64Backend α) (L : B.toU64Ops.Lawful wf val)
    (rng : lua_pcg_state_setseq_128 α) (h : wf_state wf rng) :
    wf_state wf (lua_pcg_setseq_128_step_r B rng)
    ∧ abs_state val (lua_pcg_setseq_128_step_r B rng)
        = Native128.lua_pcg_setseq_128_step_r (abs_state val rng) := by
  obtain ⟨w, hinc, hv⟩ := step_emu_spec B L rng h
  refine ⟨w, ?_⟩
  simp only [abs_state, Native128.lua_pcg_setseq_128_step_r, hv, hinc, (multiplier_128_spec B L).2,
    Native128.multiplier_128_value, wrap128_eq]
  congr 1
  rw [Nat.mul_comm]
  generalize val128 val rng.state * 0x2360ED051FC65DA44385DF649FCCF645 = p
  omega

/-- The emulated output function computes the native one on the represented state. -/
theorem output_128_sim (B : U64Backend α) (L : B.toU64Ops.Lawful wf val) (st : lua_pcg_u128 α)
    (h : wf128 wf st) :
    val (lua_pcg_output_xsl_rr_128_64 B st) = Native128.lua_pcg_output_xsl_rr_128_64 (val128 val st) := by
  obtain ⟨w1, v1⟩ := rsh_spec128 L st 122 h
  obtain ⟨w2, v2⟩ := rsh_spec128 L st 64 h
  have hlt := val128_lt L st h
  have hrotv : B.lua_pcg_u128_cast_to_u32 (lua_pcg_u128_rsh B.toU64Ops st 122)
      = wrap32 (val128 val st >>> 122) := by
    rw [L.cast_to_u32_eq _ w1.1, (limbs_of_val128 L _ w1).1, v1, wrap32_eq, Nat.shiftRight_eq_div_pow]
    clear * - hlt
    omega
  have hrot : wrap32 (val128 val st >>> 122) < 64 := by
    rw [wrap32_eq, Nat.shiftRight_eq_div_pow]
    clear * - hlt
    omega
  have ex1 : B.lua_pcg_u128_cast_to_u64 (lua_pcg_u128_rsh B.toU64Ops st 64)
      = (lua_pcg_u128_rsh B.toU64Ops st 64).low := by
    rw [L.cast_to_u64_eq, L.clone_eq _ w2.1]
  have ex2 : B.lua_pcg_u128_cast_to_u64 st = st.low := by
    rw [L.cast_to_u64_eq, L.clone_eq _ h.1]
  have vx1 : val (lua_pcg_u128_rsh B.toU64Ops st 64).low
      = Native128.lua_pcg_u128_cast_to_u64 (val128 val st >>> 64) := by
    rw [(limbs_of_val128 L _ w2).1, v2, Native128.lua_pcg_u128_cast_to_u64, lua_pcg_u64_cast_eq,
      Nat.shiftRight_eq_div_pow]
  have vx2 : val st.low = Native128.lua_pcg_u128_cast_to_u64 (val128 val st) := by
    rw [(limbs_of_val128 L _ h).1, Native128.lua_pcg_u128_cast_to_u64, lua_pcg_u64_cast_eq]
  have wx := L.xor_wf _ _ w2.1 h.1
  have vx := L.xor_val _ _ w2.1 h.1
  rw [vx1, vx2] at vx
  have hxlt := L.val_lt _ wx
  have hand : neg32 (wrap32 (val128 val st >>> 122)) &&& 63 < 64 :=
    Nat.and_lt_two_pow _ (show 63 < 2 ^ 6 by norm_num)
  simp only [lua_pcg_output_xsl_rr_128_64, lua_pcg_rotr_64, Native128.lua_pcg_output_xsl_rr_128_64,
    Native128.lua_pcg_rotr_64, ex1, ex2, hrotv]
  rw [L.bor_val _ _ (L.rsh_wf _ _ wx hrot) (L.lsh_wf _ _ wx hand), L.rsh_val _ _ wx hrot,
    L.lsh_val _ _ wx hand, vx]
  rw [vx, Nat.shiftRight_eq_div_pow] at hxlt
  simp only [lua_pcg_u64_cast_eq, wrap64_eq, Nat.shiftRight_eq_div_pow, Nat.shiftLeft_eq, Nat.mod_mod,
    Nat.mod_eq_of_lt hxlt]

theorem random_128_sim (B : U64Backend α) (L : B.toU64Ops.Lawful wf val)
    (rng : lua_pcg_state_setseq_128 α) (h : wf_state wf rng) :
    wf (lua_pcg_setseq_128_xsl_rr_64_random_r B rng).1
    ∧ wf_state wf (lua_pcg_setseq_128_xsl_rr_64_random_r B rng).2
    ∧ val (lua_pcg_setseq_128_xsl_rr_64_random_r B rng).1
        = (Native128.lua_pcg_setseq_128_xsl_rr_64_random_r (abs_state val rng)).1
    ∧ abs_state val (lua_pcg_setseq_128_xsl_rr_64_random_r B rng).2
        = (Native128.lua_pcg_setseq_128_xsl_rr_64_random_r (abs_state val rng)).2 := by
  obtain ⟨w, e⟩ := step_128_sim B L rng h
  obtain ⟨wo, _⟩ := random_emu_wf B L rng h
  refine ⟨wo, w, ?_, e⟩
  have ho := output_128_sim B L _ w.1
  have es := congrArg Native128.lua_pcg_state_setseq_128.state e
  simp only [abs_state] at es
  simp only [lua_pcg_setseq_128_xsl_rr_64_random_r, Native128.lua_pcg_setseq_128_xsl_rr_64_random_r]
  rw [ho, es]
  rfl

/-- Seeding the emulated engine is seeding the native engine, whatever either held before. -/
theorem srandom_128_sim (B : U64Backend α) (L : B.toU64Ops.Lawful wf val)
    (prior : lua_pcg_state_setseq_128 α) (prior1 : Native128.lua_pcg_state_setseq_128)
    (initstate initseq : lua_pcg_u128 α) (hs : wf128 wf initstate) (hq : wf128 wf initseq) :
    wf_state wf (lua_pcg_setseq_128_srandom_r B prior initstate initseq)
    ∧ abs_state val (lua_pcg_setseq_128_srandom_r B prior initstate initseq)
        = Native128.lua_pcg_setseq_128_srandom_r prior1 (val128 val initstate) (val128 val initseq) := by
  obtain ⟨wzero, vzero⟩ := zero128_spec L
  obtain ⟨wone, vone⟩ := one128_spec L
  obtain ⟨wl, vl⟩ := lsh_spec128 L initseq 1 hq
  obtain ⟨wb, vb⟩ := bor_spec128 L _ _ wl wone
  have w2 : wf_state wf
      ({ state := B.lua_pcg_u128_lh (B.lua_pcg_u64_lh 0 0) (B.lua_pcg_u64_lh 0 0),
         inc := lua_pcg_u128_bor B.toU64Ops (lua_pcg_u128_lsh B.toU64Ops initseq 1)
          (B.lua_pcg_u128_lh (B.lua_pcg_u64_lh 1 0) (B.lua_pcg_u64_lh 0 0)) } :
        lua_pcg_state_setseq_128 α) := ⟨wzero, wb⟩
  obtain ⟨w3, e3⟩ := step_128_sim B L _ w2
  obtain ⟨w4, v4⟩ := sum_spec128 L _ initstate w3.1 hs
  have w4s : wf_state wf
      ({ state := lua_pcg_u128_sum B.toU64Ops (lua_pcg_setseq_128_step_r B
          { state := B.lua_pcg_u128_lh (B.lua_pcg_u64_lh 0 0) (B.lua_pcg_u64_lh 0 0),
            inc := lua_pcg_u128_bor B.toU64Ops (lua_pcg_u128_lsh B.toU64Ops initseq 1)
              (B.lua_pcg_u128_lh (B.lua_pcg_u64_lh 1 0) (B.lua_pcg_u64_lh 0 0)) }).state initstate,
         inc := (lua_pcg_setseq_128_step_r B
          { state := B.lua_pcg_u128_lh (B.lua_pcg_u64_lh 0 0) (B.lua_pcg_u64_lh 0 0),
            inc := lua_pcg_u128_bor B.toU64Ops (lua_pcg_u128_lsh B.toU64Ops initseq 1)
              (B.lua_pcg_u128_lh (B.lua_pcg_u64_lh 1 0) (B.lua_pcg_u64_lh 0 0)) }).inc } :
        lua_pcg_state_setseq_128 α) := ⟨w4, w3.2⟩
  obtain ⟨w5, e5⟩ := step_128_sim B L _ w4s
  refine ⟨w5, ?_⟩
  have hinc : val128 val (lua_pcg_u128_bor B.toU64Ops (lua_pcg_u128_lsh B.toU64Ops initseq 1)
      (B.lua_pcg_u128_lh (B.lua_pcg_u64_lh 1 0) (B.lua_pcg_u64_lh 0 0)))
      = wrap128 (val128 val initseq <<< 1) ||| 1 := by
    rw [vb, vl, vone, wrap128_eq, Nat.shiftLeft_eq]
  have h2 : abs_state val
      ({ state := B.lua_pcg_u128_lh (B.lua_pcg_u64_lh 0 0) (B.lua_pcg_u64_lh 0 0),
         inc := lua_pcg_u128_bor B.toU64Ops (lua_pcg_u128_lsh B.toU64Ops initseq 1)
          (B.lua_pcg_u128_lh (B.lua_pcg_u64_lh 1 0) (B.lua_pcg_u64_lh 0 0)) } :
        lua_pcg_state_setseq_128 α)
      = ⟨0, wrap128 (val128 val initseq <<< 1) ||| 1⟩ := by
    simp only [abs_state, hinc, vzero]
  rw [h2] at e3
  have e3s := congrArg Native128.lua_pcg_state_setseq_128.state e3
  have e3i := congrArg Native128.lua_pcg_state_setseq_128.inc e3
  simp only [abs_state] at e3s e3i
  have h4 : abs_state val
      ({ state := lua_pcg_u128_sum B.toU64Ops (lua_pcg_setseq_128_step_r B
          { state := B.lua_pcg_u128_lh (B.lua_pcg_u64_lh 0 0) (B.lua_pcg_u64_lh 0 0),
            inc := lua_pcg_u128_bor B.toU64Ops (lua_pcg_u128_lsh B.toU64Ops initseq 1)
              (B.lua_pcg_u128_lh (B.lua_pcg_u64_lh 1 0) (B.lua_pcg_u64_lh 0 0)) }).state initstate,
         inc := (lua_pcg_setseq_128_step_r B
          { state := B.lua_pcg_u128_lh (B.lua_pcg_u64_lh 0 0) (B.lua_pcg_u64_lh 0 0),
            inc := lua_pcg_u128_bor B.toU64Ops (lua_pcg_u128_lsh B.toU64Ops initseq 1)
              (B.lua_pcg_u128_lh (B.lua_pcg_u64_lh 1 0) (B.lua_pcg_u64_lh 0 0)) }).inc } :
        lua_pcg_state_setseq_128 α)
      = ⟨wrap128 ((Native128.lua_pcg_setseq_128_step_r
            ⟨0, wrap128 (val128 val initseq <<< 1) ||| 1⟩).state + val128 val initstate),
          (Native128.lua_pcg_setseq_128_step_r
            ⟨0, wrap128 (val128 val initseq <<< 1) ||| 1⟩).inc⟩ := by
    simp only [abs_state]
    rw [v4, e3s, e3i]
    simp only [wrap128_eq]
  rw [h4] at e5
  exact e5

/-- Iterated steps of the emulated engine are iterated steps of the native one. -/
theorem step_iterate_128_sim (B : U64Backend α) (L : B.toU64Ops.Lawful wf val)
    (rng : lua_pcg_state_setseq_128 α) (h : wf_state wf rng) (n : Nat) :
    abs_state val ((lua_pcg_setseq_128_step_r B)^[n] rng)
      = Native128.lua_pcg_setseq_128_step_r^[n] (abs_state val rng) := by
  induction n with
  | zero => rfl
  | succ n ih =>
    rw [Function.iterate_succ_apply', Function.iterate_succ_apply', ← ih]
    exact (step_128_sim B L _ (step_emu_iterate B L rng h n).1).2

/-- The emulated `lua_pcg_setseq_128_advance_r` returns, within 129 passes of its loop, the engine
that stands for what the native one returns. -/
theorem advance_128_sim (B : U64Backend α) (L : B.toU64Ops.Lawful wf val) (fuel : Nat)
    (rng : lua_pcg_state_setseq_128 α) (delta : lua_pcg_u128 α) (hfuel : 129 ≤ fuel)
    (h : wf_state wf rng) (hd : wf128 wf delta) :
    ∃ rng1, lua_pcg_setseq_128_advance_r B fuel rng delta = .ok rng1
      ∧ wf_state wf rng1 ∧ rng1.inc = rng.inc
      ∧ abs_state val rng1
          = Native128.lua_pcg_setseq_128_advance_r (abs_state val rng) (val128 val delta) := by
  obtain ⟨w, hinc, _⟩ := step_emu_iterate B L rng h (val128 val delta)
  refine ⟨_, advance_emu_spec B L fuel rng delta hfuel h hd, w, hinc, ?_⟩
  rw [step_iterate_128_sim B L rng h, Native128.advance_128_eq_iterate]
  exact val128_lt L _ h.1

/-- The emulated rejection loop of the 128-bit engine runs as the native one does. -/
theorem boundedrand_128_loop_sim (B : U64Backend α) (L : B.toU64Ops.Lawful wf val) (fuel : Nat) :
    ∀ (rng : lua_pcg_state_setseq_128 α) (threshold : α), wf_state wf rng → wf threshold →
      (lua_pcg_setseq_128_xsl_rr_64_boundedrand_r_loop B fuel rng threshold).map
          (fun p => (val p.1, abs_state val p.2))
        = Native128.lua_pcg_setseq_128_xsl_rr_64_boundedrand_r_loop fuel (abs_state val rng)
            (val threshold)
      ∧ ∀ r rng1, lua_pcg_setseq_128_xsl_rr_64_boundedrand_r_loop B fuel rng threshold = .ok (r, rng1) →
          wf r ∧ wf_state wf rng1 ∧ rng1.inc = rng.inc := by
  induction fuel with
  | zero =>
    intro rng threshold h ht
    refine ⟨rfl, ?_⟩
    intro r rng1 he
    simp [lua_pcg_setseq_128_xsl_rr_64_boundedrand_r_loop] at he
  | succ fuel ih =>
    intro rng threshold h ht
    obtain ⟨wo, w, e1, e2⟩ := random_128_sim B L rng h
    rw [lua_pcg_setseq_128_xsl_rr_64_boundedrand_r_loop,
      Native128.lua_pcg_setseq_128_xsl_rr_64_boundedrand_r_loop]
    simp only []
    rw [← e1, ← e2]
    by_cases hlt : B.lua_pcg_u64_lt (lua_pcg_setseq_128_xsl_rr_64_random_r B rng).1 threshold = true
    · have hlt1 := (L.lt_iff _ _ wo ht).mp hlt
      rw [if_pos hlt, if_pos hlt1]
      obtain ⟨ih1, ih2⟩ := ih _ threshold w ht
      refine ⟨ih1, ?_⟩
      intro r rng1 he
      exact ih2 r rng1 he
    · have hlt1 : ¬ (val (lua_pcg_setseq_128_xsl_rr_64_random_r B rng).1 < val threshold) :=
        fun hc => hlt ((L.lt_iff _ _ wo ht).mpr hc)
      rw [if_neg hlt, if_neg hlt1]
      refine ⟨rfl, ?_⟩
      intro r rng1 he
      simp only [Except.ok.injEq, Prod.mk.injEq] at he
      obtain ⟨he1, he2⟩ := he
      subst he1
      subst he2
      exact ⟨wo, w, rfl⟩

/-- For a bound that is not zero, the bounded draw of the emulated 128-bit engine is that of the
native one, the divisions being allowed their 65 passes. -/
theorem boundedrand_128_sim (B : U64Backend α) (L : B.toU64Ops.Lawful wf val)
    (D : B.DivLawful wf val) (fuel : Nat) (rng : lua_pcg_state_setseq_128 α) (bound q0 t0 : α)
    (hfuel : 65 ≤ fuel) (h : wf_state wf rng) (hb : wf bound) (hb0 : val bound ≠ 0) :
    (lua_pcg_setseq_128_xsl_rr_64_boundedrand_r B fuel rng bound q0 t0).map
          (fun p => (val p.1, abs_state val p.2))
        = Native128.lua_pcg_setseq_128_xsl_rr_64_boundedrand_r fuel (abs_state val rng) (val bound)
      ∧ ∀ r rng1, lua_pcg_setseq_128_xsl_rr_64_boundedrand_r B fuel rng bound q0 t0 = .ok (r, rng1) →
          wf r ∧ wf_state wf rng1 ∧ rng1.inc = rng.inc := by
  have hblt := L.val_lt _ hb
  have wneg := L.additive_inverse_wf _ hb
  have vneg := L.additive_inverse_val _ hb
  obtain ⟨res, q1, thr, hdiv⟩ := D.div_total fuel _ bound q0 t0 hfuel wneg hb hb0
  obtain ⟨hres, wq1, wthr, vq1, vthr⟩ := D.div_sound fuel _ bound q0 t0 res q1 thr wneg hb hb0 hdiv
  subst hres
  rw [vneg] at vthr
  have hsb : lua_pcg_u64_cast (val bound) = val bound := by
    rw [lua_pcg_u64_cast_eq, Nat.mod_eq_of_lt hblt]
  have hthr : neg64 (val bound) % val bound = val thr := by
    rw [vthr, neg64, wrap64_eq, wrap64_eq, Nat.mod_eq_of_lt hblt]
    norm_num
  obtain ⟨l1, l2⟩ := boundedrand_128_loop_sim B L fuel rng thr h wthr
  simp only [lua_pcg_setseq_128_xsl_rr_64_boundedrand_r,
    Native128.lua_pcg_setseq_128_xsl_rr_64_boundedrand_r, hdiv, if_true, hsb, if_neg hb0, hthr]
  rw [← l1]
  cases hl : lua_pcg_setseq_128_xsl_rr_64_boundedrand_r_loop B fuel rng thr with
  | error e =>
    refine ⟨rfl, ?_⟩
    intro r rng1 he
    cases he
  | ok p =>
    obtain ⟨r0, rng0⟩ := p
    obtain ⟨wr0, wrng0, hinc0⟩ := l2 r0 rng0 hl
    obtain ⟨res2, q2, br, hdiv2⟩ := D.div_total fuel r0 bound q1 (B.lua_pcg_u64_lh 0 0) hfuel wr0 hb hb0
    obtain ⟨hres2, wq2, wbr, vq2, vbr⟩ :=
      D.div_sound fuel r0 bound q1 (B.lua_pcg_u64_lh 0 0) res2 q2 br wr0 hb hb0 hdiv2
    subst hres2
    simp only [hdiv2, ne_eq, not_true_eq_false, if_false, Except.map, vbr]
    refine ⟨trivial, ?_⟩
    intro r rng1 he
    simp only [Except.ok.injEq, Prod.mk.injEq] at he
    obtain ⟨he1, he2⟩ := he
    subst he1
    subst he2
    exact ⟨wbr, wrng0, hinc0⟩

end Emu128

namespace Emu128

variable {α : Type} {wf : α → Prop} {val : α → Nat}

/-- Every operation on the emulated 128-bit engine gives what the native engine gives. -/
theorem run_op_128_sim (B : U64Backend α) (L : B.toU64Ops.Lawful wf val) (D : B.DivLawful wf val)
    (fuel : Nat) (junk : α) (hfuel : 129 ≤ fuel) (rng : lua_pcg_state_setseq_128 α)
    (op : EngineOp (lua_pcg_u128 α) α) (h : wf_state wf rng)
    (hop : op.All (wf128 wf) (fun b => wf b ∧ val b ≠ 0)) :
    (run_op B fuel junk rng op).map (fun p => (p.1.map val, abs_state val p.2))
        = Native128.run_op fuel (abs_state val rng) (op.map (val128 val) val)
      ∧ ∀ o rng1, run_op B fuel junk rng op = .ok (o, rng1) → wf_state wf rng1 := by
  cases op with
  | seed s q =>
    obtain ⟨w, e⟩ := srandom_128_sim B L rng (abs_state val rng) s q hop.1 hop.2
    refine ⟨?_, ?_⟩
    · simp only [run_op, Native128.run_op, EngineOp.map, Except.map, List.map_nil, e]
    · intro o rng1 he
      simp only [run_op, Except.ok.injEq, Prod.mk.injEq] at he
      rw [← he.2]
      exact w
  | step =>
    obtain ⟨w, e⟩ := step_128_sim B L rng h
    refine ⟨?_, ?_⟩
    · simp only [run_op, Native128.run_op, EngineOp.map, Except.map, List.map_nil, e]
    · intro o rng1 he
      simp only [run_op, Except.ok.injEq, Prod.mk.injEq] at he
      rw [← he.2]
      exact w
  | next =>
    obtain ⟨_, w, e1, e2⟩ := random_128_sim B L rng h
    refine ⟨?_, ?_⟩
    · simp only [run_op, Native128.run_op, EngineOp.map, Except.map, List.map_cons, List.map_nil, e1, e2]
    · intro o rng1 he
      simp only [run_op, Except.ok.injEq, Prod.mk.injEq] at he
      rw [← he.2]
      exact w
  | advance d =>
    obtain ⟨rng2, e, w, _, ea⟩ := advance_128_sim B L fuel rng d hfuel h hop
    refine ⟨?_, ?_⟩
    · simp only [run_op, Native128.run_op, EngineOp.map, e, Except.map, List.map_nil, ea]
    · intro o rng1 he
      simp only [run_op, e, Except.ok.injEq, Prod.mk.injEq] at he
      rw [← he.2]
      exact w
  | boundedNext b =>
    obtain ⟨e, w⟩ := boundedrand_128_sim B L D fuel rng b junk junk (by omega) h hop.1 hop.2
    refine ⟨?_, ?_⟩
    · simp only [run_op, Native128.run_op, EngineOp.map]
      rw [← e]
      cases lua_pcg_setseq_128_xsl_rr_64_boundedrand_r B fuel rng b junk junk with
      | error e1 => rfl
      | ok p => rfl
    · intro o rng1 he
      simp only [run_op] at he
      cases hb : lua_pcg_setseq_128_xsl_rr_64_boundedrand_r B fuel rng b junk junk with
      | error e1 =>
        rw [hb] at he
        cases he
      | ok p =>
        obtain ⟨r, rng2⟩ := p
        rw [hb] at he
        simp only [Except.ok.injEq, Prod.mk.injEq] at he
        rw [← he.2]
        exact (w r rng2 hb).2.1

end Emu128

/-! ## The increment -/

theorem or_one_odd (x : Nat) : (x ||| 1) % 2 = 1 := by
  rw [Nat.or_mod_two_eq_one]
  right
  rfl

theorem or_one_mod (x k : Nat) (hk : 0 < k) : (x ||| 1) % 2 ^ k = x % 2 ^ k ||| 1 := by
  apply Nat.eq_of_testBit_eq
  intro j
  simp only [Nat.testBit_mod_two_pow, Nat.testBit_or]
  by_cases hj : j < k
  · simp [hj]
  · have hj0 : j ≠ 0 := by omega
    have h1 : Nat.testBit 1 j = false := by
      rw [Bool.eq_false_iff]
      intro hc
      exact hj0 (Nat.testBit_one_eq_true_iff_self_eq_zero.mp hc)
    simp [hj, h1]

namespace Native64

theorem srandom_64_inc (prior : lua_pcg_state_setseq_64) (initstate initseq : Nat) :
    (lua_pcg_setseq_64_srandom_r prior initstate initseq).inc
      = lua_pcg_u64_cast (wrap64 (initseq <<< 1)) ||| 1 := rfl

/-- No operation but seeding changes the increment of the native 32-bit engine. -/
theorem boundedrand_64_loop_inc (fuel : Nat) :
    ∀ (rng : lua_pcg_state_setseq_64) (threshold r : Nat) (rng1 : lua_pcg_state_setseq_64),
      lua_pcg_setseq_64_xsh_rr_32_boundedrand_r_loop fuel rng threshold = .ok (r, rng1) →
      rng1.inc = rng.inc := by
  induction fuel with
  | zero =>
    intro rng threshold r rng1 he
    simp [lua_pcg_setseq_64_xsh_rr_32_boundedrand_r_loop] at he
  | succ fuel ih =>
    intro rng threshold r rng1 he
    rw [lua_pcg_setseq_64_xsh_rr_32_boundedrand_r_loop] at he
    simp only [] at he
    split_ifs at he with hlt
    · have hi := ih _ _ _ _ he
      rw [hi]
      rfl
    · simp only [Except.ok.injEq, Prod.mk.injEq] at he
      rw [← he.2]
      rfl

theorem run_op_64_inc (fuel : Nat) (rng : lua_pcg_state_setseq_64) (op : EngineOp Nat Nat)
    (o : List Nat) (rng1 : lua_pcg_state_setseq_64) (he : run_op fuel rng op = .ok (o, rng1)) :
    (∀ s q, op = .seed s q → rng1.inc % 2 = 1) ∧ ((∀ s q, op ≠ .seed s q) → rng1.inc = rng.inc) := by
  cases op with
  | seed s q =>
    simp only [run_op, Except.ok.injEq, Prod.mk.injEq] at he
    refine ⟨fun _ _ _ => ?_, fun hn => absurd rfl (hn s q)⟩
    rw [← he.2, srandom_64_inc]
    exact or_one_odd _
  | step =>
    simp only [run_op, Except.ok.injEq, Prod.mk.injEq] at he
    refine ⟨fun _ _ hc => (by cases hc), fun _ => ?_⟩
    rw [← he.2]
    rfl
  | next =>
    simp only [run_op, Except.ok.injEq, Prod.mk.injEq] at he
    refine ⟨fun _ _ hc => (by cases hc), fun _ => ?_⟩
    rw [← he.2]
    rfl
  | advance d =>
    simp only [run_op, Except.ok.injEq, Prod.mk.injEq] at he
    refine ⟨fun _ _ hc => (by cases hc), fun _ => ?_⟩
    rw [← he.2]
    rfl
  | boundedNext b =>
    refine ⟨fun _ _ hc => (by cases hc), fun _ => ?_⟩
    simp only [run_op, lua_pcg_setseq_64_xsh_rr_32_boundedrand_r] at he
    by_cases hz : lua_pcg_u32_cast b = 0
    · rw [if_pos hz] at he
      cases he
    · rw [if_neg hz] at he
      cases hl : lua_pcg_setseq_64_xsh_rr_32_boundedrand_r_loop fuel rng
          (neg32 (lua_pcg_u32_cast b) % lua_pcg_u32_cast b) with
      | error e =>
        rw [hl] at he
        cases he
      | ok p =>
        obtain ⟨r, rng2⟩ := p
        rw [hl] at he
        simp only [Except.ok.injEq, Prod.mk.injEq] at he
        rw [← he.2]
        exact boundedrand_64_loop_inc fuel _ _ _ _ hl

end Native64

/-- From a seeded engine on, a property that seeding establishes and the other operations keep
holds after every sequence of operations. -/
theorem run_ops_seeded {σ ω β γ : Type} (run_op : σ → EngineOp β γ → Except Fault (List ω × σ))
    (R : σ → Prop) (P : EngineOp β γ → Prop)
    (h : ∀ rng op o rng1, P op → run_op rng op = .ok (o, rng1) →
      (∀ s q, op = .seed s q → R rng1) ∧ ((∀ s q, op ≠ .seed s q) → R rng → R rng1)) :
    ∀ (prior : σ) (s q : β) (ops : List (EngineOp β γ)) (o : List ω) (rng1 : σ),
      P (.seed s q) → (∀ op ∈ ops, P op) →
      run_ops run_op (.seed s q :: ops) prior = .ok (o, rng1) → R rng1 := by
  intro prior s q ops o rng1 hs hops he
  have hstep : ∀ rng op o rng1, R rng → P op → run_op rng op = .ok (o, rng1) → R rng1 := by
    intro rng op o rng1 hR hP hop
    obtain ⟨h1, h2⟩ := h rng op o rng1 hP hop
    cases op with
    | seed s1 q1 => exact h1 s1 q1 rfl
    | step => exact h2 (fun _ _ hc => by cases hc) hR
    | next => exact h2 (fun _ _ hc => by cases hc) hR
    | advance d => exact h2 (fun _ _ hc => by cases hc) hR
    | boundedNext b => exact h2 (fun _ _ hc => by cases hc) hR
  simp only [run_ops] at he
  cases hop : run_op prior (.seed s q) with
  | error e =>
    rw [hop] at he
    cases he
  | ok p =>
    obtain ⟨o1, rng2⟩ := p
    rw [hop] at he
    simp only [] at he
    have hR2 := (h prior _ o1 rng2 hs hop).1 s q rfl
    cases hrest : run_ops run_op ops rng2 with
    | error e =>
      rw [hrest] at he
      cases he
    | ok p2 =>
      obtain ⟨o2, rng3⟩ := p2
      rw [hrest] at he
      simp only [Except.ok.injEq, Prod.mk.injEq] at he
      rw [← he.2]
      exact run_ops_invariant run_op R P hstep ops rng2 o2 rng3 hR2 hops hrest

namespace Native128

theorem srandom_128_inc (prior : lua_pcg_state_setseq_128) (initstate initseq : Nat) :
    (lua_pcg_setseq_128_srandom_r prior initstate initseq).inc = wrap128 (initseq <<< 1) ||| 1 := rfl

theorem boundedrand_128_loop_inc (fuel : Nat) :
    ∀ (rng : lua_pcg_state_setseq_128) (threshold r : Nat) (rng1 : lua_pcg_state_setseq_128),
      lua_pcg_setseq_128_xsl_rr_64_boundedrand_r_loop fuel rng threshold = .ok (r, rng1) →
      rng1.inc = rng.inc := by
  induction fuel with
  | zero =>
    intro rng threshold r rng1 he
    simp [lua_pcg_setseq_128_xsl_rr_64_boundedrand_r_loop] at he
  | succ fuel ih =>
    intro rng threshold r rng1 he
    rw [lua_pcg_setseq_128_xsl_rr_64_boundedrand_r_loop] at he
    simp only [] at he
    split_ifs at he with hlt
    · have hi := ih _ _ _ _ he
      rw [hi]
      rfl
    · simp only [Except.ok.injEq, Prod.mk.injEq] at he
      rw [← he.2]
      rfl

/-- Seeding the native 128-bit engine makes the increment odd; no other operation changes it. -/
theorem run_op_128_inc (fuel : Nat) (rng : lua_pcg_state_setseq_128) (op : EngineOp Nat Nat)
    (o : List Nat) (rng1 : lua_pcg_state_setseq_128) (he : run_op fuel rng op = .ok (o, rng1)) :
    (∀ s q, op = .seed s q → rng1.inc % 2 = 1) ∧ ((∀ s q, op ≠ .seed s q) → rng1.inc = rng.inc) := by
  cases op with
  | seed s q =>
    simp only [run_op, Except.ok.injEq, Prod.mk.injEq] at he
    refine ⟨fun _ _ _ => ?_, fun hn => absurd rfl (hn s q)⟩
    rw [← he.2, srandom_128_inc]
    exact or_one_odd _
  | step =>
    simp only [run_op, Except.ok.injEq, Prod.mk.injEq] at he
    refine ⟨fun _ _ hc => (by cases hc), fun _ => ?_⟩
    rw [← he.2]
    rfl
  | next =>
    simp only [run_op, Except.ok.injEq, Prod.mk.injEq] at he
    refine ⟨fun _ _ hc => (by cases hc), fun _ => ?_⟩
    rw [← he.2]
    rfl
  | advance d =>
    simp only [run_op, Except.ok.injEq, Prod.mk.injEq] at he
    refine ⟨fun _ _ hc => (by cases hc), fun _ => ?_⟩
    rw [← he.2]
    rfl
  | boundedNext b =>
    refine ⟨fun _ _ hc => (by cases hc), fun _ => ?_⟩
    simp only [run_op, lua_pcg_setseq_128_xsl_rr_64_boundedrand_r] at he
    by_cases hz : lua_pcg_u64_cast b = 0
    · rw [if_pos hz] at he
      cases he
    · rw [if_neg hz] at he
      cases hl : lua_pcg_setseq_128_xsl_rr_64_boundedrand_r_loop fuel rng
          (neg64 (lua_pcg_u64_cast b) % lua_pcg_u64_cast b) with
      | error e =>
        rw [hl] at he
        cases he
      | ok p =>
        obtain ⟨r, rng2⟩ := p
        rw [hl] at he
        simp only [Except.ok.injEq, Prod.mk.injEq] at he
        rw [← he.2]
        exact boundedrand_128_loop_inc fuel _ _ _ _ hl

end Native128

namespace Emu64

theorem srandom_64_inc_emu (prior : lua_pcg_state_setseq_64) (initstate initseq : lua_pcg_u64)
    (hq : wf64 initseq) :
    val64 (lua_pcg_setseq_64_srandom_r prior initstate initseq).inc
      = (val64 initseq * 2) % 2 ^ 64 ||| 1 := by
  show val64 (lua_pcg_u64_bor (lua_pcg_u64_lsh initseq 1) (lua_pcg_u64_lh 1 0)) = _
  rw [bor_val64 _ _ (lsh_wf64 _ _) (lh_wf64 _ _), lsh_val64 _ 1 hq (by norm_num), lh_one_val64, pow_one]

theorem boundedrand_32_loop_inc (fuel : Nat) :
    ∀ (rng : lua_pcg_state_setseq_64) (threshold r : Nat) (rng1 : lua_pcg_state_setseq_64),
      lua_pcg_setseq_64_xsh_rr_32_boundedrand_r_loop fuel rng threshold = .ok (r, rng1) →
      rng1.inc = rng.inc := by
  induction fuel with
  | zero =>
    intro rng threshold r rng1 he
    simp [lua_pcg_setseq_64_xsh_rr_32_boundedrand_r_loop] at he
  | succ fuel ih =>
    intro rng threshold r rng1 he
    rw [lua_pcg_setseq_64_xsh_rr_32_boundedrand_r_loop] at he
    simp only [] at he
    split_ifs at he with hlt
    · have hi := ih _ _ _ _ he
      rw [hi]
      rfl
    · simp only [Except.ok.injEq, Prod.mk.injEq] at he
      rw [← he.2]
      rfl

theorem advance_64_inc (fuel : Nat) (rng rng1 : lua_pcg_state_setseq_64) (delta : lua_pcg_u64)
    (he : lua_pcg_setseq_64_advance_r fuel rng delta = .ok rng1) : rng1.inc = rng.inc := by
  simp only [lua_pcg_setseq_64_advance_r] at he
  cases ha : lua_pcg_advance_lcg_64 fuel rng.state delta LUA_PCG_DEFAULT_MULTIPLIER_64 rng.inc with
  | error e =>
    rw [ha] at he
    cases he
  | ok st =>
    rw [ha] at he
    simp only [Except.ok.injEq] at he
    rw [← he]

theorem boundedrand_32_inc (fuel : Nat) (rng rng1 : lua_pcg_state_setseq_64) (bound r : Nat)
    (he : lua_pcg_setseq_64_xsh_rr_32_boundedrand_r fuel rng bound = .ok (r, rng1)) :
    rng1.inc = rng.inc := by
  simp only [lua_pcg_setseq_64_xsh_rr_32_boundedrand_r] at he
  by_cases hz : lua_pcg_u32_cast bound = 0
  · rw [if_pos hz] at he
    cases he
  · rw [if_neg hz] at he
    cases hl : lua_pcg_setseq_64_xsh_rr_32_boundedrand_r_loop fuel rng
        (neg32 (lua_pcg_u32_cast bound) % lua_pcg_u32_cast bound) with
    | error e =>
      rw [hl] at he
      cases he
    | ok p =>
      obtain ⟨r0, rng2⟩ := p
      rw [hl] at he
      simp only [Except.ok.injEq, Prod.mk.injEq] at he
      rw [← he.2]
      exact boundedrand_32_loop_inc fuel _ _ _ _ hl

/-- Seeding the emulated 32-bit engine makes the increment odd; no other operation changes it. -/
theorem run_op_64_inc_emu (fuel : Nat) (rng : lua_pcg_state_setseq_64) (op : EngineOp lua_pcg_u64 Nat)
    (o : List Nat) (rng1 : lua_pcg_state_setseq_64) (hop : op.All wf64 (fun _ => True))
    (he : run_op fuel rng op = .ok (o, rng1)) :
    (∀ s q, op = .seed s q → val64 rng1.inc % 2 = 1)
    ∧ ((∀ s q, op ≠ .seed s q) → rng1.inc = rng.inc) := by
  cases op with
  | seed s q =>
    simp only [run_op, Except.ok.injEq, Prod.mk.injEq] at he
    refine ⟨fun _ _ _ => ?_, fun hn => absurd rfl (hn s q)⟩
    rw [← he.2, srandom_64_inc_emu _ _ _ hop.2]
    exact or_one_odd _
  | step =>
    simp only [run_op, Except.ok.injEq, Prod.mk.injEq] at he
    refine ⟨fun _ _ hc => (by cases hc), fun _ => ?_⟩
    rw [← he.2]
    rfl
  | next =>
    simp only [run_op, Except.ok.injEq, Prod.mk.injEq] at he
    refine ⟨fun _ _ hc => (by cases hc), fun _ => ?_⟩
    rw [← he.2]
    rfl
  | advance d =>
    refine ⟨fun _ _ hc => (by cases hc), fun _ => ?_⟩
    simp only [run_op] at he
    cases ha : lua_pcg_setseq_64_advance_r fuel rng d with
    | error e =>
      rw [ha] at he
      cases he
    | ok rng2 =>
      rw [ha] at he
      simp only [Except.ok.injEq, Prod.mk.injEq] at he
      rw [← he.2]
      exact advance_64_inc fuel rng rng2 d ha
  | boundedNext b =>
    refine ⟨fun _ _ hc => (by cases hc), fun _ => ?_⟩
    simp only [run_op] at he
    cases hb : lua_pcg_setseq_64_xsh_rr_32_boundedrand_r fuel rng b with
    | error e =>
      rw [hb] at he
      cases he
    | ok p =>
      obtain ⟨r, rng2⟩ := p
      rw [hb] at he
      simp only [Except.ok.injEq, Prod.mk.injEq] at he
      rw [← he.2]
      exact boundedrand_32_inc fuel rng rng2 b r hb

end Emu64

namespace Emu128

variable {α : Type} {wf : α → Prop} {val : α → Nat}

theorem srandom_128_inc_emu (B : U64Backend α) (L : B.toU64Ops.Lawful wf val)
    (prior : lua_pcg_state_setseq_128 α) (initstate initseq : lua_pcg_u128 α)
    (hq : wf128 wf initseq) :
    val128 val (lua_pcg_setseq_128_srandom_r B prior initstate initseq).inc
      = (val128 val initseq * 2) % 2 ^ 128 ||| 1 := by
  obtain ⟨wone, vone⟩ := one128_spec L
  obtain ⟨wl, vl⟩ := lsh_spec128 L initseq 1 hq
  obtain ⟨wb, vb⟩ := bor_spec128 L _ _ wl wone
  show val128 val (lua_pcg_u128_bor B.toU64Ops (lua_pcg_u128_lsh B.toU64Ops initseq 1)
    (B.lua_pcg_u128_lh (B.lua_pcg_u64_lh 1 0) (B.lua_pcg_u64_lh 0 0))) = _
  rw [vb, vl, vone, pow_one]

theorem boundedrand_128_loop_inc_emu (B : U64Backend α) (fuel : Nat) :
    ∀ (rng : lua_pcg_state_setseq_128 α) (threshold r : α) (rng1 : lua_pcg_state_setseq_128 α),
      lua_pcg_setseq_128_xsl_rr_64_boundedrand_r_loop B fuel rng threshold = .ok (r, rng1) →
      rng1.inc = rng.inc := by
  induction fuel with
  | zero =>
    intro rng threshold r rng1 he
    simp [lua_pcg_setseq_128_xsl_rr_64_boundedrand_r_loop] at he
  | succ fuel ih =>
    intro rng threshold r rng1 he
    rw [lua_pcg_setseq_128_xsl_rr_64_boundedrand_r_loop] at he
    simp only [] at he
    split_ifs at he with hlt
    · have hi := ih _ _ _ _ he
      rw [hi]
      rfl
    · simp only [Except.ok.injEq, Prod.mk.injEq] at he
      rw [← he.2]
      rfl

theorem advance_128_inc_emu (B : U64Backend α) (fuel : Nat) (rng rng1 : lua_pcg_state_setseq_128 α)
    (delta : lua_pcg_u128 α) (he : lua_pcg_setseq_128_advance_r B fuel rng delta = .ok rng1) :
    rng1.inc = rng.inc := by
  simp only [lua_pcg_setseq_128_advance_r] at he
  cases ha : lua_pcg_advance_lcg_128 B fuel rng.state delta (LUA_PCG_DEFAULT_MULTIPLIER_128 B) rng.inc with
  | error e =>
    rw [ha] at he
    cases he
  | ok st =>
    rw [ha] at he
    simp only [Except.ok.injEq] at he
    rw [← he]

theorem boundedrand_128_inc_emu (B : U64Backend α) (fuel : Nat) (rng rng1 : lua_pcg_state_setseq_128 α)
    (bound q0 t0 r : α)
    (he : lua_pcg_setseq_128_xsl_rr_64_boundedrand_r B fuel rng bound q0 t0 = .ok (r, rng1)) :
    rng1.inc = rng.inc := by
  simp only [lua_pcg_setseq_128_xsl_rr_64_boundedrand_r] at he
  cases hd : B.lua_pcg_u64_div fuel (B.lua_pcg_u64_additive_inverse bound) bound q0 t0 with
  | error e =>
    rw [hd] at he
    cases he
  | ok p =>
    obtain ⟨res, q1, thr⟩ := p
    rw [hd] at he
    simp only [] at he
    by_cases hres : res = 0
    · rw [if_pos hres] at he
      cases hl : lua_pcg_setseq_128_xsl_rr_64_boundedrand_r_loop B fuel rng thr with
      | error e =>
        rw [hl] at he
        cases he
      | ok p2 =>
        obtain ⟨r0, rng2⟩ := p2
        rw [hl] at he
        simp only [] at he
        have hi := boundedrand_128_loop_inc_emu B fuel _ _ _ _ hl
        cases hd2 : B.lua_pcg_u64_div fuel r0 bound q1 (B.lua_pcg_u64_lh 0 0) with
        | error e =>
          rw [hd2] at he
          cases he
        | ok p3 =>
          obtain ⟨res2, q2, br⟩ := p3
          rw [hd2] at he
          simp only [] at he
          split_ifs at he <;>
          · simp only [Except.ok.injEq, Prod.mk.injEq] at he
            rw [← he.2]
            exact hi
    · rw [if_neg hres] at he
      simp only [Except.ok.injEq, Prod.mk.injEq] at he
      rw [← he.2]

/-- Seeding the emulated 128-bit engine makes the increment odd; no other operation changes it. -/
theorem run_op_128_inc_emu (B : U64Backend α) (L : B.toU64Ops.Lawful wf val) (fuel : Nat) (junk : α)
    (rng : lua_pcg_state_setseq_128 α) (op : EngineOp (lua_pcg_u128 α) α)
    (o : List α) (rng1 : lua_pcg_state_setseq_128 α) (hop : op.All (wf128 wf) (fun _ => True))
    (he : run_op B fuel junk rng op = .ok (o, rng1)) :
    (∀ s q, op = .seed s q → val128 val rng1.inc % 2 = 1)
    ∧ ((∀ s q, op ≠ .seed s q) → rng1.inc = rng.inc) := by
  cases op with
  | seed s q =>
    simp only [run_op, Except.ok.injEq, Prod.mk.injEq] at he
    refine ⟨fun _ _ _ => ?_, fun hn => absurd rfl (hn s q)⟩
    rw [← he.2, srandom_128_inc_emu B L _ _ _ hop.2]
    exact or_one_odd _
  | step =>
    simp only [run_op, Except.ok.injEq, Prod.mk.injEq] at he
    refine ⟨fun _ _ hc => (by cases hc), fun _ => ?_⟩
    rw [← he.2]
    rfl
  | next =>
    simp only [run_op, Except.ok.injEq, Prod.mk.injEq] at he
    refine ⟨fun _ _ hc => (by cases hc), fun _ => ?_⟩
    rw [← he.2]
    rfl
  | advance d =>
    refine ⟨fun _ _ hc => (by cases hc), fun _ => ?_⟩
    simp only [run_op] at he
    cases ha : lua_pcg_setseq_128_advance_r B fuel rng d with
    | error e =>
      rw [ha] at he
      cases he
    | ok rng2 =>
      rw [ha] at he
      simp only [Except.ok.injEq, Prod.mk.injEq] at he
      rw [← he.2]
      exact advance_128_inc_emu B fuel rng rng2 d ha
  | boundedNext b =>
    refine ⟨fun _ _ hc => (by cases hc), fun _ => ?_⟩
    simp only [run_op] at he
    cases hb : lua_pcg_setseq_128_xsl_rr_64_boundedrand_r B fuel rng b junk junk with
    | error e =>
      rw [hb] at he
      cases he
    | ok p =>
      obtain ⟨r, rng2⟩ := p
      rw [hb] at he
      simp only [Except.ok.injEq, Prod.mk.injEq] at he
      rw [← he.2]
      exact boundedrand_128_inc_emu B fuel rng rng2 b junk junk r hb

end Emu128

theorem neg32_and_31 (r : Nat) (hr : r < 32) : neg32 r &&& 31 = (32 - r) % 32 := by
  have h := Nat.and_pow_two_sub_one_eq_mod (neg32 r) 5
  norm_num at h
  rw [h, neg32, wrap32_eq, wrap32_eq]
  omega

theorem neg32_and_63 (r : Nat) (hr : r < 64) : neg32 r &&& 63 = (64 - r) % 64 := by
  have h := Nat.and_pow_two_sub_one_eq_mod (neg32 r) 6
  norm_num at h
  rw [h, neg32, wrap32_eq, wrap32_eq]
  omega

/-- The function `lua_pcg_rotr_32` rotates a 32-bit word to the right. -/
theorem rotr_32_eq (v r : Nat) (hv : v < 2 ^ 32) (hr : r < 32) :
    lua_pcg_rotr_32 v r = (v >>> r) ||| ((v <<< ((32 - r) % 32)) % 2 ^ 32) := by
  simp only [lua_pcg_rotr_32, lua_pcg_u32_cast_eq, wrap32_eq, Nat.mod_mod, Nat.mod_eq_of_lt hv,
    neg32_and_31 r hr]

namespace Native64

theorem multiplier_64_value : LUA_PCG_DEFAULT_MULTIPLIER_64 = 6364136223846793005 := by
  decide

/-- The native output function, spelled out. -/
theorem output_64_eq (s : Nat) (hs : s < 2 ^ 64) :
    lua_pcg_output_xsh_rr_64_32 s
      = (((((s >>> 18) ^^^ s) >>> 27) % 2 ^ 32) >>> (s >>> 59))
        ||| ((((((s >>> 18) ^^^ s) >>> 27) % 2 ^ 32) <<< ((32 - (s >>> 59)) % 32)) % 2 ^ 32) := by
  have hr : s >>> 59 < 32 := by
    rw [Nat.shiftRight_eq_div_pow]
    omega
  have hw : wrap32 (s >>> 59) = s >>> 59 := by
    rw [wrap32_eq]
    exact Nat.mod_eq_of_lt (by omega)
  rw [lua_pcg_output_xsh_rr_64_32, hw, lua_pcg_u32_cast_eq,
    rotr_32_eq _ _ (Nat.mod_lt _ (by norm_num)) hr]

/-- One native step, spelled out. -/
theorem step_64_eq (rng : lua_pcg_state_setseq_64) :
    lua_pcg_setseq_64_step_r rng
      = ⟨(rng.state * 6364136223846793005 + rng.inc) % 2 ^ 64, rng.inc⟩ := by
  simp only [lua_pcg_setseq_64_step_r, multiplier_64_value, lua_pcg_u64_cast_eq, wrap64_eq, Nat.mod_mod]
  congr 1
  omega

/-- What seeding the native 64-bit engine leaves in its two fields. -/
theorem srandom_64_spec (prior : lua_pcg_state_setseq_64) (initstate initseq : Nat) :
    (lua_pcg_setseq_64_srandom_r prior initstate initseq).inc = ((initseq <<< 1) ||| 1) % 2 ^ 64
    ∧ (lua_pcg_setseq_64_srandom_r prior initstate initseq).state
        = ((((initseq <<< 1) ||| 1) % 2 ^ 64 + initstate) * 6364136223846793005
            + ((initseq <<< 1) ||| 1) % 2 ^ 64) % 2 ^ 64 := by
  have hinc : ((initseq <<< 1) % 2 ^ 64) ||| 1 = ((initseq <<< 1) ||| 1) % 2 ^ 64 := by
    rw [or_one_mod _ 64 (by norm_num)]
  have hlt : ((initseq <<< 1) ||| 1) % 2 ^ 64 < 2 ^ 64 := Nat.mod_lt _ (by norm_num)
  simp only [lua_pcg_setseq_64_srandom_r, step_64_eq, hinc, lua_pcg_u64_cast_eq, wrap64_eq, Nat.mod_mod,
    zero_mul, zero_add, Nat.mod_eq_of_lt hlt]
  refine ⟨trivial, ?_⟩
  generalize ((initseq <<< 1) ||| 1) % 2 ^ 64 = c
  rw [mod_eq_iff_zmod]
  simp only [Nat.cast_add, Nat.cast_mul, ZMod.natCast_mod]

end Native64

namespace Native128

/-- The native function `lua_pcg_rotr_64` rotates a 64-bit word to the right. -/
theorem rotr_64_eq (v r : Nat) (hv : v < 2 ^ 64) (hr : r < 64) :
    lua_pcg_rotr_64 v r = (v >>> r) ||| ((v <<< ((64 - r) % 64)) % 2 ^ 64) := by
  simp only [lua_pcg_rotr_64, lua_pcg_u64_cast_eq, wrap64_eq, Nat.mod_mod, Nat.mod_eq_of_lt hv,
    neg32_and_63 r hr]

/-- The native output function of the 128-bit engine, spelled out. -/
theorem output_128_eq (s : Nat) (hs : s < 2 ^ 128) :
    lua_pcg_output_xsl_rr_128_64 s
      = (((s >>> 64) ^^^ (s % 2 ^ 64)) >>> (s >>> 122))
        ||| ((((s >>> 64) ^^^ (s % 2 ^ 64)) <<< ((64 - (s >>> 122)) % 64)) % 2 ^ 64) := by
  have hr : s >>> 122 < 64 := by
    rw [Nat.shiftRight_eq_div_pow]
    omega
  have hw : wrap32 (s >>> 122) = s >>> 122 := by
    rw [wrap32_eq]
    exact Nat.mod_eq_of_lt (by omega)
  have hh : s >>> 64 < 2 ^ 64 := by
    rw [Nat.shiftRight_eq_div_pow]
    omega
  have hx : (s >>> 64) ^^^ (s % 2 ^ 64) < 2 ^ 64 :=
    Nat.xor_lt_two_pow hh (Nat.mod_lt _ (by norm_num))
  rw [lua_pcg_output_xsl_rr_128_64, hw, lua_pcg_u128_cast_to_u64, lua_pcg_u128_cast_to_u64,
    lua_pcg_u64_cast_eq, lua_pcg_u64_cast_eq, Nat.mod_eq_of_lt hh, rotr_64_eq _ _ hx hr]

/-- One native 128-bit step, spelled out. -/
theorem step_128_eq (rng : lua_pcg_state_setseq_128) :
    lua_pcg_setseq_128_step_r rng
      = ⟨(rng.state * 0x2360ED051FC65DA44385DF649FCCF645 + rng.inc) % 2 ^ 128, rng.inc⟩ := by
  simp only [lua_pcg_setseq_128_step_r, multiplier_128_value, wrap128_eq]
  congr 1
  omega

/-- What seeding the native 128-bit engine leaves in its two fields. -/
theorem srandom_128_spec (prior : lua_pcg_state_setseq_128) (initstate initseq : Nat) :
    (lua_pcg_setseq_128_srandom_r prior initstate initseq).inc = ((initseq <<< 1) ||| 1) % 2 ^ 128
    ∧ (lua_pcg_setseq_128_srandom_r prior initstate initseq).state
        = ((((initseq <<< 1) ||| 1) % 2 ^ 128 + initstate) * 0x2360ED051FC65DA44385DF649FCCF645
            + ((initseq <<< 1) ||| 1) % 2 ^ 128) % 2 ^ 128 := by
  have hinc : ((initseq <<< 1) % 2 ^ 128) ||| 1 = ((initseq <<< 1) ||| 1) % 2 ^ 128 := by
    rw [or_one_mod _ 128 (by norm_num)]
  have hlt : ((initseq <<< 1) ||| 1) % 2 ^ 128 < 2 ^ 128 := Nat.mod_lt _ (by norm_num)
  simp only [lua_pcg_setseq_128_srandom_r, step_128_eq, hinc, wrap128_eq, Nat.mod_mod,
    zero_mul, zero_add, Nat.mod_eq_of_lt hlt]
  refine ⟨trivial, ?_⟩
  generalize ((initseq <<< 1) ||| 1) % 2 ^ 128 = c
  rw [mod_eq_iff_zmod]
  simp only [Nat.cast_add, Nat.cast_mul, ZMod.natCast_mod]

end Native128

/-- C11: `lua_pcg_setseq_64_srandom_r` and `lua_pcg_setseq_128_srandom_r` overwrite both fields of the
engine, whatever it held before: afterwards `inc = ((initseq << 1) | 1) mod 2^N` and
`state = ((inc + initstate) * MULTIPLIER + inc) mod 2^N`, and the engine does not depend on the
prior contents.  This holds of the emulated 64-bit engine and of the emulated 128-bit engine
(over emulated and over native 64-bit limbs) on the represented values, and of the two native
engines. -/
theorem C11_seed_overwrites :
    (∀ (prior prior1 : Emu64.lua_pcg_state_setseq_64) (initstate initseq : Emu64.lua_pcg_u64),
      Emu64.wf64 initstate → Emu64.wf64 initseq →
      Emu64.wf_state (Emu64.lua_pcg_setseq_64_srandom_r prior initstate initseq)
      ∧ Emu64.val64 (Emu64.lua_pcg_setseq_64_srandom_r prior initstate initseq).inc
          = ((Emu64.val64 initseq <<< 1) ||| 1) % 2 ^ 64
      ∧ Emu64.val64 (Emu64.lua_pcg_setseq_64_srandom_r prior initstate initseq).state
          = ((Emu64.val64 (Emu64.lua_pcg_setseq_64_srandom_r prior initstate initseq).inc
                + Emu64.val64 initstate) * 6364136223846793005
              + Emu64.val64 (Emu64.lua_pcg_setseq_64_srandom_r prior initstate initseq).inc) % 2 ^ 64
      ∧ Emu64.lua_pcg_setseq_64_srandom_r prior initstate initseq
          = Emu64.lua_pcg_setseq_64_srandom_r prior1 initstate initseq)
    ∧ (∀ (prior prior1 : Emu128.lua_pcg_state_setseq_128 Emu64.lua_pcg_u64)
        (initstate initseq : lua_pcg_u128 Emu64.lua_pcg_u64),
      Emu128.wf128 Emu64.wf64 initstate → Emu128.wf128 Emu64.wf64 initseq →
      Emu128.wf_state Emu64.wf64 (Emu128.lua_pcg_setseq_128_srandom_r Emu64.backend prior initstate initseq)
      ∧ Emu128.val128 Emu64.val64
            (Emu128.lua_pcg_setseq_128_srandom_r Emu64.backend prior initstate initseq).inc
          = ((Emu128.val128 Emu64.val64 initseq <<< 1) ||| 1) % 2 ^ 128
      ∧ Emu128.val128 Emu64.val64
            (Emu128.lua_pcg_setseq_128_srandom_r Emu64.backend prior initstate initseq).state
          = ((Emu128.val128 Emu64.val64
                  (Emu128.lua_pcg_setseq_128_srandom_r Emu64.backend prior initstate initseq).inc
                + Emu128.val128 Emu64.val64 initstate) * 0x2360ED051FC65DA44385DF649FCCF645
              + Emu128.val128 Emu64.val64
                  (Emu128.lua_pcg_setseq_128_srandom_r Emu64.backend prior initstate initseq).inc)
            % 2 ^ 128
      ∧ Emu128.lua_pcg_setseq_128_srandom_r Emu64.backend prior initstate initseq
          = Emu128.lua_pcg_setseq_128_srandom_r Emu64.backend prior1 initstate initseq)
    ∧ (∀ (prior prior1 : Emu128.lua_pcg_state_setseq_128 Nat) (initstate initseq : lua_pcg_u128 Nat),
      Emu128.wf128 Native64.wf64 initstate → Emu128.wf128 Native64.wf64 initseq →
      Emu128.wf_state Native64.wf64
          (Emu128.lua_pcg_setseq_128_srandom_r Native64.backend prior initstate initseq)
      ∧ Emu128.val128 (fun x => x)
            (Emu128.lua_pcg_setseq_128_srandom_r Native64.backend prior initstate initseq).inc
          = ((Emu128.val128 (fun x => x) initseq <<< 1) ||| 1) % 2 ^ 128
      ∧ Emu128.val128 (fun x => x)
            (Emu128.lua_pcg_setseq_128_srandom_r Native64.backend prior initstate initseq).state
          = ((Emu128.val128 (fun x => x)
                  (Emu128.lua_pcg_setseq_128_srandom_r Native64.backend prior initstate initseq).inc
                + Emu128.val128 (fun x => x) initstate) * 0x2360ED051FC65DA44385DF649FCCF645
              + Emu128.val128 (fun x => x)
                  (Emu128.lua_pcg_setseq_128_srandom_r Native64.backend prior initstate initseq).inc)
            % 2 ^ 128
      ∧ Emu128.lua_pcg_setseq_128_srandom_r Native64.backend prior initstate initseq
          = Emu128.lua_pcg_setseq_128_srandom_r Native64.backend prior1 initstate initseq)
    ∧ (∀ (prior prior1 : Native64.lua_pcg_state_setseq_64) (initstate initseq : Nat),
      (Native64.lua_pcg_setseq_64_srandom_r prior initstate initseq).inc
          = ((initseq <<< 1) ||| 1) % 2 ^ 64
      ∧ (Native64.lua_pcg_setseq_64_srandom_r prior initstate initseq).state
          = (((Native64.lua_pcg_setseq_64_srandom_r prior initstate initseq).inc + initstate)
                * 6364136223846793005
              + (Native64.lua_pcg_setseq_64_srandom_r prior initstate initseq).inc) % 2 ^ 64
      ∧ Native64.lua_pcg_setseq_64_srandom_r prior initstate initseq
          = Native64.lua_pcg_setseq_64_srandom_r prior1 initstate initseq)
    ∧ (∀ (prior prior1 : Native128.lua_pcg_state_setseq_128) (initstate initseq : Nat),
      (Native128.lua_pcg_setseq_128_srandom_r prior initstate initseq).inc
          = ((initseq <<< 1) ||| 1) % 2 ^ 128
      ∧ (Native128.lua_pcg_setseq_128_srandom_r prior initstate initseq).state
          = (((Native128.lua_pcg_setseq_128_srandom_r prior initstate initseq).inc + initstate)
                * 0x2360ED051FC65DA44385DF649FCCF645
              + (Native128.lua_pcg_setseq_128_srandom_r prior initstate initseq).inc) % 2 ^ 128
      ∧ Native128.lua_pcg_setseq_128_srandom_r prior initstate initseq
          = Native128.lua_pcg_setseq_128_srandom_r prior1 initstate initseq) := by
  refine ⟨?_, ?_, ?_, ?_, ?_⟩
  · intro prior prior1 initstate initseq hs hq
    obtain ⟨w, e⟩ := Emu64.srandom_64_sim prior ⟨0, 0⟩ initstate initseq hs hq
    obtain ⟨n1, n2⟩ := Native64.srandom_64_spec ⟨0, 0⟩ (Emu64.val64 initstate) (Emu64.val64 initseq)
    have ei := congrArg Native64.lua_pcg_state_setseq_64.inc e
    have es := congrArg Native64.lua_pcg_state_setseq_64.state e
    simp only [Emu64.abs_state] at ei es
    refine ⟨w, ?_, ?_, rfl⟩
    · rw [ei, n1]
    · rw [es, ei, n2, n1]
  · intro prior prior1 initstate initseq hs hq
    obtain ⟨w, e⟩ := Emu128.srandom_128_sim Emu64.backend Emu64.ops_lawful_emu prior ⟨0, 0⟩
      initstate initseq hs hq
    obtain ⟨n1, n2⟩ := Native128.srandom_128_spec ⟨0, 0⟩ (Emu128.val128 Emu64.val64 initstate)
      (Emu128.val128 Emu64.val64 initseq)
    have ei := congrArg Native128.lua_pcg_state_setseq_128.inc e
    have es := congrArg Native128.lua_pcg_state_setseq_128.state e
    simp only [Emu128.abs_state] at ei es
    refine ⟨w, ?_, ?_, rfl⟩
    · rw [ei, n1]
    · rw [es, ei, n2, n1]
  · intro prior prior1 initstate initseq hs hq
    obtain ⟨w, e⟩ := Emu128.srandom_128_sim Native64.backend Native64.ops_lawful_native prior ⟨0, 0⟩
      initstate initseq hs hq
    obtain ⟨n1, n2⟩ := Native128.srandom_128_spec ⟨0, 0⟩ (Emu128.val128 (fun x => x) initstate)
      (Emu128.val128 (fun x => x) initseq)
    have ei := congrArg Native128.lua_pcg_state_setseq_128.inc e
    have es := congrArg Native128.lua_pcg_state_setseq_128.state e
    simp only [Emu128.abs_state] at ei es
    refine ⟨w, ?_, ?_, rfl⟩
    · rw [ei, n1]
    · rw [es, ei, n2, n1]
  · intro prior prior1 initstate initseq
    obtain ⟨n1, n2⟩ := Native64.srandom_64_spec prior initstate initseq
    refine ⟨n1, ?_, rfl⟩
    rw [n2, n1]
  · intro prior prior1 initstate initseq
    obtain ⟨n1, n2⟩ := Native128.srandom_128_spec prior initstate initseq
    refine ⟨n1, ?_, rfl⟩
    rw [n2, n1]

/-- Witness of C11: the emulated 64-bit engine seeded with 42 and 54, from two different prior
contents. -/
theorem C11_seed_overwrites_witness :
    Emu64.wf64 ⟨42, 0⟩ ∧ Emu64.wf64 ⟨54, 0⟩
    ∧ Emu64.lua_pcg_setseq_64_srandom_r ⟨⟨7, 7⟩, ⟨9, 9⟩⟩ ⟨42, 0⟩ ⟨54, 0⟩
        = ⟨⟨741213176, 408356536⟩, ⟨109, 0⟩⟩
    ∧ Emu64.val64 (Emu64.lua_pcg_setseq_64_srandom_r ⟨⟨7, 7⟩, ⟨9, 9⟩⟩ ⟨42, 0⟩ ⟨54, 0⟩).inc
        = ((Emu64.val64 ⟨54, 0⟩ <<< 1) ||| 1) % 2 ^ 64
    ∧ Emu64.lua_pcg_setseq_64_srandom_r ⟨⟨7, 7⟩, ⟨9, 9⟩⟩ ⟨42, 0⟩ ⟨54, 0⟩
        = Emu64.lua_pcg_setseq_64_srandom_r ⟨⟨0, 0⟩, ⟨0, 0⟩⟩ ⟨42, 0⟩ ⟨54, 0⟩ :=
  ⟨⟨by decide, by decide⟩, ⟨by decide, by decide⟩, by rfl,
    (C11_seed_overwrites.1 ⟨⟨7, 7⟩, ⟨9, 9⟩⟩ ⟨⟨0, 0⟩, ⟨0, 0⟩⟩ ⟨42, 0⟩ ⟨54, 0⟩
      ⟨by decide, by decide⟩ ⟨by decide, by decide⟩).2.1,
    (C11_seed_overwrites.1 ⟨⟨7, 7⟩, ⟨9, 9⟩⟩ ⟨⟨0, 0⟩, ⟨0, 0⟩⟩ ⟨42, 0⟩ ⟨54, 0⟩
      ⟨by decide, by decide⟩ ⟨by decide, by decide⟩).2.2.2⟩

/-- C12: the increment of every engine is odd in every state reachable from a seeded engine.
For each of the five builds (emulated and native 32-bit engine; 128-bit engine emulated over
emulated limbs, emulated over native limbs, and native): `step`, `next`, `advance` and the bounded
draw leave the field `inc` as it was whenever they return; seeding leaves an odd increment for
every `initseq`; and after any sequence of operations that starts with a seeding, the increment
is odd. -/
theorem C12_increment_always_odd :
    ((∀ (rng : Emu64.lua_pcg_state_setseq_64), (Emu64.lua_pcg_setseq_64_step_r rng).inc = rng.inc)
      ∧ (∀ (rng : Emu64.lua_pcg_state_setseq_64),
          (Emu64.lua_pcg_setseq_64_xsh_rr_32_random_r rng).2.inc = rng.inc)
      ∧ (∀ (fuel : Nat) (rng rng1 : Emu64.lua_pcg_state_setseq_64) (delta : Emu64.lua_pcg_u64),
          Emu64.lua_pcg_setseq_64_advance_r fuel rng delta = .ok rng1 → rng1.inc = rng.inc)
      ∧ (∀ (fuel : Nat) (rng rng1 : Emu64.lua_pcg_state_setseq_64) (bound r : Nat),
          Emu64.lua_pcg_setseq_64_xsh_rr_32_boundedrand_r fuel rng bound = .ok (r, rng1) →
          rng1.inc = rng.inc)
      ∧ (∀ (prior : Emu64.lua_pcg_state_setseq_64) (initstate initseq : Emu64.lua_pcg_u64),
          Emu64.wf64 initseq →
          Emu64.val64 (Emu64.lua_pcg_setseq_64_srandom_r prior initstate initseq).inc % 2 = 1)
      ∧ (∀ (fuel : Nat) (prior : Emu64.lua_pcg_state_setseq_64) (initstate initseq : Emu64.lua_pcg_u64)
          (ops : List (EngineOp Emu64.lua_pcg_u64 Nat)) (o : List Nat)
          (rng1 : Emu64.lua_pcg_state_setseq_64),
          Emu64.wf64 initstate → Emu64.wf64 initseq →
          (∀ op ∈ ops, op.All Emu64.wf64 (fun _ => True)) →
          run_ops (Emu64.run_op fuel) (.seed initstate initseq :: ops) prior = .ok (o, rng1) →
          Emu64.val64 rng1.inc % 2 = 1))
    ∧ ((∀ (rng : Native64.lua_pcg_state_setseq_64), (Native64.lua_pcg_setseq_64_step_r rng).inc = rng.inc)
      ∧ (∀ (rng : Native64.lua_pcg_state_setseq_64), (Native64.lua_pcg_setseq_64_xsh_rr_32_random_r rng).2.inc = rng.inc)
      ∧ (∀ (rng : Native64.lua_pcg_state_setseq_64) (delta : Nat), (Native64.lua_pcg_setseq_64_advance_r rng delta).inc = rng.inc)
      ∧ (∀ (fuel : Nat) (rng rng1 : Native64.lua_pcg_state_setseq_64) (bound r : Nat),
          Native64.lua_pcg_setseq_64_xsh_rr_32_boundedrand_r fuel rng bound = .ok (r, rng1) → rng1.inc = rng.inc)
      ∧ (∀ (prior : Native64.lua_pcg_state_setseq_64) (initstate initseq : Nat),
          (Native64.lua_pcg_setseq_64_srandom_r prior initstate initseq).inc % 2 = 1)
      ∧ (∀ (fuel : Nat) (prior : Native64.lua_pcg_state_setseq_64) (initstate initseq : Nat) (ops : List (EngineOp Nat Nat))
          (o : List Nat) (rng1 : Native64.lua_pcg_state_setseq_64),
          run_ops (Native64.run_op fuel) (.seed initstate initseq :: ops) prior = .ok (o, rng1) →
          rng1.inc % 2 = 1))
    ∧ ((∀ (rng : Emu128.lua_pcg_state_setseq_128 Emu64.lua_pcg_u64), (Emu128.lua_pcg_setseq_128_step_r Emu64.backend rng).inc = rng.inc)
      ∧ (∀ (rng : Emu128.lua_pcg_state_setseq_128 Emu64.lua_pcg_u64), (Emu128.lua_pcg_setseq_128_xsl_rr_64_random_r Emu64.backend rng).2.inc = rng.inc)
      ∧ (∀ (fuel : Nat) (rng rng1 : Emu128.lua_pcg_state_setseq_128 Emu64.lua_pcg_u64) (delta : lua_pcg_u128 Emu64.lua_pcg_u64),
          Emu128.lua_pcg_setseq_128_advance_r Emu64.backend fuel rng delta = .ok rng1 → rng1.inc = rng.inc)
      ∧ (∀ (fuel : Nat) (rng rng1 : Emu128.lua_pcg_state_setseq_128 Emu64.lua_pcg_u64) (bound q0 t0 r : Emu64.lua_pcg_u64),
          Emu128.lua_pcg_setseq_128_xsl_rr_64_boundedrand_r Emu64.backend fuel rng bound q0 t0 = .ok (r, rng1) →
          rng1.inc = rng.inc)
      ∧ (∀ (prior : Emu128.lua_pcg_state_setseq_128 Emu64.lua_pcg_u64) (initstate initseq : lua_pcg_u128 Emu64.lua_pcg_u64),
          Emu128.wf128 Emu64.wf64 initseq →
          Emu128.val128 Emu64.val64 (Emu128.lua_pcg_setseq_128_srandom_r Emu64.backend prior initstate initseq).inc % 2
            = 1)
      ∧ (∀ (fuel : Nat) (junk : Emu64.lua_pcg_u64) (prior : Emu128.lua_pcg_state_setseq_128 Emu64.lua_pcg_u64) (initstate initseq : lua_pcg_u128 Emu64.lua_pcg_u64)
          (ops : List (EngineOp (lua_pcg_u128 Emu64.lua_pcg_u64) Emu64.lua_pcg_u64)) (o : List Emu64.lua_pcg_u64) (rng1 : Emu128.lua_pcg_state_setseq_128 Emu64.lua_pcg_u64),
          Emu128.wf128 Emu64.wf64 initstate → Emu128.wf128 Emu64.wf64 initseq →
          (∀ op ∈ ops, op.All (Emu128.wf128 Emu64.wf64) (fun _ => True)) →
          run_ops (Emu128.run_op Emu64.backend fuel junk) (.seed initstate initseq :: ops) prior = .ok (o, rng1) →
          Emu128.val128 Emu64.val64 rng1.inc % 2 = 1))
    ∧ ((∀ (rng : Emu128.lua_pcg_state_setseq_128 Nat), (Emu128.lua_pcg_setseq_128_step_r Native64.backend rng).inc = rng.inc)
      ∧ (∀ (rng : Emu128.lua_pcg_state_setseq_128 Nat), (Emu128.lua_pcg_setseq_128_xsl_rr_64_random_r Native64.backend rng).2.inc = rng.inc)
      ∧ (∀ (fuel : Nat) (rng rng1 : Emu128.lua_pcg_state_setseq_128 Nat) (delta : lua_pcg_u128 Nat),
          Emu128.lua_pcg_setseq_128_advance_r Native64.backend fuel rng delta = .ok rng1 → rng1.inc = rng.inc)
      ∧ (∀ (fuel : Nat) (rng rng1 : Emu128.lua_pcg_state_setseq_128 Nat) (bound q0 t0 r : Nat),
          Emu128.lua_pcg_setseq_128_xsl_rr_64_boundedrand_r Native64.backend fuel rng bound q0 t0 = .ok (r, rng1) →
          rng1.inc = rng.inc)
      ∧ (∀ (prior : Emu128.lua_pcg_state_setseq_128 Nat) (initstate initseq : lua_pcg_u128 Nat),
          Emu128.wf128 Native64.wf64 initseq →
          Emu128.val128 (fun x => x) (Emu128.lua_pcg_setseq_128_srandom_r Native64.backend prior initstate initseq).inc % 2
            = 1)
      ∧ (∀ (fuel : Nat) (junk : Nat) (prior : Emu128.lua_pcg_state_setseq_128 Nat) (initstate initseq : lua_pcg_u128 Nat)
          (ops : List (EngineOp (lua_pcg_u128 Nat) Nat)) (o : List Nat) (rng1 : Emu128.lua_pcg_state_setseq_128 Nat),
          Emu128.wf128 Native64.wf64 initstate → Emu128.wf128 Native64.wf64 initseq →
          (∀ op ∈ ops, op.All (Emu128.wf128 Native64.wf64) (fun _ => True)) →
          run_ops (Emu128.run_op Native64.backend fuel junk) (.seed initstate initseq :: ops) prior = .ok (o, rng1) →
          Emu128.val128 (fun x => x) rng1.inc % 2 = 1))
    ∧ ((∀ (rng : Native128.lua_pcg_state_setseq_128), (Native128.lua_pcg_setseq_128_step_r rng).inc = rng.inc)
      ∧ (∀ (rng : Native128.lua_pcg_state_setseq_128), (Native128.lua_pcg_setseq_128_xsl_rr_64_random_r rng).2.inc = rng.inc)
      ∧ (∀ (rng : Native128.lua_pcg_state_setseq_128) (delta : Nat), (Native128.lua_pcg_setseq_128_advance_r rng delta).inc = rng.inc)
      ∧ (∀ (fuel : Nat) (rng rng1 : Native128.lua_pcg_state_setseq_128) (bound r : Nat),
          Native128.lua_pcg_setseq_128_xsl_rr_64_boundedrand_r fuel rng bound = .ok (r, rng1) → rng1.inc = rng.inc)
      ∧ (∀ (prior : Native128.lua_pcg_state_setseq_128) (initstate initseq : Nat),
          (Native128.lua_pcg_setseq_128_srandom_r prior initstate initseq).inc % 2 = 1)
      ∧ (∀ (fuel : Nat) (prior : Native128.lua_pcg_state_setseq_128) (initstate initseq : Nat) (ops : List (EngineOp Nat Nat))
          (o : List Nat) (rng1 : Native128.lua_pcg_state_setseq_128),
          run_ops (Native128.run_op fuel) (.seed initstate initseq :: ops) prior = .ok (o, rng1) →
          rng1.inc % 2 = 1)) := by
  refine ⟨?_, ?_, ?_, ?_, ?_⟩
  · refine ⟨fun _ => rfl, fun _ => rfl, ?_, ?_, ?_, ?_⟩
    · intro fuel rng rng1 delta he
      exact Emu64.advance_64_inc fuel rng rng1 delta he
    · intro fuel rng rng1 bound r he
      exact Emu64.boundedrand_32_inc fuel rng rng1 bound r he
    · intro prior initstate initseq hq
      rw [Emu64.srandom_64_inc_emu prior initstate initseq hq]
      exact or_one_odd _
    · intro fuel prior initstate initseq ops o rng1 hs hq hops he
      refine run_ops_seeded (Emu64.run_op fuel) (fun g => Emu64.val64 g.inc % 2 = 1)
        (fun op => op.All Emu64.wf64 (fun _ => True)) ?_
        prior initstate initseq ops o rng1 ⟨hs, hq⟩ hops he
      intro rng op o1 rng2 hP hop
      obtain ⟨h1, h2⟩ := Emu64.run_op_64_inc_emu fuel rng op o1 rng2 hP hop
      refine ⟨h1, fun hn hR => ?_⟩
      show Emu64.val64 rng2.inc % 2 = 1
      rw [h2 hn]
      exact hR
  · refine ⟨fun _ => rfl, fun _ => rfl, fun _ _ => rfl, ?_, ?_, ?_⟩
    · intro fuel rng rng1 bound r he
      have hop : Native64.run_op fuel rng (.boundedNext bound) = .ok ([r], rng1) := by
        simp only [Native64.run_op, he]
      exact (Native64.run_op_64_inc fuel rng _ _ rng1 hop).2 (fun _ _ hc => by cases hc)
    · intro prior initstate initseq
      exact (Native64.run_op_64_inc 0 prior (.seed initstate initseq) [] _ rfl).1 _ _ rfl
    · intro fuel prior initstate initseq ops o rng1 he
      refine run_ops_seeded (Native64.run_op fuel) (fun g => g.inc % 2 = 1) (fun _ => True) ?_
        prior initstate initseq ops o rng1 trivial (fun _ _ => trivial) he
      intro rng op o1 rng2 _ hop
      obtain ⟨h1, h2⟩ := Native64.run_op_64_inc fuel rng op o1 rng2 hop
      refine ⟨h1, fun hn hR => ?_⟩
      show rng2.inc % 2 = 1
      rw [h2 hn]
      exact hR
  · refine ⟨fun _ => rfl, fun _ => rfl, ?_, ?_, ?_, ?_⟩
    · intro fuel rng rng1 delta he
      exact Emu128.advance_128_inc_emu Emu64.backend fuel rng rng1 delta he
    · intro fuel rng rng1 bound q0 t0 r he
      exact Emu128.boundedrand_128_inc_emu Emu64.backend fuel rng rng1 bound q0 t0 r he
    · intro prior initstate initseq hq
      rw [Emu128.srandom_128_inc_emu Emu64.backend Emu64.ops_lawful_emu prior initstate initseq hq]
      exact or_one_odd _
    · intro fuel junk prior initstate initseq ops o rng1 hs hq hops he
      refine run_ops_seeded (Emu128.run_op Emu64.backend fuel junk)
        (fun g => Emu128.val128 Emu64.val64 g.inc % 2 = 1)
        (fun op => op.All (Emu128.wf128 Emu64.wf64) (fun _ => True)) ?_
        prior initstate initseq ops o rng1 ⟨hs, hq⟩ hops he
      intro rng op o1 rng2 hP hop
      obtain ⟨h1, h2⟩ := Emu128.run_op_128_inc_emu Emu64.backend Emu64.ops_lawful_emu fuel junk rng op o1 rng2 hP hop
      refine ⟨h1, fun hn hR => ?_⟩
      show Emu128.val128 Emu64.val64 rng2.inc % 2 = 1
      rw [h2 hn]
      exact hR
  · refine ⟨fun _ => rfl, fun _ => rfl, ?_, ?_, ?_, ?_⟩
    · intro fuel rng rng1 delta he
      exact Emu128.advance_128_inc_emu Native64.backend fuel rng rng1 delta he
    · intro fuel rng rng1 bound q0 t0 r he
      exact Emu128.boundedrand_128_inc_emu Native64.backend fuel rng rng1 bound q0 t0 r he
    · intro prior initstate initseq hq
      rw [Emu128.srandom_128_inc_emu Native64.backend Native64.ops_lawful_native prior initstate initseq hq]
      exact or_one_odd _
    · intro fuel junk prior initstate initseq ops o rng1 hs hq hops he
      refine run_ops_seeded (Emu128.run_op Native64.backend fuel junk)
        (fun g => Emu128.val128 (fun x => x) g.inc % 2 = 1)
        (fun op => op.All (Emu128.wf128 Native64.wf64) (fun _ => True)) ?_
        prior initstate initseq ops o rng1 ⟨hs, hq⟩ hops he
      intro rng op o1 rng2 hP hop
      obtain ⟨h1, h2⟩ := Emu128.run_op_128_inc_emu Native64.backend Native64.ops_lawful_native fuel junk rng op o1 rng2 hP hop
      refine ⟨h1, fun hn hR => ?_⟩
      show Emu128.val128 (fun x => x) rng2.inc % 2 = 1
      rw [h2 hn]
      exact hR
  · refine ⟨fun _ => rfl, fun _ => rfl, fun _ _ => rfl, ?_, ?_, ?_⟩
    · intro fuel rng rng1 bound r he
      have hop : Native128.run_op fuel rng (.boundedNext bound) = .ok ([r], rng1) := by
        simp only [Native128.run_op, he]
      exact (Native128.run_op_128_inc fuel rng _ _ rng1 hop).2 (fun _ _ hc => by cases hc)
    · intro prior initstate initseq
      exact (Native128.run_op_128_inc 0 prior (.seed initstate initseq) [] _ rfl).1 _ _ rfl
    · intro fuel prior initstate initseq ops o rng1 he
      refine run_ops_seeded (Native128.run_op fuel) (fun g => g.inc % 2 = 1) (fun _ => True) ?_
        prior initstate initseq ops o rng1 trivial (fun _ _ => trivial) he
      intro rng op o1 rng2 _ hop
      obtain ⟨h1, h2⟩ := Native128.run_op_128_inc fuel rng op o1 rng2 hop
      refine ⟨h1, fun hn hR => ?_⟩
      show rng2.inc % 2 = 1
      rw [h2 hn]
      exact hR

/-- Witness of C12: the emulated 32-bit engine seeded with 42 and 54, then stepped, drawn from,
advanced by 5 and drawn from below 1000. -/
theorem C12_increment_always_odd_witness :
    Emu64.wf64 ⟨42, 0⟩ ∧ Emu64.wf64 ⟨54, 0⟩
    ∧ (∀ op ∈ ([.step, .next, .advance ⟨5, 0⟩, .boundedNext 1000] : List (EngineOp Emu64.lua_pcg_u64 Nat)),
        op.All Emu64.wf64 (fun _ => True))
    ∧ run_ops (Emu64.run_op 65)
        (.seed ⟨42, 0⟩ ⟨54, 0⟩ :: [.step, .next, .advance ⟨5, 0⟩, .boundedNext 1000]) ⟨⟨7, 7⟩, ⟨9, 9⟩⟩
        = .ok ([2068313097, 445], ⟨⟨3960920816, 120649806⟩, ⟨109, 0⟩⟩)
    ∧ Emu64.val64 (⟨109, 0⟩ : Emu64.lua_pcg_u64) % 2 = 1 :=
  ⟨⟨by decide, by decide⟩, ⟨by decide, by decide⟩,
    (by
      intro op hop
      simp only [List.mem_cons, List.mem_singleton, List.not_mem_nil, or_false] at hop
      rcases hop with h | h | h | h <;> subst h
      · trivial
      · trivial
      · exact ⟨by decide, by decide⟩
      · trivial),
    by rfl,
    C12_increment_always_odd.1.2.2.2.2.2 65 ⟨⟨7, 7⟩, ⟨9, 9⟩⟩ ⟨42, 0⟩ ⟨54, 0⟩
      [.step, .next, .advance ⟨5, 0⟩, .boundedNext 1000] [2068313097, 445]
      ⟨⟨3960920816, 120649806⟩, ⟨109, 0⟩⟩ ⟨by decide, by decide⟩ ⟨by decide, by decide⟩
      (by
        intro op hop
        simp only [List.mem_cons, List.mem_singleton, List.not_mem_nil, or_false] at hop
        rcases hop with h | h | h | h <;> subst h
        · trivial
        · trivial
        · exact ⟨by decide, by decide⟩
        · trivial)
      (by rfl)⟩

namespace Native64

/-- The native output function is `lua_pcg_rotr_32` of the low 32 bits of the xorshifted state,
by the top five bits of the state. -/
theorem output_64_rotr (s : Nat) (hs : s < 2 ^ 64) :
    lua_pcg_output_xsh_rr_64_32 s
      = lua_pcg_rotr_32 ((((s >>> 18) ^^^ s) >>> 27) % 2 ^ 32) (s >>> 59) := by
  have hw : wrap32 (s >>> 59) = s >>> 59 := by
    rw [wrap32_eq, Nat.shiftRight_eq_div_pow]
    exact Nat.mod_eq_of_lt (by omega)
  rw [lua_pcg_output_xsh_rr_64_32, hw, lua_pcg_u32_cast_eq]

end Native64

/-- C13: on the 32-bit engine with state `s` and increment `c`, `lua_pcg_setseq_64_xsh_rr_32_random_r`
returns the output of the state before the step, `rotr32(low32(((s >> 18) xor s) >> 27), s >> 59)`
with `rotr32(v, r) = (v >> r) | ((v << ((32 - r) mod 32)) mod 2^32)`, and leaves the engine with state
`(s * 6364136223846793005 + c) mod 2^64` and increment `c`; in the emulated build (on the
represented values) and in the native build. -/
theorem C13_next_32_output_and_state :
    (∀ (rng : Emu64.lua_pcg_state_setseq_64), Emu64.wf_state rng →
      (Emu64.lua_pcg_setseq_64_xsh_rr_32_random_r rng).1
          = lua_pcg_rotr_32
              ((((Emu64.val64 rng.state >>> 18) ^^^ Emu64.val64 rng.state) >>> 27) % 2 ^ 32)
              (Emu64.val64 rng.state >>> 59)
      ∧ (Emu64.lua_pcg_setseq_64_xsh_rr_32_random_r rng).1
          = ((((((Emu64.val64 rng.state >>> 18) ^^^ Emu64.val64 rng.state) >>> 27) % 2 ^ 32)
                >>> (Emu64.val64 rng.state >>> 59))
              ||| ((((((Emu64.val64 rng.state >>> 18) ^^^ Emu64.val64 rng.state) >>> 27) % 2 ^ 32)
                <<< ((32 - (Emu64.val64 rng.state >>> 59)) % 32)) % 2 ^ 32))
      ∧ Emu64.wf_state (Emu64.lua_pcg_setseq_64_xsh_rr_32_random_r rng).2
      ∧ Emu64.val64 (Emu64.lua_pcg_setseq_64_xsh_rr_32_random_r rng).2.state
          = (Emu64.val64 rng.state * 6364136223846793005 + Emu64.val64 rng.inc) % 2 ^ 64
      ∧ (Emu64.lua_pcg_setseq_64_xsh_rr_32_random_r rng).2.inc = rng.inc)
    ∧ (∀ (rng : Native64.lua_pcg_state_setseq_64), rng.state < 2 ^ 64 →
      (Native64.lua_pcg_setseq_64_xsh_rr_32_random_r rng).1
          = lua_pcg_rotr_32 ((((rng.state >>> 18) ^^^ rng.state) >>> 27) % 2 ^ 32) (rng.state >>> 59)
      ∧ (Native64.lua_pcg_setseq_64_xsh_rr_32_random_r rng).1
          = ((((((rng.state >>> 18) ^^^ rng.state) >>> 27) % 2 ^ 32) >>> (rng.state >>> 59))
              ||| ((((((rng.state >>> 18) ^^^ rng.state) >>> 27) % 2 ^ 32)
                <<< ((32 - (rng.state >>> 59)) % 32)) % 2 ^ 32))
      ∧ (Native64.lua_pcg_setseq_64_xsh_rr_32_random_r rng).2.state
          = (rng.state * 6364136223846793005 + rng.inc) % 2 ^ 64
      ∧ (Native64.lua_pcg_setseq_64_xsh_rr_32_random_r rng).2.inc = rng.inc) := by
  constructor
  · intro rng h
    obtain ⟨w, e1, e2⟩ := Emu64.random_64_sim rng h
    have hlt := Emu64.val64_lt _ h.1
    have es := congrArg Native64.lua_pcg_state_setseq_64.state e2
    have hn : (Native64.lua_pcg_setseq_64_xsh_rr_32_random_r (Emu64.abs_state rng)).1
        = Native64.lua_pcg_output_xsh_rr_64_32 (Emu64.val64 rng.state) := rfl
    have hs : (Native64.lua_pcg_setseq_64_xsh_rr_32_random_r (Emu64.abs_state rng)).2
        = Native64.lua_pcg_setseq_64_step_r (Emu64.abs_state rng) := rfl
    refine ⟨?_, ?_, w, ?_, rfl⟩
    · rw [e1, hn, Native64.output_64_rotr _ hlt]
    · rw [e1, hn, Native64.output_64_eq _ hlt]
    · rw [hs, Native64.step_64_eq] at es
      exact es
  · intro rng h
    have hn : (Native64.lua_pcg_setseq_64_xsh_rr_32_random_r rng).1
        = Native64.lua_pcg_output_xsh_rr_64_32 rng.state := rfl
    have hs : (Native64.lua_pcg_setseq_64_xsh_rr_32_random_r rng).2
        = Native64.lua_pcg_setseq_64_step_r rng := rfl
    refine ⟨?_, ?_, ?_, rfl⟩
    · rw [hn, Native64.output_64_rotr _ h]
    · rw [hn, Native64.output_64_eq _ h]
    · rw [hs, Native64.step_64_eq]

/-- Witness of C13: the emulated engine seeded with 42 and 54 returns `0xA15C02B7`. -/
theorem C13_next_32_output_and_state_witness :
    Emu64.wf_state ⟨⟨741213176, 408356536⟩, ⟨109, 0⟩⟩
    ∧ (Emu64.lua_pcg_setseq_64_xsh_rr_32_random_r ⟨⟨741213176, 408356536⟩, ⟨109, 0⟩⟩).1 = 0xA15C02B7
    ∧ (Emu64.lua_pcg_setseq_64_xsh_rr_32_random_r ⟨⟨741213176, 408356536⟩, ⟨109, 0⟩⟩).1
        = lua_pcg_rotr_32
            ((((Emu64.val64 ⟨741213176, 408356536⟩ >>> 18) ^^^ Emu64.val64 ⟨741213176, 408356536⟩)
              >>> 27) % 2 ^ 32)
            (Emu64.val64 ⟨741213176, 408356536⟩ >>> 59) :=
  ⟨⟨⟨by decide, by decide⟩, ⟨by decide, by decide⟩⟩, by rfl,
    (C13_next_32_output_and_state.1 ⟨⟨741213176, 408356536⟩, ⟨109, 0⟩⟩
      ⟨⟨by decide, by decide⟩, ⟨by decide, by decide⟩⟩).1⟩

/-- C14: on the 128-bit engine with state `s` and increment `c`,
`lua_pcg_setseq_128_xsl_rr_64_random_r` first steps to `s1 = (s * MULTIPLIER128 + c) mod 2^128` and
returns the output of that new state: the 64-bit word `high64(s1) xor low64(s1)` rotated right by
`s1 >> 122`; the engine is left with state `s1` and increment `c`.  This holds of the emulated
build over emulated limbs and over native limbs (on the represented values), and of the native
build. -/
theorem C14_next_64_output_and_state :
    (∀ (rng : Emu128.lua_pcg_state_setseq_128 Emu64.lua_pcg_u64), Emu128.wf_state Emu64.wf64 rng →
      Emu128.wf_state Emu64.wf64 (Emu128.lua_pcg_setseq_128_xsl_rr_64_random_r Emu64.backend rng).2
      ∧ Emu128.val128 Emu64.val64 (Emu128.lua_pcg_setseq_128_xsl_rr_64_random_r Emu64.backend rng).2.state
          = (Emu128.val128 Emu64.val64 rng.state * 0x2360ED051FC65DA44385DF649FCCF645
              + Emu128.val128 Emu64.val64 rng.inc) % 2 ^ 128
      ∧ (Emu128.lua_pcg_setseq_128_xsl_rr_64_random_r Emu64.backend rng).2.inc = rng.inc
      ∧ Emu64.wf64 (Emu128.lua_pcg_setseq_128_xsl_rr_64_random_r Emu64.backend rng).1
      ∧ ∀ s1, s1 = Emu128.val128 Emu64.val64
            (Emu128.lua_pcg_setseq_128_xsl_rr_64_random_r Emu64.backend rng).2.state →
          Emu64.val64 (Emu128.lua_pcg_setseq_128_xsl_rr_64_random_r Emu64.backend rng).1
            = (((s1 >>> 64) ^^^ (s1 % 2 ^ 64)) >>> (s1 >>> 122))
              ||| ((((s1 >>> 64) ^^^ (s1 % 2 ^ 64)) <<< ((64 - (s1 >>> 122)) % 64)) % 2 ^ 64))
    ∧ (∀ (rng : Emu128.lua_pcg_state_setseq_128 Nat), Emu128.wf_state Native64.wf64 rng →
      Emu128.wf_state Native64.wf64 (Emu128.lua_pcg_setseq_128_xsl_rr_64_random_r Native64.backend rng).2
      ∧ Emu128.val128 (fun x => x)
            (Emu128.lua_pcg_setseq_128_xsl_rr_64_random_r Native64.backend rng).2.state
          = (Emu128.val128 (fun x => x) rng.state * 0x2360ED051FC65DA44385DF649FCCF645
              + Emu128.val128 (fun x => x) rng.inc) % 2 ^ 128
      ∧ (Emu128.lua_pcg_setseq_128_xsl_rr_64_random_r Native64.backend rng).2.inc = rng.inc
      ∧ (Emu128.lua_pcg_setseq_128_xsl_rr_64_random_r Native64.backend rng).1 < 2 ^ 64
      ∧ ∀ s1, s1 = Emu128.val128 (fun x => x)
            (Emu128.lua_pcg_setseq_128_xsl_rr_64_random_r Native64.backend rng).2.state →
          (Emu128.lua_pcg_setseq_128_xsl_rr_64_random_r Native64.backend rng).1
            = (((s1 >>> 64) ^^^ (s1 % 2 ^ 64)) >>> (s1 >>> 122))
              ||| ((((s1 >>> 64) ^^^ (s1 % 2 ^ 64)) <<< ((64 - (s1 >>> 122)) % 64)) % 2 ^ 64))
    ∧ (∀ (rng : Native128.lua_pcg_state_setseq_128),
      (Native128.lua_pcg_setseq_128_xsl_rr_64_random_r rng).2.state
          = (rng.state * 0x2360ED051FC65DA44385DF649FCCF645 + rng.inc) % 2 ^ 128
      ∧ (Native128.lua_pcg_setseq_128_xsl_rr_64_random_r rng).2.inc = rng.inc
      ∧ ∀ s1, s1 = (Native128.lua_pcg_setseq_128_xsl_rr_64_random_r rng).2.state →
          (Native128.lua_pcg_setseq_128_xsl_rr_64_random_r rng).1
            = (((s1 >>> 64) ^^^ (s1 % 2 ^ 64)) >>> (s1 >>> 122))
              ||| ((((s1 >>> 64) ^^^ (s1 % 2 ^ 64)) <<< ((64 - (s1 >>> 122)) % 64)) % 2 ^ 64)) := by
  have hn : ∀ g : Native128.lua_pcg_state_setseq_128,
      (Native128.lua_pcg_setseq_128_xsl_rr_64_random_r g).1
        = Native128.lua_pcg_output_xsl_rr_128_64
            (Native128.lua_pcg_setseq_128_xsl_rr_64_random_r g).2.state := fun _ => rfl
  have hs : ∀ g : Native128.lua_pcg_state_setseq_128,
      (Native128.lua_pcg_setseq_128_xsl_rr_64_random_r g).2
        = Native128.lua_pcg_setseq_128_step_r g := fun _ => rfl
  refine ⟨?_, ?_, ?_⟩
  · intro rng h
    obtain ⟨wo, w, e1, e2⟩ := Emu128.random_128_sim Emu64.backend Emu64.ops_lawful_emu rng h
    have es := congrArg Native128.lua_pcg_state_setseq_128.state e2
    have hlt := Emu128.val128_lt Emu64.ops_lawful_emu _ w.1
    refine ⟨w, ?_, rfl, wo, ?_⟩
    · rw [hs, Native128.step_128_eq] at es
      exact es
    · intro s1 hs1
      subst hs1
      rw [e1, hn, ← es]
      exact Native128.output_128_eq _ hlt
  · intro rng h
    obtain ⟨wo, w, e1, e2⟩ := Emu128.random_128_sim Native64.backend Native64.ops_lawful_native rng h
    have es := congrArg Native128.lua_pcg_state_setseq_128.state e2
    have hlt := Emu128.val128_lt Native64.ops_lawful_native _ w.1
    refine ⟨w, ?_, rfl, wo, ?_⟩
    · rw [hs, Native128.step_128_eq] at es
      exact es
    · intro s1 hs1
      subst hs1
      rw [e1, hn, ← es]
      exact Native128.output_128_eq _ hlt
  · intro rng
    have hst : (Native128.lua_pcg_setseq_128_xsl_rr_64_random_r rng).2.state
        = (rng.state * 0x2360ED051FC65DA44385DF649FCCF645 + rng.inc) % 2 ^ 128 := by
      rw [hs, Native128.step_128_eq]
    refine ⟨hst, rfl, ?_⟩
    intro s1 hs1
    have hlt : s1 < 2 ^ 128 := by
      rw [hs1, hst]
      exact Nat.mod_lt _ (by norm_num)
    rw [hn, ← hs1, Native128.output_128_eq _ hlt]

/-- Witness of C14: one draw from the fully emulated engine with state 1 and increment 109. -/
theorem C14_next_64_output_and_state_witness :
    Emu128.wf_state Emu64.wf64 ⟨⟨⟨1, 0⟩, ⟨0, 0⟩⟩, ⟨⟨109, 0⟩, ⟨0, 0⟩⟩⟩
    ∧ Emu128.val128 Emu64.val64 (Emu128.lua_pcg_setseq_128_xsl_rr_64_random_r Emu64.backend
          ⟨⟨⟨1, 0⟩, ⟨0, 0⟩⟩, ⟨⟨109, 0⟩, ⟨0, 0⟩⟩⟩).2.state
        = (Emu128.val128 Emu64.val64 ⟨⟨1, 0⟩, ⟨0, 0⟩⟩ * 0x2360ED051FC65DA44385DF649FCCF645
            + Emu128.val128 Emu64.val64 ⟨⟨109, 0⟩, ⟨0, 0⟩⟩) % 2 ^ 128 :=
  ⟨⟨⟨⟨by decide, by decide⟩, ⟨by decide, by decide⟩⟩, ⟨⟨by decide, by decide⟩, ⟨by decide, by decide⟩⟩⟩,
    (C14_next_64_output_and_state.1 ⟨⟨⟨1, 0⟩, ⟨0, 0⟩⟩, ⟨⟨109, 0⟩, ⟨0, 0⟩⟩⟩
      ⟨⟨⟨by decide, by decide⟩, ⟨by decide, by decide⟩⟩,
        ⟨⟨by decide, by decide⟩, ⟨by decide, by decide⟩⟩⟩).2.1⟩

theorem EngineOp.All_mono {β γ : Type} {P P1 : β → Prop} {Q Q1 : γ → Prop}
    (hP : ∀ x, P x → P1 x) (hQ : ∀ x, Q x → Q1 x) (op : EngineOp β γ) (h : op.All P Q) :
    op.All P1 Q1 := by
  cases op with
  | seed s q => exact ⟨hP _ h.1, hP _ h.2⟩
  | step => trivial
  | next => trivial
  | advance d => exact hP _ h
  | boundedNext b => exact hQ _ h

/-- C15: the 32-bit engine is bit-identical across the two builds.  Under
`value = low + high * 2^32`, the emulated `lua_pcg_setseq_64_srandom_r`, `lua_pcg_setseq_64_step_r`,
`lua_pcg_output_xsh_rr_64_32`, `lua_pcg_setseq_64_xsh_rr_32_random_r` and
`lua_pcg_setseq_64_advance_r` (allowed 65 passes of its loop) return the outputs and leave the
engine that the native ones do, and so does every sequence of operations run from engines that
correspond. -/
theorem C15_engine_32_bit_identical :
    (∀ (prior : Emu64.lua_pcg_state_setseq_64) (prior1 : Native64.lua_pcg_state_setseq_64)
        (initstate initseq : Emu64.lua_pcg_u64), Emu64.wf64 initstate → Emu64.wf64 initseq →
      Emu64.wf_state (Emu64.lua_pcg_setseq_64_srandom_r prior initstate initseq)
      ∧ Emu64.abs_state (Emu64.lua_pcg_setseq_64_srandom_r prior initstate initseq)
          = Native64.lua_pcg_setseq_64_srandom_r prior1 (Emu64.val64 initstate) (Emu64.val64 initseq))
    ∧ (∀ (rng : Emu64.lua_pcg_state_setseq_64), Emu64.wf_state rng →
      Emu64.wf_state (Emu64.lua_pcg_setseq_64_step_r rng)
      ∧ Emu64.abs_state (Emu64.lua_pcg_setseq_64_step_r rng)
          = Native64.lua_pcg_setseq_64_step_r (Emu64.abs_state rng))
    ∧ (∀ (state : Emu64.lua_pcg_u64), Emu64.wf64 state →
      Emu64.lua_pcg_output_xsh_rr_64_32 state
        = Native64.lua_pcg_output_xsh_rr_64_32 (Emu64.val64 state))
    ∧ (∀ (rng : Emu64.lua_pcg_state_setseq_64), Emu64.wf_state rng →
      Emu64.wf_state (Emu64.lua_pcg_setseq_64_xsh_rr_32_random_r rng).2
      ∧ (Emu64.lua_pcg_setseq_64_xsh_rr_32_random_r rng).1
          = (Native64.lua_pcg_setseq_64_xsh_rr_32_random_r (Emu64.abs_state rng)).1
      ∧ Emu64.abs_state (Emu64.lua_pcg_setseq_64_xsh_rr_32_random_r rng).2
          = (Native64.lua_pcg_setseq_64_xsh_rr_32_random_r (Emu64.abs_state rng)).2)
    ∧ (∀ (fuel : Nat) (rng : Emu64.lua_pcg_state_setseq_64) (delta : Emu64.lua_pcg_u64),
      65 ≤ fuel → Emu64.wf_state rng → Emu64.wf64 delta →
      ∃ rng1, Emu64.lua_pcg_setseq_64_advance_r fuel rng delta = .ok rng1
        ∧ Emu64.wf_state rng1
        ∧ Emu64.abs_state rng1
            = Native64.lua_pcg_setseq_64_advance_r (Emu64.abs_state rng) (Emu64.val64 delta))
    ∧ (∀ (fuel : Nat) (ops : List (EngineOp Emu64.lua_pcg_u64 Nat)) (rng : Emu64.lua_pcg_state_setseq_64),
      65 ≤ fuel → Emu64.wf_state rng →
      (∀ op ∈ ops, op.All Emu64.wf64 (fun b => 0 < b ∧ b < 2 ^ 32)) →
      (run_ops (Emu64.run_op fuel) ops rng).map (fun p => (p.1, Emu64.abs_state p.2))
        = run_ops (Native64.run_op fuel) (ops.map (EngineOp.map Emu64.val64 (fun b => b)))
            (Emu64.abs_state rng)) := by
  refine ⟨?_, ?_, ?_, ?_, ?_, ?_⟩
  · intro prior prior1 initstate initseq hs hq
    exact Emu64.srandom_64_sim prior prior1 initstate initseq hs hq
  · intro rng h
    exact Emu64.step_64_sim rng h
  · intro state h
    exact Emu64.output_64_sim state h
  · intro rng h
    exact Emu64.random_64_sim rng h
  · intro fuel rng delta hf h hd
    obtain ⟨rng1, e, w, _, ea⟩ := Emu64.advance_64_sim fuel rng delta hf h hd
    exact ⟨rng1, e, w, ea⟩
  · intro fuel ops rng hf h hops
    have hsim := (run_ops_sim (Emu64.run_op fuel) (Native64.run_op fuel) Emu64.wf_state
      (fun op => op.All Emu64.wf64 (fun b => 0 < b ∧ b < 2 ^ 32)) Emu64.abs_state (fun x => x)
      (EngineOp.map Emu64.val64 (fun b => b))
      (fun g op hg hop => Emu64.run_op_64_sim fuel hf g op hg
        (EngineOp.All_mono (fun _ hx => hx) (fun _ _ => trivial) op hop))
      ops rng h hops).1
    have hid : (fun p : List Nat × Emu64.lua_pcg_state_setseq_64 =>
        (List.map (fun x => x) p.1, Emu64.abs_state p.2))
        = (fun p => (p.1, Emu64.abs_state p.2)) := by
      funext p
      simp only [List.map_id']
    rw [hid] at hsim
    exact hsim

/-- Witness of C15: the emulated engine seeded with 42 and 54, drawn from twice, advanced by
3, drawn from, stepped, drawn from below 6 and drawn from once more. -/
theorem C15_engine_32_bit_identical_witness :
    65 ≤ 65 ∧ Emu64.wf_state ⟨⟨0, 0⟩, ⟨0, 0⟩⟩
    ∧ (∀ op ∈ ([.seed ⟨42, 0⟩ ⟨54, 0⟩, .next, .next, .advance ⟨3, 0⟩, .next, .step,
          .boundedNext 6, .next] : List (EngineOp Emu64.lua_pcg_u64 Nat)),
        op.All Emu64.wf64 (fun b => 0 < b ∧ b < 2 ^ 32))
    ∧ run_ops (Emu64.run_op 65)
        [.seed ⟨42, 0⟩ ⟨54, 0⟩, .next, .next, .advance ⟨3, 0⟩, .next, .step,
          .boundedNext 6, .next] ⟨⟨0, 0⟩, ⟨0, 0⟩⟩
        = .ok ([2707161783, 2068313097, 3421331566, 3, 3860803674],
            ⟨⟨2219936925, 2440182651⟩, ⟨109, 0⟩⟩)
    ∧ (run_ops (Emu64.run_op 65)
        [.seed ⟨42, 0⟩ ⟨54, 0⟩, .next, .next, .advance ⟨3, 0⟩, .next, .step,
          .boundedNext 6, .next] ⟨⟨0, 0⟩, ⟨0, 0⟩⟩).map (fun p => (p.1, Emu64.abs_state p.2))
        = run_ops (Native64.run_op 65)
            (([.seed ⟨42, 0⟩ ⟨54, 0⟩, .next, .next, .advance ⟨3, 0⟩, .next, .step,
              .boundedNext 6, .next] : List (EngineOp Emu64.lua_pcg_u64 Nat)).map
                (EngineOp.map Emu64.val64 (fun b => b)))
            (Emu64.abs_state ⟨⟨0, 0⟩, ⟨0, 0⟩⟩) :=
  ⟨by decide, ⟨⟨by decide, by decide⟩, ⟨by decide, by decide⟩⟩,
    (by simp [EngineOp.All, Emu64.wf64]), by rfl,
    C15_engine_32_bit_identical.2.2.2.2.2 65 _ ⟨⟨0, 0⟩, ⟨0, 0⟩⟩ (by decide)
      ⟨⟨by decide, by decide⟩, ⟨by decide, by decide⟩⟩ (by simp [EngineOp.All, Emu64.wf64])⟩

/-- C16: the 128-bit engine is bit-identical across the builds.  Under
`value = low + high * 2^64`, the emulated `lua_pcg_setseq_128_srandom_r`, `lua_pcg_setseq_128_step_r`,
`lua_pcg_output_xsl_rr_128_64`, `lua_pcg_setseq_128_xsl_rr_64_random_r`,
`lua_pcg_setseq_128_advance_r` (allowed 129 passes of its loop) and
`lua_pcg_setseq_128_xsl_rr_64_boundedrand_r` (for every bound that is not zero, its divisions allowed
65 passes) return the outputs and leave the engine that the native ones do, and so does every
sequence of operations run from engines that correspond; over emulated 64-bit limbs and over native
64-bit limbs. -/
theorem C16_engine_64_bit_identical :
    ((∀ (prior : Emu128.lua_pcg_state_setseq_128 Emu64.lua_pcg_u64) (prior1 : Native128.lua_pcg_state_setseq_128)
          (initstate initseq : lua_pcg_u128 Emu64.lua_pcg_u64), Emu128.wf128 Emu64.wf64 initstate → Emu128.wf128 Emu64.wf64 initseq →
        Emu128.wf_state Emu64.wf64 (Emu128.lua_pcg_setseq_128_srandom_r Emu64.backend prior initstate initseq)
        ∧ Emu128.abs_state Emu64.val64 (Emu128.lua_pcg_setseq_128_srandom_r Emu64.backend prior initstate initseq)
            = Native128.lua_pcg_setseq_128_srandom_r prior1 (Emu128.val128 Emu64.val64 initstate) (Emu128.val128 Emu64.val64 initseq))
      ∧ (∀ (rng : Emu128.lua_pcg_state_setseq_128 Emu64.lua_pcg_u64), Emu128.wf_state Emu64.wf64 rng →
        Emu128.wf_state Emu64.wf64 (Emu128.lua_pcg_setseq_128_step_r Emu64.backend rng)
        ∧ Emu128.abs_state Emu64.val64 (Emu128.lua_pcg_setseq_128_step_r Emu64.backend rng)
            = Native128.lua_pcg_setseq_128_step_r (Emu128.abs_state Emu64.val64 rng))
      ∧ (∀ (state : lua_pcg_u128 Emu64.lua_pcg_u64), Emu128.wf128 Emu64.wf64 state →
        Emu64.wf64 (Emu128.lua_pcg_output_xsl_rr_128_64 Emu64.backend state)
        ∧ Emu64.val64 (Emu128.lua_pcg_output_xsl_rr_128_64 Emu64.backend state)
            = Native128.lua_pcg_output_xsl_rr_128_64 (Emu128.val128 Emu64.val64 state))
      ∧ (∀ (rng : Emu128.lua_pcg_state_setseq_128 Emu64.lua_pcg_u64), Emu128.wf_state Emu64.wf64 rng →
        Emu128.wf_state Emu64.wf64 (Emu128.lua_pcg_setseq_128_xsl_rr_64_random_r Emu64.backend rng).2
        ∧ Emu64.val64 (Emu128.lua_pcg_setseq_128_xsl_rr_64_random_r Emu64.backend rng).1
            = (Native128.lua_pcg_setseq_128_xsl_rr_64_random_r (Emu128.abs_state Emu64.val64 rng)).1
        ∧ Emu128.abs_state Emu64.val64 (Emu128.lua_pcg_setseq_128_xsl_rr_64_random_r Emu64.backend rng).2
            = (Native128.lua_pcg_setseq_128_xsl_rr_64_random_r (Emu128.abs_state Emu64.val64 rng)).2)
      ∧ (∀ (fuel : Nat) (rng : Emu128.lua_pcg_state_setseq_128 Emu64.lua_pcg_u64) (delta : lua_pcg_u128 Emu64.lua_pcg_u64),
        129 ≤ fuel → Emu128.wf_state Emu64.wf64 rng → Emu128.wf128 Emu64.wf64 delta →
        ∃ rng1, Emu128.lua_pcg_setseq_128_advance_r Emu64.backend fuel rng delta = .ok rng1
          ∧ Emu128.wf_state Emu64.wf64 rng1
          ∧ Emu128.abs_state Emu64.val64 rng1 = Native128.lua_pcg_setseq_128_advance_r (Emu128.abs_state Emu64.val64 rng) (Emu128.val128 Emu64.val64 delta))
      ∧ (∀ (fuel : Nat) (rng : Emu128.lua_pcg_state_setseq_128 Emu64.lua_pcg_u64) (bound q0 t0 : Emu64.lua_pcg_u64),
        65 ≤ fuel → Emu128.wf_state Emu64.wf64 rng → Emu64.wf64 bound → Emu64.val64 bound ≠ 0 →
        (Emu128.lua_pcg_setseq_128_xsl_rr_64_boundedrand_r Emu64.backend fuel rng bound q0 t0).map
            (fun p => (Emu64.val64 p.1, Emu128.abs_state Emu64.val64 p.2))
          = Native128.lua_pcg_setseq_128_xsl_rr_64_boundedrand_r fuel (Emu128.abs_state Emu64.val64 rng) (Emu64.val64 bound))
      ∧ (∀ (fuel : Nat) (junk : Emu64.lua_pcg_u64) (ops : List (EngineOp (lua_pcg_u128 Emu64.lua_pcg_u64) Emu64.lua_pcg_u64)) (rng : Emu128.lua_pcg_state_setseq_128 Emu64.lua_pcg_u64),
        129 ≤ fuel → Emu128.wf_state Emu64.wf64 rng →
        (∀ op ∈ ops, op.All (Emu128.wf128 Emu64.wf64) (fun b => Emu64.wf64 b ∧ Emu64.val64 b ≠ 0)) →
        (run_ops (Emu128.run_op Emu64.backend fuel junk) ops rng).map (fun p => (p.1.map Emu64.val64, Emu128.abs_state Emu64.val64 p.2))
          = run_ops (Native128.run_op fuel) (ops.map (EngineOp.map (Emu128.val128 Emu64.val64) Emu64.val64)) (Emu128.abs_state Emu64.val64 rng)))
    ∧ ((∀ (prior : Emu128.lua_pcg_state_setseq_128 Nat) (prior1 : Native128.lua_pcg_state_setseq_128)
          (initstate initseq : lua_pcg_u128 Nat), Emu128.wf128 Native64.wf64 initstate → Emu128.wf128 Native64.wf64 initseq →
        Emu128.wf_state Native64.wf64 (Emu128.lua_pcg_setseq_128_srandom_r Native64.backend prior initstate initseq)
        ∧ Emu128.abs_state (fun x => x) (Emu128.lua_pcg_setseq_128_srandom_r Native64.backend prior initstate initseq)
            = Native128.lua_pcg_setseq_128_srandom_r prior1 (Emu128.val128 (fun x => x) initstate) (Emu128.val128 (fun x => x) initseq))
      ∧ (∀ (rng : Emu128.lua_pcg_state_setseq_128 Nat), Emu128.wf_state Native64.wf64 rng →
        Emu128.wf_state Native64.wf64 (Emu128.lua_pcg_setseq_128_step_r Native64.backend rng)
        ∧ Emu128.abs_state (fun x => x) (Emu128.lua_pcg_setseq_128_step_r Native64.backend rng)
            = Native128.lua_pcg_setseq_128_step_r (Emu128.abs_state (fun x => x) rng))
      ∧ (∀ (state : lua_pcg_u128 Nat), Emu128.wf128 Native64.wf64 state →
        Native64.wf64 (Emu128.lua_pcg_output_xsl_rr_128_64 Native64.backend state)
        ∧ Emu128.lua_pcg_output_xsl_rr_128_64 Native64.backend state
            = Native128.lua_pcg_output_xsl_rr_128_64 (Emu128.val128 (fun x => x) state))
      ∧ (∀ (rng : Emu128.lua_pcg_state_setseq_128 Nat), Emu128.wf_state Native64.wf64 rng →
        Emu128.wf_state Native64.wf64 (Emu128.lua_pcg_setseq_128_xsl_rr_64_random_r Native64.backend rng).2
        ∧ (Emu128.lua_pcg_setseq_128_xsl_rr_64_random_r Native64.backend rng).1
            = (Native128.lua_pcg_setseq_128_xsl_rr_64_random_r (Emu128.abs_state (fun x => x) rng)).1
        ∧ Emu128.abs_state (fun x => x) (Emu128.lua_pcg_setseq_128_xsl_rr_64_random_r Native64.backend rng).2
            = (Native128.lua_pcg_setseq_128_xsl_rr_64_random_r (Emu128.abs_state (fun x => x) rng)).2)
      ∧ (∀ (fuel : Nat) (rng : Emu128.lua_pcg_state_setseq_128 Nat) (delta : lua_pcg_u128 Nat),
        129 ≤ fuel → Emu128.wf_state Native64.wf64 rng → Emu128.wf128 Native64.wf64 delta →
        ∃ rng1, Emu128.lua_pcg_setseq_128_advance_r Native64.backend fuel rng delta = .ok rng1
          ∧ Emu128.wf_state Native64.wf64 rng1
          ∧ Emu128.abs_state (fun x => x) rng1 = Native128.lua_pcg_setseq_128_advance_r (Emu128.abs_state (fun x => x) rng) (Emu128.val128 (fun x => x) delta))
      ∧ (∀ (fuel : Nat) (rng : Emu128.lua_pcg_state_setseq_128 Nat) (bound q0 t0 : Nat),
        65 ≤ fuel → Emu128.wf_state Native64.wf64 rng → Native64.wf64 bound → bound ≠ 0 →
        (Emu128.lua_pcg_setseq_128_xsl_rr_64_boundedrand_r Native64.backend fuel rng bound q0 t0).map
            (fun p => (p.1, Emu128.abs_state (fun x => x) p.2))
          = Native128.lua_pcg_setseq_128_xsl_rr_64_boundedrand_r fuel (Emu128.abs_state (fun x => x) rng) (bound))
      ∧ (∀ (fuel : Nat) (junk : Nat) (ops : List (EngineOp (lua_pcg_u128 Nat) Nat)) (rng : Emu128.lua_pcg_state_setseq_128 Nat),
        129 ≤ fuel → Emu128.wf_state Native64.wf64 rng →
        (∀ op ∈ ops, op.All (Emu128.wf128 Native64.wf64) (fun b => Native64.wf64 b ∧ b ≠ 0)) →
        (run_ops (Emu128.run_op Native64.backend fuel junk) ops rng).map (fun p => (p.1.map (fun x => x), Emu128.abs_state (fun x => x) p.2))
          = run_ops (Native128.run_op fuel) (ops.map (EngineOp.map (Emu128.val128 (fun x => x)) (fun x => x))) (Emu128.abs_state (fun x => x) rng))) := by
  refine ⟨?_, ?_⟩
  · refine ⟨?_, ?_, ?_, ?_, ?_, ?_, ?_⟩
    · intro prior prior1 initstate initseq hs hq
      exact Emu128.srandom_128_sim Emu64.backend Emu64.ops_lawful_emu prior prior1 initstate initseq hs hq
    · intro rng h
      exact Emu128.step_128_sim Emu64.backend Emu64.ops_lawful_emu rng h
    · intro state h
      exact ⟨Emu128.output_emu_wf Emu64.backend Emu64.ops_lawful_emu state h, Emu128.output_128_sim Emu64.backend Emu64.ops_lawful_emu state h⟩
    · intro rng h
      obtain ⟨_, w, e1, e2⟩ := Emu128.random_128_sim Emu64.backend Emu64.ops_lawful_emu rng h
      exact ⟨w, e1, e2⟩
    · intro fuel rng delta hf h hd
      obtain ⟨rng1, e, w, _, ea⟩ := Emu128.advance_128_sim Emu64.backend Emu64.ops_lawful_emu fuel rng delta hf h hd
      exact ⟨rng1, e, w, ea⟩
    · intro fuel rng bound q0 t0 hf h hb hb0
      exact (Emu128.boundedrand_128_sim Emu64.backend Emu64.ops_lawful_emu Emu64.div_lawful_emu fuel rng bound q0 t0 hf h hb hb0).1
    · intro fuel junk ops rng hf h hops
      exact (run_ops_sim (Emu128.run_op Emu64.backend fuel junk) (Native128.run_op fuel)
        (Emu128.wf_state Emu64.wf64) (fun op => op.All (Emu128.wf128 Emu64.wf64) (fun b => Emu64.wf64 b ∧ Emu64.val64 b ≠ 0))
        (Emu128.abs_state Emu64.val64) Emu64.val64 (EngineOp.map (Emu128.val128 Emu64.val64) Emu64.val64)
        (fun g op hg hop => Emu128.run_op_128_sim Emu64.backend Emu64.ops_lawful_emu Emu64.div_lawful_emu fuel junk hf g op hg hop)
        ops rng h hops).1
  · refine ⟨?_, ?_, ?_, ?_, ?_, ?_, ?_⟩
    · intro prior prior1 initstate initseq hs hq
      exact Emu128.srandom_128_sim Native64.backend Native64.ops_lawful_native prior prior1 initstate initseq hs hq
    · intro rng h
      exact Emu128.step_128_sim Native64.backend Native64.ops_lawful_native rng h
    · intro state h
      exact ⟨Emu128.output_emu_wf Native64.backend Native64.ops_lawful_native state h, Emu128.output_128_sim Native64.backend Native64.ops_lawful_native state h⟩
    · intro rng h
      obtain ⟨_, w, e1, e2⟩ := Emu128.random_128_sim Native64.backend Native64.ops_lawful_native rng h
      exact ⟨w, e1, e2⟩
    · intro fuel rng delta hf h hd
      obtain ⟨rng1, e, w, _, ea⟩ := Emu128.advance_128_sim Native64.backend Native64.ops_lawful_native fuel rng delta hf h hd
      exact ⟨rng1, e, w, ea⟩
    · intro fuel rng bound q0 t0 hf h hb hb0
      exact (Emu128.boundedrand_128_sim Native64.backend Native64.ops_lawful_native Native64.div_lawful_native fuel rng bound q0 t0 hf h hb hb0).1
    · intro fuel junk ops rng hf h hops
      exact (run_ops_sim (Emu128.run_op Native64.backend fuel junk) (Native128.run_op fuel)
        (Emu128.wf_state Native64.wf64) (fun op => op.All (Emu128.wf128 Native64.wf64) (fun b => Native64.wf64 b ∧ b ≠ 0))
        (Emu128.abs_state (fun x => x)) (fun x => x) (EngineOp.map (Emu128.val128 (fun x => x)) (fun x => x))
        (fun g op hg hop => Emu128.run_op_128_sim Native64.backend Native64.ops_lawful_native Native64.div_lawful_native fuel junk hf g op hg hop)
        ops rng h hops).1

/-- Witness of C16: the fully emulated engine seeded with 42 and 54, drawn from, advanced by 3,
stepped, drawn from below 1000 and drawn from once more. -/
theorem C16_engine_64_bit_identical_witness :
    129 ≤ 129 ∧ Emu128.wf_state Emu64.wf64 ⟨⟨⟨0, 0⟩, ⟨0, 0⟩⟩, ⟨⟨0, 0⟩, ⟨0, 0⟩⟩⟩
    ∧ (∀ op ∈ ([.seed ⟨⟨42, 0⟩, ⟨0, 0⟩⟩ ⟨⟨54, 0⟩, ⟨0, 0⟩⟩, .next, .advance ⟨⟨3, 0⟩, ⟨0, 0⟩⟩, .step,
          .boundedNext ⟨1000, 0⟩, .next] : List (EngineOp (lua_pcg_u128 Emu64.lua_pcg_u64) Emu64.lua_pcg_u64)),
        op.All (Emu128.wf128 Emu64.wf64) (fun b => Emu64.wf64 b ∧ Emu64.val64 b ≠ 0))
    ∧ run_ops (Emu128.run_op Emu64.backend 129 ⟨0, 0⟩)
        [.seed ⟨⟨42, 0⟩, ⟨0, 0⟩⟩ ⟨⟨54, 0⟩, ⟨0, 0⟩⟩, .next, .advance ⟨⟨3, 0⟩, ⟨0, 0⟩⟩, .step,
          .boundedNext ⟨1000, 0⟩, .next] ⟨⟨⟨0, 0⟩, ⟨0, 0⟩⟩, ⟨⟨0, 0⟩, ⟨0, 0⟩⟩⟩
        = .ok ([⟨1913006952, 2259802653⟩, ⟨526, 0⟩, ⟨1199789242, 2095171583⟩],
            ⟨⟨⟨1327805647, 766377358⟩, ⟨75725523, 1381598651⟩⟩, ⟨⟨109, 0⟩, ⟨0, 0⟩⟩⟩)
    ∧ (run_ops (Emu128.run_op Emu64.backend 129 ⟨0, 0⟩)
        [.seed ⟨⟨42, 0⟩, ⟨0, 0⟩⟩ ⟨⟨54, 0⟩, ⟨0, 0⟩⟩, .next, .advance ⟨⟨3, 0⟩, ⟨0, 0⟩⟩, .step,
          .boundedNext ⟨1000, 0⟩, .next] ⟨⟨⟨0, 0⟩, ⟨0, 0⟩⟩, ⟨⟨0, 0⟩, ⟨0, 0⟩⟩⟩).map
          (fun p => (p.1.map Emu64.val64, Emu128.abs_state Emu64.val64 p.2))
        = run_ops (Native128.run_op 129)
            (([.seed ⟨⟨42, 0⟩, ⟨0, 0⟩⟩ ⟨⟨54, 0⟩, ⟨0, 0⟩⟩, .next, .advance ⟨⟨3, 0⟩, ⟨0, 0⟩⟩, .step,
          .boundedNext ⟨1000, 0⟩, .next] : List (EngineOp (lua_pcg_u128 Emu64.lua_pcg_u64) Emu64.lua_pcg_u64)).map
                (EngineOp.map (Emu128.val128 Emu64.val64) Emu64.val64))
            (Emu128.abs_state Emu64.val64 ⟨⟨⟨0, 0⟩, ⟨0, 0⟩⟩, ⟨⟨0, 0⟩, ⟨0, 0⟩⟩⟩) :=
  ⟨by decide, ⟨⟨⟨by decide, by decide⟩, ⟨by decide, by decide⟩⟩, ⟨⟨by decide, by decide⟩, ⟨by decide, by decide⟩⟩⟩,
    (by simp [EngineOp.All, Emu64.wf64, Emu128.wf128, Emu64.val64]), by rfl,
    C16_engine_64_bit_identical.1.2.2.2.2.2.2 129 ⟨0, 0⟩ _ ⟨⟨⟨0, 0⟩, ⟨0, 0⟩⟩, ⟨⟨0, 0⟩, ⟨0, 0⟩⟩⟩ (by decide)
      ⟨⟨⟨by decide, by decide⟩, ⟨by decide, by decide⟩⟩, ⟨⟨by decide, by decide⟩, ⟨by decide, by decide⟩⟩⟩
      (by simp [EngineOp.All, Emu64.wf64, Emu128.wf128, Emu64.val64])⟩

/-- C17: the emulated `lua_pcg_u64_mul(a, b)` is `(a * b) mod 2^64` on the represented values, for
every pair of emulated 64-bit values, and so equals the native truncating product
`lua_pcg_u64_mul` of the native build. -/
theorem C17_emulated_mul_64 (a b : Emu64.lua_pcg_u64) (ha : Emu64.wf64 a) (hb : Emu64.wf64 b) :
    Emu64.wf64 (Emu64.lua_pcg_u64_mul a b)
    ∧ Emu64.val64 (Emu64.lua_pcg_u64_mul a b) = (Emu64.val64 a * Emu64.val64 b) % 2 ^ 64
    ∧ Emu64.val64 (Emu64.lua_pcg_u64_mul a b)
        = Native64.lua_pcg_u64_mul (Emu64.val64 a) (Emu64.val64 b) := by
  have hv := Emu64.mul_val64 a b ha hb
  refine ⟨Emu64.mul_wf64 a b, hv, ?_⟩
  rw [hv, Native64.lua_pcg_u64_mul, lua_pcg_u64_cast_eq, wrap64_eq, Nat.mod_mod]

/-- Witness of C17: `(2^64 - 1) * (2^64 - 1) = 1 mod 2^64`. -/
theorem C17_emulated_mul_64_witness :
    Emu64.wf64 ⟨4294967295, 4294967295⟩
    ∧ Emu64.lua_pcg_u64_mul ⟨4294967295, 4294967295⟩ ⟨4294967295, 4294967295⟩ = ⟨1, 0⟩
    ∧ Emu64.val64 (Emu64.lua_pcg_u64_mul ⟨4294967295, 4294967295⟩ ⟨4294967295, 4294967295⟩)
        = (Emu64.val64 ⟨4294967295, 4294967295⟩ * Emu64.val64 ⟨4294967295, 4294967295⟩) % 2 ^ 64 :=
  ⟨⟨by decide, by decide⟩, by rfl,
    (C17_emulated_mul_64 ⟨4294967295, 4294967295⟩ ⟨4294967295, 4294967295⟩
      ⟨by decide, by decide⟩ ⟨by decide, by decide⟩).2.1⟩

/-- C18: the widening multiply `lua_pcg_u64_mul_ex(a, b)` returns the exact 128-bit product,
`low + high * 2^64 = a * b`, in two well-formed limbs: in the build on emulated 64-bit limbs and
in the build on native 64-bit limbs. -/
theorem C18_widening_mul_exact :
    (∀ (a b : Emu64.lua_pcg_u64), Emu64.wf64 a → Emu64.wf64 b →
      Emu64.wf64 (Emu64.lua_pcg_u64_mul_ex a b).low ∧ Emu64.wf64 (Emu64.lua_pcg_u64_mul_ex a b).high
      ∧ Emu64.val64 (Emu64.lua_pcg_u64_mul_ex a b).low
          + 2 ^ 64 * Emu64.val64 (Emu64.lua_pcg_u64_mul_ex a b).high
        = Emu64.val64 a * Emu64.val64 b)
    ∧ (∀ (a b : Nat), a < 2 ^ 64 → b < 2 ^ 64 →
      (Native64.lua_pcg_u64_mul_ex a b).low < 2 ^ 64 ∧ (Native64.lua_pcg_u64_mul_ex a b).high < 2 ^ 64
      ∧ (Native64.lua_pcg_u64_mul_ex a b).low + 2 ^ 64 * (Native64.lua_pcg_u64_mul_ex a b).high
        = a * b) := by
  constructor
  · intro a b ha hb
    exact Emu64.u64_mul_ex_spec_emu a b ha hb
  · intro a b ha hb
    exact Native64.u64_mul_ex_spec_native a b ha hb

/-- Witness of C18: `(2^64 - 1) * (2^64 - 1) = 1 + (2^64 - 2) * 2^64` on emulated limbs. -/
theorem C18_widening_mul_exact_witness :
    Emu64.wf64 ⟨4294967295, 4294967295⟩
    ∧ Emu64.lua_pcg_u64_mul_ex ⟨4294967295, 4294967295⟩ ⟨4294967295, 4294967295⟩
        = ⟨⟨1, 0⟩, ⟨4294967294, 4294967295⟩⟩
    ∧ Emu64.val64 (Emu64.lua_pcg_u64_mul_ex ⟨4294967295, 4294967295⟩ ⟨4294967295, 4294967295⟩).low
          + 2 ^ 64
            * Emu64.val64 (Emu64.lua_pcg_u64_mul_ex ⟨4294967295, 4294967295⟩ ⟨4294967295, 4294967295⟩).high
        = Emu64.val64 ⟨4294967295, 4294967295⟩ * Emu64.val64 ⟨4294967295, 4294967295⟩ :=
  ⟨⟨by decide, by decide⟩, by rfl,
    (C18_widening_mul_exact.1 ⟨4294967295, 4294967295⟩ ⟨4294967295, 4294967295⟩
      ⟨by decide, by decide⟩ ⟨by decide, by decide⟩).2.2⟩

/-- C19: the emulated `lua_pcg_u128_mul(a, b)` is `(a * b) mod 2^128` on the represented values, in
two well-formed limbs, for every pair of emulated 128-bit values: over emulated 64-bit limbs and
over native 64-bit limbs. -/
theorem C19_emulated_mul_128 :
    (∀ (a b : lua_pcg_u128 Emu64.lua_pcg_u64), Emu128.wf128 Emu64.wf64 a → Emu128.wf128 Emu64.wf64 b →
      Emu128.wf128 Emu64.wf64 (Emu128.lua_pcg_u128_mul Emu64.ops a b)
      ∧ Emu128.val128 Emu64.val64 (Emu128.lua_pcg_u128_mul Emu64.ops a b)
          = (Emu128.val128 Emu64.val64 a * Emu128.val128 Emu64.val64 b) % 2 ^ 128)
    ∧ (∀ (a b : lua_pcg_u128 Nat), Emu128.wf128 Native64.wf64 a → Emu128.wf128 Native64.wf64 b →
      Emu128.wf128 Native64.wf64 (Emu128.lua_pcg_u128_mul Native64.ops a b)
      ∧ Emu128.val128 (fun x => x) (Emu128.lua_pcg_u128_mul Native64.ops a b)
          = (Emu128.val128 (fun x => x) a * Emu128.val128 (fun x => x) b) % 2 ^ 128) := by
  constructor
  · intro a b ha hb
    exact Emu128.mul_spec128 Emu64.ops_lawful_emu a b ha hb
  · intro a b ha hb
    exact Emu128.mul_spec128 Native64.ops_lawful_native a b ha hb

/-- Witness of C19: `(2^128 - 1) * (2^128 - 1) = 1 mod 2^128` on emulated limbs. -/
theorem C19_emulated_mul_128_witness :
    Emu128.wf128 Emu64.wf64 ⟨⟨4294967295, 4294967295⟩, ⟨4294967295, 4294967295⟩⟩
    ∧ Emu128.lua_pcg_u128_mul Emu64.ops ⟨⟨4294967295, 4294967295⟩, ⟨4294967295, 4294967295⟩⟩
          ⟨⟨4294967295, 4294967295⟩, ⟨4294967295, 4294967295⟩⟩
        = ⟨⟨1, 0⟩, ⟨0, 0⟩⟩
    ∧ Emu128.val128 Emu64.val64
          (Emu128.lua_pcg_u128_mul Emu64.ops ⟨⟨4294967295, 4294967295⟩, ⟨4294967295, 4294967295⟩⟩
            ⟨⟨4294967295, 4294967295⟩, ⟨4294967295, 4294967295⟩⟩)
        = (Emu128.val128 Emu64.val64 ⟨⟨4294967295, 4294967295⟩, ⟨4294967295, 4294967295⟩⟩
            * Emu128.val128 Emu64.val64 ⟨⟨4294967295, 4294967295⟩, ⟨4294967295, 4294967295⟩⟩)
          % 2 ^ 128 :=
  ⟨⟨⟨by decide, by decide⟩, ⟨by decide, by decide⟩⟩, by rfl,
    (C19_emulated_mul_128.1 ⟨⟨4294967295, 4294967295⟩, ⟨4294967295, 4294967295⟩⟩
      ⟨⟨4294967295, 4294967295⟩, ⟨4294967295, 4294967295⟩⟩
      ⟨⟨by decide, by decide⟩, ⟨by decide, by decide⟩⟩
      ⟨⟨by decide, by decide⟩, ⟨by decide, by decide⟩⟩).2⟩

/-- C20: emulated addition is addition modulo `2^N` on the represented values, the carry of the
low limb going into the high limb: `lua_pcg_u64_sum(a, b) = (a + b) mod 2^64`, and
`lua_pcg_u128_sum(a, b) = (a + b) mod 2^128` over emulated and over native 64-bit limbs. -/
theorem C20_emulated_sum :
    (∀ (a b : Emu64.lua_pcg_u64), Emu64.wf64 a → Emu64.wf64 b →
      Emu64.wf64 (Emu64.lua_pcg_u64_sum a b)
      ∧ Emu64.val64 (Emu64.lua_pcg_u64_sum a b) = (Emu64.val64 a + Emu64.val64 b) % 2 ^ 64)
    ∧ (∀ (a b : lua_pcg_u128 Emu64.lua_pcg_u64), Emu128.wf128 Emu64.wf64 a → Emu128.wf128 Emu64.wf64 b →
      Emu128.wf128 Emu64.wf64 (Emu128.lua_pcg_u128_sum Emu64.ops a b)
      ∧ Emu128.val128 Emu64.val64 (Emu128.lua_pcg_u128_sum Emu64.ops a b)
          = (Emu128.val128 Emu64.val64 a + Emu128.val128 Emu64.val64 b) % 2 ^ 128)
    ∧ (∀ (a b : lua_pcg_u128 Nat), Emu128.wf128 Native64.wf64 a → Emu128.wf128 Native64.wf64 b →
      Emu128.wf128 Native64.wf64 (Emu128.lua_pcg_u128_sum Native64.ops a b)
      ∧ Emu128.val128 (fun x => x) (Emu128.lua_pcg_u128_sum Native64.ops a b)
          = (Emu128.val128 (fun x => x) a + Emu128.val128 (fun x => x) b) % 2 ^ 128) := by
  refine ⟨?_, ?_, ?_⟩
  · intro a b ha hb
    exact ⟨Emu64.sum_wf64 a b, Emu64.sum_val64 a b ha hb⟩
  · intro a b ha hb
    exact Emu128.sum_spec128 Emu64.ops_lawful_emu a b ha hb
  · intro a b ha hb
    exact Emu128.sum_spec128 Native64.ops_lawful_native a b ha hb

/-- Witness of C20: `(2^32 - 1) + 1` carries into the high word, and `(2^64 - 1) + 1` into the
high limb. -/
theorem C20_emulated_sum_witness :
    Emu64.wf64 ⟨4294967295, 0⟩ ∧ Emu64.wf64 ⟨1, 0⟩
    ∧ Emu64.lua_pcg_u64_sum ⟨4294967295, 0⟩ ⟨1, 0⟩ = ⟨0, 1⟩
    ∧ Emu128.lua_pcg_u128_sum Emu64.ops ⟨⟨4294967295, 4294967295⟩, ⟨0, 0⟩⟩ ⟨⟨1, 0⟩, ⟨0, 0⟩⟩
        = ⟨⟨0, 0⟩, ⟨1, 0⟩⟩
    ∧ Emu64.val64 (Emu64.lua_pcg_u64_sum ⟨4294967295, 0⟩ ⟨1, 0⟩)
        = (Emu64.val64 ⟨4294967295, 0⟩ + Emu64.val64 ⟨1, 0⟩) % 2 ^ 64 :=
  ⟨⟨by decide, by decide⟩, ⟨by decide, by decide⟩, by rfl, by rfl,
    (C20_emulated_sum.1 ⟨4294967295, 0⟩ ⟨1, 0⟩ ⟨by decide, by decide⟩ ⟨by decide, by decide⟩).2⟩

namespace Emu64

/-- Right shift by any count: counts of 64 and more give zero. -/
theorem rsh_val64_all (a : lua_pcg_u64) (n : Nat) (ha : wf64 a) :
    val64 (lua_pcg_u64_rsh a n) = val64 a / 2 ^ n := by
  by_cases hn : n < 64
  · exact rsh_val64 a n ha hn
  · have h0 : ¬ n ≤ 0 := by omega
    have h64 : n ≥ 64 := by omega
    have hlt := val64_lt a ha
    have hp : 2 ^ 64 ≤ 2 ^ n := Nat.pow_le_pow_right (by norm_num) h64
    rw [Nat.div_eq_of_lt (by omega)]
    simp only [lua_pcg_u64_rsh, if_neg h0, if_pos h64, val64]
    norm_num

/-- Left shift by any count: counts of 64 and more give zero. -/
theorem lsh_val64_all (a : lua_pcg_u64) (n : Nat) (ha : wf64 a) :
    val64 (lua_pcg_u64_lsh a n) = (val64 a * 2 ^ n) % 2 ^ 64 := by
  by_cases hn : n < 64
  · exact lsh_val64 a n ha hn
  · have h0 : ¬ n ≤ 0 := by omega
    have h64 : n ≥ 64 := by omega
    have hd : 2 ^ 64 ∣ val64 a * 2 ^ n :=
      Dvd.dvd.mul_left (pow_dvd_pow 2 h64) _
    rw [Nat.mod_eq_zero_of_dvd hd]
    simp only [lua_pcg_u64_lsh, if_neg h0, if_pos h64, val64]
    norm_num

theorem neq_iff64 (a b : lua_pcg_u64) (ha : wf64 a) (hb : wf64 b) :
    lua_pcg_u64_neq a b = true ↔ val64 a ≠ val64 b := by
  rw [lua_pcg_u64_neq, Bool.not_eq_true', ← Bool.not_eq_true, eq_iff64 a b ha hb]

theorem le_iff64 (a b : lua_pcg_u64) (ha : wf64 a) (hb : wf64 b) :
    lua_pcg_u64_le a b = true ↔ val64 a ≤ val64 b := by
  rw [lua_pcg_u64_le, Bool.not_eq_true', ← Bool.not_eq_true, gt_iff64 a b ha hb]
  omega

theorem ge_iff64 (a b : lua_pcg_u64) (ha : wf64 a) (hb : wf64 b) :
    lua_pcg_u64_ge a b = true ↔ val64 b ≤ val64 a := by
  rw [lua_pcg_u64_ge, Bool.not_eq_true', ← Bool.not_eq_true, lt_iff64 a b ha hb]
  omega

end Emu64

namespace Emu128

variable {α : Type} {O : U64Ops α} {wf : α → Prop} {val : α → Nat}

theorem neq_iff128 (L : O.Lawful wf val) (a b : lua_pcg_u128 α) (ha : wf128 wf a) (hb : wf128 wf b) :
    lua_pcg_u128_neq O a b = true ↔ val128 val a ≠ val128 val b := by
  rw [lua_pcg_u128_neq, Bool.not_eq_true', ← Bool.not_eq_true, eq_iff128 L a b ha hb]

theorem le_iff128 (L : O.Lawful wf val) (a b : lua_pcg_u128 α) (ha : wf128 wf a) (hb : wf128 wf b) :
    lua_pcg_u128_le O a b = true ↔ val128 val a ≤ val128 val b := by
  rw [lua_pcg_u128_le, Bool.not_eq_true', ← Bool.not_eq_true, gt_iff128 L a b ha hb]
  omega

theorem ge_iff128 (L : O.Lawful wf val) (a b : lua_pcg_u128 α) (ha : wf128 wf a) (hb : wf128 wf b) :
    lua_pcg_u128_ge O a b = true ↔ val128 val b ≤ val128 val a := by
  rw [lua_pcg_u128_ge, Bool.not_eq_true', ← Bool.not_eq_true, lt_iff128 L a b ha hb]
  omega

/-- The six comparisons of the 128-bit emulation follow the order of the represented values. -/
theorem compare_spec128 (L : O.Lawful wf val) (a b : lua_pcg_u128 α) (ha : wf128 wf a)
    (hb : wf128 wf b) :
    (lua_pcg_u128_lt O a b = true ↔ val128 val a < val128 val b)
    ∧ (lua_pcg_u128_gt O a b = true ↔ val128 val a > val128 val b)
    ∧ (lua_pcg_u128_eq O a b = true ↔ val128 val a = val128 val b)
    ∧ (lua_pcg_u128_neq O a b = true ↔ val128 val a ≠ val128 val b)
    ∧ (lua_pcg_u128_le O a b = true ↔ val128 val a ≤ val128 val b)
    ∧ (lua_pcg_u128_ge O a b = true ↔ val128 val a ≥ val128 val b)
    ∧ ((lua_pcg_u128_lt O a b = true ∧ lua_pcg_u128_eq O a b = false ∧ lua_pcg_u128_gt O a b = false)
      ∨ (lua_pcg_u128_lt O a b = false ∧ lua_pcg_u128_eq O a b = true ∧ lua_pcg_u128_gt O a b = false)
      ∨ (lua_pcg_u128_lt O a b = false ∧ lua_pcg_u128_eq O a b = false ∧ lua_pcg_u128_gt O a b = true)) := by
  have hlt := lt_iff128 L a b ha hb
  have hgt := gt_iff128 L a b ha hb
  have heq := eq_iff128 L a b ha hb
  refine ⟨hlt, hgt, heq, neq_iff128 L a b ha hb, le_iff128 L a b ha hb, ge_iff128 L a b ha hb, ?_⟩
  rcases Nat.lt_trichotomy (val128 val a) (val128 val b) with h | h | h
  · left
    refine ⟨hlt.mpr h, ?_, ?_⟩
    · rw [← Bool.not_eq_true, heq]
      omega
    · rw [← Bool.not_eq_true, hgt]
      omega
  · right
    left
    refine ⟨?_, heq.mpr h, ?_⟩
    · rw [← Bool.not_eq_true, hlt]
      omega
    · rw [← Bool.not_eq_true, hgt]
      omega
  · right
    right
    refine ⟨?_, ?_, hgt.mpr h⟩
    · rw [← Bool.not_eq_true, hlt]
      omega
    · rw [← Bool.not_eq_true, heq]
      omega

/-- Negation and subtraction of the 128-bit emulation, on the represented values. -/
theorem negation_spec128 (L : O.Lawful wf val) (a b : lua_pcg_u128 α) (ha : wf128 wf a)
    (hb : wf128 wf b) :
    lua_pcg_u128_additive_inverse O a
        = lua_pcg_u128_sum O (lua_pcg_u128_bnot O a)
            (O.lua_pcg_u128_lh (O.lua_pcg_u64_lh 1 0) (O.lua_pcg_u64_lh 0 0))
    ∧ lua_pcg_u128_subtraction O a b = lua_pcg_u128_sum O a (lua_pcg_u128_additive_inverse O b)
    ∧ val128 val (lua_pcg_u128_bnot O a) = 2 ^ 128 - 1 - val128 val a
    ∧ wf128 wf (lua_pcg_u128_additive_inverse O a)
    ∧ val128 val (lua_pcg_u128_additive_inverse O a)
        = (val128 val (lua_pcg_u128_bnot O a) + 1) % 2 ^ 128
    ∧ val128 val (lua_pcg_u128_additive_inverse O a) = (2 ^ 128 - val128 val a) % 2 ^ 128
    ∧ wf128 wf (lua_pcg_u128_subtraction O a b)
    ∧ val128 val (lua_pcg_u128_subtraction O a b)
        = (val128 val a + 2 ^ 128 - val128 val b) % 2 ^ 128
    ∧ ((val128 val (lua_pcg_u128_subtraction O a b) : Int)
        = ((val128 val a : Int) - (val128 val b : Int)) % 2 ^ 128)
    ∧ val128 val (lua_pcg_u128_sum O a (lua_pcg_u128_additive_inverse O a)) = 0 := by
  have hlta := val128_lt L a ha
  have hltb := val128_lt L b hb
  obtain ⟨wn, vn⟩ := bnot_spec128 L a ha
  obtain ⟨wi, vi⟩ := additive_inverse_spec128 L a ha
  obtain ⟨ws, vs⟩ := subtraction_spec128 L a b ha hb
  obtain ⟨wz, vz⟩ := sum_spec128 L a _ ha wi
  refine ⟨rfl, rfl, vn, wi, ?_, vi, ws, vs, ?_, ?_⟩
  · rw [vi, vn]
    omega
  · rw [vs]
    omega
  · rw [vz, vi]
    omega

end Emu128

namespace Emu128

variable {α : Type} {O : U64Ops α} {wf : α → Prop} {val : α → Nat}

/-- The shifts of the 128-bit emulation for every count, and the counts 0, 64, 127 and 128 or
more. -/
theorem shift_spec128 (L : O.Lawful wf val) (v : lua_pcg_u128 α) (n : Nat) (hv : wf128 wf v) :
    wf128 wf (lua_pcg_u128_rsh O v n)
    ∧ val128 val (lua_pcg_u128_rsh O v n) = val128 val v / 2 ^ n
    ∧ wf128 wf (lua_pcg_u128_lsh O v n)
    ∧ val128 val (lua_pcg_u128_lsh O v n) = (val128 val v * 2 ^ n) % 2 ^ 128
    ∧ lua_pcg_u128_rsh O v 0 = v
    ∧ lua_pcg_u128_lsh O v 0 = v
    ∧ lua_pcg_u128_rsh O v 64 = ⟨v.high, O.lua_pcg_u64_lh 0 0⟩
    ∧ lua_pcg_u128_lsh O v 64 = ⟨O.lua_pcg_u64_lh 0 0, v.low⟩
    ∧ val128 val (lua_pcg_u128_rsh O v 127) ≤ 1
    ∧ val128 val (lua_pcg_u128_lsh O v 127) = 2 ^ 127 * (val128 val v % 2)
    ∧ (128 ≤ n → lua_pcg_u128_rsh O v n = ⟨O.lua_pcg_u64_lh 0 0, O.lua_pcg_u64_lh 0 0⟩
        ∧ lua_pcg_u128_lsh O v n = ⟨O.lua_pcg_u64_lh 0 0, O.lua_pcg_u64_lh 0 0⟩
        ∧ val128 val (lua_pcg_u128_rsh O v n) = 0 ∧ val128 val (lua_pcg_u128_lsh O v n) = 0) := by
  have hlt := val128_lt L v hv
  obtain ⟨wr, vr⟩ := rsh_spec128 L v n hv
  obtain ⟨wl, vl⟩ := lsh_spec128 L v n hv
  obtain ⟨_, vr127⟩ := rsh_spec128 L v 127 hv
  obtain ⟨_, vl127⟩ := lsh_spec128 L v 127 hv
  have c1 := L.clone_eq _ hv.1
  have c2 := L.clone_eq _ hv.2
  refine ⟨wr, vr, wl, vl, ?_, ?_, ?_, ?_, ?_, ?_, ?_⟩
  · simp only [lua_pcg_u128_rsh, le_refl, if_true, c1, c2]
  · simp only [lua_pcg_u128_lsh, le_refl, if_true, c1, c2]
  · simp only [lua_pcg_u128_rsh, c2]
    norm_num
  · simp only [lua_pcg_u128_lsh, c1]
    norm_num
  · rw [vr127]
    omega
  · rw [vl127]
    omega
  · intro hn
    have h0 : ¬ n ≤ 0 := by omega
    have hr : lua_pcg_u128_rsh O v n = ⟨O.lua_pcg_u64_lh 0 0, O.lua_pcg_u64_lh 0 0⟩ := by
      simp only [lua_pcg_u128_rsh, if_neg h0, if_pos hn]
    have hl : lua_pcg_u128_lsh O v n = ⟨O.lua_pcg_u64_lh 0 0, O.lua_pcg_u64_lh 0 0⟩ := by
      simp only [lua_pcg_u128_lsh, if_neg h0, if_pos hn]
    refine ⟨hr, hl, ?_, ?_⟩
    · rw [hr]
      simp only [val128, lh_zero_val L]
      norm_num
    · rw [hl]
      simp only [val128, lh_zero_val L]
      norm_num

end Emu128

/-- C21: emulated subtraction goes through two's-complement negation and is subtraction modulo
`2^N`: `additive_inverse(v)` is `sum(bnot(v), 1)`, with value `(~v + 1) mod 2^N = (2^N - v) mod 2^N`;
`subtraction(a, b)` is `sum(a, additive_inverse(b))`, with value `(a - b) mod 2^N`; and
`sum(v, additive_inverse(v))` is zero.  At width 64 on the emulated `lua_pcg_u64`, at width 128 over
emulated and over native 64-bit limbs. -/
theorem C21_emulated_subtraction :
    (∀ (a b : Emu64.lua_pcg_u64), Emu64.wf64 a → Emu64.wf64 b →
      Emu64.lua_pcg_u64_additive_inverse a
          = Emu64.lua_pcg_u64_sum (Emu64.lua_pcg_u64_bnot a) (Emu64.lua_pcg_u64_lh 1 0)
      ∧ Emu64.lua_pcg_u64_subtraction a b
          = Emu64.lua_pcg_u64_sum a (Emu64.lua_pcg_u64_additive_inverse b)
      ∧ Emu64.val64 (Emu64.lua_pcg_u64_bnot a) = 2 ^ 64 - 1 - Emu64.val64 a
      ∧ Emu64.wf64 (Emu64.lua_pcg_u64_additive_inverse a)
      ∧ Emu64.val64 (Emu64.lua_pcg_u64_additive_inverse a)
          = (Emu64.val64 (Emu64.lua_pcg_u64_bnot a) + 1) % 2 ^ 64
      ∧ Emu64.val64 (Emu64.lua_pcg_u64_additive_inverse a) = (2 ^ 64 - Emu64.val64 a) % 2 ^ 64
      ∧ Emu64.wf64 (Emu64.lua_pcg_u64_subtraction a b)
      ∧ Emu64.val64 (Emu64.lua_pcg_u64_subtraction a b)
          = (Emu64.val64 a + 2 ^ 64 - Emu64.val64 b) % 2 ^ 64
      ∧ ((Emu64.val64 (Emu64.lua_pcg_u64_subtraction a b) : Int)
          = ((Emu64.val64 a : Int) - (Emu64.val64 b : Int)) % 2 ^ 64)
      ∧ Emu64.val64 (Emu64.lua_pcg_u64_sum a (Emu64.lua_pcg_u64_additive_inverse a)) = 0)
    ∧ (∀ (a b : lua_pcg_u128 Emu64.lua_pcg_u64), Emu128.wf128 Emu64.wf64 a → Emu128.wf128 Emu64.wf64 b →
      Emu128.lua_pcg_u128_additive_inverse Emu64.ops a
          = Emu128.lua_pcg_u128_sum Emu64.ops (Emu128.lua_pcg_u128_bnot Emu64.ops a)
              (Emu64.ops.lua_pcg_u128_lh (Emu64.ops.lua_pcg_u64_lh 1 0) (Emu64.ops.lua_pcg_u64_lh 0 0))
      ∧ Emu128.lua_pcg_u128_subtraction Emu64.ops a b
          = Emu128.lua_pcg_u128_sum Emu64.ops a (Emu128.lua_pcg_u128_additive_inverse Emu64.ops b)
      ∧ Emu128.val128 Emu64.val64 (Emu128.lua_pcg_u128_bnot Emu64.ops a) = 2 ^ 128 - 1 - Emu128.val128 Emu64.val64 a
      ∧ Emu128.wf128 Emu64.wf64 (Emu128.lua_pcg_u128_additive_inverse Emu64.ops a)
      ∧ Emu128.val128 Emu64.val64 (Emu128.lua_pcg_u128_additive_inverse Emu64.ops a)
          = (Emu128.val128 Emu64.val64 (Emu128.lua_pcg_u128_bnot Emu64.ops a) + 1) % 2 ^ 128
      ∧ Emu128.val128 Emu64.val64 (Emu128.lua_pcg_u128_additive_inverse Emu64.ops a) = (2 ^ 128 - Emu128.val128 Emu64.val64 a) % 2 ^ 128
      ∧ Emu128.wf128 Emu64.wf64 (Emu128.lua_pcg_u128_subtraction Emu64.ops a b)
      ∧ Emu128.val128 Emu64.val64 (Emu128.lua_pcg_u128_subtraction Emu64.ops a b) = (Emu128.val128 Emu64.val64 a + 2 ^ 128 - Emu128.val128 Emu64.val64 b) % 2 ^ 128
      ∧ ((Emu128.val128 Emu64.val64 (Emu128.lua_pcg_u128_subtraction Emu64.ops a b) : Int)
          = ((Emu128.val128 Emu64.val64 a : Int) - (Emu128.val128 Emu64.val64 b : Int)) % 2 ^ 128)
      ∧ Emu128.val128 Emu64.val64 (Emu128.lua_pcg_u128_sum Emu64.ops a (Emu128.lua_pcg_u128_additive_inverse Emu64.ops a)) = 0)
    ∧ (∀ (a b : lua_pcg_u128 Nat), Emu128.wf128 Native64.wf64 a → Emu128.wf128 Native64.wf64 b →
      Emu128.lua_pcg_u128_additive_inverse Native64.ops a
          = Emu128.lua_pcg_u128_sum Native64.ops (Emu128.lua_pcg_u128_bnot Native64.ops a)
              (Native64.ops.lua_pcg_u128_lh (Native64.ops.lua_pcg_u64_lh 1 0) (Native64.ops.lua_pcg_u64_lh 0 0))
      ∧ Emu128.lua_pcg_u128_subtraction Native64.ops a b
          = Emu128.lua_pcg_u128_sum Native64.ops a (Emu128.lua_pcg_u128_additive_inverse Native64.ops b)
      ∧ Emu128.val128 (fun x => x) (Emu128.lua_pcg_u128_bnot Native64.ops a) = 2 ^ 128 - 1 - Emu128.val128 (fun x => x) a
      ∧ Emu128.wf128 Native64.wf64 (Emu128.lua_pcg_u128_additive_inverse Native64.ops a)
      ∧ Emu128.val128 (fun x => x) (Emu128.lua_pcg_u128_additive_inverse Native64.ops a)
          = (Emu128.val128 (fun x => x) (Emu128.lua_pcg_u128_bnot Native64.ops a) + 1) % 2 ^ 128
      ∧ Emu128.val128 (fun x => x) (Emu128.lua_pcg_u128_additive_inverse Native64.ops a) = (2 ^ 128 - Emu128.val128 (fun x => x) a) % 2 ^ 128
      ∧ Emu128.wf128 Native64.wf64 (Emu128.lua_pcg_u128_subtraction Native64.ops a b)
      ∧ Emu128.val128 (fun x => x) (Emu128.lua_pcg_u128_subtraction Native64.ops a b) = (Emu128.val128 (fun x => x) a + 2 ^ 128 - Emu128.val128 (fun x => x) b) % 2 ^ 128
      ∧ ((Emu128.val128 (fun x => x) (Emu128.lua_pcg_u128_subtraction Native64.ops a b) : Int)
          = ((Emu128.val128 (fun x => x) a : Int) - (Emu128.val128 (fun x => x) b : Int)) % 2 ^ 128)
      ∧ Emu128.val128 (fun x => x) (Emu128.lua_pcg_u128_sum Native64.ops a (Emu128.lua_pcg_u128_additive_inverse Native64.ops a)) = 0) := by
  refine ⟨?_, ?_, ?_⟩
  · intro a b ha hb
    have hlta := Emu64.val64_lt a ha
    have hltb := Emu64.val64_lt b hb
    have vn := Emu64.bnot_val64 a ha
    have vi := Emu64.additive_inverse_val64 a ha
    have vs := Emu64.subtraction_val64 a b ha hb
    have vz := Emu64.sum_val64 a _ ha (Emu64.additive_inverse_wf64 a)
    refine ⟨rfl, rfl, vn, Emu64.additive_inverse_wf64 a, ?_, vi, Emu64.subtraction_wf64 a b, vs, ?_, ?_⟩
    · rw [vi, vn]
      omega
    · rw [vs]
      omega
    · rw [vz, vi]
      omega
  · intro a b ha hb
    exact Emu128.negation_spec128 Emu64.ops_lawful_emu a b ha hb
  · intro a b ha hb
    exact Emu128.negation_spec128 Native64.ops_lawful_native a b ha hb

/-- Witness of C21: `0 - 1 = 2^64 - 1` on the emulated `lua_pcg_u64`. -/
theorem C21_emulated_subtraction_witness :
    Emu64.wf64 ⟨0, 0⟩ ∧ Emu64.wf64 ⟨1, 0⟩
    ∧ Emu64.lua_pcg_u64_subtraction ⟨0, 0⟩ ⟨1, 0⟩ = ⟨4294967295, 4294967295⟩
    ∧ Emu64.val64 (Emu64.lua_pcg_u64_subtraction ⟨0, 0⟩ ⟨1, 0⟩)
        = (Emu64.val64 ⟨0, 0⟩ + 2 ^ 64 - Emu64.val64 ⟨1, 0⟩) % 2 ^ 64 :=
  ⟨⟨by decide, by decide⟩, ⟨by decide, by decide⟩, by rfl,
    (C21_emulated_subtraction.1 ⟨0, 0⟩ ⟨1, 0⟩ ⟨by decide, by decide⟩
      ⟨by decide, by decide⟩).2.2.2.2.2.2.2.1⟩

/-- C22: for every emulated 64-bit value `v` and every shift count `n`, `lua_pcg_u64_rsh(v, n)` is
`floor(v / 2^n)` and `lua_pcg_u64_lsh(v, n)` is `(v * 2^n) mod 2^64`; a count of 0 returns `v`, a
count of 32 moves one word into the other and clears the vacated word, a count of 63 keeps one
bit, and every count of 64 or more gives zero. -/
theorem C22_emulated_shift_64 (v : Emu64.lua_pcg_u64) (n : Nat) (hv : Emu64.wf64 v) :
    Emu64.wf64 (Emu64.lua_pcg_u64_rsh v n)
    ∧ Emu64.val64 (Emu64.lua_pcg_u64_rsh v n) = Emu64.val64 v / 2 ^ n
    ∧ Emu64.wf64 (Emu64.lua_pcg_u64_lsh v n)
    ∧ Emu64.val64 (Emu64.lua_pcg_u64_lsh v n) = (Emu64.val64 v * 2 ^ n) % 2 ^ 64
    ∧ Emu64.lua_pcg_u64_rsh v 0 = v
    ∧ Emu64.lua_pcg_u64_lsh v 0 = v
    ∧ Emu64.lua_pcg_u64_rsh v 32 = ⟨v.high, 0⟩
    ∧ Emu64.lua_pcg_u64_lsh v 32 = ⟨0, v.low⟩
    ∧ Emu64.val64 (Emu64.lua_pcg_u64_rsh v 63) ≤ 1
    ∧ Emu64.val64 (Emu64.lua_pcg_u64_lsh v 63) = 2 ^ 63 * (Emu64.val64 v % 2)
    ∧ (64 ≤ n → Emu64.lua_pcg_u64_rsh v n = ⟨0, 0⟩ ∧ Emu64.lua_pcg_u64_lsh v n = ⟨0, 0⟩) := by
  have hlt := Emu64.val64_lt v hv
  have vr63 := Emu64.rsh_val64_all v 63 hv
  have vl63 := Emu64.lsh_val64_all v 63 hv
  have c1 : lua_pcg_u32_cast v.low = v.low := by
    rw [lua_pcg_u32_cast_eq, Nat.mod_eq_of_lt hv.1]
  have c2 : lua_pcg_u32_cast v.high = v.high := by
    rw [lua_pcg_u32_cast_eq, Nat.mod_eq_of_lt hv.2]
  refine ⟨Emu64.rsh_wf64 v n, Emu64.rsh_val64_all v n hv, Emu64.lsh_wf64 v n,
    Emu64.lsh_val64_all v n hv, ?_, ?_, ?_, ?_, ?_, ?_, ?_⟩
  · simp only [Emu64.lua_pcg_u64_rsh, le_refl, if_true, c1, c2]
  · simp only [Emu64.lua_pcg_u64_lsh, le_refl, if_true, c1, c2]
  · simp only [Emu64.lua_pcg_u64_rsh, c2]
    norm_num
  · simp only [Emu64.lua_pcg_u64_lsh, c1]
    norm_num
  · rw [vr63]
    omega
  · rw [vl63]
    omega
  · intro hn
    have h0 : ¬ n ≤ 0 := by omega
    constructor
    · simp only [Emu64.lua_pcg_u64_rsh, if_neg h0]
      rw [if_pos hn]
    · simp only [Emu64.lua_pcg_u64_lsh, if_neg h0]
      rw [if_pos hn]

/-- Witness of C22: `2^64 - 1` shifted by 63. -/
theorem C22_emulated_shift_64_witness :
    Emu64.wf64 ⟨4294967295, 4294967295⟩
    ∧ Emu64.lua_pcg_u64_rsh ⟨4294967295, 4294967295⟩ 63 = ⟨1, 0⟩
    ∧ Emu64.lua_pcg_u64_lsh ⟨4294967295, 4294967295⟩ 63 = ⟨0, 2147483648⟩
    ∧ Emu64.val64 (Emu64.lua_pcg_u64_rsh ⟨4294967295, 4294967295⟩ 63)
        = Emu64.val64 ⟨4294967295, 4294967295⟩ / 2 ^ 63 :=
  ⟨⟨by decide, by decide⟩, by rfl, by rfl,
    (C22_emulated_shift_64 ⟨4294967295, 4294967295⟩ 63 ⟨by decide, by decide⟩).2.1⟩

/-- C23: for every emulated 128-bit value `v` and every shift count `n`, `lua_pcg_u128_rsh(v, n)` is
`floor(v / 2^n)` and `lua_pcg_u128_lsh(v, n)` is `(v * 2^n) mod 2^128`; a count of 0 returns `v`, a
count of 64 moves one limb into the other and clears the vacated limb, a count of 127 keeps one
bit, and every count of 128 or more gives zero; over emulated and over native 64-bit limbs. -/
theorem C23_emulated_shift_128 :
    (∀ (v : lua_pcg_u128 Emu64.lua_pcg_u64) (n : Nat), Emu128.wf128 Emu64.wf64 v →
      Emu128.wf128 Emu64.wf64 (Emu128.lua_pcg_u128_rsh Emu64.ops v n)
      ∧ Emu128.val128 Emu64.val64 (Emu128.lua_pcg_u128_rsh Emu64.ops v n) = Emu128.val128 Emu64.val64 v / 2 ^ n
      ∧ Emu128.wf128 Emu64.wf64 (Emu128.lua_pcg_u128_lsh Emu64.ops v n)
      ∧ Emu128.val128 Emu64.val64 (Emu128.lua_pcg_u128_lsh Emu64.ops v n) = (Emu128.val128 Emu64.val64 v * 2 ^ n) % 2 ^ 128
      ∧ Emu128.lua_pcg_u128_rsh Emu64.ops v 0 = v
      ∧ Emu128.lua_pcg_u128_lsh Emu64.ops v 0 = v
      ∧ Emu128.lua_pcg_u128_rsh Emu64.ops v 64 = ⟨v.high, Emu64.ops.lua_pcg_u64_lh 0 0⟩
      ∧ Emu128.lua_pcg_u128_lsh Emu64.ops v 64 = ⟨Emu64.ops.lua_pcg_u64_lh 0 0, v.low⟩
      ∧ Emu128.val128 Emu64.val64 (Emu128.lua_pcg_u128_rsh Emu64.ops v 127) ≤ 1
      ∧ Emu128.val128 Emu64.val64 (Emu128.lua_pcg_u128_lsh Emu64.ops v 127) = 2 ^ 127 * (Emu128.val128 Emu64.val64 v % 2)
      ∧ (128 ≤ n →
          Emu128.lua_pcg_u128_rsh Emu64.ops v n = ⟨Emu64.ops.lua_pcg_u64_lh 0 0, Emu64.ops.lua_pcg_u64_lh 0 0⟩
          ∧ Emu128.lua_pcg_u128_lsh Emu64.ops v n = ⟨Emu64.ops.lua_pcg_u64_lh 0 0, Emu64.ops.lua_pcg_u64_lh 0 0⟩
          ∧ Emu128.val128 Emu64.val64 (Emu128.lua_pcg_u128_rsh Emu64.ops v n) = 0
          ∧ Emu128.val128 Emu64.val64 (Emu128.lua_pcg_u128_lsh Emu64.ops v n) = 0))
    ∧ (∀ (v : lua_pcg_u128 Nat) (n : Nat), Emu128.wf128 Native64.wf64 v →
      Emu128.wf128 Native64.wf64 (Emu128.lua_pcg_u128_rsh Native64.ops v n)
      ∧ Emu128.val128 (fun x => x) (Emu128.lua_pcg_u128_rsh Native64.ops v n) = Emu128.val128 (fun x => x) v / 2 ^ n
      ∧ Emu128.wf128 Native64.wf64 (Emu128.lua_pcg_u128_lsh Native64.ops v n)
      ∧ Emu128.val128 (fun x => x) (Emu128.lua_pcg_u128_lsh Native64.ops v n) = (Emu128.val128 (fun x => x) v * 2 ^ n) % 2 ^ 128
      ∧ Emu128.lua_pcg_u128_rsh Native64.ops v 0 = v
      ∧ Emu128.lua_pcg_u128_lsh Native64.ops v 0 = v
      ∧ Emu128.lua_pcg_u128_rsh Native64.ops v 64 = ⟨v.high, Native64.ops.lua_pcg_u64_lh 0 0⟩
      ∧ Emu128.lua_pcg_u128_lsh Native64.ops v 64 = ⟨Native64.ops.lua_pcg_u64_lh 0 0, v.low⟩
      ∧ Emu128.val128 (fun x => x) (Emu128.lua_pcg_u128_rsh Native64.ops v 127) ≤ 1
      ∧ Emu128.val128 (fun x => x) (Emu128.lua_pcg_u128_lsh Native64.ops v 127) = 2 ^ 127 * (Emu128.val128 (fun x => x) v % 2)
      ∧ (128 ≤ n →
          Emu128.lua_pcg_u128_rsh Native64.ops v n = ⟨Native64.ops.lua_pcg_u64_lh 0 0, Native64.ops.lua_pcg_u64_lh 0 0⟩
          ∧ Emu128.lua_pcg_u128_lsh Native64.ops v n = ⟨Native64.ops.lua_pcg_u64_lh 0 0, Native64.ops.lua_pcg_u64_lh 0 0⟩
          ∧ Emu128.val128 (fun x => x) (Emu128.lua_pcg_u128_rsh Native64.ops v n) = 0
          ∧ Emu128.val128 (fun x => x) (Emu128.lua_pcg_u128_lsh Native64.ops v n) = 0)) := by
  constructor
  · intro v n hv
    exact Emu128.shift_spec128 Emu64.ops_lawful_emu v n hv
  · intro v n hv
    exact Emu128.shift_spec128 Native64.ops_lawful_native v n hv

/-- Witness of C23: `2^128 - 1` shifted right by 127 on emulated limbs. -/
theorem C23_emulated_shift_128_witness :
    Emu128.wf128 Emu64.wf64 ⟨⟨4294967295, 4294967295⟩, ⟨4294967295, 4294967295⟩⟩
    ∧ Emu128.lua_pcg_u128_rsh Emu64.ops ⟨⟨4294967295, 4294967295⟩, ⟨4294967295, 4294967295⟩⟩ 127
        = ⟨⟨1, 0⟩, ⟨0, 0⟩⟩
    ∧ Emu128.val128 Emu64.val64
          (Emu128.lua_pcg_u128_rsh Emu64.ops ⟨⟨4294967295, 4294967295⟩, ⟨4294967295, 4294967295⟩⟩ 127)
        = Emu128.val128 Emu64.val64 ⟨⟨4294967295, 4294967295⟩, ⟨4294967295, 4294967295⟩⟩ / 2 ^ 127 :=
  ⟨⟨⟨by decide, by decide⟩, ⟨by decide, by decide⟩⟩, by rfl,
    (C23_emulated_shift_128.1 ⟨⟨4294967295, 4294967295⟩, ⟨4294967295, 4294967295⟩⟩ 127
      ⟨⟨by decide, by decide⟩, ⟨by decide, by decide⟩⟩).2.1⟩

/-- C24: the emulated comparisons agree with the order of the represented values: `lt` iff `<`,
`gt` iff `>`, `eq` iff `=`, `neq` iff `≠`, `le` iff `≤`, `ge` iff `≥`, so that exactly one of `lt`,
`eq`, `gt` holds of every pair; at width 64 on the emulated `lua_pcg_u64`, at width 128 over
emulated and over native 64-bit limbs. -/
theorem C24_emulated_comparisons :
    (∀ (a b : Emu64.lua_pcg_u64), Emu64.wf64 a → Emu64.wf64 b →
      (Emu64.lua_pcg_u64_lt a b = true ↔ Emu64.val64 a < Emu64.val64 b)
      ∧ (Emu64.lua_pcg_u64_gt a b = true ↔ Emu64.val64 a > Emu64.val64 b)
      ∧ (Emu64.lua_pcg_u64_eq a b = true ↔ Emu64.val64 a = Emu64.val64 b)
      ∧ (Emu64.lua_pcg_u64_neq a b = true ↔ Emu64.val64 a ≠ Emu64.val64 b)
      ∧ (Emu64.lua_pcg_u64_le a b = true ↔ Emu64.val64 a ≤ Emu64.val64 b)
      ∧ (Emu64.lua_pcg_u64_ge a b = true ↔ Emu64.val64 a ≥ Emu64.val64 b)
      ∧ ((Emu64.lua_pcg_u64_lt a b = true ∧ Emu64.lua_pcg_u64_eq a b = false
            ∧ Emu64.lua_pcg_u64_gt a b = false)
        ∨ (Emu64.lua_pcg_u64_lt a b = false ∧ Emu64.lua_pcg_u64_eq a b = true
            ∧ Emu64.lua_pcg_u64_gt a b = false)
        ∨ (Emu64.lua_pcg_u64_lt a b = false ∧ Emu64.lua_pcg_u64_eq a b = false
            ∧ Emu64.lua_pcg_u64_gt a b = true)))
    ∧ (∀ (a b : lua_pcg_u128 Emu64.lua_pcg_u64), Emu128.wf128 Emu64.wf64 a → Emu128.wf128 Emu64.wf64 b →
      (Emu128.lua_pcg_u128_lt Emu64.ops a b = true ↔ Emu128.val128 Emu64.val64 a < Emu128.val128 Emu64.val64 b)
      ∧ (Emu128.lua_pcg_u128_gt Emu64.ops a b = true ↔ Emu128.val128 Emu64.val64 a > Emu128.val128 Emu64.val64 b)
      ∧ (Emu128.lua_pcg_u128_eq Emu64.ops a b = true ↔ Emu128.val128 Emu64.val64 a = Emu128.val128 Emu64.val64 b)
      ∧ (Emu128.lua_pcg_u128_neq Emu64.ops a b = true ↔ Emu128.val128 Emu64.val64 a ≠ Emu128.val128 Emu64.val64 b)
      ∧ (Emu128.lua_pcg_u128_le Emu64.ops a b = true ↔ Emu128.val128 Emu64.val64 a ≤ Emu128.val128 Emu64.val64 b)
      ∧ (Emu128.lua_pcg_u128_ge Emu64.ops a b = true ↔ Emu128.val128 Emu64.val64 a ≥ Emu128.val128 Emu64.val64 b)
      ∧ ((Emu128.lua_pcg_u128_lt Emu64.ops a b = true ∧ Emu128.lua_pcg_u128_eq Emu64.ops a b = false ∧ Emu128.lua_pcg_u128_gt Emu64.ops a b = false)
        ∨ (Emu128.lua_pcg_u128_lt Emu64.ops a b = false ∧ Emu128.lua_pcg_u128_eq Emu64.ops a b = true ∧ Emu128.lua_pcg_u128_gt Emu64.ops a b = false)
        ∨ (Emu128.lua_pcg_u128_lt Emu64.ops a b = false ∧ Emu128.lua_pcg_u128_eq Emu64.ops a b = false ∧ Emu128.lua_pcg_u128_gt Emu64.ops a b = true)))
    ∧ (∀ (a b : lua_pcg_u128 Nat), Emu128.wf128 Native64.wf64 a → Emu128.wf128 Native64.wf64 b →
      (Emu128.lua_pcg_u128_lt Native64.ops a b = true ↔ Emu128.val128 (fun x => x) a < Emu128.val128 (fun x => x) b)
      ∧ (Emu128.lua_pcg_u128_gt Native64.ops a b = true ↔ Emu128.val128 (fun x => x) a > Emu128.val128 (fun x => x) b)
      ∧ (Emu128.lua_pcg_u128_eq Native64.ops a b = true ↔ Emu128.val128 (fun x => x) a = Emu128.val128 (fun x => x) b)
      ∧ (Emu128.lua_pcg_u128_neq Native64.ops a b = true ↔ Emu128.val128 (fun x => x) a ≠ Emu128.val128 (fun x => x) b)
      ∧ (Emu128.lua_pcg_u128_le Native64.ops a b = true ↔ Emu128.val128 (fun x => x) a ≤ Emu128.val128 (fun x => x) b)
      ∧ (Emu128.lua_pcg_u128_ge Native64.ops a b = true ↔ Emu128.val128 (fun x => x) a ≥ Emu128.val128 (fun x => x) b)
      ∧ ((Emu128.lua_pcg_u128_lt Native64.ops a b = true ∧ Emu128.lua_pcg_u128_eq Native64.ops a b = false ∧ Emu128.lua_pcg_u128_gt Native64.ops a b = false)
        ∨ (Emu128.lua_pcg_u128_lt Native64.ops a b = false ∧ Emu128.lua_pcg_u128_eq Native64.ops a b = true ∧ Emu128.lua_pcg_u128_gt Native64.ops a b = false)
        ∨ (Emu128.lua_pcg_u128_lt Native64.ops a b = false ∧ Emu128.lua_pcg_u128_eq Native64.ops a b = false ∧ Emu128.lua_pcg_u128_gt Native64.ops a b = true))) := by
  refine ⟨?_, ?_, ?_⟩
  · intro a b ha hb
    have hlt := Emu64.lt_iff64 a b ha hb
    have hgt := Emu64.gt_iff64 a b ha hb
    have heq := Emu64.eq_iff64 a b ha hb
    refine ⟨hlt, hgt, heq, Emu64.neq_iff64 a b ha hb, Emu64.le_iff64 a b ha hb,
      Emu64.ge_iff64 a b ha hb, ?_⟩
    rcases Nat.lt_trichotomy (Emu64.val64 a) (Emu64.val64 b) with h | h | h
    · left
      refine ⟨hlt.mpr h, ?_, ?_⟩
      · rw [← Bool.not_eq_true, heq]
        omega
      · rw [← Bool.not_eq_true, hgt]
        omega
    · right
      left
      refine ⟨?_, heq.mpr h, ?_⟩
      · rw [← Bool.not_eq_true, hlt]
        omega
      · rw [← Bool.not_eq_true, hgt]
        omega
    · right
      right
      refine ⟨?_, ?_, hgt.mpr h⟩
      · rw [← Bool.not_eq_true, hlt]
        omega
      · rw [← Bool.not_eq_true, heq]
        omega
  · intro a b ha hb
    exact Emu128.compare_spec128 Emu64.ops_lawful_emu a b ha hb
  · intro a b ha hb
    exact Emu128.compare_spec128 Native64.ops_lawful_native a b ha hb

/-- Witness of C24: `2^32 - 1 < 2^32` although the low word of the first is the larger. -/
theorem C24_emulated_comparisons_witness :
    Emu64.wf64 ⟨4294967295, 0⟩ ∧ Emu64.wf64 ⟨0, 1⟩
    ∧ Emu64.lua_pcg_u64_lt ⟨4294967295, 0⟩ ⟨0, 1⟩ = true
    ∧ (Emu64.lua_pcg_u64_lt ⟨4294967295, 0⟩ ⟨0, 1⟩ = true
        ↔ Emu64.val64 ⟨4294967295, 0⟩ < Emu64.val64 ⟨0, 1⟩) :=
  ⟨⟨by decide, by decide⟩, ⟨by decide, by decide⟩, by rfl,
    (C24_emulated_comparisons.1 ⟨4294967295, 0⟩ ⟨0, 1⟩ ⟨by decide, by decide⟩
      ⟨by decide, by decide⟩).1⟩

/-- C28: the emulated `lua_pcg_setseq_128_xsl_rr_64_boundedrand_r` called with a zero bound does not
enter its rejection loop: it returns even when it is allowed no draw at all (a budget under which
the loop itself cannot return), and for every budget it leaves the state and the increment of the
engine as they were; over emulated and over native 64-bit limbs, for every engine and whatever
the uninitialised locals hold. -/
theorem C28_zero_bound_no_draw :
    (∀ (fuel : Nat) (rng : Emu128.lua_pcg_state_setseq_128 Emu64.lua_pcg_u64) (bound q0 t0 : Emu64.lua_pcg_u64), Emu64.wf64 bound → Emu64.val64 bound = 0 →
      (∃ v, Emu128.lua_pcg_setseq_128_xsl_rr_64_boundedrand_r Emu64.backend 0 rng bound q0 t0 = .ok (v, rng))
      ∧ (∀ threshold, Emu128.lua_pcg_setseq_128_xsl_rr_64_boundedrand_r_loop Emu64.backend 0 rng threshold
          = .error .out_of_fuel)
      ∧ (∃ v rng1, Emu128.lua_pcg_setseq_128_xsl_rr_64_boundedrand_r Emu64.backend fuel rng bound q0 t0 = .ok (v, rng1)
          ∧ rng1.state = rng.state ∧ rng1.inc = rng.inc))
    ∧ (∀ (fuel : Nat) (rng : Emu128.lua_pcg_state_setseq_128 Nat) (bound q0 t0 : Nat), Native64.wf64 bound → bound = 0 →
      (∃ v, Emu128.lua_pcg_setseq_128_xsl_rr_64_boundedrand_r Native64.backend 0 rng bound q0 t0 = .ok (v, rng))
      ∧ (∀ threshold, Emu128.lua_pcg_setseq_128_xsl_rr_64_boundedrand_r_loop Native64.backend 0 rng threshold
          = .error .out_of_fuel)
      ∧ (∃ v rng1, Emu128.lua_pcg_setseq_128_xsl_rr_64_boundedrand_r Native64.backend fuel rng bound q0 t0 = .ok (v, rng1)
          ∧ rng1.state = rng.state ∧ rng1.inc = rng.inc)) := by
  constructor
  · intro fuel rng bound q0 t0 hb hz
    refine ⟨⟨_, Emu128.boundedrand_emu_zero Emu64.backend Emu64.div_lawful_emu 0 rng bound q0 t0 hb hz⟩,
      fun _ => rfl,
      ⟨_, _, Emu128.boundedrand_emu_zero Emu64.backend Emu64.div_lawful_emu fuel rng bound q0 t0 hb hz,
        rfl, rfl⟩⟩
  · intro fuel rng bound q0 t0 hb hz
    refine ⟨⟨_, Emu128.boundedrand_emu_zero Native64.backend Native64.div_lawful_native 0 rng bound q0 t0
        hb hz⟩,
      fun _ => rfl,
      ⟨_, _, Emu128.boundedrand_emu_zero Native64.backend Native64.div_lawful_native fuel rng bound q0 t0
        hb hz, rfl, rfl⟩⟩

/-- Witness of C28: the fully emulated engine with state 1 and increment 109. -/
theorem C28_zero_bound_no_draw_witness :
    Emu64.wf64 ⟨0, 0⟩ ∧ Emu64.val64 ⟨0, 0⟩ = 0
    ∧ ∃ v, Emu128.lua_pcg_setseq_128_xsl_rr_64_boundedrand_r Emu64.backend 0
        ⟨⟨⟨1, 0⟩, ⟨0, 0⟩⟩, ⟨⟨109, 0⟩, ⟨0, 0⟩⟩⟩ ⟨0, 0⟩ ⟨7, 7⟩ ⟨9, 9⟩
          = .ok (v, ⟨⟨⟨1, 0⟩, ⟨0, 0⟩⟩, ⟨⟨109, 0⟩, ⟨0, 0⟩⟩⟩) :=
  ⟨⟨by decide, by decide⟩, by decide,
    (C28_zero_bound_no_draw.1 0 ⟨⟨⟨1, 0⟩, ⟨0, 0⟩⟩, ⟨⟨109, 0⟩, ⟨0, 0⟩⟩⟩ ⟨0, 0⟩ ⟨7, 7⟩ ⟨9, 9⟩
      ⟨by decide, by decide⟩ (by decide)).1⟩

/-- The threshold that `lua_pcg_setseq_64_xsh_rr_32_boundedrand_r` computes is `2^32 mod bound`. -/
theorem threshold_32_eq (bound : Nat) (h0 : 0 < bound) (h1 : bound < 2 ^ 32) :
    lua_pcg_u32_cast bound = bound
    ∧ neg32 (lua_pcg_u32_cast bound) % lua_pcg_u32_cast bound = 2 ^ 32 % bound := by
  have hc : lua_pcg_u32_cast bound = bound := by
    rw [lua_pcg_u32_cast_eq, Nat.mod_eq_of_lt h1]
  refine ⟨hc, ?_⟩
  rw [hc, neg32, wrap32_eq, wrap32_eq, Nat.mod_eq_of_lt h1]
  have h2 : (4294967296 - bound) % 2 ^ 32 = 4294967296 - bound := Nat.mod_eq_of_lt (by omega)
  rw [h2]
  have h3 : (4294967296 - bound + bound) % bound = (4294967296 - bound) % bound :=
    Nat.add_mod_right _ _
  rw [← h3]
  congr 1
  omega

/-! ## The period of the recurrence -/

/-- Closed form of the iterated affine map in a commutative ring. -/
theorem affine_iterate {R : Type} [CommRing R] (A C x : R) (n : Nat) :
    (fun y => A * y + C)^[n] x = A ^ n * x + C * ∑ i ∈ Finset.range n, A ^ i := by
  induction n with
  | zero => simp
  | succ n ih =>
    rw [Function.iterate_succ_apply', ih, geom_sum_succ]
    ring

/-- The displacement of the iterated affine map factors through the geometric sum. -/
theorem affine_iterate_sub {R : Type} [CommRing R] (A C x : R) (n : Nat) :
    (fun y => A * y + C)^[n] x - x = (∑ i ∈ Finset.range n, A ^ i) * ((A - 1) * x + C) := by
  rw [affine_iterate]
  have h := geom_sum_mul A n
  have h2 : A ^ n = (∑ i ∈ Finset.range n, A ^ i) * (A - 1) + 1 := by
    rw [h]
    ring
  rw [h2]
  ring

/-- A geometric sum of odd terms has the parity of its length. -/
theorem geom_sum_parity (a : Nat) (ha : a % 2 = 1) (k : Nat) :
    (∑ i ∈ Finset.range k, a ^ i) % 2 = k % 2 := by
  induction k with
  | zero => simp
  | succ k ih =>
    rw [Finset.sum_range_succ, Nat.add_mod, ih, Nat.pow_mod, ha, one_pow]
    omega

/-- Doubling the length of a geometric sum. -/
theorem geom_sum_double (a j : Nat) :
    ∑ i ∈ Finset.range (2 * j), a ^ i = (∑ i ∈ Finset.range j, a ^ i) * (1 + a ^ j) := by
  rw [two_mul, Finset.sum_range_add]
  have h : ∑ x ∈ Finset.range j, a ^ (j + x) = a ^ j * ∑ x ∈ Finset.range j, a ^ x := by
    rw [Finset.mul_sum]
    apply Finset.sum_congr rfl
    intro x _
    rw [pow_add]
  rw [h]
  ring

/-- For `a = 1 mod 4`, a power of two divides the geometric sum of length `k` exactly when it
divides `k`. -/
theorem two_pow_dvd_geom_sum (a : Nat) (ha : a % 4 = 1) :
    ∀ (k e : Nat), 2 ^ e ∣ ∑ i ∈ Finset.range k, a ^ i ↔ 2 ^ e ∣ k := by
  have ha2 : a % 2 = 1 := by omega
  intro k
  induction k using Nat.strong_induction_on with
  | _ k ih =>
    intro e
    rcases Nat.eq_zero_or_pos k with hk | hk
    · subst hk
      simp
    rcases Nat.mod_two_eq_zero_or_one k with hpar | hpar
    · -- even length
      obtain ⟨j, hj⟩ : ∃ j, k = 2 * j := ⟨k / 2, by omega⟩
      subst hj
      have hjlt : j < 2 * j := by omega
      rw [geom_sum_double]
      have hpow : a ^ j % 4 = 1 := by
        rw [Nat.pow_mod, ha, one_pow]
        rfl
      obtain ⟨u, hu, hodd⟩ : ∃ u, 1 + a ^ j = 2 * u ∧ u % 2 = 1 :=
        ⟨(1 + a ^ j) / 2, by omega, by omega⟩
      rw [hu]
      cases e with
      | zero => simp
      | succ e =>
        have hcop : Nat.Coprime (2 ^ e) u := by
          apply Nat.Coprime.pow_left
          rw [Nat.coprime_two_left]
          exact Nat.odd_iff.mpr hodd
        have h1 : (∑ i ∈ Finset.range j, a ^ i) * (2 * u)
            = 2 * ((∑ i ∈ Finset.range j, a ^ i) * u) := by ring
        rw [h1, pow_succ', Nat.mul_dvd_mul_iff_left (by norm_num : 0 < 2),
          Nat.mul_dvd_mul_iff_left (by norm_num : 0 < 2), Nat.Coprime.dvd_mul_right hcop]
        exact ih j hjlt e
    · -- odd length
      have hs := geom_sum_parity a ha2 k
      rw [hpar] at hs
      cases e with
      | zero => simp
      | succ e =>
        constructor
        · intro h
          exfalso
          have h2 : 2 ∣ ∑ i ∈ Finset.range k, a ^ i :=
            Dvd.dvd.trans (dvd_pow_self 2 (Nat.succ_ne_zero e)) h
          omega
        · intro h
          exfalso
          have h2 : 2 ∣ k := Dvd.dvd.trans (dvd_pow_self 2 (Nat.succ_ne_zero e)) h
          omega

/-- The recurrence `y ↦ (a * y + c) mod 2^w` with `a = 1 mod 4` and `c` odd returns to its
starting point after `n` steps exactly when `2^w` divides `n`. -/
theorem lcg_return_iff (w a c x n : Nat) (ha : a % 4 = 1) (hc : c % 2 = 1) (hx : x < 2 ^ w) :
    (fun y => (a * y + c) % 2 ^ w)^[n] x = x ↔ 2 ^ w ∣ n := by
  have hcast : ∀ m : Nat, (((fun y => (a * y + c) % 2 ^ w)^[m] x : Nat) : ZMod (2 ^ w))
      = (fun y : ZMod (2 ^ w) => (a : ZMod (2 ^ w)) * y + (c : ZMod (2 ^ w)))^[m] (x : ZMod (2 ^ w)) := by
    intro m
    induction m with
    | zero => rfl
    | succ m ihm =>
      rw [Function.iterate_succ_apply', Function.iterate_succ_apply', ← ihm]
      simp only [ZMod.natCast_mod, Nat.cast_add, Nat.cast_mul]
  have hlt : ∀ m : Nat, (fun y => (a * y + c) % 2 ^ w)^[m] x < 2 ^ w := by
    intro m
    cases m with
    | zero => exact hx
    | succ m =>
      rw [Function.iterate_succ_apply']
      exact Nat.mod_lt _ (by positivity)
  have ha1 : 1 ≤ a := by omega
  -- the displacement, as a natural number cast
  have hdisp : (((fun y => (a * y + c) % 2 ^ w)^[n] x : Nat) : ZMod (2 ^ w)) - (x : ZMod (2 ^ w))
      = (((∑ i ∈ Finset.range n, a ^ i) * ((a - 1) * x + c) : Nat) : ZMod (2 ^ w)) := by
    rw [hcast, affine_iterate_sub]
    push_cast [Nat.cast_sub ha1]
    ring
  have hu : ((a - 1) * x + c) % 2 = 1 := by
    have h4 : (a - 1) % 2 = 0 := by omega
    rw [Nat.add_mod, Nat.mul_mod, h4]
    omega
  have hcop : Nat.Coprime (2 ^ w) ((a - 1) * x + c) := by
    apply Nat.Coprime.pow_left
    rw [Nat.coprime_two_left]
    exact Nat.odd_iff.mpr hu
  rw [← two_pow_dvd_geom_sum a ha n w, ← Nat.Coprime.dvd_mul_right hcop,
    ← ZMod.natCast_zmod_eq_zero_iff_dvd, ← hdisp, sub_eq_zero]
  constructor
  · intro h
    rw [h]
  · intro h
    have h2 := (ZMod.natCast_eq_natCast_iff' _ _ _).mp h
    rw [Nat.mod_eq_of_lt (hlt n), Nat.mod_eq_of_lt hx] at h2
    exact h2

/-- The orbit of the recurrence is the whole of `[0, 2^w)`. -/
theorem lcg_orbit_full (w a c x : Nat) (ha : a % 4 = 1) (hc : c % 2 = 1) (hx : x < 2 ^ w)
    (t : Nat) (ht : t < 2 ^ w) :
    ∃ k, k < 2 ^ w ∧ (fun y => (a * y + c) % 2 ^ w)^[k] x = t := by
  have hlt : ∀ (z : Nat), z < 2 ^ w → ∀ m : Nat, (fun y => (a * y + c) % 2 ^ w)^[m] z < 2 ^ w := by
    intro z hz m
    cases m with
    | zero => exact hz
    | succ m =>
      rw [Function.iterate_succ_apply']
      exact Nat.mod_lt _ (by positivity)
  have hinj : Function.Injective
      (fun k : Fin (2 ^ w) =>
        (⟨(fun y => (a * y + c) % 2 ^ w)^[k.val] x, hlt x hx k.val⟩ : Fin (2 ^ w))) := by
    intro i j hij
    simp only [Fin.mk.injEq] at hij
    have key : ∀ p q : Nat, p < q → q < 2 ^ w →
        (fun y => (a * y + c) % 2 ^ w)^[p] x = (fun y => (a * y + c) % 2 ^ w)^[q] x → False := by
      intro p q hpq hq h
      have hq2 : q = (q - p) + p := by omega
      rw [hq2, Function.iterate_add_apply] at h
      have hret := (lcg_return_iff w a c _ (q - p) ha hc (hlt x hx p)).mp h.symm
      have := Nat.le_of_dvd (by omega) hret
      omega
    rcases Nat.lt_trichotomy i.val j.val with h | h | h
    · exact absurd hij (fun e => key _ _ h j.isLt e)
    · exact Fin.ext h
    · exact absurd hij.symm (fun e => key _ _ h i.isLt e)
  have hsurj := (Finite.injective_iff_surjective).mp hinj
  obtain ⟨k, hk⟩ := hsurj ⟨t, ht⟩
  refine ⟨k.val, k.isLt, ?_⟩
  simpa using congrArg Fin.val hk

/-- The recurrence `y ↦ (a * y + c) mod 2^w` with `a = 1 mod 4` returns to its starting point
after any multiple of `2^w` steps, whatever the constant `c`. -/
theorem lcg_return_of_dvd (w a c x n : Nat) (ha : a % 4 = 1) (hx : x < 2 ^ w) (hn : 2 ^ w ∣ n) :
    (fun y => (a * y + c) % 2 ^ w)^[n] x = x := by
  have hcast : ∀ m : Nat, (((fun y => (a * y + c) % 2 ^ w)^[m] x : Nat) : ZMod (2 ^ w))
      = (fun y : ZMod (2 ^ w) => (a : ZMod (2 ^ w)) * y + (c : ZMod (2 ^ w)))^[m] (x : ZMod (2 ^ w)) := by
    intro m
    induction m with
    | zero => rfl
    | succ m ihm =>
      rw [Function.iterate_succ_apply', Function.iterate_succ_apply', ← ihm]
      simp only [ZMod.natCast_mod, Nat.cast_add, Nat.cast_mul]
  have hlt : ∀ m : Nat, (fun y => (a * y + c) % 2 ^ w)^[m] x < 2 ^ w := by
    intro m
    cases m with
    | zero => exact hx
    | succ m =>
      rw [Function.iterate_succ_apply']
      exact Nat.mod_lt _ (by positivity)
  have hsum : ((∑ i ∈ Finset.range n, a ^ i : Nat) : ZMod (2 ^ w)) = 0 := by
    rw [ZMod.natCast_zmod_eq_zero_iff_dvd]
    exact (two_pow_dvd_geom_sum a ha n w).mpr hn
  have hdisp : (((fun y => (a * y + c) % 2 ^ w)^[n] x : Nat) : ZMod (2 ^ w)) - (x : ZMod (2 ^ w)) = 0 := by
    rw [hcast, affine_iterate_sub]
    push_cast at hsum
    rw [hsum, zero_mul]
  have h2 := (ZMod.natCast_eq_natCast_iff' _ _ _).mp (sub_eq_zero.mp hdisp)
  rw [Nat.mod_eq_of_lt (hlt n), Nat.mod_eq_of_lt hx] at h2
  exact h2

namespace Native64

theorem multiplier_64_mod_four : LUA_PCG_DEFAULT_MULTIPLIER_64 % 4 = 1 := by
  rw [multiplier_64_value]

/-- With an odd increment, `n` steps bring the engine back exactly when `2^64` divides `n`. -/
theorem step_64_return_iff (rng : lua_pcg_state_setseq_64) (n : Nat)
    (hs : rng.state < 2 ^ 64) (hi : rng.inc % 2 = 1) :
    lua_pcg_setseq_64_step_r^[n] rng = rng ↔ 2 ^ 64 ∣ n := by
  rw [step_64_iterate, ← lcg_return_iff 64 LUA_PCG_DEFAULT_MULTIPLIER_64 rng.inc rng.state n
    multiplier_64_mod_four hi hs]
  constructor
  · intro h
    exact congrArg lua_pcg_state_setseq_64.state h
  · intro h
    rw [h]

/-- Whatever the increment, `2^64` steps bring the engine back. -/
theorem step_64_full_turn (rng : lua_pcg_state_setseq_64) (n : Nat)
    (hs : rng.state < 2 ^ 64) (hn : 2 ^ 64 ∣ n) :
    lua_pcg_setseq_64_step_r^[n] rng = rng := by
  rw [step_64_iterate, lcg_return_of_dvd 64 LUA_PCG_DEFAULT_MULTIPLIER_64 rng.inc rng.state n
    multiplier_64_mod_four hs hn]

/-- With an odd increment, every 64-bit state is met within `2^64` steps. -/
theorem step_64_orbit_full (rng : lua_pcg_state_setseq_64)
    (hs : rng.state < 2 ^ 64) (hi : rng.inc % 2 = 1) (t : Nat) (ht : t < 2 ^ 64) :
    ∃ k, k < 2 ^ 64 ∧ lua_pcg_setseq_64_step_r^[k] rng = { state := t, inc := rng.inc } := by
  obtain ⟨k, hk, he⟩ := lcg_orbit_full 64 LUA_PCG_DEFAULT_MULTIPLIER_64 rng.inc rng.state
    multiplier_64_mod_four hi hs t ht
  refine ⟨k, hk, ?_⟩
  rw [step_64_iterate, he]

end Native64

/-- C25: with an odd increment the recurrence of `lua_pcg_setseq_64_step_r`, which is
`state := (state * 6364136223846793005 + inc) mod 2^64`, has period exactly `2^64` from every
64-bit state: `2^64` steps return to the start, no smaller positive number of steps does, and
the steps before that pass through every 64-bit state. -/
theorem C25_full_period (rng : Native64.lua_pcg_state_setseq_64)
    (hs : rng.state < 2 ^ 64) (hi : rng.inc % 2 = 1) :
    Native64.lua_pcg_setseq_64_step_r rng
        = { state := (rng.state * 6364136223846793005 + rng.inc) % 2 ^ 64, inc := rng.inc }
    ∧ Native64.lua_pcg_setseq_64_step_r^[2 ^ 64] rng = rng
    ∧ (∀ k, 1 ≤ k → k < 2 ^ 64 → Native64.lua_pcg_setseq_64_step_r^[k] rng ≠ rng)
    ∧ (∀ t, t < 2 ^ 64 →
        ∃ k, k < 2 ^ 64
          ∧ Native64.lua_pcg_setseq_64_step_r^[k] rng = { state := t, inc := rng.inc }) := by
  refine ⟨Native64.step_64_eq rng, ?_, ?_, ?_⟩
  · exact (Native64.step_64_return_iff rng _ hs hi).mpr (dvd_refl _)
  · intro k hk1 hk2 h
    have hd := (Native64.step_64_return_iff rng k hs hi).mp h
    have := Nat.le_of_dvd (by omega) hd
    omega
  · intro t ht
    exact Native64.step_64_orbit_full rng hs hi t ht

/-- Witness of C25: the engine with state 42 and increment 109 does not return after one step. -/
theorem C25_full_period_witness :
    (42 : Nat) < 2 ^ 64 ∧ 109 % 2 = 1
    ∧ Native64.lua_pcg_setseq_64_step_r^[1] ⟨42, 109⟩ ≠ ⟨42, 109⟩ :=
  ⟨by decide, by decide,
    (C25_full_period ⟨42, 109⟩ (by decide) (by decide)).2.2.1 1 (by decide) (by decide)⟩

namespace Native64

theorem step_64_iterate_state_lt (rng : lua_pcg_state_setseq_64) (n : Nat) (hs : rng.state < 2 ^ 64) :
    (lua_pcg_setseq_64_step_r^[n] rng).state < 2 ^ 64 := by
  cases n with
  | zero => exact hs
  | succ n =>
    rw [Function.iterate_succ_apply']
    exact step_64_state_lt _

/-- Two jumps whose lengths add up to a multiple of `2^64` cancel, whatever the increment. -/
theorem advance_64_cancel (rng : lua_pcg_state_setseq_64) (d1 d2 : Nat)
    (hs : rng.state < 2 ^ 64) (hd : 2 ^ 64 ∣ d2 + d1) :
    lua_pcg_setseq_64_advance_r (lua_pcg_setseq_64_advance_r rng d1) d2 = rng := by
  rw [advance_64_eq_iterate rng d1 hs,
    advance_64_eq_iterate _ d2 (step_64_iterate_state_lt rng d1 hs),
    ← Function.iterate_add_apply]
  exact step_64_full_turn rng _ hs hd

end Native64

/-- C27: `lua_pcg_setseq_64_advance_r` can rewind.  For every engine with a 64-bit state, every
increment and every 64-bit `delta`, a jump by `delta` followed by a jump by
`(2^64 - delta) mod 2^64` restores the engine, and a jump by `2^64 - 1` undoes one call of
`lua_pcg_setseq_64_step_r`; the same holds with the emulated 64-bit type, where the second jump is
by `lua_pcg_u64_additive_inverse delta` and 65 passes of the loop are allowed. -/
theorem C27_advance_rewinds (rng : Native64.lua_pcg_state_setseq_64) (delta : Nat)
    (hs : rng.state < 2 ^ 64) (hd : delta < 2 ^ 64) :
    Native64.lua_pcg_setseq_64_advance_r (Native64.lua_pcg_setseq_64_advance_r rng delta)
        ((2 ^ 64 - delta) % 2 ^ 64) = rng
    ∧ Native64.lua_pcg_setseq_64_advance_r (Native64.lua_pcg_setseq_64_step_r rng) (2 ^ 64 - 1) = rng
    ∧ (∀ (fuel : Nat) (erng : Emu64.lua_pcg_state_setseq_64) (edelta : Emu64.lua_pcg_u64),
        65 ≤ fuel → Emu64.wf_state erng → Emu64.wf64 edelta →
        ∃ rng1, Emu64.lua_pcg_setseq_64_advance_r fuel erng edelta = .ok rng1
          ∧ Emu64.lua_pcg_setseq_64_advance_r fuel rng1 (Emu64.lua_pcg_u64_additive_inverse edelta)
              = .ok erng) := by
  refine ⟨?_, ?_, ?_⟩
  · apply Native64.advance_64_cancel rng delta _ hs
    rcases Nat.eq_zero_or_pos delta with h0 | h0
    · subst h0
      norm_num
    · rw [Nat.mod_eq_of_lt (by omega)]
      have : 2 ^ 64 - delta + delta = 2 ^ 64 := by omega
      rw [this]
  · have h1 : Native64.lua_pcg_setseq_64_step_r rng
        = Native64.lua_pcg_setseq_64_advance_r rng 1 := by
      rw [Native64.advance_64_eq_iterate rng 1 hs]
      rfl
    rw [h1]
    exact Native64.advance_64_cancel rng 1 _ hs (by norm_num)
  · intro fuel erng edelta hfuel hw hwd
    obtain ⟨rng1, e1, w1, i1, a1⟩ := Emu64.advance_64_sim fuel erng edelta hfuel hw hwd
    obtain ⟨rng2, e2, w2, i2, a2⟩ := Emu64.advance_64_sim fuel rng1
      (Emu64.lua_pcg_u64_additive_inverse edelta) hfuel w1 (Emu64.additive_inverse_wf64 _)
    refine ⟨rng1, e1, ?_⟩
    rw [e2]
    have hv := Emu64.val64_lt edelta hwd
    have hst := Emu64.val64_lt erng.state hw.1
    rw [a1, Emu64.additive_inverse_val64 edelta hwd] at a2
    have hc : Native64.lua_pcg_setseq_64_advance_r
        (Native64.lua_pcg_setseq_64_advance_r (Emu64.abs_state erng) (Emu64.val64 edelta))
        ((2 ^ 64 - Emu64.val64 edelta) % 2 ^ 64) = Emu64.abs_state erng := by
      apply Native64.advance_64_cancel _ _ _ hst
      rcases Nat.eq_zero_or_pos (Emu64.val64 edelta) with h0 | h0
      · rw [h0]
        norm_num
      · rw [Nat.mod_eq_of_lt (by omega)]
        have : 2 ^ 64 - Emu64.val64 edelta + Emu64.val64 edelta = 2 ^ 64 := by omega
        rw [this]
    rw [hc] at a2
    have hstate : rng2.state = erng.state :=
      Emu64.val64_inj _ _ w2.1 hw.1 (congrArg Native64.lua_pcg_state_setseq_64.state a2)
    have hinc : rng2.inc = erng.inc := by rw [i2, i1]
    congr 1
    cases rng2
    cases erng
    simp only at hstate hinc
    rw [hstate, hinc]

/-- Witness of C27: the engine seeded with (42, 54) and a jump by 5. -/
theorem C27_advance_rewinds_witness :
    (Native64.lua_pcg_setseq_64_srandom_r ⟨0, 0⟩ 42 54).state < 2 ^ 64 ∧ 5 < 2 ^ 64
    ∧ Native64.lua_pcg_setseq_64_advance_r
        (Native64.lua_pcg_setseq_64_advance_r (Native64.lua_pcg_setseq_64_srandom_r ⟨0, 0⟩ 42 54) 5)
        ((2 ^ 64 - 5) % 2 ^ 64) = Native64.lua_pcg_setseq_64_srandom_r ⟨0, 0⟩ 42 54 :=
  ⟨by decide, by decide,
    (C27_advance_rewinds (Native64.lua_pcg_setseq_64_srandom_r ⟨0, 0⟩ 42 54) 5
      (by decide) (by decide)).1⟩

namespace Native64

/-- The output computed from the state `2^58` has its top bit set. -/
theorem output_64_top_bit : 2 ^ 31 ≤ lua_pcg_output_xsh_rr_64_32 (2 ^ 58) := by
  decide

/-- With an odd increment, some draw is not below any threshold under `2^31`; the first such
draw comes within `2^64` draws, and the rejection loop returns as soon as its budget covers it. -/
theorem boundedrand_32_loop_returns (rng : lua_pcg_state_setseq_64) (threshold : Nat)
    (hs : rng.state < 2 ^ 64) (hi : rng.inc % 2 = 1) (ht : threshold ≤ 2 ^ 31) :
    ∃ n, n < 2 ^ 64 ∧ (∀ k, k < n → nth_draw rng k < threshold) ∧ threshold ≤ nth_draw rng n
      ∧ ∀ fuel, n < fuel →
          lua_pcg_setseq_64_xsh_rr_32_boundedrand_r_loop fuel rng threshold
            = .ok (nth_draw rng n, after_draws (n + 1) rng) := by
  obtain ⟨k, hk, he⟩ := step_64_orbit_full rng hs hi (2 ^ 58) (by norm_num)
  have hdraw : threshold ≤ nth_draw rng k := by
    have h1 : nth_draw rng k = lua_pcg_output_xsh_rr_64_32 (2 ^ 58) := by
      simp only [nth_draw, lua_pcg_setseq_64_xsh_rr_32_random_r]
      rw [after_draws_64_eq, he]
    rw [h1]
    exact Nat.le_trans ht output_64_top_bit
  have hex : ∃ n, threshold ≤ nth_draw rng n := ⟨k, hdraw⟩
  refine ⟨Nat.find hex, ?_, ?_, Nat.find_spec hex, ?_⟩
  · exact Nat.lt_of_le_of_lt (Nat.find_min' hex hdraw) hk
  · intro j hj
    exact Nat.lt_of_not_le (Nat.find_min hex hj)
  · intro fuel hfuel
    apply (boundedrand_32_loop_spec fuel rng threshold _ _).mpr
    refine ⟨Nat.find hex, hfuel, ?_, Nat.find_spec hex, rfl, rfl⟩
    intro j hj
    exact Nat.lt_of_not_le (Nat.find_min hex hj)

end Native64

/-- The threshold of the rejection loop is at most `2^31`. -/
theorem threshold_32_le (bound : Nat) (h0 : 0 < bound) (h1 : bound < 2 ^ 32) :
    2 ^ 32 % bound ≤ 2 ^ 31 := by
  rcases Nat.lt_or_ge (2 ^ 31) bound with h | h
  · have h2 : 2 ^ 32 % bound = 2 ^ 32 - bound := by
      have h3 : 2 ^ 32 = (2 ^ 32 - bound) + bound := by omega
      have h4 : (2 ^ 32 - bound + bound) % bound = (2 ^ 32 - bound) % bound := Nat.add_mod_right _ _
      rw [← h3] at h4
      rw [h4]
      exact Nat.mod_eq_of_lt (by omega)
    rw [h2]
    omega
  · exact Nat.le_trans (Nat.le_of_lt (Nat.mod_lt _ h0)) h

/-- C30: the rejection loop of `lua_pcg_setseq_64_xsh_rr_32_boundedrand_r` ends.  For every bound
in `[1, 2^32 - 1]`, every 64-bit state and every odd increment there is an `n` below `2^64` such
that the draw number `n + 1` is the first one not below
`threshold = ((2^32 - bound) mod 2^32) mod bound`, and the function returns a value below `bound`
as soon as more than `n` draws are allowed; the same holds with the emulated 64-bit type. -/
theorem C30_rejection_loop_terminates (rng : Native64.lua_pcg_state_setseq_64) (bound : Nat)
    (h1 : 1 ≤ bound) (h2 : bound ≤ 2 ^ 32 - 1) (hs : rng.state < 2 ^ 64) (hi : rng.inc % 2 = 1) :
    ∃ n, n < 2 ^ 64
      ∧ (∀ k, k < n → Native64.nth_draw rng k < ((2 ^ 32 - bound) % 2 ^ 32) % bound)
      ∧ ((2 ^ 32 - bound) % 2 ^ 32) % bound ≤ Native64.nth_draw rng n
      ∧ (∀ fuel, n < fuel →
          Native64.lua_pcg_setseq_64_xsh_rr_32_boundedrand_r fuel rng bound
            = .ok (Native64.nth_draw rng n % bound, Native64.after_draws (n + 1) rng))
      ∧ Native64.nth_draw rng n % bound < bound
      ∧ (∀ (fuel : Nat) (erng : Emu64.lua_pcg_state_setseq_64), n < fuel →
          Emu64.wf_state erng → Emu64.abs_state erng = rng →
          ∃ rng1, Emu64.lua_pcg_setseq_64_xsh_rr_32_boundedrand_r fuel erng bound
            = .ok (Native64.nth_draw rng n % bound, rng1)) := by
  have hlt : bound < 2 ^ 32 := by omega
  obtain ⟨hc, hthr⟩ := threshold_32_eq bound (by omega) hlt
  have hne : ¬ (bound = 0) := by omega
  have he : ((2 ^ 32 - bound) % 2 ^ 32) % bound = 2 ^ 32 % bound := by
    rw [← hthr, hc, neg32, wrap32_eq, wrap32_eq, Nat.mod_eq_of_lt hlt]
    norm_num
  rw [he]
  obtain ⟨n, hn, hbelow, hge, hloop⟩ := Native64.boundedrand_32_loop_returns rng (2 ^ 32 % bound)
    hs hi (threshold_32_le bound (by omega) hlt)
  have hnat : ∀ fuel, n < fuel →
      Native64.lua_pcg_setseq_64_xsh_rr_32_boundedrand_r fuel rng bound
        = .ok (Native64.nth_draw rng n % bound, Native64.after_draws (n + 1) rng) := by
    intro fuel hfuel
    simp only [Native64.lua_pcg_setseq_64_xsh_rr_32_boundedrand_r]
    rw [hthr, hc, if_neg hne, hloop fuel hfuel]
  refine ⟨n, hn, hbelow, hge, hnat, Nat.mod_lt _ (by omega), ?_⟩
  intro fuel erng hfuel hw habs
  have hsim := (Emu64.boundedrand_32_sim fuel erng bound hw).1
  rw [habs, hnat fuel hfuel] at hsim
  cases hres : Emu64.lua_pcg_setseq_64_xsh_rr_32_boundedrand_r fuel erng bound with
  | error e =>
    rw [hres] at hsim
    cases hsim
  | ok p =>
    rw [hres] at hsim
    obtain ⟨v, rng1⟩ := p
    simp only [Except.map, Except.ok.injEq, Prod.mk.injEq] at hsim
    refine ⟨rng1, ?_⟩
    rw [hsim.1]

/-- Witness of C30: the engine seeded with (42, 54) and the bound 6. -/
theorem C30_rejection_loop_terminates_witness :
    1 ≤ 6 ∧ 6 ≤ 2 ^ 32 - 1
    ∧ (Native64.lua_pcg_setseq_64_srandom_r ⟨0, 0⟩ 42 54).state < 2 ^ 64
    ∧ (Native64.lua_pcg_setseq_64_srandom_r ⟨0, 0⟩ 42 54).inc % 2 = 1
    ∧ ∃ n, n < 2 ^ 64
      ∧ ∀ fuel, n < fuel →
          Native64.lua_pcg_setseq_64_xsh_rr_32_boundedrand_r fuel
              (Native64.lua_pcg_setseq_64_srandom_r ⟨0, 0⟩ 42 54) 6
            = .ok (Native64.nth_draw (Native64.lua_pcg_setseq_64_srandom_r ⟨0, 0⟩ 42 54) n % 6,
                Native64.after_draws (n + 1) (Native64.lua_pcg_setseq_64_srandom_r ⟨0, 0⟩ 42 54)) :=
  ⟨by decide, by decide, by decide, by decide,
    (C30_rejection_loop_terminates (Native64.lua_pcg_setseq_64_srandom_r ⟨0, 0⟩ 42 54) 6
      (by decide) (by decide) (by decide) (by decide)).imp
      (fun n h => ⟨h.1, h.2.2.2.1⟩)⟩

namespace Emu64

open Emu128

/-- The loop of the emulated `lua_pcg_u64_div` makes one pass and goes on from the bounds it
leaves, unless the pass has found the result. -/
theorem div_loop_succ (fuel : Nat) (a b ql qr : lua_pcg_u128 lua_pcg_u64) :
    lua_pcg_u64_div_loop (fuel + 1) a b ql qr
      = match lua_pcg_u64_div_pass a b ql qr with
        | .inl p => .ok p
        | .inr p => lua_pcg_u64_div_loop fuel a b p.1 p.2 := by
  rw [lua_pcg_u64_div_loop, lua_pcg_u64_div_pass]
  split_ifs <;> rfl

/-- One pass of the bisection under its invariant: a pass that finds the result stores the
quotient and the remainder; a pass that does not keeps the invariant and halves the interval,
which was at least 2 wide. -/
theorem div_pass_spec (a b ql qr : lua_pcg_u128 lua_pcg_u64) (ha : wf128 wf64 a)
    (hb : wf128 wf64 b) (hl : wf128 wf64 ql) (hr : wf128 wf64 qr)
    (hA64 : val128 val64 a < 2 ^ 64) (hB64 : val128 val64 b < 2 ^ 64)
    (h1 : val128 val64 ql * val128 val64 b ≤ val128 val64 a)
    (h2 : val128 val64 a < val128 val64 qr * val128 val64 b)
    (hr64 : val128 val64 qr < 2 ^ 64) :
    match lua_pcg_u64_div_pass a b ql qr with
    | .inl p => wf64 p.1 ∧ wf64 p.2 ∧ val64 p.1 = val128 val64 a / val128 val64 b
        ∧ val64 p.2 = val128 val64 a % val128 val64 b
    | .inr p => wf128 wf64 p.1 ∧ wf128 wf64 p.2
        ∧ val128 val64 p.1 * val128 val64 b ≤ val128 val64 a
        ∧ val128 val64 a < val128 val64 p.2 * val128 val64 b
        ∧ val128 val64 p.2 < 2 ^ 64
        ∧ 2 * (val128 val64 p.2 - val128 val64 p.1) ≤ val128 val64 qr - val128 val64 ql + 1
        ∧ 2 ≤ val128 val64 qr - val128 val64 ql := by
  have hlr : val128 val64 ql < val128 val64 qr := by
    by_contra hcon
    have hle : val128 val64 qr * val128 val64 b ≤ val128 val64 ql * val128 val64 b :=
      Nat.mul_le_mul_right _ (Nat.le_of_not_lt hcon)
    omega
  have hbpos : 0 < val128 val64 b := by
    rcases Nat.eq_zero_or_pos (val128 val64 b) with h0 | h0
    · rw [h0] at h2
      simp at h2
    · exact h0
  obtain ⟨wq, vq, wm, vm, wt, vt⟩ := div_pass_values b ql qr hb hl hr hB64 hlr hr64
  have hmid64 : val128 val64 (lua_pcg_u128_rsh ops (lua_pcg_u128_sum ops ql qr) 1) < 2 ^ 64 := by
    rw [vq]
    clear * - hlr hr64
    omega
  obtain ⟨wc, vc⟩ := cast_to_u64_spec _ wq hmid64
  rw [lua_pcg_u64_div_pass]
  by_cases heq : lua_pcg_u128_eq ops
      (lua_pcg_u128_mul ops (lua_pcg_u128_rsh ops (lua_pcg_u128_sum ops ql qr) 1) b) a = true
  · rw [if_pos heq]
    have heq1 := (eq_iff128 ops_lawful_emu _ _ wm ha).mp heq
    rw [vm] at heq1
    obtain ⟨hq, hr1⟩ := div_mod_of_bounds _ _ _ (Nat.le_of_eq heq1) (by omega)
    refine ⟨wc, lh_wf64 0 0, ?_, ?_⟩
    · rw [vc, vq, hq]
    · rw [lh_val64, hr1, heq1]
      simp
  · rw [if_neg heq]
    have hne : ¬ ((val128 val64 ql + val128 val64 qr) / 2 * val128 val64 b = val128 val64 a) := by
      intro h
      apply heq
      apply (eq_iff128 ops_lawful_emu _ _ wm ha).mpr
      rw [vm, h]
    by_cases hlt : lua_pcg_u128_lt ops
        (lua_pcg_u128_mul ops (lua_pcg_u128_rsh ops (lua_pcg_u128_sum ops ql qr) 1) b) a = true
    · rw [if_pos hlt]
      have hlt1 := (lt_iff128 ops_lawful_emu _ _ wm ha).mp hlt
      rw [vm] at hlt1
      by_cases hlt2 : lua_pcg_u128_lt ops a (lua_pcg_u128_sum ops
          (lua_pcg_u128_mul ops (lua_pcg_u128_rsh ops (lua_pcg_u128_sum ops ql qr) 1) b) b) = true
      · rw [if_pos hlt2]
        have hlt3 := (lt_iff128 ops_lawful_emu _ _ ha wt).mp hlt2
        rw [vt] at hlt3
        obtain ⟨hq, hr1⟩ := div_mod_of_bounds _ _ _ (Nat.le_of_lt hlt1) hlt3
        obtain ⟨wsub, vsub⟩ := subtraction_spec128 ops_lawful_emu a _ ha wm
        rw [vm] at vsub
        have e4 : (val128 val64 a + 2 ^ 128 - (val128 val64 ql + val128 val64 qr) / 2 * val128 val64 b)
            % 2 ^ 128 = val128 val64 a - (val128 val64 ql + val128 val64 qr) / 2 * val128 val64 b := by
          clear * - hlt1 hA64
          omega
        rw [e4] at vsub
        obtain ⟨wcs, vcs⟩ := cast_to_u64_spec _ wsub (by rw [vsub]; clear * - hA64; omega)
        refine ⟨wc, wcs, ?_, ?_⟩
        · rw [vc, vq, hq]
        · rw [vcs, vsub, hr1]
      · rw [if_neg hlt2]
        have hge : ¬ (val128 val64 a
            < (val128 val64 ql + val128 val64 qr) / 2 * val128 val64 b + val128 val64 b) := by
          intro h
          apply hlt2
          apply (lt_iff128 ops_lawful_emu _ _ ha wt).mpr
          rw [vt]
          exact h
        have hgap : (val128 val64 ql + val128 val64 qr) / 2 + 1 < val128 val64 qr := by
          by_contra hcon
          have hle : val128 val64 qr * val128 val64 b
              ≤ ((val128 val64 ql + val128 val64 qr) / 2 + 1) * val128 val64 b :=
            Nat.mul_le_mul_right _ (Nat.le_of_not_lt hcon)
          rw [Nat.add_mul, Nat.one_mul] at hle
          clear * - hle hge h2
          omega
        refine ⟨wq, hr, ?_, h2, hr64, ?_, ?_⟩
        · dsimp only
          rw [vq]
          exact Nat.le_of_lt hlt1
        · dsimp only
          rw [vq]
          clear * - hgap
          omega
        · clear * - hgap
          omega
    · rw [if_neg hlt]
      have hgt : val128 val64 a < (val128 val64 ql + val128 val64 qr) / 2 * val128 val64 b := by
        have h3 : ¬ ((val128 val64 ql + val128 val64 qr) / 2 * val128 val64 b < val128 val64 a) := by
          intro h
          apply hlt
          apply (lt_iff128 ops_lawful_emu _ _ wm ha).mpr
          rw [vm]
          exact h
        clear * - h3 hne
        omega
      have hgap : val128 val64 ql < (val128 val64 ql + val128 val64 qr) / 2 := by
        by_contra hcon
        have hle : (val128 val64 ql + val128 val64 qr) / 2 * val128 val64 b
            ≤ val128 val64 ql * val128 val64 b :=
          Nat.mul_le_mul_right _ (Nat.le_of_not_lt hcon)
        clear * - hle hgt h1
        omega
      refine ⟨hl, wq, h1, ?_, hmid64, ?_, ?_⟩
      · dsimp only
        rw [vq]
        exact hgt
      · dsimp only
        rw [vq]
        clear * - hgap
        omega
      · clear * - hgap
        omega

/-- Every pass of the bisection starts from bounds that satisfy the invariant, and pass number
`n + 1` starts from an interval at most `2^(64 - n)` wide: there is no pass after the 65th. -/
theorem div_bounds_spec (a b l0 r0 : lua_pcg_u128 lua_pcg_u64) (ha : wf128 wf64 a)
    (hb : wf128 wf64 b) (hl0 : wf128 wf64 l0) (hr0 : wf128 wf64 r0)
    (hA64 : val128 val64 a < 2 ^ 64) (hB64 : val128 val64 b < 2 ^ 64)
    (h1 : val128 val64 l0 * val128 val64 b ≤ val128 val64 a)
    (h2 : val128 val64 a < val128 val64 r0 * val128 val64 b)
    (hr64 : val128 val64 r0 < 2 ^ 64) :
    ∀ (n : Nat) (ql qr : lua_pcg_u128 lua_pcg_u64), div_bounds a b l0 r0 n = some (ql, qr) →
      n ≤ 64 ∧ wf128 wf64 ql ∧ wf128 wf64 qr
      ∧ val128 val64 ql * val128 val64 b ≤ val128 val64 a
      ∧ val128 val64 a < val128 val64 qr * val128 val64 b
      ∧ val128 val64 qr < 2 ^ 64
      ∧ val128 val64 qr - val128 val64 ql ≤ 2 ^ (64 - n) := by
  intro n
  induction n with
  | zero =>
    intro ql qr h
    simp only [div_bounds, Option.some.injEq, Prod.mk.injEq] at h
    obtain ⟨e1, e2⟩ := h
    subst e1
    subst e2
    refine ⟨by omega, hl0, hr0, h1, h2, hr64, ?_⟩
    clear * - hr64
    norm_num
    omega
  | succ n ih =>
    intro ql qr h
    rw [div_bounds] at h
    cases hprev : div_bounds a b l0 r0 n with
    | none =>
      rw [hprev] at h
      cases h
    | some p =>
      obtain ⟨l, r⟩ := p
      rw [hprev] at h
      obtain ⟨hn, wl, wr, i1, i2, i3, i4⟩ := ih l r hprev
      have hpass := div_pass_spec a b l r ha hb wl wr hA64 hB64 i1 i2 i3
      cases hp : lua_pcg_u64_div_pass a b l r with
      | inl res =>
        simp only [hp] at h
        cases h
      | inr nb =>
        rw [hp] at hpass
        simp only [hp, Option.some.injEq] at h
        subst h
        obtain ⟨w1, w2, j1, j2, j3, j4, j5⟩ := hpass
        have hn1 : n + 1 ≤ 64 := by
          by_contra hcon
          have h64 : n = 64 := by omega
          subst h64
          norm_num at i4
          clear * - i4 j5
          omega
        refine ⟨hn1, w1, w2, j1, j2, j3, ?_⟩
        have hp2 : 2 ^ (64 - n) = 2 * 2 ^ (64 - (n + 1)) := by
          rw [← pow_succ']
          congr 1
          omega
        rw [hp2] at i4
        dsimp only at j4
        clear * - i4 j4
        omega

end Emu64

/-- C29: the bisection of the emulated `lua_pcg_u64_div`.  For every `a > b >= 2` with
`a >= 2^32` the function runs its loop from the bounds `(1, 2^64 - 1)`; the loop is a sequence of
passes; every pass it makes starts from bounds with `q_left * b <= a < q_right * b`, and in it the
sum `q_left + q_right`, the product `_q * _b` and the sum `qb + _b` are exact, below `2^128`;
the loop makes at most 65 passes, and with 65 passes allowed the function returns 0 with the
quotient and the remainder stored. -/
theorem C29_bisection_terminates (a b q0 r0 : Emu64.lua_pcg_u64)
    (ha : Emu64.wf64 a) (hb : Emu64.wf64 b)
    (hb2 : 2 ≤ Emu64.val64 b) (hab : Emu64.val64 b < Emu64.val64 a) (ha32 : 2 ^ 32 ≤ Emu64.val64 a) :
    (∀ fuel, Emu64.lua_pcg_u64_div fuel a b q0 r0
        = match Emu64.lua_pcg_u64_div_loop fuel (Emu64.lua_pcg_u128_lh a (Emu64.lua_pcg_u64_lh 0 0))
            (Emu64.lua_pcg_u128_lh b (Emu64.lua_pcg_u64_lh 0 0))
            (Emu64.lua_pcg_u128_lh (Emu64.lua_pcg_u64_lh 1 0) (Emu64.lua_pcg_u64_lh 0 0))
            (Emu64.lua_pcg_u128_lh (Emu64.lua_pcg_u64_lh 0xFFFFFFFF 0xFFFFFFFF) (Emu64.lua_pcg_u64_lh 0 0)) with
          | .ok (q1, r1) => .ok (0, q1, r1)
          | .error e => .error e)
    ∧ (∀ fuel ql qr, Emu64.lua_pcg_u64_div_loop (fuel + 1) (Emu64.lua_pcg_u128_lh a (Emu64.lua_pcg_u64_lh 0 0))
          (Emu64.lua_pcg_u128_lh b (Emu64.lua_pcg_u64_lh 0 0)) ql qr
        = match Emu64.lua_pcg_u64_div_pass (Emu64.lua_pcg_u128_lh a (Emu64.lua_pcg_u64_lh 0 0))
            (Emu64.lua_pcg_u128_lh b (Emu64.lua_pcg_u64_lh 0 0)) ql qr with
          | .inl p => .ok p
          | .inr p => Emu64.lua_pcg_u64_div_loop fuel (Emu64.lua_pcg_u128_lh a (Emu64.lua_pcg_u64_lh 0 0))
              (Emu64.lua_pcg_u128_lh b (Emu64.lua_pcg_u64_lh 0 0)) p.1 p.2)
    ∧ (∀ n ql qr, Emu64.div_bounds (Emu64.lua_pcg_u128_lh a (Emu64.lua_pcg_u64_lh 0 0))
          (Emu64.lua_pcg_u128_lh b (Emu64.lua_pcg_u64_lh 0 0))
          (Emu64.lua_pcg_u128_lh (Emu64.lua_pcg_u64_lh 1 0) (Emu64.lua_pcg_u64_lh 0 0))
          (Emu64.lua_pcg_u128_lh (Emu64.lua_pcg_u64_lh 0xFFFFFFFF 0xFFFFFFFF) (Emu64.lua_pcg_u64_lh 0 0)) n = some (ql, qr) →
        n < 65
        ∧ Emu128.val128 Emu64.val64 ql * Emu64.val64 b ≤ Emu64.val64 a
        ∧ Emu64.val64 a < Emu128.val128 Emu64.val64 qr * Emu64.val64 b
        ∧ Emu128.val128 Emu64.val64 (Emu128.lua_pcg_u128_sum Emu64.ops ql qr)
            = Emu128.val128 Emu64.val64 ql + Emu128.val128 Emu64.val64 qr
        ∧ Emu128.val128 Emu64.val64 (Emu128.lua_pcg_u128_mul Emu64.ops (Emu128.lua_pcg_u128_rsh Emu64.ops (Emu128.lua_pcg_u128_sum Emu64.ops ql qr) 1)
              (Emu64.lua_pcg_u128_lh b (Emu64.lua_pcg_u64_lh 0 0)))
            = (Emu128.val128 Emu64.val64 ql + Emu128.val128 Emu64.val64 qr) / 2 * Emu64.val64 b
        ∧ Emu128.val128 Emu64.val64 (Emu128.lua_pcg_u128_sum Emu64.ops (Emu128.lua_pcg_u128_mul Emu64.ops (Emu128.lua_pcg_u128_rsh Emu64.ops (Emu128.lua_pcg_u128_sum Emu64.ops ql qr) 1)
              (Emu64.lua_pcg_u128_lh b (Emu64.lua_pcg_u64_lh 0 0)))
              (Emu64.lua_pcg_u128_lh b (Emu64.lua_pcg_u64_lh 0 0)))
            = (Emu128.val128 Emu64.val64 ql + Emu128.val128 Emu64.val64 qr) / 2 * Emu64.val64 b + Emu64.val64 b
        ∧ (Emu128.val128 Emu64.val64 ql + Emu128.val128 Emu64.val64 qr) / 2 * Emu64.val64 b + Emu64.val64 b < 2 ^ 128)
    ∧ Emu64.div_bounds (Emu64.lua_pcg_u128_lh a (Emu64.lua_pcg_u64_lh 0 0))
        (Emu64.lua_pcg_u128_lh b (Emu64.lua_pcg_u64_lh 0 0))
        (Emu64.lua_pcg_u128_lh (Emu64.lua_pcg_u64_lh 1 0) (Emu64.lua_pcg_u64_lh 0 0))
        (Emu64.lua_pcg_u128_lh (Emu64.lua_pcg_u64_lh 0xFFFFFFFF 0xFFFFFFFF) (Emu64.lua_pcg_u64_lh 0 0)) 65 = none
    ∧ ∃ q r, Emu64.lua_pcg_u64_div 65 a b q0 r0 = .ok (0, q, r)
        ∧ Emu64.val64 q = Emu64.val64 a / Emu64.val64 b
        ∧ Emu64.val64 r = Emu64.val64 a % Emu64.val64 b := by
  have hA := Emu64.val64_lt a ha
  have hB := Emu64.val64_lt b hb
  obtain ⟨ea, wa, va⟩ := Emu128.widen_spec Emu64.ops_lawful_emu a ha
  obtain ⟨eb, wb, vb⟩ := Emu128.widen_spec Emu64.ops_lawful_emu b hb
  obtain ⟨wl, vl⟩ := Emu128.one128_spec Emu64.ops_lawful_emu
  have wmax := Emu64.lh_wf64 0xFFFFFFFF 0xFFFFFFFF
  obtain ⟨er, wr, vr⟩ := Emu128.widen_spec Emu64.ops_lawful_emu _ wmax
  have vmax : Emu64.val64 (Emu64.lua_pcg_u64_lh 0xFFFFFFFF 0xFFFFFFFF) = 2 ^ 64 - 1 := by
    rw [Emu64.lh_val64]
    norm_num
  rw [vmax] at vr
  change Emu128.wf128 Emu64.wf64 (Emu64.lua_pcg_u128_lh a (Emu64.lua_pcg_u64_lh 0 0)) at wa
  change Emu128.val128 Emu64.val64 (Emu64.lua_pcg_u128_lh a (Emu64.lua_pcg_u64_lh 0 0)) = Emu64.val64 a at va
  change Emu128.wf128 Emu64.wf64 (Emu64.lua_pcg_u128_lh b (Emu64.lua_pcg_u64_lh 0 0)) at wb
  change Emu128.val128 Emu64.val64 (Emu64.lua_pcg_u128_lh b (Emu64.lua_pcg_u64_lh 0 0)) = Emu64.val64 b at vb
  change Emu128.wf128 Emu64.wf64 (Emu64.lua_pcg_u128_lh (Emu64.lua_pcg_u64_lh 1 0) (Emu64.lua_pcg_u64_lh 0 0)) at wl
  change Emu128.val128 Emu64.val64 (Emu64.lua_pcg_u128_lh (Emu64.lua_pcg_u64_lh 1 0) (Emu64.lua_pcg_u64_lh 0 0)) = 1 at vl
  change Emu128.wf128 Emu64.wf64 (Emu64.lua_pcg_u128_lh (Emu64.lua_pcg_u64_lh 0xFFFFFFFF 0xFFFFFFFF) (Emu64.lua_pcg_u64_lh 0 0)) at wr
  change Emu128.val128 Emu64.val64 (Emu64.lua_pcg_u128_lh (Emu64.lua_pcg_u64_lh 0xFFFFFFFF 0xFFFFFFFF) (Emu64.lua_pcg_u64_lh 0 0)) = 2 ^ 64 - 1 at vr
  have hmul : (2 ^ 64 - 1) * 2 ≤ (2 ^ 64 - 1) * Emu64.val64 b := Nat.mul_le_mul_left _ hb2
  have hbounds := Emu64.div_bounds_spec _ _ _ _ wa wb wl wr
    (by rw [va]; exact hA) (by rw [vb]; exact hB)
    (by rw [vl, va, vb]; clear * - hab; omega)
    (by rw [vr, va, vb]; clear * - hmul hA; omega)
    (by rw [vr]; norm_num)
  have wz := Emu64.lh_wf64 0 0
  have w1 := Emu64.lh_wf64 1 0
  have vz : Emu64.val64 (Emu64.lua_pcg_u64_lh 0 0) = 0 := by
    rw [Emu64.lh_val64]
    norm_num
  have v1 : Emu64.val64 (Emu64.lua_pcg_u64_lh 1 0) = 1 := by
    rw [Emu64.lh_val64]
    norm_num
  have c0 : Emu64.lua_pcg_u64_eq b (Emu64.lua_pcg_u64_lh 0 0) = false := by
    rw [Bool.eq_false_iff]
    intro h
    have := (Emu64.eq_iff64 _ _ hb wz).mp h
    rw [vz] at this
    omega
  have c1 : Emu64.lua_pcg_u64_eq b (Emu64.lua_pcg_u64_lh 1 0) = false := by
    rw [Bool.eq_false_iff]
    intro h
    have := (Emu64.eq_iff64 _ _ hb w1).mp h
    rw [v1] at this
    omega
  have c2 : Emu64.lua_pcg_u64_eq a b = false := by
    rw [Bool.eq_false_iff]
    intro h
    have := (Emu64.eq_iff64 _ _ ha hb).mp h
    omega
  have c3 : Emu64.lua_pcg_u64_lt a b = false := by
    rw [Bool.eq_false_iff]
    intro h
    have := (Emu64.lt_iff64 _ _ ha hb).mp h
    omega
  have c4 : ¬ (a.high = 0 ∧ b.high = 0) := by
    intro h
    have h1 := ha.1
    have h2 : Emu64.val64 a = a.low := by
      simp only [Emu64.val64, h.1]
      omega
    omega
  refine ⟨?_, ?_, ?_, ?_, ?_⟩
  · intro fuel
    rw [Emu64.lua_pcg_u64_div, c0, c1, c2, c3]
    simp only [Bool.false_eq_true, if_false]
    rw [if_neg c4]
  · intro fuel ql qr
    exact Emu64.div_loop_succ fuel _ _ ql qr
  · intro n ql qr h
    obtain ⟨hn, wql, wqr, i1, i2, i3, i4⟩ := hbounds n ql qr h
    rw [va, vb] at i1 i2
    have hlr : Emu128.val128 Emu64.val64 ql < Emu128.val128 Emu64.val64 qr := by
      by_contra hcon
      have hle : Emu128.val128 Emu64.val64 qr * Emu64.val64 b ≤ Emu128.val128 Emu64.val64 ql * Emu64.val64 b :=
        Nat.mul_le_mul_right _ (Nat.le_of_not_lt hcon)
      omega
    obtain ⟨wq, vq, wm, vm, wt, vt⟩ := Emu64.div_pass_values _ ql qr wb wql wqr
      (by rw [vb]; exact hB) hlr i3
    rw [vb] at vm vt
    obtain ⟨ws, vs⟩ := Emu128.sum_spec128 Emu64.ops_lawful_emu ql qr wql wqr
    have es : (Emu128.val128 Emu64.val64 ql + Emu128.val128 Emu64.val64 qr) % 2 ^ 128 = Emu128.val128 Emu64.val64 ql + Emu128.val128 Emu64.val64 qr := by
      apply Nat.mod_eq_of_lt
      clear * - hlr i3
      omega
    rw [es] at vs
    have hlast := Emu128.val128_lt Emu64.ops_lawful_emu _ wt
    rw [vt] at hlast
    exact ⟨by omega, i1, i2, vs, vm, vt, hlast⟩
  · cases hc : Emu64.div_bounds (Emu64.lua_pcg_u128_lh a (Emu64.lua_pcg_u64_lh 0 0))
        (Emu64.lua_pcg_u128_lh b (Emu64.lua_pcg_u64_lh 0 0))
        (Emu64.lua_pcg_u128_lh (Emu64.lua_pcg_u64_lh 1 0) (Emu64.lua_pcg_u64_lh 0 0))
        (Emu64.lua_pcg_u128_lh (Emu64.lua_pcg_u64_lh 0xFFFFFFFF 0xFFFFFFFF) (Emu64.lua_pcg_u64_lh 0 0)) 65 with
    | none => rfl
    | some p =>
      obtain ⟨ql, qr⟩ := p
      have := (hbounds 65 ql qr hc).1
      omega
  · obtain ⟨q, r, he, _, _, vq, vrr⟩ := Emu64.div_spec 65 (Nat.le_refl _) a b q0 r0 ha hb (by omega)
    exact ⟨q, r, he, vq, vrr⟩

/-- Witness of C29: `2^32` divided by 3. -/
theorem C29_bisection_terminates_witness :
    Emu64.wf64 ⟨0, 1⟩ ∧ Emu64.wf64 ⟨3, 0⟩ ∧ 2 ≤ Emu64.val64 ⟨3, 0⟩
    ∧ Emu64.val64 ⟨3, 0⟩ < Emu64.val64 ⟨0, 1⟩ ∧ 2 ^ 32 ≤ Emu64.val64 ⟨0, 1⟩
    ∧ ∃ q r, Emu64.lua_pcg_u64_div 65 ⟨0, 1⟩ ⟨3, 0⟩ ⟨7, 7⟩ ⟨9, 9⟩ = .ok (0, q, r)
        ∧ Emu64.val64 q = Emu64.val64 ⟨0, 1⟩ / Emu64.val64 ⟨3, 0⟩
        ∧ Emu64.val64 r = Emu64.val64 ⟨0, 1⟩ % Emu64.val64 ⟨3, 0⟩ :=
  ⟨⟨by decide, by decide⟩, ⟨by decide, by decide⟩, by decide, by decide, by decide,
    (C29_bisection_terminates ⟨0, 1⟩ ⟨3, 0⟩ ⟨7, 7⟩ ⟨9, 9⟩ ⟨by decide, by decide⟩
      ⟨by decide, by decide⟩ (by decide) (by decide) (by decide)).2.2.2.2⟩

/-! ## The share of accepted outputs -/

/-- The number of values below `W` that are not below `t`. -/
theorem card_not_below (W t : Nat) :
    ((Finset.range W).filter (fun r => t ≤ r)).card = W - t := by
  have h : (Finset.range W).filter (fun r => t ≤ r) = Finset.Ico t W := by
    ext r
    simp only [Finset.mem_filter, Finset.mem_range, Finset.mem_Ico]
    omega
  rw [h, Nat.card_Ico]

/-- For `0 < b < W` with `W` even, `W mod b` is below half of `W`. -/
theorem mod_below_half (W b : Nat) (h0 : 0 < b) (h1 : b < W) (hW : W % 2 = 0) :
    2 * (W % b) < W := by
  rcases Nat.lt_or_ge (W / 2) b with h | h
  · have h2 : W % b = W - b := by
      have h3 : W = (W - b) + b := by omega
      have h4 : (W - b + b) % b = (W - b) % b := Nat.add_mod_right _ _
      rw [← h3] at h4
      rw [h4]
      exact Nat.mod_eq_of_lt (by omega)
    rw [h2]
    omega
  · have := Nat.mod_lt W h0
    omega

/-- The threshold that the native `lua_pcg_setseq_128_xsl_rr_64_boundedrand_r` computes is
`2^64 mod bound`. -/
theorem threshold_64_eq (bound : Nat) (h0 : 0 < bound) (h1 : bound < 2 ^ 64) :
    lua_pcg_u64_cast bound = bound
    ∧ neg64 (lua_pcg_u64_cast bound) % lua_pcg_u64_cast bound = (2 ^ 64 - bound) % bound
    ∧ (2 ^ 64 - bound) % bound = 2 ^ 64 % bound := by
  have hc : lua_pcg_u64_cast bound = bound := by
    rw [lua_pcg_u64_cast_eq, Nat.mod_eq_of_lt h1]
  have h3 : (2 ^ 64 - bound + bound) % bound = (2 ^ 64 - bound) % bound := Nat.add_mod_right _ _
  have h4 : 2 ^ 64 - bound + bound = 2 ^ 64 := by omega
  rw [h4] at h3
  refine ⟨hc, ?_, h3.symm⟩
  rw [hc, neg64, wrap64_eq, wrap64_eq, Nat.mod_eq_of_lt h1]
  have h2 : (18446744073709551616 - bound) % 2 ^ 64 = 2 ^ 64 - bound := by
    norm_num
    omega
  rw [h2]

/-- C31: more than half of the raw outputs pass the rejection test.  For every bound in
`[1, 2^32 - 1]` the threshold `(-bound) % bound` of `lua_pcg_setseq_64_xsh_rr_32_boundedrand_r` is
`((2^32 - bound) mod 2^32) mod bound`, it is below `2^31`, and the outputs in `[0, 2^32)` not
below it number more than `2^31`.  For every bound in `[1, 2^64 - 1]` the threshold of
`lua_pcg_setseq_128_xsl_rr_64_boundedrand_r`, which the native variant computes as
`(-bound) % bound` and the emulated one as the remainder that `lua_pcg_u64_div` stores for
`additive_inverse(bound)` by `bound`, is `(2^64 - bound) mod bound`, it is below `2^63`, and the
outputs in `[0, 2^64)` not below it number more than `2^63`. -/
theorem C31_threshold_below_half :
    (∀ bound, 1 ≤ bound → bound ≤ 2 ^ 32 - 1 →
      neg32 (lua_pcg_u32_cast bound) % lua_pcg_u32_cast bound = ((2 ^ 32 - bound) % 2 ^ 32) % bound
      ∧ ((2 ^ 32 - bound) % 2 ^ 32) % bound < 2 ^ 31
      ∧ 2 ^ 31 < ((Finset.range (2 ^ 32)).filter
          (fun r => ((2 ^ 32 - bound) % 2 ^ 32) % bound ≤ r)).card)
    ∧ (∀ bound, 1 ≤ bound → bound ≤ 2 ^ 64 - 1 →
      neg64 (lua_pcg_u64_cast bound) % lua_pcg_u64_cast bound = (2 ^ 64 - bound) % bound
      ∧ (2 ^ 64 - bound) % bound < 2 ^ 63
      ∧ 2 ^ 63 < ((Finset.range (2 ^ 64)).filter (fun r => (2 ^ 64 - bound) % bound ≤ r)).card)
    ∧ (∀ (fuel : Nat) (bound q0 t0 : Emu64.lua_pcg_u64), 65 ≤ fuel → Emu64.wf64 bound →
        1 ≤ Emu64.val64 bound →
      ∃ q threshold, Emu64.lua_pcg_u64_div fuel (Emu64.lua_pcg_u64_additive_inverse bound) bound q0 t0
          = .ok (0, q, threshold)
        ∧ Emu64.val64 threshold = (2 ^ 64 - Emu64.val64 bound) % Emu64.val64 bound
        ∧ Emu64.val64 threshold < 2 ^ 63)
    ∧ (∀ (bound q0 t0 : Nat), 1 ≤ bound → bound ≤ 2 ^ 64 - 1 →
      ∃ q threshold, Native64.lua_pcg_u64_div (Native64.lua_pcg_u64_additive_inverse bound) bound q0 t0
          = .ok (0, q, threshold)
        ∧ threshold = (2 ^ 64 - bound) % bound
        ∧ threshold < 2 ^ 63) := by
  refine ⟨?_, ?_, ?_, ?_⟩
  · intro bound h1 h2
    have hlt : bound < 2 ^ 32 := by omega
    obtain ⟨hc, hthr⟩ := threshold_32_eq bound (by omega) hlt
    have he : ((2 ^ 32 - bound) % 2 ^ 32) % bound = 2 ^ 32 % bound := by
      rw [← hthr, hc, neg32, wrap32_eq, wrap32_eq, Nat.mod_eq_of_lt hlt]
      norm_num
    have hhalf := mod_below_half (2 ^ 32) bound (by omega) hlt (by norm_num)
    rw [he, card_not_below]
    refine ⟨hthr, ?_, ?_⟩
    · omega
    · omega
  · intro bound h1 h2
    have hlt : bound < 2 ^ 64 := by omega
    obtain ⟨hc, hthr, he⟩ := threshold_64_eq bound (by omega) hlt
    have hhalf := mod_below_half (2 ^ 64) bound (by omega) hlt (by norm_num)
    rw [card_not_below, he]
    rw [he] at hthr
    refine ⟨hthr, ?_, ?_⟩
    · omega
    · omega
  · intro fuel bound q0 t0 hfuel hb hb1
    have hlt := Emu64.val64_lt bound hb
    obtain ⟨q, r, hdiv, wq, wr, vq, vr⟩ := Emu64.div_spec fuel hfuel
      (Emu64.lua_pcg_u64_additive_inverse bound) bound q0 t0 (Emu64.additive_inverse_wf64 _) hb (by omega)
    obtain ⟨_, _, he⟩ := threshold_64_eq (Emu64.val64 bound) (by omega) hlt
    have hhalf := mod_below_half (2 ^ 64) (Emu64.val64 bound) (by omega) hlt (by norm_num)
    have hai : Emu64.val64 (Emu64.lua_pcg_u64_additive_inverse bound) = 2 ^ 64 - Emu64.val64 bound := by
      rw [Emu64.additive_inverse_val64 bound hb]
      exact Nat.mod_eq_of_lt (by omega)
    refine ⟨q, r, hdiv, ?_, ?_⟩
    · rw [vr, hai]
    · rw [vr, hai, he]
      omega
  · intro bound q0 t0 h1 h2
    have hlt : bound < 2 ^ 64 := by omega
    obtain ⟨hc, hthr, he⟩ := threshold_64_eq bound (by omega) hlt
    have hhalf := mod_below_half (2 ^ 64) bound (by omega) hlt (by norm_num)
    obtain ⟨res, q, r, hdiv⟩ := Native64.div_lawful_native.div_total 65
      (Native64.lua_pcg_u64_additive_inverse bound) bound q0 t0 (Nat.le_refl _)
      (by show Native64.lua_pcg_u64_additive_inverse bound < 2 ^ 64
          simp only [Native64.lua_pcg_u64_additive_inverse, lua_pcg_u64_cast_eq]
          exact Nat.mod_lt _ (by norm_num)) hlt (by
        show bound ≠ 0
        omega)
    obtain ⟨hres, _, _, _, vr⟩ := Native64.div_lawful_native.div_sound 65
      (Native64.lua_pcg_u64_additive_inverse bound) bound q0 t0 res q r
      (by show Native64.lua_pcg_u64_additive_inverse bound < 2 ^ 64
          simp only [Native64.lua_pcg_u64_additive_inverse, lua_pcg_u64_cast_eq]
          exact Nat.mod_lt _ (by norm_num)) hlt (by
        show bound ≠ 0
        omega) hdiv
    subst hres
    have hv : Native64.lua_pcg_u64_additive_inverse bound = 2 ^ 64 - bound := by
      simp only [Native64.lua_pcg_u64_additive_inverse, lua_pcg_u64_cast_eq, neg64, wrap64_eq,
        Nat.mod_eq_of_lt hlt]
      norm_num
      omega
    have vr2 : r = Native64.lua_pcg_u64_additive_inverse bound % bound := vr
    rw [hv] at vr2
    refine ⟨q, r, hdiv, vr2, ?_⟩
    rw [vr2, he]
    omega

/-- Witness of C31: the bound 6 of the 32-bit engine, whose threshold is 4. -/
theorem C31_threshold_below_half_witness :
    1 ≤ 6 ∧ 6 ≤ 2 ^ 32 - 1
    ∧ neg32 (lua_pcg_u32_cast 6) % lua_pcg_u32_cast 6 = ((2 ^ 32 - 6) % 2 ^ 32) % 6
    ∧ ((2 ^ 32 - 6) % 2 ^ 32) % 6 < 2 ^ 31
    ∧ 2 ^ 31 < ((Finset.range (2 ^ 32)).filter (fun r => ((2 ^ 32 - 6) % 2 ^ 32) % 6 ≤ r)).card :=
  ⟨by decide, by decide, C31_threshold_below_half.1 6 (by decide) (by decide)⟩

/-- C32: limb truncation is an invariant of the emulated 64-bit type.  On operands whose limbs
are both below `2^32`, each of `lua_pcg_u64_lh`, `sum`, `xor`, `bnot`, `band`, `bor`,
`additive_inverse`, `subtraction`, `rsh`, `lsh` (every count), `lua_pcg_u32_mul_ex` (on 32-bit
words) and `lua_pcg_u64_mul` returns a value whose limbs are both below `2^32`; and when the
low limbs of a sum carry into a high limb that stands at `2^32 - 1`, that limb wraps to 0. -/
theorem C32_limbs_truncated :
    (∀ l h : Nat, Emu64.wf64 (Emu64.lua_pcg_u64_lh l h))
    ∧ (∀ a b : Emu64.lua_pcg_u64, Emu64.wf64 a → Emu64.wf64 b →
        Emu64.wf64 (Emu64.lua_pcg_u64_sum a b)
        ∧ Emu64.wf64 (Emu64.lua_pcg_u64_xor a b)
        ∧ Emu64.wf64 (Emu64.lua_pcg_u64_band a b)
        ∧ Emu64.wf64 (Emu64.lua_pcg_u64_bor a b)
        ∧ Emu64.wf64 (Emu64.lua_pcg_u64_subtraction a b)
        ∧ Emu64.wf64 (Emu64.lua_pcg_u64_mul a b))
    ∧ (∀ a : Emu64.lua_pcg_u64, Emu64.wf64 a →
        Emu64.wf64 (Emu64.lua_pcg_u64_bnot a)
        ∧ Emu64.wf64 (Emu64.lua_pcg_u64_additive_inverse a)
        ∧ ∀ n : Nat, Emu64.wf64 (Emu64.lua_pcg_u64_rsh a n) ∧ Emu64.wf64 (Emu64.lua_pcg_u64_lsh a n))
    ∧ (∀ a b : Nat, a < 2 ^ 32 → b < 2 ^ 32 → Emu64.wf64 (Emu64.lua_pcg_u32_mul_ex a b))
    ∧ (∀ a b : Emu64.lua_pcg_u64, Emu64.wf64 a → Emu64.wf64 b →
        2 ^ 32 ≤ a.low + b.low → (a.high + b.high) % 2 ^ 32 = 2 ^ 32 - 1 →
        (Emu64.lua_pcg_u64_sum a b).high = 0
        ∧ (Emu64.lua_pcg_u64_sum a b).low = a.low + b.low - 2 ^ 32) := by
  refine ⟨Emu64.lh_wf64, ?_, ?_, ?_, ?_⟩
  · intro a b _ _
    exact ⟨Emu64.sum_wf64 a b, Emu64.xor_wf64 a b, Emu64.band_wf64 a b, Emu64.bor_wf64 a b,
      Emu64.subtraction_wf64 a b, Emu64.mul_wf64 a b⟩
  · intro a _
    exact ⟨Emu64.bnot_wf64 a, Emu64.additive_inverse_wf64 a,
      fun n => ⟨Emu64.rsh_wf64 a n, Emu64.lsh_wf64 a n⟩⟩
  · intro a b ha hb
    exact (Emu64.u32_mul_ex_spec a b ha hb).1
  · intro a b ha hb hc hh
    obtain ⟨ha1, ha2⟩ := ha
    obtain ⟨hb1, hb2⟩ := hb
    have hlow : (a.low + b.low) % 2 ^ 32 = a.low + b.low - 2 ^ 32 := by omega
    have hm : (a.low + b.low - 2 ^ 32) % 2 ^ 32 = a.low + b.low - 2 ^ 32 :=
      Nat.mod_eq_of_lt (by omega)
    have hlt : a.low + b.low - 2 ^ 32 < a.low := by omega
    have hw : ((2 ^ 32 - 1) % 2 ^ 32 + 1) % 2 ^ 32 = 0 := by norm_num
    simp only [Emu64.lua_pcg_u64_sum, Emu64.lua_pcg_u64_lh, lua_pcg_u32_cast_eq, wrap32_eq,
      Nat.mod_mod, hlow, hh, hm, hw]
    rw [if_pos hlt]
    exact ⟨Eq.refl _, Eq.refl _⟩

/-- Witness of C32: the sum of `2^64 - 1` and 1, whose carry wraps the high limb to 0. -/
theorem C32_limbs_truncated_witness :
    Emu64.wf64 ⟨4294967295, 4294967295⟩ ∧ Emu64.wf64 ⟨1, 0⟩
    ∧ 2 ^ 32 ≤ 4294967295 + 1 ∧ (4294967295 + 0) % 2 ^ 32 = 2 ^ 32 - 1
    ∧ (Emu64.lua_pcg_u64_sum ⟨4294967295, 4294967295⟩ ⟨1, 0⟩).high = 0
    ∧ (Emu64.lua_pcg_u64_sum ⟨4294967295, 4294967295⟩ ⟨1, 0⟩).low = 4294967295 + 1 - 2 ^ 32 :=
  ⟨⟨by decide, by decide⟩, ⟨by decide, by decide⟩, by decide, by decide,
    C32_limbs_truncated.2.2.2.2 ⟨4294967295, 4294967295⟩ ⟨1, 0⟩ ⟨by decide, by decide⟩
      ⟨by decide, by decide⟩ (by decide) (by decide)⟩

/-! ## Rotations -/

/-- Reduction modulo a power of two goes through a bitwise or. -/
theorem or_mod_pow_two (a b n : Nat) : (a ||| b) % 2 ^ n = a % 2 ^ n ||| b % 2 ^ n := by
  apply Nat.eq_of_testBit_eq
  intro j
  simp only [Nat.testBit_mod_two_pow, Nat.testBit_or]
  by_cases hj : j < n <;> simp [hj]

/-- The bits of a right rotation by `r` of a `W`-bit value, written with shifts. -/
theorem rot_bits (W v r i : Nat) (hv : v < 2 ^ W) (hr : r < W) (hi : i < W) :
    ((v >>> r) ||| ((v <<< ((W - r) % W)) % 2 ^ W)).testBit i = v.testBit ((i + r) % W) := by
  have hhigh : ∀ j, W ≤ j → v.testBit j = false := by
    intro j hj
    apply Nat.testBit_lt_two_pow
    exact Nat.lt_of_lt_of_le hv (Nat.pow_le_pow_right (by norm_num) hj)
  rw [Nat.testBit_or, Nat.testBit_shiftRight, Nat.testBit_mod_two_pow, Nat.testBit_shiftLeft]
  simp only [hi, decide_True, Bool.true_and]
  rcases Nat.eq_zero_or_pos r with h0 | h0
  · subst h0
    have e1 : (W - 0) % W = 0 := by simp
    rw [e1, Nat.add_zero, Nat.mod_eq_of_lt hi]
    simp
  · have e1 : (W - r) % W = W - r := Nat.mod_eq_of_lt (by omega)
    rw [e1]
    by_cases hlt : i + r < W
    · rw [Nat.mod_eq_of_lt hlt]
      have hd : ¬ (i ≥ W - r) := by omega
      simp only [hd, decide_False, Bool.false_and, Bool.or_false]
      rw [Nat.add_comm]
    · have e2 : (i + r) % W = i + r - W := by
        rw [Nat.mod_eq_sub_mod (by omega)]
        exact Nat.mod_eq_of_lt (by omega)
      have e3 : i - (W - r) = i + r - W := by omega
      have hd : i ≥ W - r := by omega
      rw [e2, e3, hhigh (r + i) (by omega)]
      simp only [hd, decide_True, Bool.true_and, Bool.false_or]

namespace Emu128

variable {α : Type} {wf : α → Prop} {val : α → Nat}

/-- The emulated `lua_pcg_rotr_64`, on represented values, for a count below 64. -/
theorem rotr_64_spec (B : U64Backend α) (L : B.toU64Ops.Lawful wf val) (v : α) (rot : Nat)
    (hv : wf v) (hr : rot < 64) :
    wf (lua_pcg_rotr_64 B v rot)
    ∧ val (lua_pcg_rotr_64 B v rot)
        = (val v >>> rot) ||| ((val v <<< ((64 - rot) % 64)) % 2 ^ 64) := by
  have hk : neg32 rot &&& 63 = (64 - rot) % 64 := neg32_and_63 rot hr
  have hk64 : (64 - rot) % 64 < 64 := Nat.mod_lt _ (by norm_num)
  simp only [lua_pcg_rotr_64, hk]
  have w1 := L.rsh_wf v rot hv hr
  have w2 := L.lsh_wf v ((64 - rot) % 64) hv hk64
  refine ⟨L.bor_wf _ _ w1 w2, ?_⟩
  rw [L.bor_val _ _ w1 w2, L.rsh_val v rot hv hr, L.lsh_val v _ hv hk64,
    Nat.shiftRight_eq_div_pow, Nat.shiftLeft_eq]

end Emu128

/-- C33: the rotate helpers are bit rotations.  For every 32-bit `v` and `r` in `[0, 31]`,
`lua_pcg_rotr_32(v, r)` is `((v >> r) | (v << ((32 - r) mod 32))) mod 2^32` and its bit `i` is
bit `(i + r) mod 32` of `v`; for every 64-bit `v` and `rot` in `[0, 63]`, the `lua_pcg_rotr_64` of
the 128-bit emulation, over emulated and over native 64-bit limbs, returns a 64-bit value whose
bit `i` is bit `(i + rot) mod 64` of `v`; and a count of 0 returns `v`. -/
theorem C33_rotations :
    (∀ v r : Nat, v < 2 ^ 32 → r < 32 →
      lua_pcg_rotr_32 v r = ((v >>> r) ||| (v <<< ((32 - r) % 32))) % 2 ^ 32
      ∧ (∀ i, i < 32 → (lua_pcg_rotr_32 v r).testBit i = v.testBit ((i + r) % 32)))
    ∧ (∀ (v : Emu64.lua_pcg_u64) (rot : Nat), Emu64.wf64 v → rot < 64 →
      Emu64.wf64 (Emu128.lua_pcg_rotr_64 Emu64.backend v rot)
      ∧ (∀ i, i < 64 → (Emu64.val64 (Emu128.lua_pcg_rotr_64 Emu64.backend v rot)).testBit i
          = (Emu64.val64 v).testBit ((i + rot) % 64)))
    ∧ (∀ (v rot : Nat), v < 2 ^ 64 → rot < 64 →
      Emu128.lua_pcg_rotr_64 Native64.backend v rot < 2 ^ 64
      ∧ (∀ i, i < 64 → (Emu128.lua_pcg_rotr_64 Native64.backend v rot).testBit i
          = v.testBit ((i + rot) % 64)))
    ∧ (∀ v : Nat, v < 2 ^ 32 → lua_pcg_rotr_32 v 0 = v)
    ∧ (∀ v : Emu64.lua_pcg_u64, Emu64.wf64 v → Emu128.lua_pcg_rotr_64 Emu64.backend v 0 = v)
    ∧ (∀ v : Nat, v < 2 ^ 64 → Emu128.lua_pcg_rotr_64 Native64.backend v 0 = v) := by
  have h32 : ∀ v r : Nat, v < 2 ^ 32 → r < 32 →
      lua_pcg_rotr_32 v r = ((v >>> r) ||| (v <<< ((32 - r) % 32))) % 2 ^ 32
      ∧ (∀ i, i < 32 → (lua_pcg_rotr_32 v r).testBit i = v.testBit ((i + r) % 32)) := by
    intro v r hv hr
    have hsh : (v >>> r) % 2 ^ 32 = v >>> r := by
      apply Nat.mod_eq_of_lt
      rw [Nat.shiftRight_eq_div_pow]
      exact Nat.lt_of_le_of_lt (Nat.div_le_self _ _) hv
    refine ⟨?_, ?_⟩
    · rw [rotr_32_eq v r hv hr, or_mod_pow_two, hsh]
    · intro i hi
      rw [rotr_32_eq v r hv hr]
      exact rot_bits 32 v r i hv hr hi
  have hemu : ∀ (v : Emu64.lua_pcg_u64) (rot : Nat), Emu64.wf64 v → rot < 64 →
      Emu64.wf64 (Emu128.lua_pcg_rotr_64 Emu64.backend v rot)
      ∧ (∀ i, i < 64 → (Emu64.val64 (Emu128.lua_pcg_rotr_64 Emu64.backend v rot)).testBit i
          = (Emu64.val64 v).testBit ((i + rot) % 64)) := by
    intro v rot hv hr
    obtain ⟨w, e⟩ := Emu128.rotr_64_spec Emu64.backend Emu64.ops_lawful_emu v rot hv hr
    refine ⟨w, ?_⟩
    intro i hi
    rw [e]
    exact rot_bits 64 _ rot i (Emu64.val64_lt v hv) hr hi
  have hnat : ∀ (v rot : Nat), v < 2 ^ 64 → rot < 64 →
      Emu128.lua_pcg_rotr_64 Native64.backend v rot < 2 ^ 64
      ∧ (∀ i, i < 64 → (Emu128.lua_pcg_rotr_64 Native64.backend v rot).testBit i
          = v.testBit ((i + rot) % 64)) := by
    intro v rot hv hr
    obtain ⟨w, e⟩ := Emu128.rotr_64_spec Native64.backend Native64.ops_lawful_native v rot hv hr
    refine ⟨w, ?_⟩
    intro i hi
    have e2 : Emu128.lua_pcg_rotr_64 Native64.backend v rot
        = (v >>> rot) ||| ((v <<< ((64 - rot) % 64)) % 2 ^ 64) := e
    rw [e2]
    exact rot_bits 64 v rot i hv hr hi
  refine ⟨h32, hemu, hnat, ?_, ?_, ?_⟩
  · intro v hv
    apply Nat.eq_of_testBit_eq
    intro i
    by_cases hi : i < 32
    · rw [(h32 v 0 hv (by norm_num)).2 i hi, Nat.add_zero, Nat.mod_eq_of_lt hi]
    · have hge : 32 ≤ i := by omega
      have h1 : v.testBit i = false :=
        Nat.testBit_lt_two_pow (Nat.lt_of_lt_of_le hv (Nat.pow_le_pow_right (by norm_num) hge))
      have h2 : (lua_pcg_rotr_32 v 0).testBit i = false := by
        rw [(h32 v 0 hv (by norm_num)).1, Nat.testBit_mod_two_pow]
        simp [hi]
      rw [h1, h2]
  · intro v hv
    obtain ⟨w, hb⟩ := hemu v 0 hv (by norm_num)
    apply Emu64.val64_inj _ _ w hv
    apply Nat.eq_of_testBit_eq
    intro i
    by_cases hi : i < 64
    · rw [hb i hi, Nat.add_zero, Nat.mod_eq_of_lt hi]
    · have hge : 64 ≤ i := by omega
      rw [Nat.testBit_lt_two_pow (Nat.lt_of_lt_of_le (Emu64.val64_lt _ w)
          (Nat.pow_le_pow_right (by norm_num) hge)),
        Nat.testBit_lt_two_pow (Nat.lt_of_lt_of_le (Emu64.val64_lt _ hv)
          (Nat.pow_le_pow_right (by norm_num) hge))]
  · intro v hv
    obtain ⟨w, hb⟩ := hnat v 0 hv (by norm_num)
    apply Nat.eq_of_testBit_eq
    intro i
    by_cases hi : i < 64
    · rw [hb i hi, Nat.add_zero, Nat.mod_eq_of_lt hi]
    · have hge : 64 ≤ i := by omega
      rw [Nat.testBit_lt_two_pow (Nat.lt_of_lt_of_le w (Nat.pow_le_pow_right (by norm_num) hge)),
        Nat.testBit_lt_two_pow (Nat.lt_of_lt_of_le hv (Nat.pow_le_pow_right (by norm_num) hge))]

/-- Witness of C33: rotating `0x80000001` by 1 and the emulated 64-bit value 3 by 1. -/
theorem C33_rotations_witness :
    (2147483649 : Nat) < 2 ^ 32 ∧ 1 < 32
    ∧ lua_pcg_rotr_32 2147483649 1 = ((2147483649 >>> 1) ||| (2147483649 <<< ((32 - 1) % 32))) % 2 ^ 32
    ∧ Emu64.wf64 ⟨3, 0⟩ ∧ 1 < 64
    ∧ Emu64.wf64 (Emu128.lua_pcg_rotr_64 Emu64.backend ⟨3, 0⟩ 1) :=
  ⟨by decide, by decide, (C33_rotations.1 2147483649 1 (by decide) (by decide)).1,
    ⟨by decide, by decide⟩, by decide,
    (C33_rotations.2.1 ⟨3, 0⟩ 1 ⟨by decide, by decide⟩ (by decide)).1⟩

/-- C34: the multiplier constants assembled from 32-bit limbs have the specified values.
`LUA_PCG_DEFAULT_MULTIPLIER_64`, that is `lua_pcg_u64_lh(0x4C957F2D, 0x5851F42D)`, is
6364136223846793005, as a native integer and as the value of the emulated pair of limbs;
`LUA_PCG_DEFAULT_MULTIPLIER_128`, that is
`lua_pcg_u128_lh(lua_pcg_u64_lh(0x9FCCF645, 0x4385DF64), lua_pcg_u64_lh(0x1FC65DA4, 0x2360ED05))`,
is `0x2360ED051FC65DA44385DF649FCCF645`, as a native integer and as the value of the emulated
limbs over an emulated and over a native 64-bit type. -/
theorem C34_multiplier_constants :
    Native64.LUA_PCG_DEFAULT_MULTIPLIER_64 = Native64.lua_pcg_u64_lh 0x4C957F2D 0x5851F42D
    ∧ Native64.LUA_PCG_DEFAULT_MULTIPLIER_64 = 6364136223846793005
    ∧ Emu64.LUA_PCG_DEFAULT_MULTIPLIER_64 = Emu64.lua_pcg_u64_lh 0x4C957F2D 0x5851F42D
    ∧ Emu64.LUA_PCG_DEFAULT_MULTIPLIER_64 = ⟨0x4C957F2D, 0x5851F42D⟩
    ∧ Emu64.val64 Emu64.LUA_PCG_DEFAULT_MULTIPLIER_64 = 6364136223846793005
    ∧ Native128.LUA_PCG_DEFAULT_MULTIPLIER_128
        = Native128.lua_pcg_u128_lh (Native64.lua_pcg_u64_lh 0x9FCCF645 0x4385DF64)
            (Native64.lua_pcg_u64_lh 0x1FC65DA4 0x2360ED05)
    ∧ Native128.LUA_PCG_DEFAULT_MULTIPLIER_128 = 0x2360ED051FC65DA44385DF649FCCF645
    ∧ Emu128.LUA_PCG_DEFAULT_MULTIPLIER_128 Emu64.backend
        = ⟨⟨0x9FCCF645, 0x4385DF64⟩, ⟨0x1FC65DA4, 0x2360ED05⟩⟩
    ∧ Emu128.val128 Emu64.val64 (Emu128.LUA_PCG_DEFAULT_MULTIPLIER_128 Emu64.backend)
        = 0x2360ED051FC65DA44385DF649FCCF645
    ∧ Emu128.LUA_PCG_DEFAULT_MULTIPLIER_128 Native64.backend
        = ⟨0x4385DF649FCCF645, 0x2360ED051FC65DA4⟩
    ∧ Emu128.val128 (fun x => x) (Emu128.LUA_PCG_DEFAULT_MULTIPLIER_128 Native64.backend)
        = 0x2360ED051FC65DA44385DF649FCCF645 := by
  refine ⟨rfl, Native64.multiplier_64_value, rfl, by decide, ?_, rfl,
    Native128.multiplier_128_value, by decide, ?_, by decide, ?_⟩
  · rw [Emu64.multiplier_64_spec.2, Native64.multiplier_64_value]
  · exact (Emu128.multiplier_128_spec Emu64.backend Emu64.ops_lawful_emu).2
  · exact (Emu128.multiplier_128_spec Native64.backend Native64.ops_lawful_native).2

/-! ## What seeding keeps of the sequence selector -/

/-- Flipping bit `k` does not change a value modulo `2^k`. -/
theorem xor_top_mod (k x : Nat) : (x ^^^ 2 ^ k) % 2 ^ k = x % 2 ^ k := by
  apply Nat.eq_of_testBit_eq
  intro j
  simp only [Nat.testBit_mod_two_pow, Nat.testBit_xor, Nat.testBit_two_pow]
  by_cases hj : j < k
  · have hne : ¬ (k = j) := by omega
    simp [hj, hne]
  · simp [hj]

/-- The increment `(initseq << 1) | 1` at width `k + 1` is `2 * (initseq mod 2^k) + 1`. -/
theorem seq_to_inc (k s : Nat) : ((s <<< 1) ||| 1) % 2 ^ (k + 1) = 2 * (s % 2 ^ k) + 1 := by
  have h1 := or_one_odd (s <<< 1)
  have h2 : ((s <<< 1) ||| 1) / 2 = s := by
    rw [Nat.or_div_two, Nat.shiftLeft_eq]
    norm_num
  have h3 : (s <<< 1) ||| 1 = 2 * s + 1 := by omega
  have hlt := Nat.mod_lt s (show 0 < 2 ^ k by positivity)
  have hd := Nat.div_add_mod s (2 ^ k)
  have h4 : 2 * s + 1 = (2 * (s % 2 ^ k) + 1) + (2 ^ k * 2) * (s / 2 ^ k) := by
    nth_rewrite 1 [← hd]
    ring
  rw [h3, pow_succ, h4, Nat.add_mul_mod_self_left]
  apply Nat.mod_eq_of_lt
  omega

/-- The increment at width `k + 1` depends on `initseq` exactly through `initseq mod 2^k`. -/
theorem seq_to_inc_eq_iff (k s1 s2 : Nat) :
    ((s1 <<< 1) ||| 1) % 2 ^ (k + 1) = ((s2 <<< 1) ||| 1) % 2 ^ (k + 1) ↔ s1 % 2 ^ k = s2 % 2 ^ k := by
  rw [seq_to_inc, seq_to_inc]
  omega

namespace Native64

/-- The seeded engine depends on `initseq` only through its value modulo `2^63`. -/
theorem srandom_64_congr (p1 p2 : lua_pcg_state_setseq_64) (initstate s1 s2 : Nat)
    (h : s1 % 2 ^ 63 = s2 % 2 ^ 63) :
    lua_pcg_setseq_64_srandom_r p1 initstate s1 = lua_pcg_setseq_64_srandom_r p2 initstate s2 := by
  obtain ⟨i1, e1⟩ := srandom_64_spec p1 initstate s1
  obtain ⟨i2, e2⟩ := srandom_64_spec p2 initstate s2
  have hk : ((s1 <<< 1) ||| 1) % 2 ^ 64 = ((s2 <<< 1) ||| 1) % 2 ^ 64 :=
    (seq_to_inc_eq_iff 63 s1 s2).mpr h
  rw [hk] at i1 e1
  have hst : (lua_pcg_setseq_64_srandom_r p1 initstate s1).state
      = (lua_pcg_setseq_64_srandom_r p2 initstate s2).state := by rw [e1, e2]
  have hinc : (lua_pcg_setseq_64_srandom_r p1 initstate s1).inc
      = (lua_pcg_setseq_64_srandom_r p2 initstate s2).inc := by rw [i1, i2]
  generalize lua_pcg_setseq_64_srandom_r p1 initstate s1 = r1 at hst hinc
  generalize lua_pcg_setseq_64_srandom_r p2 initstate s2 = r2 at hst hinc
  cases r1
  cases r2
  simp only at hst hinc
  rw [hst, hinc]

end Native64

namespace Native128

/-- The seeded engine depends on `initseq` only through its value modulo `2^127`. -/
theorem srandom_128_congr (p1 p2 : lua_pcg_state_setseq_128) (initstate s1 s2 : Nat)
    (h : s1 % 2 ^ 127 = s2 % 2 ^ 127) :
    lua_pcg_setseq_128_srandom_r p1 initstate s1 = lua_pcg_setseq_128_srandom_r p2 initstate s2 := by
  obtain ⟨i1, e1⟩ := srandom_128_spec p1 initstate s1
  obtain ⟨i2, e2⟩ := srandom_128_spec p2 initstate s2
  have hk : ((s1 <<< 1) ||| 1) % 2 ^ 128 = ((s2 <<< 1) ||| 1) % 2 ^ 128 :=
    (seq_to_inc_eq_iff 127 s1 s2).mpr h
  rw [hk] at i1 e1
  have hst : (lua_pcg_setseq_128_srandom_r p1 initstate s1).state
      = (lua_pcg_setseq_128_srandom_r p2 initstate s2).state := by rw [e1, e2]
  have hinc : (lua_pcg_setseq_128_srandom_r p1 initstate s1).inc
      = (lua_pcg_setseq_128_srandom_r p2 initstate s2).inc := by rw [i1, i2]
  generalize lua_pcg_setseq_128_srandom_r p1 initstate s1 = r1 at hst hinc
  generalize lua_pcg_setseq_128_srandom_r p2 initstate s2 = r2 at hst hinc
  cases r1
  cases r2
  simp only at hst hinc
  rw [hst, hinc]

end Native128

/-- C38: seeding discards the top bit of `initseq`.  For every `initstate` and every 64-bit
`initseq`, `lua_pcg_setseq_64_srandom_r` gives the same engine, hence the same outputs, for
`initseq` and for `initseq xor 2^63`, and two values of `initseq` give the same increment exactly
when they agree modulo `2^63`; likewise `lua_pcg_setseq_128_srandom_r` with `2^127`.  With the
emulated types, two well-formed values of `initseq` that agree modulo `2^63` (resp. `2^127`) give
the same engine, and two that give the same increment agree modulo `2^63` (resp. `2^127`). -/
theorem C38_seed_discards_top_bit :
    (∀ (prior : Native64.lua_pcg_state_setseq_64) (initstate initseq : Nat), initseq < 2 ^ 64 →
      initseq ^^^ 2 ^ 63 < 2 ^ 64
      ∧ Native64.lua_pcg_setseq_64_srandom_r prior initstate initseq
          = Native64.lua_pcg_setseq_64_srandom_r prior initstate (initseq ^^^ 2 ^ 63)
      ∧ ∀ n, Native64.nth_draw (Native64.lua_pcg_setseq_64_srandom_r prior initstate initseq) n
          = Native64.nth_draw
              (Native64.lua_pcg_setseq_64_srandom_r prior initstate (initseq ^^^ 2 ^ 63)) n)
    ∧ (∀ (prior : Native64.lua_pcg_state_setseq_64) (initstate s1 s2 : Nat),
      ((Native64.lua_pcg_setseq_64_srandom_r prior initstate s1).inc
          = (Native64.lua_pcg_setseq_64_srandom_r prior initstate s2).inc
        ↔ s1 % 2 ^ 63 = s2 % 2 ^ 63))
    ∧ (∀ (prior : Native128.lua_pcg_state_setseq_128) (initstate initseq : Nat), initseq < 2 ^ 128 →
      initseq ^^^ 2 ^ 127 < 2 ^ 128
      ∧ Native128.lua_pcg_setseq_128_srandom_r prior initstate initseq
          = Native128.lua_pcg_setseq_128_srandom_r prior initstate (initseq ^^^ 2 ^ 127)
      ∧ ∀ n, Native128.nth_draw (Native128.lua_pcg_setseq_128_srandom_r prior initstate initseq) n
          = Native128.nth_draw
              (Native128.lua_pcg_setseq_128_srandom_r prior initstate (initseq ^^^ 2 ^ 127)) n)
    ∧ (∀ (prior : Native128.lua_pcg_state_setseq_128) (initstate s1 s2 : Nat),
      ((Native128.lua_pcg_setseq_128_srandom_r prior initstate s1).inc
          = (Native128.lua_pcg_setseq_128_srandom_r prior initstate s2).inc
        ↔ s1 % 2 ^ 127 = s2 % 2 ^ 127))
    ∧ (∀ (prior : Emu64.lua_pcg_state_setseq_64) (initstate s1 s2 : Emu64.lua_pcg_u64),
      Emu64.wf64 initstate → Emu64.wf64 s1 → Emu64.wf64 s2 →
      (Emu64.val64 s1 % 2 ^ 63 = Emu64.val64 s2 % 2 ^ 63 →
        Emu64.lua_pcg_setseq_64_srandom_r prior initstate s1
          = Emu64.lua_pcg_setseq_64_srandom_r prior initstate s2)
      ∧ ((Emu64.lua_pcg_setseq_64_srandom_r prior initstate s1).inc
          = (Emu64.lua_pcg_setseq_64_srandom_r prior initstate s2).inc →
        Emu64.val64 s1 % 2 ^ 63 = Emu64.val64 s2 % 2 ^ 63))
    ∧ (∀ (prior : Emu128.lua_pcg_state_setseq_128 Emu64.lua_pcg_u64)
        (initstate s1 s2 : lua_pcg_u128 Emu64.lua_pcg_u64),
      Emu128.wf128 Emu64.wf64 initstate → Emu128.wf128 Emu64.wf64 s1 → Emu128.wf128 Emu64.wf64 s2 →
      (Emu128.val128 Emu64.val64 s1 % 2 ^ 127 = Emu128.val128 Emu64.val64 s2 % 2 ^ 127 →
        Emu128.lua_pcg_setseq_128_srandom_r Emu64.backend prior initstate s1
          = Emu128.lua_pcg_setseq_128_srandom_r Emu64.backend prior initstate s2)
      ∧ ((Emu128.lua_pcg_setseq_128_srandom_r Emu64.backend prior initstate s1).inc
          = (Emu128.lua_pcg_setseq_128_srandom_r Emu64.backend prior initstate s2).inc →
        Emu128.val128 Emu64.val64 s1 % 2 ^ 127 = Emu128.val128 Emu64.val64 s2 % 2 ^ 127)) := by
  have hx : ∀ k x : Nat, x < 2 ^ (k + 1) → x ^^^ 2 ^ k < 2 ^ (k + 1) := by
    intro k x hx
    apply Nat.xor_lt_two_pow hx
    exact Nat.pow_lt_pow_right (by norm_num) (by omega)
  refine ⟨?_, ?_, ?_, ?_, ?_, ?_⟩
  · intro prior initstate initseq hq
    have he := Native64.srandom_64_congr prior prior initstate initseq (initseq ^^^ 2 ^ 63)
      (xor_top_mod 63 initseq).symm
    refine ⟨hx 63 initseq hq, he, ?_⟩
    intro n
    rw [he]
  · intro prior initstate s1 s2
    rw [(Native64.srandom_64_spec prior initstate s1).1, (Native64.srandom_64_spec prior initstate s2).1]
    exact seq_to_inc_eq_iff 63 s1 s2
  · intro prior initstate initseq hq
    have he := Native128.srandom_128_congr prior prior initstate initseq (initseq ^^^ 2 ^ 127)
      (xor_top_mod 127 initseq).symm
    refine ⟨hx 127 initseq hq, he, ?_⟩
    intro n
    rw [he]
  · intro prior initstate s1 s2
    rw [(Native128.srandom_128_spec prior initstate s1).1,
      (Native128.srandom_128_spec prior initstate s2).1]
    exact seq_to_inc_eq_iff 127 s1 s2
  · intro prior initstate s1 s2 hi h1 h2
    obtain ⟨w1, a1⟩ := Emu64.srandom_64_sim prior ⟨0, 0⟩ initstate s1 hi h1
    obtain ⟨w2, a2⟩ := Emu64.srandom_64_sim prior ⟨0, 0⟩ initstate s2 hi h2
    refine ⟨?_, ?_⟩
    · intro hmod
      have hc := Native64.srandom_64_congr ⟨0, 0⟩ ⟨0, 0⟩ (Emu64.val64 initstate) _ _ hmod
      rw [← a1, ← a2] at hc
      have hst := Emu64.val64_inj _ _ w1.1 w2.1 (congrArg Native64.lua_pcg_state_setseq_64.state hc)
      have hinc := Emu64.val64_inj _ _ w1.2 w2.2 (congrArg Native64.lua_pcg_state_setseq_64.inc hc)
      generalize Emu64.lua_pcg_setseq_64_srandom_r prior initstate s1 = r1 at hst hinc
      generalize Emu64.lua_pcg_setseq_64_srandom_r prior initstate s2 = r2 at hst hinc
      cases r1
      cases r2
      simp only at hst hinc
      rw [hst, hinc]
    · intro hinc
      have hv : Emu64.val64 (Emu64.lua_pcg_setseq_64_srandom_r prior initstate s1).inc
          = Emu64.val64 (Emu64.lua_pcg_setseq_64_srandom_r prior initstate s2).inc := by rw [hinc]
      have b1 := congrArg Native64.lua_pcg_state_setseq_64.inc a1
      have b2 := congrArg Native64.lua_pcg_state_setseq_64.inc a2
      simp only [Emu64.abs_state] at b1 b2
      rw [b1, b2, (Native64.srandom_64_spec _ _ _).1, (Native64.srandom_64_spec _ _ _).1] at hv
      exact (seq_to_inc_eq_iff 63 _ _).mp hv
  · intro prior initstate s1 s2 hi h1 h2
    obtain ⟨w1, a1⟩ := Emu128.srandom_128_sim Emu64.backend Emu64.ops_lawful_emu prior ⟨0, 0⟩
      initstate s1 hi h1
    obtain ⟨w2, a2⟩ := Emu128.srandom_128_sim Emu64.backend Emu64.ops_lawful_emu prior ⟨0, 0⟩
      initstate s2 hi h2
    refine ⟨?_, ?_⟩
    · intro hmod
      have hc := Native128.srandom_128_congr ⟨0, 0⟩ ⟨0, 0⟩ (Emu128.val128 Emu64.val64 initstate)
        _ _ hmod
      rw [← a1, ← a2] at hc
      have hst := Emu128.val128_inj Emu64.ops_lawful_emu _ _ w1.1 w2.1
        (congrArg Native128.lua_pcg_state_setseq_128.state hc)
      have hinc := Emu128.val128_inj Emu64.ops_lawful_emu _ _ w1.2 w2.2
        (congrArg Native128.lua_pcg_state_setseq_128.inc hc)
      generalize Emu128.lua_pcg_setseq_128_srandom_r Emu64.backend prior initstate s1 = r1
        at hst hinc
      generalize Emu128.lua_pcg_setseq_128_srandom_r Emu64.backend prior initstate s2 = r2
        at hst hinc
      cases r1
      cases r2
      simp only at hst hinc
      rw [hst, hinc]
    · intro hinc
      have hv : Emu128.val128 Emu64.val64
            (Emu128.lua_pcg_setseq_128_srandom_r Emu64.backend prior initstate s1).inc
          = Emu128.val128 Emu64.val64
            (Emu128.lua_pcg_setseq_128_srandom_r Emu64.backend prior initstate s2).inc := by
        rw [hinc]
      have b1 := congrArg Native128.lua_pcg_state_setseq_128.inc a1
      have b2 := congrArg Native128.lua_pcg_state_setseq_128.inc a2
      simp only [Emu128.abs_state] at b1 b2
      rw [b1, b2, (Native128.srandom_128_spec _ _ _).1, (Native128.srandom_128_spec _ _ _).1] at hv
      exact (seq_to_inc_eq_iff 127 _ _).mp hv

/-- Witness of C38: the sequence selectors 54 and `54 + 2^63` seed the same engine. -/
theorem C38_seed_discards_top_bit_witness :
    (54 : Nat) < 2 ^ 64
    ∧ Native64.lua_pcg_setseq_64_srandom_r ⟨0, 0⟩ 42 54
        = Native64.lua_pcg_setseq_64_srandom_r ⟨0, 0⟩ 42 (54 ^^^ 2 ^ 63) :=
  ⟨by decide, (C38_seed_discards_top_bit.1 ⟨0, 0⟩ 42 54 (by decide)).2.1⟩

namespace Native64

/-- A bounded draw that returns, returns a value below the 32-bit bound. -/
theorem boundedrand_32_lt (fuel : Nat) (rng rng1 : lua_pcg_state_setseq_64) (bound v : Nat)
    (h : lua_pcg_setseq_64_xsh_rr_32_boundedrand_r fuel rng bound = .ok (v, rng1)) :
    v < lua_pcg_u32_cast bound := by
  simp only [lua_pcg_setseq_64_xsh_rr_32_boundedrand_r] at h
  by_cases hz : lua_pcg_u32_cast bound = 0
  · rw [if_pos hz] at h
    cases h
  · rw [if_neg hz] at h
    cases hl : lua_pcg_setseq_64_xsh_rr_32_boundedrand_r_loop fuel rng
        (neg32 (lua_pcg_u32_cast bound) % lua_pcg_u32_cast bound) with
    | error e =>
      rw [hl] at h
      cases h
    | ok p =>
      obtain ⟨r, rng2⟩ := p
      rw [hl] at h
      simp only [Except.ok.injEq, Prod.mk.injEq] at h
      rw [← h.1]
      exact Nat.mod_lt _ (Nat.pos_of_ne_zero hz)

/-- The two-argument form of `lua_pcg_pcg32_next`, once both `luaL_argcheck` have passed. -/
theorem pcg32_next_range_eq (fuel : Nat) (rng : lua_pcg_state_setseq_64) (a b : Int)
    (hab : a < b) (hc : wrap_int64 (b - a) ≤ 0xFFFFFFFF) :
    lua_pcg_pcg32_next fuel rng [a, b]
      = (lua_pcg_setseq_64_xsh_rr_32_boundedrand_r fuel rng
            (lua_pcg_u32_cast_int (wrap_int64 (b - a)))).map
          (fun p => (wrap_int64 (a + (p.1 : Int)), p.2)) := by
  simp only [lua_pcg_pcg32_next]
  rw [if_neg (by simpa using hab), if_neg (by simpa using hc)]
  cases lua_pcg_setseq_64_xsh_rr_32_boundedrand_r fuel rng
      (lua_pcg_u32_cast_int (wrap_int64 (b - a))) with
  | error e => rfl
  | ok p => rfl

end Native64

/-- C37: the two-argument form of `lua_pcg_pcg32_next`, with `lua_Integer` a 64-bit
two's-complement integer and `c = b - a` wrapping.  For `a < b` in range:
when `b - a <= 4294967295` both checks pass, the bound handed on is `b - a`, it is not zero, and
every value pushed lies in `[a, b)`; when `4294967295 < b - a < 2^63` the second check raises its
error; but when `b - a >= 2^63` the subtraction wraps to the negative `b - a - 2^64`, the second
check passes all the same, the bound handed on is the low 32 bits of `b - a` and differs from
`b - a`, and when `2^32` divides `b - a` that bound is zero and the call ends in the division by
zero of `lua_pcg_setseq_64_xsh_rr_32_boundedrand_r`. -/
theorem C37_range_form_bound (a b : Int) (ha : -9223372036854775808 ≤ a)
    (hb : b ≤ 9223372036854775807) (hab : a < b) :
    (b - a ≤ 4294967295 →
      Native64.wrap_int64 (b - a) = b - a
      ∧ Native64.lua_pcg_u32_cast_int (Native64.wrap_int64 (b - a)) = (b - a).toNat
      ∧ (b - a).toNat ≠ 0
      ∧ (∀ (fuel : Nat) (rng : Native64.lua_pcg_state_setseq_64),
          Native64.lua_pcg_pcg32_next fuel rng [a, b]
            = (Native64.lua_pcg_setseq_64_xsh_rr_32_boundedrand_r fuel rng (b - a).toNat).map
                (fun p => (a + (p.1 : Int), p.2)))
      ∧ (∀ (fuel : Nat) (rng rng1 : Native64.lua_pcg_state_setseq_64) (v : Int),
          Native64.lua_pcg_pcg32_next fuel rng [a, b] = .ok (v, rng1) → a ≤ v ∧ v < b))
    ∧ (4294967295 < b - a → b - a < 9223372036854775808 →
      ∀ (fuel : Nat) (rng : Native64.lua_pcg_state_setseq_64),
        Native64.lua_pcg_pcg32_next fuel rng [a, b]
          = .error (.arg_error 2 "the integer (b - a) is out of [1, 4294967295] range"))
    ∧ (9223372036854775808 ≤ b - a →
      Native64.wrap_int64 (b - a) = b - a - 18446744073709551616
      ∧ Native64.wrap_int64 (b - a) ≤ 4294967295
      ∧ ((Native64.lua_pcg_u32_cast_int (Native64.wrap_int64 (b - a)) : Nat) : Int) ≠ b - a
      ∧ ((Native64.lua_pcg_u32_cast_int (Native64.wrap_int64 (b - a)) : Nat) : Int)
          = (b - a) % 4294967296
      ∧ ((b - a) % 4294967296 = 0 →
          ∀ (fuel : Nat) (rng : Native64.lua_pcg_state_setseq_64),
            Native64.lua_pcg_pcg32_next fuel rng [a, b] = .error .division_by_zero)) := by
  refine ⟨?_, ?_, ?_⟩
  · intro hle
    have hw : Native64.wrap_int64 (b - a) = b - a := by
      simp only [Native64.wrap_int64]
      omega
    have hcast : Native64.lua_pcg_u32_cast_int (Native64.wrap_int64 (b - a)) = (b - a).toNat := by
      rw [hw]
      simp only [Native64.lua_pcg_u32_cast_int]
      congr 1
      omega
    have hnext : ∀ (fuel : Nat) (rng : Native64.lua_pcg_state_setseq_64),
        Native64.lua_pcg_pcg32_next fuel rng [a, b]
          = (Native64.lua_pcg_setseq_64_xsh_rr_32_boundedrand_r fuel rng (b - a).toNat).map
              (fun p => (a + (p.1 : Int), p.2)) := by
      intro fuel rng
      rw [Native64.pcg32_next_range_eq fuel rng a b hab (by rw [hw]; exact hle), hcast]
      cases hres : Native64.lua_pcg_setseq_64_xsh_rr_32_boundedrand_r fuel rng (b - a).toNat with
      | error e => rfl
      | ok p =>
        obtain ⟨n, rng1⟩ := p
        have hn := Native64.boundedrand_32_lt fuel rng rng1 _ n hres
        rw [lua_pcg_u32_cast_eq] at hn
        have hn2 : n < (b - a).toNat := Nat.lt_of_lt_of_le hn (Nat.mod_le _ _)
        have hw2 : Native64.wrap_int64 (a + (n : Int)) = a + (n : Int) := by
          simp only [Native64.wrap_int64]
          omega
        simp only [Except.map, hw2]
    refine ⟨hw, hcast, by omega, hnext, ?_⟩
    intro fuel rng rng1 v hret
    rw [hnext fuel rng] at hret
    cases hres : Native64.lua_pcg_setseq_64_xsh_rr_32_boundedrand_r fuel rng (b - a).toNat with
    | error e =>
      rw [hres] at hret
      cases hret
    | ok p =>
      obtain ⟨n, rng2⟩ := p
      rw [hres] at hret
      simp only [Except.map, Except.ok.injEq, Prod.mk.injEq] at hret
      have hn := Native64.boundedrand_32_lt fuel rng rng2 _ n hres
      rw [lua_pcg_u32_cast_eq] at hn
      have hn2 : n < (b - a).toNat := Nat.lt_of_lt_of_le hn (Nat.mod_le _ _)
      omega
  · intro hgt hlt fuel rng
    have hw : Native64.wrap_int64 (b - a) = b - a := by
      simp only [Native64.wrap_int64]
      omega
    simp only [Native64.lua_pcg_pcg32_next]
    rw [if_neg (by simpa using hab), hw, if_pos (by omega)]
  · intro hge
    have hw : Native64.wrap_int64 (b - a) = b - a - 18446744073709551616 := by
      simp only [Native64.wrap_int64]
      omega
    have hcast : ((Native64.lua_pcg_u32_cast_int (Native64.wrap_int64 (b - a)) : Nat) : Int)
        = (b - a) % 4294967296 := by
      rw [hw]
      simp only [Native64.lua_pcg_u32_cast_int]
      omega
    have hchk : Native64.wrap_int64 (b - a) ≤ 4294967295 := by
      rw [hw]
      omega
    refine ⟨hw, hchk, ?_, hcast, ?_⟩
    · rw [hcast]
      omega
    · intro hz fuel rng
      have hzero : Native64.lua_pcg_u32_cast_int (Native64.wrap_int64 (b - a)) = 0 := by
        have := hcast
        rw [hz] at this
        exact_mod_cast this
      rw [Native64.pcg32_next_range_eq fuel rng a b hab hchk, hzero]
      rfl

/-- Witness of C37: the range `[3, 10)`, whose bound is 7. -/
theorem C37_range_form_bound_witness :
    (-9223372036854775808 : Int) ≤ 3 ∧ (10 : Int) ≤ 9223372036854775807 ∧ (3 : Int) < 10
    ∧ (10 : Int) - 3 ≤ 4294967295
    ∧ Native64.lua_pcg_u32_cast_int (Native64.wrap_int64 (10 - 3)) = ((10 : Int) - 3).toNat
    ∧ ((10 : Int) - 3).toNat ≠ 0 :=
  ⟨by decide, by decide, by decide, by decide,
    ((C37_range_form_bound 3 10 (by decide) (by decide) (by decide)).1 (by decide)).2.1,
    ((C37_range_form_bound 3 10 (by decide) (by decide) (by decide)).1 (by decide)).2.2.1⟩

/-- C37, failing input: `a = -2^63` and `b = 2^63 - 2^32` pass both argument checks, for
`c = b - a` wraps to `-2^32`; the bound handed to the bounded draw is then 0, and the call ends in
a division by zero instead of pushing a value of `[a, b)`. -/
theorem C37_range_form_zero_bound :
    (-9223372036854775808 : Int) < 9223372032559808512
    ∧ Native64.wrap_int64 (9223372032559808512 - (-9223372036854775808)) = -4294967296
    ∧ Native64.wrap_int64 (9223372032559808512 - (-9223372036854775808)) ≤ 4294967295
    ∧ Native64.lua_pcg_u32_cast_int
        (Native64.wrap_int64 (9223372032559808512 - (-9223372036854775808))) = 0
    ∧ (∀ (fuel : Nat) (rng : Native64.lua_pcg_state_setseq_64),
        Native64.lua_pcg_pcg32_next fuel rng [-9223372036854775808, 9223372032559808512]
          = .error .division_by_zero) := by
  refine ⟨by decide, by decide, by decide, by decide, ?_⟩
  intro fuel rng
  rw [Native64.pcg32_next_range_eq fuel rng _ _ (by decide) (by decide)]
  rfl

/-! ## Parsing hexadecimal strings -/

/-- The function `lua_pcg_parse_hexdigit` returns 0 with the value of a hexadecimal digit, and
2, leaving `*digit` alone, for any other character; it never returns 1. -/
theorem parse_hexdigit_spec (c digit : Nat) :
    lua_pcg_parse_hexdigit c digit
      = match hex_digit_value c with
        | some d => (0, d)
        | none => (2, digit) := by
  simp only [lua_pcg_parse_hexdigit, hex_digit_value]
  by_cases h1 : 48 ≤ c ∧ c ≤ 57
  · have e1 : c = 48 ∨ c = 49 ∨ c = 50 ∨ c = 51 ∨ c = 52 ∨ c = 53 ∨ c = 54 ∨ c = 55 ∨ c = 56
        ∨ c = 57 := by omega
    have e2 : ¬ ¬ ((0 : Int) ≤ (c : Int) - 48 ∧ (c : Int) - 48 ≤ 9) := by omega
    rw [if_pos e1, if_pos h1]
    simp only [if_neg e2, if_true]
    congr 1
    omega
  · have e1 : ¬ (c = 48 ∨ c = 49 ∨ c = 50 ∨ c = 51 ∨ c = 52 ∨ c = 53 ∨ c = 54 ∨ c = 55 ∨ c = 56
        ∨ c = 57) := by omega
    rw [if_neg e1, if_neg h1]
    by_cases h2 : 97 ≤ c ∧ c ≤ 102
    · have e3 : c = 97 ∨ c = 98 ∨ c = 99 ∨ c = 100 ∨ c = 101 ∨ c = 102 := by omega
      have e4 : ¬ ¬ ((0xA : Int) ≤ (c : Int) - 97 + 0xA ∧ (c : Int) - 97 + 0xA ≤ 0xF) := by omega
      rw [if_pos e3, if_pos h2]
      simp only [if_neg e4, if_true]
      congr 1
      omega
    · have e3 : ¬ (c = 97 ∨ c = 98 ∨ c = 99 ∨ c = 100 ∨ c = 101 ∨ c = 102) := by omega
      rw [if_neg e3, if_neg h2]
      by_cases h3 : 65 ≤ c ∧ c ≤ 70
      · have e5 : c = 65 ∨ c = 66 ∨ c = 67 ∨ c = 68 ∨ c = 69 ∨ c = 70 := by omega
        have e6 : ¬ ¬ ((0xA : Int) ≤ (c : Int) - 65 + 0xA ∧ (c : Int) - 65 + 0xA ≤ 0xF) := by omega
        rw [if_pos e5, if_pos h3]
        simp only [if_neg e6, if_true]
        congr 1
        omega
      · have e5 : ¬ (c = 65 ∨ c = 66 ∨ c = 67 ∨ c = 68 ∨ c = 69 ∨ c = 70) := by omega
        rw [if_neg e5, if_neg h3]
        rfl

/-- A hexadecimal digit is below 16. -/
theorem hex_digit_value_lt (c d : Nat) (h : hex_digit_value c = some d) : d < 16 := by
  simp only [hex_digit_value] at h
  split_ifs at h <;> simp only [Option.some.injEq] at h <;> omega

/-- The value of `n` digits is below `16^n`. -/
theorem hex_le_lt (rs : List Nat) : hex_le rs < 16 ^ rs.length := by
  induction rs with
  | nil => simp [hex_le]
  | cons c cs ih =>
    have hd : (hex_digit_value c).getD 0 < 16 := by
      cases h : hex_digit_value c with
      | none => simp
      | some d =>
        simp only [Option.getD_some]
        exact hex_digit_value_lt c d h
    simp only [hex_le, List.length_cons, pow_succ]
    omega

/-- The value of two lists of digits put end to end, least significant first. -/
theorem hex_le_append (xs ys : List Nat) :
    hex_le (xs ++ ys) = hex_le xs + 16 ^ xs.length * hex_le ys := by
  induction xs with
  | nil => simp [hex_le]
  | cons c cs ih =>
    rw [List.cons_append]
    simp only [hex_le, List.length_cons, pow_succ]
    rw [ih]
    ring

/-- Reading the digits most significant first, or their reversal least significant first. -/
theorem hex_string_value_eq (ds : List Nat) : hex_string_value ds = hex_le ds.reverse := by
  have h : ∀ (ds : List Nat) (a : Nat),
      ds.foldl (fun acc c => 16 * acc + (hex_digit_value c).getD 0) a
        = a * 16 ^ ds.length + hex_le ds.reverse := by
    intro ds
    induction ds with
    | nil =>
      intro a
      simp [hex_le]
    | cons c cs ih =>
      intro a
      rw [List.foldl_cons, ih, List.reverse_cons, hex_le_append]
      simp only [hex_le, List.length_reverse, List.length_cons, pow_succ]
      ring
  rw [hex_string_value, h]
  simp

/-- The character read at the position just below the digits still to be read. -/
theorem hex_buffer_get (pre rs post : List Nat) (c : Nat) :
    pre ++ (c :: rs).reverse ++ post = pre ++ rs.reverse ++ (c :: post)
    ∧ (pre ++ rs.reverse ++ (c :: post)).get? (pre.length + rs.length) = some c := by
  refine ⟨by simp, ?_⟩
  have hlen : (pre ++ rs.reverse).length = pre.length + rs.length := by simp
  rw [List.get?_eq_getElem?, List.getElem?_append_right (by rw [hlen]), hlen]
  simp

/-- One more digit keeps the accumulated value: `value |= digit << (4 * con)`. -/
theorem hex_value_step (con value d : Nat) (hcon : con < 8) (hv : value < 16 ^ con) (hd : d < 16) :
    wrap32 (con + 1) = con + 1
    ∧ (if wrap32 (con + 1) = 1 then value ||| d
        else value ||| wrap32 (d <<< wrap32 (sub32 (wrap32 (con + 1)) 1 <<< 2)))
      = value + 16 ^ con * d
    ∧ value + 16 ^ con * d < 16 ^ (con + 1) := by
  have h1 : wrap32 (con + 1) = con + 1 := by
    rw [wrap32_eq]
    exact Nat.mod_eq_of_lt (by omega)
  have hlt : value + 16 ^ con * d < 16 ^ (con + 1) := by
    rw [pow_succ]
    have : 16 ^ con * d ≤ 16 ^ con * 15 := Nat.mul_le_mul_left _ (by omega)
    omega
  refine ⟨h1, ?_, hlt⟩
  rw [h1]
  by_cases h0 : con = 0
  · subst h0
    have hv0 : value = 0 := by simpa using hv
    subst hv0
    simp
  · rw [if_neg (by omega)]
    have h2 : sub32 (con + 1) 1 = con := by
      simp only [sub32, neg32, wrap32_eq]
      omega
    have h3 : wrap32 (con <<< 2) = 4 * con := by
      rw [wrap32_eq, Nat.shiftLeft_eq]
      omega
    have h16 : (16 : Nat) ^ con = 2 ^ (4 * con) := by
      rw [pow_mul]
      norm_num
    have hle : (16 : Nat) ^ (con + 1) ≤ 16 ^ 8 := Nat.pow_le_pow_right (by norm_num) (by omega)
    have h4 : wrap32 (d <<< (4 * con)) = 2 ^ (4 * con) * d := by
      rw [wrap32_eq, Nat.shiftLeft_eq, Nat.mul_comm]
      apply Nat.mod_eq_of_lt
      rw [← h16]
      have : 16 ^ con * d ≤ value + 16 ^ con * d := Nat.le_add_left _ _
      have h168 : (16 : Nat) ^ 8 = 2 ^ 32 := by norm_num
      omega
    rw [h2, h3, h4, or_eq_add_of_lt (4 * con) value d (by rw [← h16]; exact hv), ← h16]

/-- The loop of `lua_pcg_parse_u32_from_hexstring`, started at the last of the characters `rs`
(listed from the last one down) that follow `pre` in the buffer, with `con` digits already
consumed: when the `8 - con` characters it may read are all digits it ends with `res = 0` having
consumed them, their value added above the `con` digits of `value`; when one of them is not a
digit it ends with `res = 2`.  A budget of `8 - con` passes is enough. -/
theorem from_hexstring_loop_spec (pre : List Nat) :
    ∀ (rs post : List Nat) (fuel con value digit : Nat) (i : Int),
      con ≤ 8 → value < 16 ^ con → 8 - con ≤ fuel →
      i = (pre.length : Int) + (rs.length : Int) - 1 →
      ((∀ c ∈ rs.take (8 - con), hex_digit_value c ≠ none) →
        lua_pcg_parse_u32_from_hexstring_loop (pre ++ rs.reverse ++ post) (pre.length : Int)
            fuel i value con digit
          = .ok (0, i - ((min (8 - con) rs.length : Nat) : Int),
              value + 16 ^ con * hex_le (rs.take (8 - con)), con + min (8 - con) rs.length))
      ∧ ((∃ c ∈ rs.take (8 - con), hex_digit_value c = none) →
        ∃ i1 v1 c1,
          lua_pcg_parse_u32_from_hexstring_loop (pre ++ rs.reverse ++ post) (pre.length : Int)
              fuel i value con digit
            = .ok (2, i1, v1, c1) ∧ (pre.length : Int) ≤ i1 ∧ i1 ≤ i) := by
  intro rs
  induction rs with
  | nil =>
    intro post fuel con value digit i hcon hv hfuel hi
    have hcond : ¬ (i ≥ (pre.length : Int) ∧ con < 8) := by
      simp only [List.length_nil] at hi
      omega
    have hres : lua_pcg_parse_u32_from_hexstring_loop (pre ++ ([] : List Nat).reverse ++ post)
        (pre.length : Int) fuel i value con digit = .ok (0, i, value, con) := by
      cases fuel with
      | zero => rw [lua_pcg_parse_u32_from_hexstring_loop, if_neg hcond]
      | succ f => rw [lua_pcg_parse_u32_from_hexstring_loop, if_neg hcond]
    refine ⟨fun _ => ?_, ?_⟩
    · rw [hres]
      simp [hex_le]
    · rintro ⟨c, hc, _⟩
      simp at hc
  | cons c rs ih =>
    intro post fuel con value digit i hcon hv hfuel hi
    obtain ⟨ebuf, hget⟩ := hex_buffer_get pre rs post c
    by_cases hc8 : con < 8
    · -- the loop makes a pass
      obtain ⟨f, hf⟩ : ∃ f, fuel = f + 1 := ⟨fuel - 1, by omega⟩
      subst hf
      have hcond : i ≥ (pre.length : Int) ∧ con < 8 := by
        simp only [List.length_cons] at hi
        push_cast at hi
        omega
      have hi0 : (0 : Int) ≤ i := by omega
      have hidx : i.toNat = pre.length + rs.length := by
        simp only [List.length_cons] at hi
        push_cast at hi
        omega
      have htake : (c :: rs).take (8 - con) = c :: rs.take (8 - (con + 1)) := by
        have : 8 - con = (8 - (con + 1)) + 1 := by omega
        rw [this, List.take_succ_cons]
      have hmin : min (8 - con) (c :: rs).length = 1 + min (8 - (con + 1)) rs.length := by
        simp only [List.length_cons]
        omega
      rw [ebuf, lua_pcg_parse_u32_from_hexstring_loop, if_pos hcond, if_pos hi0, hidx, hget]
      simp only [parse_hexdigit_spec]
      cases hd : hex_digit_value c with
      | none =>
        simp only []
        rw [if_neg (by norm_num)]
        refine ⟨fun hall => ?_, fun _ => ⟨i, value, con, rfl, hcond.1, Int.le_refl _⟩⟩
        exfalso
        apply hall c _ hd
        rw [htake]
        exact List.mem_cons_self _ _
      | some d =>
        simp only [if_true]
        obtain ⟨e1, e2, e3⟩ := hex_value_step con value d hc8 hv (hex_digit_value_lt c d hd)
        rw [e1] at e2
        rw [e1, e2]
        obtain ⟨ih1, ih2⟩ := ih (c :: post) f (con + 1) (value + 16 ^ con * d) d (i - 1)
          (by omega) e3 (by omega)
          (by simp only [List.length_cons] at hi
              push_cast at hi
              omega)
        refine ⟨fun hall => ?_, ?_⟩
        · rw [ih1 (by
            intro x hx
            apply hall x
            rw [htake]
            exact List.mem_cons_of_mem _ hx)]
          rw [htake, hmin]
          simp only [hex_le, hd, Option.getD_some, pow_succ]
          generalize hex_le (List.take (8 - (con + 1)) rs) = X
          generalize min (8 - (con + 1)) rs.length = m
          have a1 : i - 1 - (m : Int) = i - ((1 + m : Nat) : Int) := by
            push_cast
            omega
          have a2 : value + 16 ^ con * d + 16 ^ con * 16 * X = value + 16 ^ con * (d + 16 * X) := by
            ring
          have a3 : con + 1 + m = con + (1 + m) := by omega
          rw [a1, a2, a3]
        · rintro ⟨x, hx, hxn⟩
          rw [htake] at hx
          rcases List.mem_cons.mp hx with hxc | hxr
          · rw [hxc, hd] at hxn
            cases hxn
          · obtain ⟨i1, v1, c1, he, hlo, hhi⟩ := ih2 ⟨x, hxr, hxn⟩
            exact ⟨i1, v1, c1, he, hlo, by omega⟩
    · -- eight digits are consumed already
      have hcon8 : con = 8 := by omega
      have hcond : ¬ (i ≥ (pre.length : Int) ∧ con < 8) := by omega
      have hres : lua_pcg_parse_u32_from_hexstring_loop (pre ++ (c :: rs).reverse ++ post)
          (pre.length : Int) fuel i value con digit = .ok (0, i, value, con) := by
        cases fuel with
        | zero => rw [lua_pcg_parse_u32_from_hexstring_loop, if_neg hcond]
        | succ f => rw [lua_pcg_parse_u32_from_hexstring_loop, if_neg hcond]
      have h0 : 8 - con = 0 := by omega
      refine ⟨fun _ => ?_, ?_⟩
      · rw [hres, h0]
        simp [hex_le]
      · rintro ⟨x, hx, _⟩
        rw [h0] at hx
        simp at hx

/-- The call `lua_pcg_parse_u32_from_hexstring(s, 2, i, ...)` that the argument parsers make,
with `i` at the last of the characters `rs` that follow the two characters `pre`: it returns 0
with the value of the last 8 characters (or of all, when they are fewer) and their number when
these are digits, and 2, writing neither `*result` nor `*consumed`, when one of them is not. -/
theorem from_hexstring_spec (pre rs post : List Nat) (fuel result consumed digit : Nat)
    (failed_index : Int) (hpre : pre.length = 2) (hfuel : 8 ≤ fuel) (hrs : rs ≠ []) :
    ((∀ c ∈ rs.take 8, hex_digit_value c ≠ none) →
      lua_pcg_parse_u32_from_hexstring fuel (pre ++ rs.reverse ++ post) 2 ((rs.length : Int) + 1)
          result consumed failed_index digit
        = .ok (0, hex_le (rs.take 8), min 8 rs.length, failed_index))
    ∧ ((∃ c ∈ rs.take 8, hex_digit_value c = none) →
      ∃ i1, lua_pcg_parse_u32_from_hexstring fuel (pre ++ rs.reverse ++ post) 2
          ((rs.length : Int) + 1) result consumed failed_index digit
        = .ok (2, result, consumed, i1)) := by
  have hlen : 0 < rs.length := List.length_pos.mpr hrs
  have hcond : ¬ ((rs.length : Int) + 1 < 0 ∨ (rs.length : Int) + 1 < 2) := by omega
  obtain ⟨h1, h2⟩ := from_hexstring_loop_spec pre rs post fuel 0 0 digit ((rs.length : Int) + 1)
    (by omega) (by norm_num) (by omega) (by rw [hpre]; push_cast; omega)
  rw [hpre] at h1 h2
  simp only [lua_pcg_parse_u32_from_hexstring]
  rw [if_neg hcond]
  refine ⟨fun hall => ?_, fun hbad => ?_⟩
  · have h := h1 hall
    simp only [Nat.sub_zero, pow_zero, one_mul, zero_add, Nat.cast_ofNat] at h
    rw [h]
    rfl
  · obtain ⟨i1, v1, c1, h, _, _⟩ := h2 hbad
    simp only [Nat.cast_ofNat] at h
    rw [h]
    exact ⟨i1, rfl⟩

/-- The loop `while (i >= 2)` of the hexadecimal parsers, with `i` at the last of the characters
`rs` that follow the two characters `pre` and room in `words` for a word per 8 characters:
when the characters are all digits it ends, having written to `words[j]`, `words[j + 1]`, ...
the values of the successive groups of 8 digits from the end of the string, and nothing else;
when one is not a digit it raises the error that names a position.  It needs a pass per
group, and 8 passes for each call. -/
theorem hex_arg_loop_spec (index digit call_fuel : Nat) (pre : List Nat) (hpre : pre.length = 2)
    (hcf : 8 ≤ call_fuel) :
    ∀ (fuel : Nat) (rs post : List Nat) (j : Nat) (words : List Nat) (consumed : Nat)
      (failed_index : Int),
      (rs.length + 7) / 8 ≤ fuel → j + (rs.length + 7) / 8 ≤ words.length →
      ((∀ c ∈ rs, hex_digit_value c ≠ none) →
        ∃ ws, lua_pcg_parse_hex_arg_loop index (pre ++ rs.reverse ++ post) digit call_fuel fuel
            ((rs.length : Int) + 1) j words consumed failed_index = .ok ws
          ∧ ws.length = words.length
          ∧ ∀ t, ws.getD t 0
              = if j ≤ t ∧ t < j + (rs.length + 7) / 8 then hex_le ((rs.drop (8 * (t - j))).take 8)
                else words.getD t 0)
      ∧ ((∃ c ∈ rs, hex_digit_value c = none) →
        ∃ pos, lua_pcg_parse_hex_arg_loop index (pre ++ rs.reverse ++ post) digit call_fuel fuel
            ((rs.length : Int) + 1) j words consumed failed_index
          = .error (.lua_error "Position %d is not a digit on argument #%d" pos)) := by
  intro fuel
  induction fuel with
  | zero =>
    intro rs post j words consumed failed_index hf hj
    have hnil : rs = [] := by
      apply List.eq_nil_of_length_eq_zero
      omega
    subst hnil
    refine ⟨fun _ => ⟨words, ?_, rfl, ?_⟩, ?_⟩
    · rw [lua_pcg_parse_hex_arg_loop, if_neg (by simp)]
    · intro t
      rw [if_neg (by simp)]
    · rintro ⟨c, hc, _⟩
      simp at hc
  | succ fuel ih =>
    intro rs post j words consumed failed_index hf hj
    by_cases hnil : rs = []
    · subst hnil
      refine ⟨fun _ => ⟨words, ?_, rfl, ?_⟩, ?_⟩
      · rw [lua_pcg_parse_hex_arg_loop, if_neg (by simp)]
      · intro t
        rw [if_neg (by simp)]
      · rintro ⟨c, hc, _⟩
        simp at hc
    · have hlen : 0 < rs.length := List.length_pos.mpr hnil
      have hcond : (rs.length : Int) + 1 ≥ 2 := by omega
      obtain ⟨hok, hbad⟩ := from_hexstring_spec pre rs post call_fuel (words.getD j 0) consumed digit
        failed_index hpre hcf hnil
      have hsplit : pre ++ rs.reverse ++ post
          = pre ++ (rs.drop 8).reverse ++ ((rs.take 8).reverse ++ post) := by
        have h1 : rs.reverse = (rs.drop 8).reverse ++ (rs.take 8).reverse := by
          rw [← List.reverse_append, List.take_append_drop]
        rw [h1]
        simp only [List.append_assoc]
      have hjlt : j < words.length := by omega
      have hi : (rs.length : Int) + 1 - ((min 8 rs.length : Nat) : Int)
          = ((rs.drop 8).length : Int) + 1 := by
        rw [List.length_drop]
        omega
      rw [lua_pcg_parse_hex_arg_loop, if_pos hcond]
      by_cases hall8 : ∀ c ∈ rs.take 8, hex_digit_value c ≠ none
      · rw [hok hall8]
        simp only [if_true]
        rw [if_pos hjlt, hi, hsplit]
        obtain ⟨ih1, ih2⟩ := ih (rs.drop 8) ((rs.take 8).reverse ++ post) (j + 1)
          (words.set j (hex_le (rs.take 8))) (min 8 rs.length) failed_index
          (by rw [List.length_drop]; omega)
          (by rw [List.length_drop, List.length_set]; omega)
        refine ⟨fun hall => ?_, ?_⟩
        · obtain ⟨ws, he, hl, hv⟩ := ih1 (fun c hc => hall c (List.mem_of_mem_drop hc))
          refine ⟨ws, he, by rw [hl, List.length_set], ?_⟩
          intro t
          rw [hv t, List.length_drop]
          by_cases ht : t = j
          · subst ht
            rw [if_neg (by omega), if_pos (by omega)]
            simp [List.getD_eq_getElem?_getD, hjlt]
          · have hset : (words.set j (hex_le (rs.take 8))).getD t 0 = words.getD t 0 := by
              simp only [List.getD_eq_getElem?_getD]
              rw [List.getElem?_set_ne (by omega)]
            by_cases hin : j + 1 ≤ t ∧ t < j + 1 + (rs.length - 8 + 7) / 8
            · rw [if_pos hin, if_pos (by omega), List.drop_drop]
              congr 3
              omega
            · rw [if_neg hin, hset]
              by_cases hin2 : j ≤ t ∧ t < j + (rs.length + 7) / 8
              · exfalso
                omega
              · rw [if_neg hin2]
        · rintro ⟨c, hc, hcn⟩
          have hmem : c ∈ rs.take 8 ++ rs.drop 8 := by
            rw [List.take_append_drop]
            exact hc
          rcases List.mem_append.mp hmem with h8 | hrest
          · exact absurd hcn (hall8 c h8)
          · exact ih2 ⟨c, hrest, hcn⟩
      · have hex8 : ∃ c ∈ rs.take 8, hex_digit_value c = none := by
          by_contra hcon
          apply hall8
          intro c hc hn
          exact hcon ⟨c, hc, hn⟩
        obtain ⟨i1, he⟩ := hbad hex8
        rw [he]
        refine ⟨fun hall => ?_, fun _ => ⟨i1 + 1, rfl⟩⟩
        exfalso
        obtain ⟨c, hc, hn⟩ := hex8
        exact hall c (List.mem_of_mem_take hc) hn

/-- The function `lua_pcg_parse_u64_hex_arg` on a prefix `0x` or `0X` followed by at most 16
characters: when these are digits it returns `lua_pcg_u64_lh(w0, w1)` for the two 32-bit words of
the number they denote; when one is not, it raises the error that names a position. -/
theorem parse_u64_hex_arg_spec {α : Type} (lh : Nat → Nat → α) (fuel index digit x : Nat)
    (digits : List Nat) (hx : x = 120 ∨ x = 88) (hk : digits.length ≤ 16) (hfuel : 8 ≤ fuel) :
    ((∀ c ∈ digits, hex_digit_value c ≠ none) →
      ∃ w0 w1, lua_pcg_parse_u64_hex_arg lh fuel index (48 :: x :: digits) digit = .ok (lh w0 w1)
        ∧ w0 < 2 ^ 32 ∧ w1 < 2 ^ 32 ∧ w0 + 2 ^ 32 * w1 = hex_string_value digits)
    ∧ ((∃ c ∈ digits, hex_digit_value c = none) →
      ∃ pos, lua_pcg_parse_u64_hex_arg lh fuel index (48 :: x :: digits) digit
        = .error (.lua_error "Position %d is not a digit on argument #%d" pos)) := by
  have hs : (48 :: x :: digits) = [48, x] ++ digits.reverse.reverse ++ [] := by simp
  have hlen : (48 :: x :: digits).length = digits.length + 2 := by simp
  have hi : (((48 :: x :: digits).length : Nat) : Int) - 1 = (digits.reverse.length : Int) + 1 := by
    rw [hlen, List.length_reverse]
    push_cast
    omega
  obtain ⟨hok, hbad⟩ := hex_arg_loop_spec index digit fuel [48, x] rfl hfuel fuel digits.reverse []
    0 [0, 0] 0 (-1)
    (by rw [List.length_reverse]; omega)
    (by rw [List.length_reverse]
        simp only [List.length_cons, List.length_nil]
        omega)
  rw [← hs, ← hi] at hok hbad
  have hpre : ¬ ¬ ((48 :: x :: digits).getD 0 0 = 48
      ∧ ((48 :: x :: digits).getD 1 0 = 120 ∨ (48 :: x :: digits).getD 1 0 = 88)) := by
    simp only [List.getD_cons_zero, List.getD_cons_succ, not_not]
    exact ⟨trivial, hx⟩
  have hunfold : lua_pcg_parse_u64_hex_arg lh fuel index (48 :: x :: digits) digit
      = (lua_pcg_parse_hex_arg_loop index (48 :: x :: digits) digit fuel fuel
            ((((48 :: x :: digits).length : Nat) : Int) - 1) 0 [0, 0] 0 (-1)).map
          (fun words1 => lh (words1.getD 0 0) (words1.getD 1 0)) := by
    simp only [lua_pcg_parse_u64_hex_arg]
    rw [if_neg (by rw [hlen]; omega), if_neg (by rw [hlen]; omega), if_neg hpre]
    cases lua_pcg_parse_hex_arg_loop index (48 :: x :: digits) digit fuel fuel
        ((((48 :: x :: digits).length : Nat) : Int) - 1) 0 [0, 0] 0 (-1) with
    | error e => rfl
    | ok w => rfl
  rw [hunfold]
  refine ⟨fun hall => ?_, fun hex => ?_⟩
  · obtain ⟨ws, he, _, hv⟩ := hok (fun c hc => hall c (List.mem_reverse.mp hc))
    rw [he]
    refine ⟨ws.getD 0 0, ws.getD 1 0, rfl, ?_, ?_, ?_⟩
    · rw [hv 0]
      split
      · have h := hex_le_lt ((digits.reverse.drop (8 * (0 - 0))).take 8)
        have h2 : (16 : Nat) ^ ((digits.reverse.drop (8 * (0 - 0))).take 8).length ≤ 16 ^ 8 :=
          Nat.pow_le_pow_right (by norm_num) (by rw [List.length_take]; omega)
        have h3 : (16 : Nat) ^ 8 = 2 ^ 32 := by norm_num
        omega
      · simp
    · rw [hv 1]
      split
      · have h := hex_le_lt ((digits.reverse.drop (8 * (1 - 0))).take 8)
        have h2 : (16 : Nat) ^ ((digits.reverse.drop (8 * (1 - 0))).take 8).length ≤ 16 ^ 8 :=
          Nat.pow_le_pow_right (by norm_num) (by rw [List.length_take]; omega)
        have h3 : (16 : Nat) ^ 8 = 2 ^ 32 := by norm_num
        omega
      · simp
    · rw [hex_string_value_eq]
      generalize hrs : digits.reverse = rs at hv
      have hrl : rs.length ≤ 16 := by
        rw [← hrs, List.length_reverse]
        exact hk
      have e0 : ws.getD 0 0 = hex_le (rs.take 8) := by
        rw [hv 0]
        by_cases hc : 0 ≤ 0 ∧ 0 < 0 + (rs.length + 7) / 8
        · rw [if_pos hc]
          simp
        · rw [if_neg hc]
          have hnil : rs = [] := by
            apply List.eq_nil_of_length_eq_zero
            omega
          subst hnil
          simp [hex_le]
      have e1 : ws.getD 1 0 = hex_le (rs.drop 8) := by
        rw [hv 1]
        by_cases hc : 0 ≤ 1 ∧ 1 < 0 + (rs.length + 7) / 8
        · rw [if_pos hc]
          have : ((rs.drop (8 * (1 - 0))).take 8) = rs.drop 8 := by
            simp only [Nat.sub_zero, Nat.mul_one]
            apply List.take_of_length_le
            rw [List.length_drop]
            omega
          rw [this]
        · rw [if_neg hc]
          have hnil : rs.drop 8 = [] := by
            apply List.eq_nil_of_length_eq_zero
            rw [List.length_drop]
            omega
          rw [hnil]
          simp [hex_le]
      rw [e0, e1]
      have happ := hex_le_append (rs.take 8) (rs.drop 8)
      rw [List.take_append_drop] at happ
      rw [happ]
      by_cases h8 : 8 ≤ rs.length
      · have : (rs.take 8).length = 8 := by
          rw [List.length_take]
          omega
        rw [this]
        norm_num
      · have hnil : rs.drop 8 = [] := by
          apply List.eq_nil_of_length_eq_zero
          rw [List.length_drop]
          omega
        rw [hnil]
        simp [hex_le]
  · obtain ⟨pos, he⟩ := hbad (by
      obtain ⟨c, hc, hn⟩ := hex
      exact ⟨c, List.mem_reverse.mpr hc, hn⟩)
    rw [he]
    exact ⟨pos, rfl⟩

/-- C35: hexadecimal decoding of a 64-bit argument.  For every string made of the prefix `0x` or
`0X` and `k` hexadecimal digits, `1 <= k <= 16`, upper or lower case, most significant first,
`lua_pcg_parse_u64_hex_arg` returns the value those digits denote, which is below `2^64` (as a
native integer, and as a well-formed pair of limbs with that value in the emulated
configuration), once 8 passes are allowed to its loops.  A string of more than 18 characters, a
string of 2 to 18 characters without the prefix, a string with the prefix and up to 16
characters one of which is not a hexadecimal digit, and a string of fewer than 2 characters, are
each rejected with an error. -/
theorem C35_hex_decoding :
    (∀ (fuel index digit x : Nat) (digits : List Nat), (x = 120 ∨ x = 88) →
        1 ≤ digits.length → digits.length ≤ 16 → 8 ≤ fuel →
        (∀ c ∈ digits, hex_digit_value c ≠ none) →
      hex_string_value digits ≤ 0xFFFFFFFFFFFFFFFF
      ∧ lua_pcg_parse_u64_hex_arg Native64.lua_pcg_u64_lh fuel index (48 :: x :: digits) digit
          = .ok (hex_string_value digits)
      ∧ ∃ v, lua_pcg_parse_u64_hex_arg Emu64.lua_pcg_u64_lh fuel index (48 :: x :: digits) digit
            = .ok v
          ∧ Emu64.wf64 v ∧ Emu64.val64 v = hex_string_value digits)
    ∧ (∀ (α : Type) (lh : Nat → Nat → α) (fuel index digit : Nat) (s : List Nat), 18 < s.length →
      lua_pcg_parse_u64_hex_arg lh fuel index s digit
        = .error (.arg_error index "Too many characters in the hex string."))
    ∧ (∀ (α : Type) (lh : Nat → Nat → α) (fuel index digit : Nat) (s : List Nat),
        2 ≤ s.length → s.length ≤ 18 →
        ¬ (s.getD 0 0 = 48 ∧ (s.getD 1 0 = 120 ∨ s.getD 1 0 = 88)) →
      lua_pcg_parse_u64_hex_arg lh fuel index s digit
        = .error (.arg_error index "Hex prefix not found."))
    ∧ (∀ (α : Type) (lh : Nat → Nat → α) (fuel index digit x : Nat) (digits : List Nat),
        (x = 120 ∨ x = 88) → digits.length ≤ 16 → 8 ≤ fuel →
        (∃ c ∈ digits, hex_digit_value c = none) →
      ∃ pos, lua_pcg_parse_u64_hex_arg lh fuel index (48 :: x :: digits) digit
        = .error (.lua_error "Position %d is not a digit on argument #%d" pos))
    ∧ (∀ (α : Type) (lh : Nat → Nat → α) (fuel index digit : Nat) (s : List Nat), s.length < 2 →
      lua_pcg_parse_u64_hex_arg lh fuel index s digit
        = .error (.arg_error index "Hex string too short.")) := by
  refine ⟨?_, ?_, ?_, ?_, ?_⟩
  · intro fuel index digit x digits hx hk1 hk2 hfuel hall
    obtain ⟨w0, w1, he, h0, h1, hv⟩ := (parse_u64_hex_arg_spec Native64.lua_pcg_u64_lh fuel index
      digit x digits hx hk2 hfuel).1 hall
    obtain ⟨u0, u1, he2, g0, g1, gv⟩ := (parse_u64_hex_arg_spec Emu64.lua_pcg_u64_lh fuel index
      digit x digits hx hk2 hfuel).1 hall
    refine ⟨?_, ?_, ?_⟩
    · omega
    · rw [he, Native64.lua_pcg_u64_lh_eq, Nat.mod_eq_of_lt h0, Nat.mod_eq_of_lt h1, hv]
    · refine ⟨_, he2, Emu64.lh_wf64 _ _, ?_⟩
      rw [Emu64.lh_val64, Nat.mod_eq_of_lt g0, Nat.mod_eq_of_lt g1, gv]
  · intro α lh fuel index digit s hlen
    simp only [lua_pcg_parse_u64_hex_arg]
    rw [if_neg (by omega), if_pos (by omega)]
  · intro α lh fuel index digit s h2 h18 hp
    simp only [lua_pcg_parse_u64_hex_arg]
    rw [if_neg (by omega), if_neg (by omega), if_pos hp]
  · intro α lh fuel index digit x digits hx hk hfuel hbad
    exact (parse_u64_hex_arg_spec lh fuel index digit x digits hx hk hfuel).2 hbad
  · intro α lh fuel index digit s hlen
    simp only [lua_pcg_parse_u64_hex_arg]
    rw [if_pos (by omega)]

/-- Witness of C35: the string `0x1F`. -/
theorem C35_hex_decoding_witness :
    ((120 : Nat) = 120 ∨ (120 : Nat) = 88) ∧ 1 ≤ [49, 70].length ∧ [49, 70].length ≤ 16
    ∧ (∀ c ∈ [49, 70], hex_digit_value c ≠ none)
    ∧ hex_string_value [49, 70] = 31
    ∧ lua_pcg_parse_u64_hex_arg Native64.lua_pcg_u64_lh 8 2 (48 :: 120 :: [49, 70]) 0
        = .ok (hex_string_value [49, 70]) :=
  ⟨Or.inl rfl, by decide, by decide, by decide, by decide,
    (C35_hex_decoding.1 8 2 0 120 [49, 70] (Or.inl rfl) (by decide) (by decide) (by decide)
      (by decide)).2.1⟩

/-- C39: the prefix alone.  The strings `0x` and `0X` are accepted by `lua_pcg_parse_u64_hex_arg`
and by `lua_pcg_parse_u128_hex_arg`, which return the value 0 in every configuration and for
every budget, the budget 0 included, under which no pass of a loop, and so no call of
`lua_pcg_parse_u32_from_hexstring`, is made: the loop `while (i >= 2)` starts at `i = 1` and
ends at once, leaving `words` as it was. -/
theorem C39_prefix_alone :
    (∀ (x fuel index digit : Nat), (x = 120 ∨ x = 88) →
      lua_pcg_parse_u64_hex_arg Native64.lua_pcg_u64_lh fuel index [48, x] digit = .ok 0
      ∧ lua_pcg_parse_u64_hex_arg Emu64.lua_pcg_u64_lh fuel index [48, x] digit = .ok ⟨0, 0⟩
      ∧ lua_pcg_parse_u128_hex_arg Native64.lua_pcg_u64_lh Native128.lua_pcg_u128_lh fuel index
          [48, x] digit = .ok 0
      ∧ lua_pcg_parse_u128_hex_arg Native64.lua_pcg_u64_lh Native64.lua_pcg_u128_lh fuel index
          [48, x] digit = .ok ⟨0, 0⟩
      ∧ lua_pcg_parse_u128_hex_arg Emu64.lua_pcg_u64_lh Emu64.lua_pcg_u128_lh fuel index
          [48, x] digit = .ok ⟨⟨0, 0⟩, ⟨0, 0⟩⟩)
    ∧ (∀ (x index digit call_fuel j consumed : Nat) (words : List Nat) (failed_index : Int),
      lua_pcg_parse_hex_arg_loop index [48, x] digit call_fuel 0 ((([48, x].length : Nat) : Int) - 1)
        j words consumed failed_index = .ok words) := by
  refine ⟨?_, ?_⟩
  · intro x fuel index digit hx
    rcases hx with hx | hx
    · subst hx
      cases fuel with
      | zero => exact ⟨rfl, rfl, rfl, rfl, rfl⟩
      | succ f => exact ⟨rfl, rfl, rfl, rfl, rfl⟩
    · subst hx
      cases fuel with
      | zero => exact ⟨rfl, rfl, rfl, rfl, rfl⟩
      | succ f => exact ⟨rfl, rfl, rfl, rfl, rfl⟩
  · intro x index digit call_fuel j consumed words failed_index
    rfl

/-- Witness of C39: the string `0x` with no budget at all. -/
theorem C39_prefix_alone_witness :
    ((120 : Nat) = 120 ∨ (120 : Nat) = 88)
    ∧ lua_pcg_parse_u64_hex_arg Native64.lua_pcg_u64_lh 0 2 [48, 120] 0 = .ok 0
    ∧ lua_pcg_parse_u128_hex_arg Emu64.lua_pcg_u64_lh Emu64.lua_pcg_u128_lh 0 2 [48, 120] 0
        = .ok ⟨⟨0, 0⟩, ⟨0, 0⟩⟩ :=
  ⟨Or.inl rfl, (C39_prefix_alone.1 120 0 2 0 (Or.inl rfl)).1,
    (C39_prefix_alone.1 120 0 2 0 (Or.inl rfl)).2.2.2.2⟩

/-- Whatever the buffer holds, the loop of `lua_pcg_parse_u32_from_hexstring` ends with at most 8
characters consumed, its position lowered by the number of characters it has consumed. -/
theorem from_hexstring_loop_bounds (buff : List Nat) (s : Int) :
    ∀ (fuel : Nat) (i : Int) (value con digit res : Nat) (i1 : Int) (v1 c1 : Nat), con ≤ 8 →
      lua_pcg_parse_u32_from_hexstring_loop buff s fuel i value con digit = .ok (res, i1, v1, c1) →
      con ≤ c1 ∧ c1 ≤ 8 ∧ i1 = i - ((c1 - con : Nat) : Int) := by
  intro fuel
  induction fuel with
  | zero =>
    intro i value con digit res i1 v1 c1 hcon h
    rw [lua_pcg_parse_u32_from_hexstring_loop] at h
    by_cases hc : i ≥ s ∧ con < 8
    · rw [if_pos hc] at h
      cases h
    · rw [if_neg hc] at h
      simp only [Except.ok.injEq, Prod.mk.injEq] at h
      obtain ⟨_, h2, _, h4⟩ := h
      subst h2
      subst h4
      simp
      exact hcon
  | succ f ih =>
    intro i value con digit res i1 v1 c1 hcon h
    rw [lua_pcg_parse_u32_from_hexstring_loop] at h
    by_cases hc : i ≥ s ∧ con < 8
    · rw [if_pos hc] at h
      cases hread : (if 0 ≤ i then buff.get? i.toNat else none) with
      | none =>
        rw [hread] at h
        cases h
      | some c =>
        rw [hread] at h
        simp only [] at h
        by_cases hp : (lua_pcg_parse_hexdigit c digit).1 = 0
        · rw [if_pos hp] at h
          have hw : wrap32 (con + 1) = con + 1 := by
            rw [wrap32_eq]
            exact Nat.mod_eq_of_lt (by omega)
          rw [hw] at h
          obtain ⟨b1, b2, b3⟩ := ih _ _ _ _ _ _ _ _ (by omega) h
          refine ⟨by omega, b2, ?_⟩
          rw [b3]
          omega
        · rw [if_neg hp] at h
          simp only [Except.ok.injEq, Prod.mk.injEq] at h
          obtain ⟨_, h2, _, h4⟩ := h
          subst h2
          subst h4
          simp
          exact hcon
    · rw [if_neg hc] at h
      simp only [Except.ok.injEq, Prod.mk.injEq] at h
      obtain ⟨_, h2, _, h4⟩ := h
      subst h2
      subst h4
      simp
      exact hcon

/-- A call of `lua_pcg_parse_u32_from_hexstring` that returns 0 has consumed between 1 and 8
characters, whatever its arguments. -/
theorem from_hexstring_consumed (fuel : Nat) (buff : List Nat) (s e : Int)
    (result consumed digit : Nat) (failed_index : Int) (v c : Nat) (f : Int)
    (h : lua_pcg_parse_u32_from_hexstring fuel buff s e result consumed failed_index digit
      = .ok (0, v, c, f)) :
    1 ≤ c ∧ c ≤ 8 := by
  simp only [lua_pcg_parse_u32_from_hexstring] at h
  by_cases hc : e < 0 ∨ e < s
  · rw [if_pos hc] at h
    simp only [Except.ok.injEq, Prod.mk.injEq] at h
    omega
  · rw [if_neg hc] at h
    cases hl : lua_pcg_parse_u32_from_hexstring_loop buff s fuel e 0 0 digit with
    | error err =>
      rw [hl] at h
      cases h
    | ok p =>
      obtain ⟨res, i1, v1, c1⟩ := p
      rw [hl] at h
      simp only [] at h
      by_cases hres : res = 0
      · rw [if_pos hres] at h
        simp only [Except.ok.injEq, Prod.mk.injEq] at h
        obtain ⟨_, _, h3, _⟩ := h
        subst h3
        subst hres
        -- the first pass of the loop
        cases fuel with
        | zero =>
          rw [lua_pcg_parse_u32_from_hexstring_loop, if_pos (by omega)] at hl
          cases hl
        | succ g =>
          rw [lua_pcg_parse_u32_from_hexstring_loop, if_pos (by omega)] at hl
          cases hread : (if 0 ≤ e then buff.get? e.toNat else none) with
          | none =>
            rw [hread] at hl
            cases hl
          | some ch =>
            rw [hread] at hl
            simp only [] at hl
            by_cases hp : (lua_pcg_parse_hexdigit ch digit).1 = 0
            · rw [if_pos hp] at hl
              have hw : wrap32 (0 + 1) = 1 := by decide
              rw [hw] at hl
              obtain ⟨b1, b2, _⟩ := from_hexstring_loop_bounds buff s g _ _ 1 _ _ _ _ _
                (by omega) hl
              exact ⟨b1, b2⟩
            · rw [if_neg hp] at hl
              simp only [Except.ok.injEq, Prod.mk.injEq] at hl
              exact absurd hl.1 hp
      · rw [if_neg hres] at h
        simp only [Except.ok.injEq, Prod.mk.injEq] at h
        exact absurd h.1 hres

/-- For every string of at least 2 characters, the loop `while (i >= 2)` over a `words` array
with a word per 8 characters after the prefix either ends, leaving an array of the same length,
or raises the error that names a position. -/
theorem hex_arg_loop_safe (index digit call_fuel fuel : Nat) (s words : List Nat)
    (hcf : 8 ≤ call_fuel) (h2 : 2 ≤ s.length) (hf : (s.length - 2 + 7) / 8 ≤ fuel)
    (hw : (s.length - 2 + 7) / 8 ≤ words.length) :
    (∃ ws, lua_pcg_parse_hex_arg_loop index s digit call_fuel fuel ((s.length : Int) - 1) 0 words
        0 (-1) = .ok ws ∧ ws.length = words.length)
    ∨ (∃ pos, lua_pcg_parse_hex_arg_loop index s digit call_fuel fuel ((s.length : Int) - 1) 0
        words 0 (-1) = .error (.lua_error "Position %d is not a digit on argument #%d" pos)) := by
  have hs : s = s.take 2 ++ (s.drop 2).reverse.reverse ++ [] := by
    simp
  have hpre : (s.take 2).length = 2 := by
    rw [List.length_take]
    omega
  have hrl : (s.drop 2).reverse.length = s.length - 2 := by
    rw [List.length_reverse, List.length_drop]
  have hi : (s.length : Int) - 1 = (((s.drop 2).reverse.length : Nat) : Int) + 1 := by
    rw [hrl]
    omega
  obtain ⟨hok, hbad⟩ := hex_arg_loop_spec index digit call_fuel (s.take 2) hpre hcf fuel
    (s.drop 2).reverse [] 0 words 0 (-1) (by rw [hrl]; exact hf) (by rw [hrl]; omega)
  rw [← hs, ← hi] at hok hbad
  by_cases hall : ∀ c ∈ (s.drop 2).reverse, hex_digit_value c ≠ none
  · obtain ⟨ws, he, hl, _⟩ := hok hall
    exact Or.inl ⟨ws, he, hl⟩
  · right
    apply hbad
    by_contra hcon
    apply hall
    intro c hc hn
    exact hcon ⟨c, hc, hn⟩

/-- C40: the hexadecimal parsers stay inside their word arrays and end.  Every call of
`lua_pcg_parse_u32_from_hexstring` that returns 0 has consumed between 1 and 8 characters.  For
every string of 2 to 18 characters the loop of `lua_pcg_parse_u64_hex_arg`, allowed 2 passes and
8 passes for each call, ends with its 2 words or raises the error on a character that is not a
digit; for every string of 2 to 34 characters the loop of `lua_pcg_parse_u128_hex_arg`, allowed
4 passes, ends likewise with its 4 words.  Hence, for every string whatever and 8 passes allowed,
neither function writes or reads outside an array, nor runs out of passes. -/
theorem C40_hex_words_in_bounds :
    (∀ (fuel : Nat) (buff : List Nat) (s e : Int) (result consumed digit : Nat)
        (failed_index : Int) (v c : Nat) (f : Int),
      lua_pcg_parse_u32_from_hexstring fuel buff s e result consumed failed_index digit
        = .ok (0, v, c, f) → 1 ≤ c ∧ c ≤ 8)
    ∧ (∀ (index digit : Nat) (s : List Nat), 2 ≤ s.length → s.length ≤ 18 →
      (∃ ws, lua_pcg_parse_hex_arg_loop index s digit 8 2 ((s.length : Int) - 1) 0 [0, 0] 0 (-1)
          = .ok ws ∧ ws.length = 2)
      ∨ (∃ pos, lua_pcg_parse_hex_arg_loop index s digit 8 2 ((s.length : Int) - 1) 0 [0, 0] 0 (-1)
          = .error (.lua_error "Position %d is not a digit on argument #%d" pos)))
    ∧ (∀ (index digit : Nat) (s : List Nat), 2 ≤ s.length → s.length ≤ 34 →
      (∃ ws, lua_pcg_parse_hex_arg_loop index s digit 8 4 ((s.length : Int) - 1) 0 [0, 0, 0, 0] 0
          (-1) = .ok ws ∧ ws.length = 4)
      ∨ (∃ pos, lua_pcg_parse_hex_arg_loop index s digit 8 4 ((s.length : Int) - 1) 0 [0, 0, 0, 0]
          0 (-1) = .error (.lua_error "Position %d is not a digit on argument #%d" pos)))
    ∧ (∀ (α : Type) (lh : Nat → Nat → α) (fuel index digit : Nat) (s : List Nat), 8 ≤ fuel →
      lua_pcg_parse_u64_hex_arg lh fuel index s digit ≠ .error .out_of_bounds
      ∧ lua_pcg_parse_u64_hex_arg lh fuel index s digit ≠ .error .out_of_fuel)
    ∧ (∀ (α β : Type) (lh : Nat → Nat → α) (lh128 : α → α → β) (fuel index digit : Nat)
        (s : List Nat), 8 ≤ fuel →
      lua_pcg_parse_u128_hex_arg lh lh128 fuel index s digit ≠ .error .out_of_bounds
      ∧ lua_pcg_parse_u128_hex_arg lh lh128 fuel index s digit ≠ .error .out_of_fuel) := by
  refine ⟨?_, ?_, ?_, ?_, ?_⟩
  · intro fuel buff s e result consumed digit failed_index v c f h
    exact from_hexstring_consumed fuel buff s e result consumed digit failed_index v c f h
  · intro index digit s h2 h18
    exact hex_arg_loop_safe index digit 8 2 s [0, 0] (Nat.le_refl _) h2 (by omega)
      (by simp only [List.length_cons, List.length_nil]; omega)
  · intro index digit s h2 h34
    exact hex_arg_loop_safe index digit 8 4 s [0, 0, 0, 0] (Nat.le_refl _) h2 (by omega)
      (by simp only [List.length_cons, List.length_nil]; omega)
  · intro α lh fuel index digit s hfuel
    simp only [lua_pcg_parse_u64_hex_arg]
    by_cases h2 : s.length ≥ 2
    · rw [if_neg (not_not.mpr h2)]
      by_cases h18 : s.length ≤ 18
      · rw [if_neg (not_not.mpr h18)]
        by_cases hp : s.getD 0 0 = 48 ∧ (s.getD 1 0 = 120 ∨ s.getD 1 0 = 88)
        · rw [if_neg (not_not.mpr hp)]
          rcases hex_arg_loop_safe index digit fuel fuel s [0, 0] hfuel h2 (by omega)
            (by simp only [List.length_cons, List.length_nil]; omega) with ⟨ws, he, _⟩ | ⟨pos, he⟩
          · have he2 : lua_pcg_parse_hex_arg_loop index s digit fuel fuel
                (((s.length : Nat) : Int) - 1) 0 [0, 0] 0 (-1) = .ok ws := he
            rw [he2]
            exact ⟨by simp, by simp⟩
          · have he2 : lua_pcg_parse_hex_arg_loop index s digit fuel fuel
                (((s.length : Nat) : Int) - 1) 0 [0, 0] 0 (-1)
                = .error (.lua_error "Position %d is not a digit on argument #%d" pos) := he
            rw [he2]
            exact ⟨by simp, by simp⟩
        · rw [if_pos hp]
          exact ⟨by simp, by simp⟩
      · rw [if_pos h18]
        exact ⟨by simp, by simp⟩
    · rw [if_pos h2]
      exact ⟨by simp, by simp⟩
  · intro α β lh lh128 fuel index digit s hfuel
    simp only [lua_pcg_parse_u128_hex_arg]
    by_cases h2 : s.length ≥ 2
    · rw [if_neg (not_not.mpr h2)]
      by_cases h34 : s.length ≤ 34
      · rw [if_neg (not_not.mpr h34)]
        by_cases hp : s.getD 0 0 = 48 ∧ (s.getD 1 0 = 120 ∨ s.getD 1 0 = 88)
        · rw [if_neg (not_not.mpr hp)]
          rcases hex_arg_loop_safe index digit fuel fuel s [0, 0, 0, 0] hfuel h2 (by omega)
            (by simp only [List.length_cons, List.length_nil]; omega) with ⟨ws, he, _⟩ | ⟨pos, he⟩
          · have he2 : lua_pcg_parse_hex_arg_loop index s digit fuel fuel
                (((s.length : Nat) : Int) - 1) 0 [0, 0, 0, 0] 0 (-1) = .ok ws := he
            rw [he2]
            exact ⟨by simp, by simp⟩
          · have he2 : lua_pcg_parse_hex_arg_loop index s digit fuel fuel
                (((s.length : Nat) : Int) - 1) 0 [0, 0, 0, 0] 0 (-1)
                = .error (.lua_error "Position %d is not a digit on argument #%d" pos) := he
            rw [he2]
            exact ⟨by simp, by simp⟩
        · rw [if_pos hp]
          exact ⟨by simp, by simp⟩
      · rw [if_pos h34]
        exact ⟨by simp, by simp⟩
    · rw [if_pos h2]
      exact ⟨by simp, by simp⟩

/-- Witness of C40: the call on `0x1F` from its last character consumes 2 characters. -/
theorem C40_hex_words_in_bounds_witness :
    lua_pcg_parse_u32_from_hexstring 8 [48, 120, 49, 70] 2 3 0 0 (-1) 0 = .ok (0, 31, 2, -1)
    ∧ 1 ≤ 2 ∧ 2 ≤ 8 :=
  ⟨by rfl, C40_hex_words_in_bounds.1 8 [48, 120, 49, 70] 2 3 0 0 0 (-1) 31 2 (-1) (by rfl)⟩

/-! ## Parsing byte tables -/

/-- The value of `n` bytes is below `256^n`. -/
theorem bytes_le_lt (bs : List Nat) (hb : ∀ b ∈ bs, b ≤ 255) : bytes_le bs < 256 ^ bs.length := by
  induction bs with
  | nil => simp [bytes_le]
  | cons b bs ih =>
    have h1 := hb b (List.mem_cons_self _ _)
    have h2 := ih (fun x hx => hb x (List.mem_cons_of_mem _ hx))
    simp only [bytes_le, List.length_cons, pow_succ]
    omega

/-- The value of two lists of bytes put end to end, least significant first. -/
theorem bytes_le_append (xs ys : List Nat) :
    bytes_le (xs ++ ys) = bytes_le xs + 256 ^ xs.length * bytes_le ys := by
  induction xs with
  | nil => simp [bytes_le]
  | cons c cs ih =>
    rw [List.cons_append]
    simp only [bytes_le, List.length_cons, pow_succ]
    rw [ih]
    ring

/-- The value of a list of bytes as a sum over the positions. -/
theorem bytes_le_eq_sum (bs : List Nat) :
    bytes_le bs = ∑ i ∈ Finset.range bs.length, bs.getD i 0 * 256 ^ i := by
  induction bs with
  | nil => simp [bytes_le]
  | cons b bs ih =>
    rw [List.length_cons, Finset.sum_range_succ', bytes_le, ih, Finset.mul_sum]
    simp only [List.getD_cons_succ, List.getD_cons_zero, pow_zero, mul_one, pow_succ]
    rw [Nat.add_comm]
    congr 1
    apply Finset.sum_congr rfl
    intro i _
    ring

namespace Emu128

variable {α : Type} {wf : α → Prop} {val : α → Nat}

/-- The loop of `lua_pcg_parse_u64_table_arg`, with the bytes `pre` already folded into `result`
and the bytes `bs` still to read: it ends with the value of all of them, least significant
first, and does not look at what follows them in the table. -/
theorem table_arg_loop_spec (O : U64Ops α) (L : O.Lawful wf val) :
    ∀ (bs pre : List Nat) (extra : List LuaValue) (fuel : Nat) (result : α),
      (∀ b ∈ pre, b ≤ 255) → (∀ b ∈ bs, b ≤ 255) → pre.length + bs.length ≤ 8 → bs.length ≤ fuel →
      wf result → val result = bytes_le pre →
      ∃ v, lua_pcg_parse_u64_table_arg_loop O
            ((pre ++ bs).map (fun (b : Nat) => LuaValue.integer (b : Int)) ++ extra)
            (pre.length + bs.length) fuel (pre.length + 1) (8 * pre.length) result = .ok v
        ∧ wf v ∧ val v = bytes_le (pre ++ bs) := by
  intro bs
  induction bs with
  | nil =>
    intro pre extra fuel result hpre _ _ _ hw hv
    refine ⟨result, ?_, hw, by rw [List.append_nil]; exact hv⟩
    have hc : ¬ (pre.length + 1 ≤ pre.length + ([] : List Nat).length) := by simp
    cases fuel with
    | zero => rw [lua_pcg_parse_u64_table_arg_loop, if_neg hc]
    | succ f => rw [lua_pcg_parse_u64_table_arg_loop, if_neg hc]
  | cons b bs ih =>
    intro pre extra fuel result hpre hbs hlen hfuel hw hv
    obtain ⟨f, hf⟩ : ∃ f, fuel = f + 1 := ⟨fuel - 1, by
      simp only [List.length_cons] at hfuel
      omega⟩
    subst hf
    simp only [List.length_cons] at hlen hfuel
    have hb := hbs b (List.mem_cons_self _ _)
    have hc : pre.length + 1 ≤ pre.length + (b :: bs).length := by simp
    have hget : ((pre ++ b :: bs).map (fun (b : Nat) => LuaValue.integer (b : Int)) ++ extra).getD
        (pre.length + 1 - 1) LuaValue.other = LuaValue.integer (b : Int) := by
      have e : (pre ++ b :: bs).map (fun (b : Nat) => LuaValue.integer (b : Int)) ++ extra
          = pre.map (fun (b : Nat) => LuaValue.integer (b : Int))
            ++ (LuaValue.integer (b : Int)
              :: (bs.map (fun (b : Nat) => LuaValue.integer (b : Int)) ++ extra)) := by simp
      rw [e, Nat.add_sub_cancel, List.getD_eq_getElem?_getD,
        List.getElem?_append_right (by rw [List.length_map])]
      simp
    have hrange : ¬ ¬ ((0 : Int) ≤ (b : Int) ∧ (b : Int) ≤ 0xFF) := by
      rw [not_not]
      constructor
      · omega
      · norm_num
        omega
    have hcast : (((b : Int) % 4294967296).toNat) = b := by omega
    rw [lua_pcg_parse_u64_table_arg_loop, if_pos hc, hget]
    simp only []
    rw [if_neg hrange, hcast]
    have hlh := L.lh_val b 0
    have wlh := L.lh_wf b 0
    rw [Nat.mod_eq_of_lt (show b < 2 ^ 32 by omega)] at hlh
    norm_num at hlh
    have hplt := bytes_le_lt pre hpre
    have h256 : (256 : Nat) ^ pre.length = 2 ^ (8 * pre.length) := by
      rw [pow_mul]
      norm_num
    -- the element, shifted into place
    have helem : ∀ e : α, e = (if pre.length + 1 = 1 then O.lua_pcg_u64_lh b 0
          else O.lua_pcg_u64_lsh (O.lua_pcg_u64_lh b 0) (8 * pre.length)) →
        wf e ∧ val e = 2 ^ (8 * pre.length) * b := by
      intro e he
      by_cases h0 : pre.length = 0
      · rw [h0] at he
        rw [if_pos rfl] at he
        rw [he, h0]
        exact ⟨wlh, by rw [hlh]; norm_num⟩
      · rw [if_neg (by omega)] at he
        rw [he]
        refine ⟨L.lsh_wf _ _ wlh (by omega), ?_⟩
        rw [L.lsh_val _ _ wlh (by omega), hlh, Nat.mul_comm]
        apply Nat.mod_eq_of_lt
        have hp : (2 : Nat) ^ (8 * pre.length) ≤ 2 ^ 56 := Nat.pow_le_pow_right (by norm_num) (by omega)
        have : 2 ^ (8 * pre.length) * b ≤ 2 ^ 56 * 255 := Nat.mul_le_mul hp hb
        omega
    obtain ⟨we, ve⟩ := helem _ rfl
    have wr := L.bor_wf _ _ hw we
    have vr := L.bor_val _ _ hw we
    rw [ve, hv, or_eq_add_of_lt (8 * pre.length) (bytes_le pre) b (by rw [← h256]; exact hplt),
      ← h256] at vr
    have hbits : wrap32 (8 * pre.length + 8) = 8 * (pre ++ [b]).length := by
      rw [wrap32_eq, List.length_append]
      simp only [List.length_cons, List.length_nil]
      omega
    have hpre2 : ∀ x ∈ pre ++ [b], x ≤ 255 := by
      intro x hx
      rcases List.mem_append.mp hx with h | h
      · exact hpre x h
      · simp only [List.mem_singleton] at h
        rw [h]
        exact hb
    obtain ⟨v, he, wv, vv⟩ := ih (pre ++ [b]) extra f _ hpre2
      (fun x hx => hbs x (List.mem_cons_of_mem _ hx))
      (by rw [List.length_append]
          simp only [List.length_cons, List.length_nil]
          omega)
      (by omega) wr
      (by rw [vr, bytes_le_append]
          simp [bytes_le])
    have e1 : pre ++ [b] ++ bs = pre ++ b :: bs := by simp
    have e2 : (pre ++ [b]).length = pre.length + 1 := by simp
    rw [e1, e2] at he
    rw [e2] at hbits
    have e3 : pre.length + 1 + bs.length = pre.length + (b :: bs).length := by
      simp only [List.length_cons]
      omega
    rw [e3] at he
    rw [hbits, he]
    exact ⟨v, rfl, wv, by rw [vv, e1]⟩

/-- The function `lua_pcg_parse_u64_table_arg` on a table whose first entries are the bytes `bs`,
at most 8 of them, followed by nothing or, when they are 8, by anything. -/
theorem table_arg_spec (O : U64Ops α) (L : O.Lawful wf val) (fuel index : Nat) (bs : List Nat)
    (extra : List LuaValue) (hb : ∀ b ∈ bs, b ≤ 255) (h1 : 1 ≤ bs.length) (h8 : bs.length ≤ 8)
    (hex : bs.length = 8 ∨ extra = []) (hfuel : 8 ≤ fuel) :
    ∃ v, lua_pcg_parse_u64_table_arg O fuel index
          (bs.map (fun (b : Nat) => LuaValue.integer (b : Int)) ++ extra) = .ok v
      ∧ wf v ∧ val v = bytes_le bs := by
  have hsize : (if (bs.map (fun (b : Nat) => LuaValue.integer (b : Int)) ++ extra).length > 8 then 8
      else (bs.map (fun (b : Nat) => LuaValue.integer (b : Int)) ++ extra).length) = bs.length := by
    rw [List.length_append, List.length_map]
    rcases hex with h | h
    · rw [h]
      split <;> omega
    · rw [h]
      simp only [List.length_nil, Nat.add_zero]
      rw [if_neg (by omega)]
  have hpos : ¬ ¬ ((bs.map (fun (b : Nat) => LuaValue.integer (b : Int)) ++ extra).length > 0) := by
    rw [not_not, List.length_append, List.length_map]
    omega
  have hz := L.lh_val 0 0
  norm_num at hz
  obtain ⟨v, he, wv, vv⟩ := table_arg_loop_spec O L bs [] extra fuel (O.lua_pcg_u64_lh 0 0)
    (by simp) hb (by simpa using h8) (by omega) (L.lh_wf 0 0) (by rw [hz]; rfl)
  simp only [List.nil_append, List.length_nil, Nat.zero_add, Nat.mul_zero] at he vv
  simp only [lua_pcg_parse_u64_table_arg]
  rw [if_neg hpos, hsize, he]
  exact ⟨v, rfl, wv, vv⟩

end Emu128

/-- The value of the first 8 bytes of a list, as a sum over the positions `0 .. min(k, 8) - 1`. -/
theorem bytes_le_take_sum (bytes : List Nat) :
    bytes_le (bytes.take 8) = ∑ i ∈ Finset.range (min bytes.length 8), bytes.getD i 0 * 256 ^ i := by
  rw [bytes_le_eq_sum, List.length_take, Nat.min_comm]
  apply Finset.sum_congr rfl
  intro i hi
  have hi8 : i < 8 := by
    have := Finset.mem_range.mp hi
    omega
  rw [List.getD_eq_getElem?_getD, List.getD_eq_getElem?_getD, List.getElem?_take_of_lt hi8]

/-- C36: decoding a 64-bit argument from a table of bytes.  For every non-empty table of `k`
integers each in `[0, 255]`, `lua_pcg_parse_u64_table_arg` returns the sum over
`i = 1 .. min(k, 8)` of `t[i] * 256^(i - 1)`, which is below `2^64` (as a native integer, and as a
well-formed pair of limbs with that value in the emulated configuration), once 8 passes are
allowed; and whatever follows the first 8 entries, integers or not, does not change what is
returned. -/
theorem C36_table_decoding :
    (∀ (fuel index : Nat) (bytes : List Nat), 1 ≤ bytes.length → (∀ b ∈ bytes, b ≤ 255) →
        8 ≤ fuel →
      (∑ i ∈ Finset.range (min bytes.length 8), bytes.getD i 0 * 256 ^ i) < 2 ^ 64
      ∧ lua_pcg_parse_u64_table_arg Native64.ops fuel index
          (bytes.map (fun (b : Nat) => LuaValue.integer (b : Int)))
          = .ok (∑ i ∈ Finset.range (min bytes.length 8), bytes.getD i 0 * 256 ^ i)
      ∧ ∃ v, lua_pcg_parse_u64_table_arg Emu64.ops fuel index
            (bytes.map (fun (b : Nat) => LuaValue.integer (b : Int))) = .ok v
          ∧ Emu64.wf64 v
          ∧ Emu64.val64 v = ∑ i ∈ Finset.range (min bytes.length 8), bytes.getD i 0 * 256 ^ i)
    ∧ (∀ (fuel index : Nat) (bs : List Nat) (extra1 extra2 : List LuaValue), bs.length = 8 →
        (∀ b ∈ bs, b ≤ 255) → 8 ≤ fuel →
      lua_pcg_parse_u64_table_arg Native64.ops fuel index
          (bs.map (fun (b : Nat) => LuaValue.integer (b : Int)) ++ extra1)
        = lua_pcg_parse_u64_table_arg Native64.ops fuel index
          (bs.map (fun (b : Nat) => LuaValue.integer (b : Int)) ++ extra2)
      ∧ lua_pcg_parse_u64_table_arg Emu64.ops fuel index
          (bs.map (fun (b : Nat) => LuaValue.integer (b : Int)) ++ extra1)
        = lua_pcg_parse_u64_table_arg Emu64.ops fuel index
          (bs.map (fun (b : Nat) => LuaValue.integer (b : Int)) ++ extra2)) := by
  refine ⟨?_, ?_⟩
  · intro fuel index bytes h1 hb hfuel
    have hsplit : bytes.map (fun (b : Nat) => LuaValue.integer (b : Int))
        = (bytes.take 8).map (fun (b : Nat) => LuaValue.integer (b : Int))
          ++ (bytes.drop 8).map (fun (b : Nat) => LuaValue.integer (b : Int)) := by
      rw [← List.map_append, List.take_append_drop]
    have hb8 : ∀ b ∈ bytes.take 8, b ≤ 255 := fun b h => hb b (List.mem_of_mem_take h)
    have hl1 : 1 ≤ (bytes.take 8).length := by
      rw [List.length_take]
      omega
    have hl8 : (bytes.take 8).length ≤ 8 := by
      rw [List.length_take]
      omega
    have hex : (bytes.take 8).length = 8
        ∨ (bytes.drop 8).map (fun (b : Nat) => LuaValue.integer (b : Int)) = [] := by
      by_cases h : 8 ≤ bytes.length
      · left
        rw [List.length_take]
        omega
      · right
        have : bytes.drop 8 = [] := by
          apply List.eq_nil_of_length_eq_zero
          rw [List.length_drop]
          omega
        rw [this]
        rfl
    obtain ⟨v, he, wv, vv⟩ := Emu128.table_arg_spec Native64.ops Native64.ops_lawful_native fuel
      index (bytes.take 8) _ hb8 hl1 hl8 hex hfuel
    obtain ⟨u, hu, wu, vu⟩ := Emu128.table_arg_spec Emu64.ops Emu64.ops_lawful_emu fuel
      index (bytes.take 8) _ hb8 hl1 hl8 hex hfuel
    rw [← hsplit] at he hu
    rw [← bytes_le_take_sum]
    have hv2 : v = bytes_le (bytes.take 8) := vv
    refine ⟨?_, ?_, u, hu, wu, vu⟩
    · rw [← hv2]
      exact wv
    · rw [he, hv2]
  · intro fuel index bs extra1 extra2 h8 hb hfuel
    obtain ⟨v1, e1, w1, a1⟩ := Emu128.table_arg_spec Native64.ops Native64.ops_lawful_native fuel
      index bs extra1 hb (by omega) (by omega) (Or.inl h8) hfuel
    obtain ⟨v2, e2, w2, a2⟩ := Emu128.table_arg_spec Native64.ops Native64.ops_lawful_native fuel
      index bs extra2 hb (by omega) (by omega) (Or.inl h8) hfuel
    obtain ⟨u1, f1, x1, b1⟩ := Emu128.table_arg_spec Emu64.ops Emu64.ops_lawful_emu fuel
      index bs extra1 hb (by omega) (by omega) (Or.inl h8) hfuel
    obtain ⟨u2, f2, x2, b2⟩ := Emu128.table_arg_spec Emu64.ops Emu64.ops_lawful_emu fuel
      index bs extra2 hb (by omega) (by omega) (Or.inl h8) hfuel
    refine ⟨?_, ?_⟩
    · rw [e1, e2]
      have : v1 = v2 := by
        have c1 : v1 = bytes_le bs := a1
        have c2 : v2 = bytes_le bs := a2
        rw [c1, c2]
      rw [this]
    · rw [f1, f2, Emu64.val64_inj u1 u2 x1 x2 (by rw [b1, b2])]

/-- Witness of C36: the table `{1, 2, 255}`, which decodes to `1 + 2 * 256 + 255 * 65536`. -/
theorem C36_table_decoding_witness :
    1 ≤ [1, 2, 255].length ∧ (∀ b ∈ [1, 2, 255], b ≤ 255)
    ∧ lua_pcg_parse_u64_table_arg Native64.ops 8 2
        ([1, 2, 255].map (fun (b : Nat) => LuaValue.integer (b : Int)))
      = .ok (∑ i ∈ Finset.range (min [1, 2, 255].length 8), [1, 2, 255].getD i 0 * 256 ^ i)
    ∧ (∑ i ∈ Finset.range (min [1, 2, 255].length 8), [1, 2, 255].getD i 0 * 256 ^ i) = 16712193 :=
  ⟨by decide, by decide,
    (C36_table_decoding.1 8 2 [1, 2, 255] (by decide) (by decide) (by decide)).2.1, by decide⟩

end LuaPcg
